import Mathlib

/-!
# TTL conditional-erase scheduler of the schemeshard

A shallow embedding of `ydb/core/tx/schemeshard/schemeshard__conditional_erase.cpp`:
the dispatcher transaction `TTxRunConditionalErase` and the reconciler
transaction `TTxScheduleConditionalErase`.
A second part embeds the change-record transactions
`TTxRequestChangeRecords` and `TTxRemoveChangeRecords` of
`ydb/core/tx/datashard/datashard_change_sending.cpp`.

Conventions of the embedding.

* `TInstant` and `TDuration` are microsecond counts, as natural numbers.
* `THashMap K V` is an association list; iteration follows the list, `find`
  returns the first binding of a key, `emplace` never overwrites.
* `THashSet K` is a list; `insert` adds an absent element, `erase` removes
  every occurrence, `size` is the length.
* `TTableInfo::TPtr` is an address (`TTablePtr`) into the store
  `TSchemeShard.TableObjs`, so that `Tables` and `TTLEnabledTables` may share
  table objects exactly as the intrusive pointers of the source do.
* A fatal assertion (`Y_VERIFY`, `Y_FAIL`, an unguarded `.at`) is the result
  `none`; `Y_VERIFY_DEBUG` is compiled out (release build).
-/

namespace NKikimr
namespace NSchemeShard

/-! ## Containers -/

abbrev THashMap (K V : Type) := List (K × V)

abbrev THashSet (K : Type) := List K

namespace THashMap

variable {K V : Type} [DecidableEq K]

def find (m : THashMap K V) (k : K) : Option V :=
  match m with
  | [] => none
  | (a, b) :: rest => if a = k then some b else find rest k

def contains (m : THashMap K V) (k : K) : Bool :=
  (find m k).isSome

/-- The keys in iteration order. -/
def keys (m : THashMap K V) : List K :=
  m.map Prod.fst

/-- Insert-if-absent, returning the map and the `second` flag of the
    C++ pair (true when the insertion took place). -/
def emplace (m : THashMap K V) (k : K) (v : V) : THashMap K V × Bool :=
  if contains m k then (m, false) else (m ++ [(k, v)], true)

end THashMap

namespace THashSet

variable {K : Type} [DecidableEq K]

def contains (s : THashSet K) (k : K) : Bool :=
  decide (k ∈ s)

def insert (s : THashSet K) (k : K) : THashSet K :=
  if k ∈ s then s else s ++ [k]

def erase (s : THashSet K) (k : K) : THashSet K :=
  s.filter (fun x => decide (x ≠ k))

def size (s : THashSet K) : Nat :=
  s.length

end THashSet

/-! ## Data model -/

abbrev TInstant := Nat

abbrev TDuration := Nat

abbrev TTabletId := Nat

abbrev TTablePtr := Nat

structure TShardIdx where
  OwnerId : Nat
  LocalId : Nat
deriving DecidableEq

structure TPathId where
  OwnerId : Nat
  LocalPathId : Nat
deriving DecidableEq

structure TTableId where
  PathId : TPathId
  SchemaVersion : Nat
deriving DecidableEq

structure TShardInfo where
  TabletID : TTabletId
  PathId : TPathId
deriving DecidableEq

structure TColumn where
  Name : String
  Dropped : Bool
deriving DecidableEq

def TColumn.IsDropped (c : TColumn) : Bool :=
  c.Dropped

structure TTableShardInfo where
  ShardIdx : TShardIdx
  NextCondErase : TInstant
  LastCondEraseLag : Option TDuration
deriving DecidableEq

structure TSysSettings where
  RunInterval : Nat
  RetryInterval : Nat
  BatchMaxBytes : Nat
  BatchMinKeys : Nat
  BatchMaxKeys : Nat
  MaxShardsInFlight : Nat
deriving DecidableEq

structure TTTLSettingsEnabled where
  ExpireAfterSeconds : Nat
  ColumnUnit : Nat
  SysSettings : TSysSettings
deriving DecidableEq

/-- The protobuf default of the `Enabled` message: every field zero. -/
def TTTLSettingsEnabled.Default : TTTLSettingsEnabled :=
  { ExpireAfterSeconds := 0, ColumnUnit := 0,
    SysSettings := { RunInterval := 0, RetryInterval := 0, BatchMaxBytes := 0,
                     BatchMinKeys := 0, BatchMaxKeys := 0, MaxShardsInFlight := 0 } }

/-- Table metadata. `TTLSettings` is the `Enabled` branch of the TTL settings
    when it is set; `TTLColumnId` is the value of `GetTTLColumnId()`. -/
structure TTableInfo where
  AlterVersion : Nat
  Columns : THashMap Nat TColumn
  KeyColumnIds : List Nat
  TTLSettings : Option TTTLSettingsEnabled
  TTLColumnId : Nat
  Partitions : List TTableShardInfo
  Shard2PartitionIdx : THashMap TShardIdx Nat
  InFlightCondErase : THashSet TShardIdx
  CondEraseSchedule : List Nat
deriving DecidableEq

inductive EPathType where
  | EPathTypeDir
  | EPathTypeTable
  | EPathTypeTableIndex
  | EPathTypeOther
deriving DecidableEq

structure TPathElement where
  PathId : TPathId
  PathType : EPathType
  IsDropped : Bool
  Children : THashMap String TPathId
deriving DecidableEq

def TPathElement.Dropped (p : TPathElement) : Bool :=
  p.IsDropped

def TPathElement.IsTableIndex (p : TPathElement) : Bool :=
  decide (p.PathType = EPathType.EPathTypeTableIndex)

def TPathElement.GetChildren (p : TPathElement) : THashMap String TPathId :=
  p.Children

inductive EIndexType where
  | EIndexTypeInvalid
  | EIndexTypeGlobal
  | EIndexTypeGlobalAsync
deriving DecidableEq

/-- Index metadata; `IndexType` is the member `Type` of the source. -/
structure TTableIndexInfo where
  IndexType : EIndexType
  IndexKeys : List String
deriving DecidableEq

/-- One element of the `KeyMap` of an index descriptor. -/
structure TKeyMap where
  IndexColumnId : Nat
  MainColumnId : Nat
deriving DecidableEq

structure TIndexDescr where
  OwnerId : Nat
  PathId : Nat
  SchemaVersion : Nat
  KeyMap : List TKeyMap
deriving DecidableEq

structure TExpiration where
  ColumnId : Nat
  WallClockTimestamp : Nat
  ColumnUnit : Nat
deriving DecidableEq

structure TLimits where
  BatchMaxBytes : Nat
  BatchMinKeys : Nat
  BatchMaxKeys : Nat
deriving DecidableEq

/-- The record `NKikimrTxDataShard::TEvConditionalEraseRowsRequest`. -/
structure TEvConditionalEraseRowsRequest where
  TableId : Nat
  SchemaVersion : Nat
  Indexes : List TIndexDescr
  Expiration : TExpiration
  Limits : TLimits
deriving DecidableEq

/-- Response status; `UNKNOWN v` stands for any wire value outside the
    seven named ones. -/
inductive EStatus where
  | OK
  | PARTIAL
  | BAD_REQUEST
  | ABORTED
  | ERASE_ERROR
  | OVERLOADED
  | SCHEME_ERROR
  | UNKNOWN (v : Nat)
deriving DecidableEq

structure TStats where
  RowsProcessed : Nat
  RowsErased : Nat
deriving DecidableEq

/-- The record `NKikimrTxDataShard::TEvConditionalEraseRowsResponse`. -/
structure TEvConditionalEraseRowsResponse where
  TabletID : TTabletId
  Status : EStatus
  ErrorDescription : String
  Stats : TStats
deriving DecidableEq

structure TTtlStats where
  LastRunTime : Nat
  LastRowsProcessed : Nat
  LastRowsErased : Nat
deriving DecidableEq

structure TEvUpdateTtlStats where
  DomainKey : TPathId
  PathId : TPathId
  ShardIdx : Nat × Nat
  Stats : TTtlStats
deriving DecidableEq

/-- Modelled from the spec: the persisted layout of one partition,
    `(shardId, nextEligibleTime: uint64 millis, lastLag: optional uint64
    seconds)`. -/
structure TStoredPartition where
  ShardIdx : TShardIdx
  NextCondErase : Nat
  LastCondEraseLag : Option Nat
deriving DecidableEq

/-- One row written by `PersistTablePartitionCondErase`: the table, the
    position of the partition and, when the table has a partition there, the
    partition in the persisted layout. -/
structure TCondEraseRow where
  TableId : TPathId
  PartitionIdx : Nat
  Entry : Option TStoredPartition
deriving DecidableEq

/-- The part of `TSchemeShard` the two transactions read and write. -/
structure TSchemeShard where
  AllowConditionalEraseOperations : Bool
  ShardInfos : THashMap TShardIdx TShardInfo
  TabletIdToShardIdx : THashMap TTabletId TShardIdx
  PathsById : THashMap TPathId TPathElement
  Tables : THashMap TPathId TTablePtr
  Indexes : THashMap TPathId TTableIndexInfo
  TTLEnabledTables : THashMap TPathId TTablePtr
  TableObjs : TTablePtr → TTableInfo
  DomainKeys : TPathId → TPathId
  LagCounter : Nat → Int
  Db : List TCondEraseRow

structure TActorContext where
  Now : TInstant
  EnableSystemViews : Bool

/-- Modelled from the spec: a schedule entry in the persisted layout, its
    next-eligible-time in whole milliseconds and its lag in whole seconds (both
    are microsecond counts in memory). -/
def TTableShardInfo.ToStored (e : TTableShardInfo) : TStoredPartition :=
  { ShardIdx := e.ShardIdx
    NextCondErase := e.NextCondErase / 1000
    LastCondEraseLag := e.LastCondEraseLag.map (fun lag => lag / 1000000) }

/-- Modelled from the spec: the schedule entry that a stored partition is
    loaded as, milliseconds and seconds turned back into microseconds. -/
def TStoredPartition.Load (r : TStoredPartition) : TTableShardInfo :=
  { ShardIdx := r.ShardIdx
    NextCondErase := r.NextCondErase * 1000
    LastCondEraseLag := r.LastCondEraseLag.map (fun lag => lag * 1000000) }

/-! ## Table metadata operations (declared in `schemeshard_info_types.h`) -/

namespace TTableInfo

/-- Modelled from the spec: `IsTTLEnabled()` is not in the excerpt; a table is
    TTL-enabled when its TTL policy carries the enabled settings. -/
def IsTTLEnabled (t : TTableInfo) : Bool :=
  t.TTLSettings.isSome

/-- The accessor chain `TTLSettings().GetEnabled()`: the enabled settings, or
    the protobuf default when they are not set. -/
def GetEnabled (t : TTableInfo) : TTTLSettingsEnabled :=
  t.TTLSettings.getD TTTLSettingsEnabled.Default

def GetTTLColumnId (t : TTableInfo) : Nat :=
  t.TTLColumnId

def GetPartitions (t : TTableInfo) : List TTableShardInfo :=
  t.Partitions

def GetShard2PartitionIdx (t : TTableInfo) : THashMap TShardIdx Nat :=
  t.Shard2PartitionIdx

def GetInFlightCondErase (t : TTableInfo) : THashSet TShardIdx :=
  t.InFlightCondErase

end TTableInfo

/-- The order on shard identifiers: by owner, then by local id. -/
def TShardIdx.Less (a b : TShardIdx) : Bool :=
  decide (a.OwnerId < b.OwnerId) ||
    (decide (a.OwnerId = b.OwnerId) && decide (a.LocalId < b.LocalId))

/-- Modelled from the spec: the comparator of the schedule is not in the
    excerpt. The schedule is "ordered by next-eligible-time ..., ties broken by
    shard identifier": `Before l r` holds when `l` is served strictly before
    `r`. -/
def TTableShardInfo.Before (l r : TTableShardInfo) : Bool :=
  decide (l.NextCondErase < r.NextCondErase) ||
    (decide (l.NextCondErase = r.NextCondErase) && l.ShardIdx.Less r.ShardIdx)

/-- Modelled from the spec: the priority structure `CondEraseSchedule` is not
    in the excerpt. It holds positions of `Partitions`; its top is the entry
    with the least (next-eligible-time, shard identifier), the keys being read
    through the positions. A position outside `Partitions` is never served. -/
def ScheduleTop (partitions : List TTableShardInfo) :
    List Nat → Option (Nat × TTableShardInfo)
  | [] => none
  | i :: rest =>
    match partitions[i]?, ScheduleTop partitions rest with
    | none, r => r
    | some e, none => some (i, e)
    | some e, some (j, f) => if f.Before e then some (j, f) else some (i, e)

namespace TTableInfo

/-- Modelled from the spec: `GetScheduledCondEraseShard()` is not in the
    excerpt; it returns the earliest-due pending entry ("ties broken by shard
    identifier"), or null when nothing is pending. -/
def GetScheduledCondEraseShard (t : TTableInfo) : Option TTableShardInfo :=
  (ScheduleTop t.Partitions t.CondEraseSchedule).map Prod.snd

/-- Modelled from the spec: `AddInFlightCondErase` is not in the excerpt; "pop
    the earliest-due entry ... on success mark in-flight": the top of the
    schedule is removed and the shard joins the in-flight set. -/
def AddInFlightCondErase (t : TTableInfo) (shardIdx : TShardIdx) : TTableInfo :=
  { t with
    InFlightCondErase := THashSet.insert t.InFlightCondErase shardIdx
    CondEraseSchedule :=
      match ScheduleTop t.Partitions t.CondEraseSchedule with
      | none => t.CondEraseSchedule
      | some (i, _) => t.CondEraseSchedule.erase i }

/-- Modelled from the spec: `RescheduleCondErase` is not in the excerpt; an
    abandoned in-flight slot is cleared and the shard returns to the pending
    schedule, its next-eligible-time untouched. -/
def RescheduleCondErase (t : TTableInfo) (shardIdx : TShardIdx) : TTableInfo :=
  match THashMap.find t.Shard2PartitionIdx shardIdx with
  | none => { t with InFlightCondErase := THashSet.erase t.InFlightCondErase shardIdx }
  | some idx =>
    { t with
      CondEraseSchedule := t.CondEraseSchedule ++ [idx]
      InFlightCondErase := THashSet.erase t.InFlightCondErase shardIdx }

/-- Modelled from the spec: `ScheduleNextCondErase` is not in the excerpt;
    "compute next-eligible-time = now + next", the new lag is the time between
    the partition's due time and this completed pass, the entry is re-armed in
    the schedule and the in-flight slot is cleared. -/
def ScheduleNextCondErase (t : TTableInfo) (shardIdx : TShardIdx) (now : TInstant)
    (next : TDuration) : TTableInfo :=
  match THashMap.find t.Shard2PartitionIdx shardIdx with
  | none => { t with InFlightCondErase := THashSet.erase t.InFlightCondErase shardIdx }
  | some idx =>
    match t.Partitions[idx]? with
    | none => { t with InFlightCondErase := THashSet.erase t.InFlightCondErase shardIdx }
    | some e =>
      { t with
        Partitions := t.Partitions.set idx
          { e with NextCondErase := now + next
                   LastCondEraseLag := some (now - e.NextCondErase) }
        CondEraseSchedule := t.CondEraseSchedule ++ [idx]
        InFlightCondErase := THashSet.erase t.InFlightCondErase shardIdx }

end TTableInfo

namespace TSchemeShard

/-- Store `t` at address `p`: a write through a `TTableInfo::TPtr`. -/
def SetTable (self : TSchemeShard) (p : TTablePtr) (t : TTableInfo) : TSchemeShard :=
  { self with TableObjs := Function.update self.TableObjs p t }

def InvalidShardIdx : TShardIdx :=
  { OwnerId := 2 ^ 64 - 1, LocalId := 2 ^ 64 - 1 }

/-- Modelled from the spec: `GetShardIdx` is not in the excerpt; it resolves a
    tablet to its shard identifier, an unknown tablet to the invalid one. -/
def GetShardIdx (self : TSchemeShard) (tabletId : TTabletId) : TShardIdx :=
  (THashMap.find self.TabletIdToShardIdx tabletId).getD InvalidShardIdx

/-- Modelled from the spec: `PersistTablePartitionCondErase` is not in the
    excerpt; it writes the schedule entry of one partition to the store, in
    the persisted layout. -/
def PersistTablePartitionCondErase (self : TSchemeShard) (tableId : TPathId)
    (partitionIdx : Nat) (tableInfo : TTablePtr) : TSchemeShard :=
  { self with
    Db := self.Db ++ [{ TableId := tableId, PartitionIdx := partitionIdx,
                        Entry := ((self.TableObjs tableInfo).Partitions[partitionIdx]?).map
                          TTableShardInfo.ToStored }] }

/-- The histogram `COUNTER_NUM_SHARDS_BY_TTL_LAG`, keyed by whole seconds. -/
def AddToLagCounter (self : TSchemeShard) (seconds : Nat) (delta : Int) : TSchemeShard :=
  { self with LagCounter := Function.update self.LagCounter seconds
                              (self.LagCounter seconds + delta) }

end TSchemeShard

/-- The accessor `TDuration::Seconds()` on a microsecond count. -/
def TDurationSeconds (d : TDuration) : Nat :=
  d / 1000000

/-! ## The dispatcher transaction `TTxRunConditionalErase` -/

structure TTxRunConditionalErase where
  Self : TSchemeShard
  TableInfo : Option TTablePtr
  RunOnTablets : THashMap TTabletId TEvConditionalEraseRowsRequest

namespace TTxRunConditionalErase

/-- The loop of `MakeColumnNameToId` over the columns still to visit. -/
def MakeColumnNameToIdLoop :
    List (Nat × TColumn) → THashMap String Nat → Option (THashMap String Nat)
  | [], result => some result
  | (id, column) :: rest, result =>
    if column.IsDropped then MakeColumnNameToIdLoop rest result
    else
      match THashMap.emplace result column.Name id with
      | (result1, true) => MakeColumnNameToIdLoop rest result1
      | (_, false) => none

/-- Lines 285-298: the names of the columns that are not dropped, with their
    ids; a name seen twice is a fatal assertion. -/
def MakeColumnNameToId (columns : THashMap Nat TColumn) : Option (THashMap String Nat) :=
  MakeColumnNameToIdLoop columns []

/-- The first loop of `MakeColumnIds`, over the index keys. -/
def MakeColumnIdsIndexKeys (mainColumns indexImplColumns : THashMap String Nat) :
    List String → List (Nat × Nat) × THashSet String →
      Option (List (Nat × Nat) × THashSet String)
  | [], acc => some acc
  | indexKey :: rest, (result, keys) =>
    match THashMap.find mainColumns indexKey, THashMap.find indexImplColumns indexKey with
    | some mainId, some implId =>
      MakeColumnIdsIndexKeys mainColumns indexImplColumns rest
        (result ++ [(implId, mainId)], THashSet.insert keys indexKey)
    | _, _ => none

/-- The second loop of `MakeColumnIds`, over the key columns of the main table. -/
def MakeColumnIdsMainKeys (mainTableColumns : THashMap Nat TColumn)
    (indexImplColumns : THashMap String Nat) (keys : THashSet String) :
    List Nat → List (Nat × Nat) → Option (List (Nat × Nat))
  | [], result => some result
  | mainColumnId :: rest, result =>
    match THashMap.find mainTableColumns mainColumnId with
    | none => none
    | some column =>
      if THashSet.contains keys column.Name then
        MakeColumnIdsMainKeys mainTableColumns indexImplColumns keys rest result
      else
        match THashMap.find indexImplColumns column.Name with
        | none => none
        | some implId =>
          MakeColumnIdsMainKeys mainTableColumns indexImplColumns keys rest
            (result ++ [(implId, mainColumnId)])

/-- Lines 255-283: the index key columns first, then the key columns of the
    main table that the index keys do not cover. -/
def MakeColumnIds (mainTable : TTableInfo) (index : TTableIndexInfo)
    (indexImplTable : TTableInfo) : Option (List (Nat × Nat)) :=
  match MakeColumnNameToId mainTable.Columns, MakeColumnNameToId indexImplTable.Columns with
  | some mainColumns, some indexImplColumns =>
    match MakeColumnIdsIndexKeys mainColumns indexImplColumns index.IndexKeys ([], []) with
    | none => none
    | some (result, keys) =>
      MakeColumnIdsMainKeys mainTable.Columns indexImplColumns keys mainTable.KeyColumnIds result
  | _, _ => none

/-- Lines 235-238. -/
def GetIndex (self : TSchemeShard) (indexPath : TPathElement) : Option TTableIndexInfo :=
  THashMap.find self.Indexes indexPath.PathId

/-- Lines 240-253: the single child of the index path; `PathsById.at` on an
    absent child throws, which ends the transaction like an assertion. -/
def GetIndexImplTable (self : TSchemeShard) (indexPath : TPathElement) :
    Option (TPathId × TTablePtr) :=
  if indexPath.GetChildren.length = 1 then
    match indexPath.GetChildren with
    | [] => none
    | (_, indexImplPathId) :: _ =>
      match THashMap.find self.PathsById indexImplPathId with
      | none => none
      | some childPath =>
        if childPath.Dropped then none
        else
          match THashMap.find self.Tables indexImplPathId with
          | none => none
          | some indexImplTable => some (indexImplPathId, indexImplTable)
  else none

/-- The loop of `MakeIndexes` over the children of the main path. -/
def MakeIndexesLoop (self : TSchemeShard) (mainTable : TTablePtr) :
    List (String × TPathId) → THashMap TTableId (List (Nat × Nat)) →
      Option (THashMap TTableId (List (Nat × Nat)))
  | [], result => some result
  | (_, childPathId) :: rest, result =>
    match THashMap.find self.PathsById childPathId with
    | none => none
    | some childPath =>
      if !childPath.IsTableIndex || childPath.Dropped then
        MakeIndexesLoop self mainTable rest result
      else
        match GetIndex self childPath with
        | none => none
        | some index =>
          if index.IndexType = EIndexType.EIndexTypeGlobalAsync then
            MakeIndexesLoop self mainTable rest result
          else
            match GetIndexImplTable self childPath with
            | none => none
            | some (indexImplTableId, indexImplTable) =>
              match MakeColumnIds (self.TableObjs mainTable) index
                      (self.TableObjs indexImplTable) with
              | none => none
              | some columnIds =>
                match THashMap.emplace result
                        { PathId := indexImplTableId,
                          SchemaVersion := (self.TableObjs indexImplTable).AlterVersion }
                        columnIds with
                | (result1, true) => MakeIndexesLoop self mainTable rest result1
                | (_, false) => none

/-- Lines 201-233. -/
def MakeIndexes (self : TSchemeShard) (mainPathId : TPathId) :
    Option (THashMap TTableId (List (Nat × Nat))) :=
  match THashMap.find self.PathsById mainPathId with
  | none => none
  | some mainPath =>
    match THashMap.find self.Tables mainPathId with
    | none => none
    | some mainTable => MakeIndexesLoop self mainTable mainPath.GetChildren []

/-- The index descriptor added to the request for one entry of `MakeIndexes`. -/
def MakeIndexDescr (entry : TTableId × List (Nat × Nat)) : TIndexDescr :=
  { OwnerId := entry.1.PathId.OwnerId
    PathId := entry.1.PathId.LocalPathId
    SchemaVersion := entry.1.SchemaVersion
    KeyMap := entry.2.map (fun c => { IndexColumnId := c.1, MainColumnId := c.2 }) }

/-- Lines 99-175: the dispatch attempt for one partition. The four early
    returns leave the transaction untouched; otherwise the request is built and
    emplaced into `RunOnTablets` under the tablet of the shard. -/
def DoExecuteOnShard (tx : TTxRunConditionalErase) (tableInfo : TTablePtr)
    (tableShardInfo : TTableShardInfo) (ctx : TActorContext) :
    Option (Bool × TTxRunConditionalErase) :=
  if tableShardInfo.NextCondErase > ctx.Now then some (false, tx)
  else
    match THashMap.find tx.Self.ShardInfos tableShardInfo.ShardIdx with
    | none => some (false, tx)
    | some shardInfo =>
      match THashMap.find tx.Self.PathsById shardInfo.PathId with
      | none => some (false, tx)
      | some path =>
        if path.Dropped then some (false, tx)
        else if !THashMap.contains tx.Self.Tables shardInfo.PathId then some (false, tx)
        else
          let settings := (tx.Self.TableObjs tableInfo).GetEnabled
          let expireAfter : TDuration := settings.ExpireAfterSeconds * 1000000
          let wallClock : TInstant := ctx.Now - expireAfter
          match MakeIndexes tx.Self shardInfo.PathId with
          | none => none
          | some indexes =>
            let sysSettings := settings.SysSettings
            let request : TEvConditionalEraseRowsRequest :=
              { TableId := shardInfo.PathId.LocalPathId
                SchemaVersion := (tx.Self.TableObjs tableInfo).AlterVersion
                Indexes := indexes.map MakeIndexDescr
                Expiration :=
                  { ColumnId := (tx.Self.TableObjs tableInfo).GetTTLColumnId
                    WallClockTimestamp := wallClock
                    ColumnUnit := settings.ColumnUnit }
                Limits :=
                  { BatchMaxBytes := sysSettings.BatchMaxBytes
                    BatchMinKeys := sysSettings.BatchMinKeys
                    BatchMaxKeys := sysSettings.BatchMaxKeys } }
            some (true,
              { tx with
                RunOnTablets := (THashMap.emplace tx.RunOnTablets shardInfo.TabletID request).1 })

/-- The first loop of `DoExecuteOnTable`: every in-flight shard is re-examined,
    the ones whose dispatch attempt fails are collected in `reschedule`. -/
def InFlightLoop (tableInfo : TTablePtr) (ctx : TActorContext) :
    List TShardIdx → TTxRunConditionalErase → THashSet TShardIdx →
      Option (TTxRunConditionalErase × THashSet TShardIdx)
  | [], tx, reschedule => some (tx, reschedule)
  | shardIdx :: rest, tx, reschedule =>
    match THashMap.find (tx.Self.TableObjs tableInfo).GetShard2PartitionIdx shardIdx with
    | none => none
    | some partitionIdx =>
      match (tx.Self.TableObjs tableInfo).GetPartitions[partitionIdx]? with
      | none => none
      | some tableShardInfo =>
        match DoExecuteOnShard tx tableInfo tableShardInfo ctx with
        | none => none
        | some (true, tx1) => InFlightLoop tableInfo ctx rest tx1 reschedule
        | some (false, tx1) =>
          InFlightLoop tableInfo ctx rest tx1 (THashSet.insert reschedule shardIdx)

/-- The second loop of `DoExecuteOnTable`, over the `reschedule` set. -/
def RescheduleLoop (tableInfo : TTablePtr) :
    List TShardIdx → TTxRunConditionalErase → TTxRunConditionalErase
  | [], tx => tx
  | shardIdx :: rest, tx =>
    RescheduleLoop tableInfo rest
      { tx with
        Self := tx.Self.SetTable tableInfo
          ((tx.Self.TableObjs tableInfo).RescheduleCondErase shardIdx) }

/-- The `while (true)` loop of `DoExecuteOnTable`. Each round that continues
    pops one schedule entry, so `fuel` above the schedule length is never
    exhausted (`DispatchLoop_fuel`); exhausted fuel is `none`. -/
def DispatchLoop (tableInfo : TTablePtr) (ctx : TActorContext) (maxInFlight : Nat) :
    Nat → TTxRunConditionalErase → Option TTxRunConditionalErase
  | 0, _ => none
  | fuel + 1, tx =>
    if maxInFlight ≠ 0 ∧
        THashSet.size (tx.Self.TableObjs tableInfo).GetInFlightCondErase ≥ maxInFlight then
      some tx
    else
      match (tx.Self.TableObjs tableInfo).GetScheduledCondEraseShard with
      | none => some tx
      | some tableShardInfo =>
        match DoExecuteOnShard tx tableInfo tableShardInfo ctx with
        | none => none
        | some (false, tx1) => some tx1
        | some (true, tx1) =>
          DispatchLoop tableInfo ctx maxInFlight fuel
            { tx1 with
              Self := tx1.Self.SetTable tableInfo
                ((tx1.Self.TableObjs tableInfo).AddInFlightCondErase tableShardInfo.ShardIdx) }

/-- Lines 51-97. -/
def DoExecuteOnTable (tx : TTxRunConditionalErase) (tableInfo : TTablePtr)
    (ctx : TActorContext) : Option TTxRunConditionalErase :=
  if !(tx.Self.TableObjs tableInfo).IsTTLEnabled then some tx
  else
    match InFlightLoop tableInfo ctx (tx.Self.TableObjs tableInfo).GetInFlightCondErase tx [] with
    | none => none
    | some (tx1, reschedule) =>
      let tx2 := RescheduleLoop tableInfo reschedule tx1
      let sysSettings := (tx2.Self.TableObjs tableInfo).GetEnabled.SysSettings
      let maxInFlight := sysSettings.MaxShardsInFlight
      DispatchLoop tableInfo ctx maxInFlight
        ((tx2.Self.TableObjs tableInfo).CondEraseSchedule.length + 1) tx2

/-- The loop of `DoExecute` over `TTLEnabledTables`. -/
def DoExecuteAll (ctx : TActorContext) :
    List (TPathId × TTablePtr) → TTxRunConditionalErase → Option TTxRunConditionalErase
  | [], tx => some tx
  | (_, tableInfo) :: rest, tx =>
    match DoExecuteOnTable tx tableInfo ctx with
    | none => none
    | some tx1 => DoExecuteAll ctx rest tx1

/-- Lines 31-49. -/
def DoExecute (tx : TTxRunConditionalErase) (ctx : TActorContext) :
    Option TTxRunConditionalErase :=
  if !tx.Self.AllowConditionalEraseOperations then some tx
  else
    match tx.TableInfo with
    | none => DoExecuteAll ctx tx.Self.TTLEnabledTables tx
    | some tableInfo => DoExecuteOnTable tx tableInfo ctx

/-- What `DoComplete` hands to the transport: the requests sent through the
    pipe cache, and whether the next periodic run was armed. -/
structure TCompleteEffects where
  Sent : List (TTabletId × TEvConditionalEraseRowsRequest)
  ScheduleConditionalEraseRun : Bool

/-- Lines 177-198. -/
def DoComplete (tx : TTxRunConditionalErase) : TCompleteEffects :=
  { Sent := tx.RunOnTablets
    ScheduleConditionalEraseRun := tx.TableInfo.isNone }

end TTxRunConditionalErase

/-- The constructor taking the periodic event: every TTL-enabled table. -/
def CreateTxRunConditionalErase (self : TSchemeShard) : TTxRunConditionalErase :=
  { Self := self, TableInfo := none, RunOnTablets := [] }

/-- The constructor taking one table. -/
def CreateTxRunConditionalEraseOnTable (self : TSchemeShard) (tableInfo : TTablePtr) :
    TTxRunConditionalErase :=
  { Self := self, TableInfo := some tableInfo, RunOnTablets := [] }

/-! ## The reconciler transaction `TTxScheduleConditionalErase` -/

structure TTxScheduleConditionalErase where
  Self : TSchemeShard
  Ev : TEvConditionalEraseRowsResponse
  StatsCollectorEv : Option TEvUpdateTtlStats
  TableInfo : Option TTablePtr

namespace TTxScheduleConditionalErase

/-- The `switch` over the response status in `Execute`: `none` is the early
    `return true` of `PARTIAL`, otherwise the value of `next` after the switch
    (it starts as the run interval and only the five failure cases assign it). -/
def SwitchStatus (sysSettings : TSysSettings) : EStatus → Option TDuration
  | EStatus.PARTIAL => none
  | EStatus.BAD_REQUEST => some sysSettings.RetryInterval
  | EStatus.ABORTED => some sysSettings.RetryInterval
  | EStatus.ERASE_ERROR => some sysSettings.RetryInterval
  | EStatus.OVERLOADED => some sysSettings.RetryInterval
  | EStatus.SCHEME_ERROR => some sysSettings.RetryInterval
  | EStatus.OK => some sysSettings.RunInterval
  | EStatus.UNKNOWN _ => some sysSettings.RunInterval

/-- Lines 320-448. The lag is read through a reference into the partition
    entry: the counter is decremented for the lag before `ScheduleNextCondErase`
    and incremented for the lag after it; `Y_VERIFY_DEBUG(false)` on an undefined
    prior lag is compiled out. -/
def Execute (tx : TTxScheduleConditionalErase) (ctx : TActorContext) :
    Option TTxScheduleConditionalErase :=
  if !tx.Self.AllowConditionalEraseOperations then some tx
  else
    let record := tx.Ev
    let tabletId := record.TabletID
    let shardIdx := tx.Self.GetShardIdx tabletId
    match THashMap.find tx.Self.ShardInfos shardIdx with
    | none => some tx
    | some shardInfo =>
      let tableId := shardInfo.PathId
      match THashMap.find tx.Self.TTLEnabledTables tableId with
      | none => some tx
      | some tableInfo =>
        if !(tx.Self.TableObjs tableInfo).IsTTLEnabled then some tx
        else if !THashSet.contains (tx.Self.TableObjs tableInfo).GetInFlightCondErase shardIdx then
          some tx
        else
          let sysSettings := (tx.Self.TableObjs tableInfo).GetEnabled.SysSettings
          match SwitchStatus sysSettings record.Status with
          | none => some tx
          | some next =>
            match THashMap.find (tx.Self.TableObjs tableInfo).GetShard2PartitionIdx shardIdx with
            | none => none
            | some partitionIdx =>
              match (tx.Self.TableObjs tableInfo).GetPartitions[partitionIdx]? with
              | none => none
              | some tableShardInfo =>
                let self1 :=
                  match tableShardInfo.LastCondEraseLag with
                  | some lag => tx.Self.AddToLagCounter (TDurationSeconds lag) (-1)
                  | none => tx.Self
                let now := ctx.Now
                let self2 := self1.SetTable tableInfo
                  ((self1.TableObjs tableInfo).ScheduleNextCondErase shardIdx now next)
                let self3 := self2.PersistTablePartitionCondErase tableId partitionIdx tableInfo
                let statsCollectorEv :=
                  if ctx.EnableSystemViews then
                    some { DomainKey := self3.DomainKeys tableId
                           PathId := tableId
                           ShardIdx := (shardIdx.OwnerId, shardIdx.LocalId)
                           Stats := { LastRunTime := now / 1000
                                      LastRowsProcessed := record.Stats.RowsProcessed
                                      LastRowsErased := record.Stats.RowsErased } }
                  else tx.StatsCollectorEv
                match ((self3.TableObjs tableInfo).GetPartitions[partitionIdx]?).bind
                        TTableShardInfo.LastCondEraseLag with
                | none => none
                | some lag =>
                  some { Self := self3.AddToLagCounter (TDurationSeconds lag) 1
                         Ev := tx.Ev
                         StatsCollectorEv := statsCollectorEv
                         TableInfo := some tableInfo }

/-- What `Complete` emits: the statistics event, and the table for which a new
    `TTxRunConditionalErase` is executed. -/
structure TCompleteEffects where
  StatsSent : Option TEvUpdateTtlStats
  RunConditionalErase : Option TTablePtr

/-- Lines 450-461. -/
def Complete (tx : TTxScheduleConditionalErase) : TCompleteEffects :=
  { StatsSent := tx.StatsCollectorEv
    RunConditionalErase := tx.TableInfo }

end TTxScheduleConditionalErase

def CreateTxScheduleConditionalErase (self : TSchemeShard)
    (ev : TEvConditionalEraseRowsResponse) : TTxScheduleConditionalErase :=
  { Self := self, Ev := ev, StatsCollectorEv := none, TableInfo := none }

/-! ## The scheduler as a transition system -/

/-- `RunDue`: one dispatcher transaction, for one table or for all. -/
def RunDue (self : TSchemeShard) (tableInfo : Option TTablePtr) (ctx : TActorContext) :
    Option TTxRunConditionalErase :=
  TTxRunConditionalErase.DoExecute
    { Self := self, TableInfo := tableInfo, RunOnTablets := [] } ctx

/-- `OnEraseResponse`: one reconciler transaction. -/
def OnEraseResponse (self : TSchemeShard) (ev : TEvConditionalEraseRowsResponse)
    (ctx : TActorContext) : Option TTxScheduleConditionalErase :=
  TTxScheduleConditionalErase.Execute (CreateTxScheduleConditionalErase self ev) ctx

/-- One committed transaction of the scheduler. -/
inductive Step : TSchemeShard → TSchemeShard → Prop where
  | runDue (self : TSchemeShard) (tableInfo : Option TTablePtr) (ctx : TActorContext)
      (tx : TTxRunConditionalErase) (h : RunDue self tableInfo ctx = some tx) :
      Step self tx.Self
  | onEraseResponse (self : TSchemeShard) (ev : TEvConditionalEraseRowsResponse)
      (ctx : TActorContext) (tx : TTxScheduleConditionalErase)
      (h : OnEraseResponse self ev ctx = some tx) :
      Step self tx.Self

/-- The states reached by any sequence of scheduler transactions. -/
inductive Reachable (start : TSchemeShard) : TSchemeShard → Prop where
  | refl : Reachable start start
  | step (mid fin : TSchemeShard) (h : Reachable start mid) (s : Step mid fin) :
      Reachable start fin

/-! ## Vocabulary of the specification -/

/-- The catalog resolves a shard: it is in `ShardInfos`, its path is in
    `PathsById` and not dropped, and its path id is in `Tables`. -/
def ShardResolves (self : TSchemeShard) (shardIdx : TShardIdx) : Bool :=
  match THashMap.find self.ShardInfos shardIdx with
  | none => false
  | some shardInfo =>
    match THashMap.find self.PathsById shardInfo.PathId with
    | none => false
    | some path => !path.Dropped && THashMap.contains self.Tables shardInfo.PathId

/-- A request of the outgoing batch is addressed to the shard: the shard has a
    tablet and the batch holds a request under that tablet. -/
def AddressedTo (self : TSchemeShard)
    (batch : THashMap TTabletId TEvConditionalEraseRowsRequest) (shardIdx : TShardIdx) : Bool :=
  match THashMap.find self.ShardInfos shardIdx with
  | none => false
  | some shardInfo => THashMap.contains batch shardInfo.TabletID

/-- The index catalog is consistent: building the index descriptors hits no
    fatal assertion for any table path. -/
def IndexCatalogOk (self : TSchemeShard) : Prop :=
  ∀ pathId : TPathId, THashMap.contains self.PathsById pathId = true →
    THashMap.contains self.Tables pathId = true →
      (TTxRunConditionalErase.MakeIndexes self pathId).isSome = true

/-- The shards of the pending schedule, one per scheduled position. -/
def PendingShards (t : TTableInfo) : List TShardIdx :=
  t.CondEraseSchedule.filterMap (fun i => (t.Partitions[i]?).map TTableShardInfo.ShardIdx)

/-- The entries of the pending schedule, one per scheduled position. -/
def PendingEntries (t : TTableInfo) : List TTableShardInfo :=
  t.CondEraseSchedule.filterMap (fun i => t.Partitions[i]?)

/-- The shard-to-partition mapping agrees with the partition list. -/
def MappingConsistent (t : TTableInfo) : Prop :=
  ∀ (shardIdx : TShardIdx) (i : Nat) (e : TTableShardInfo),
    THashMap.find t.Shard2PartitionIdx shardIdx = some i → t.Partitions[i]? = some e →
      e.ShardIdx = shardIdx

/-- Every in-flight shard has a partition (the assertions of lines 63 and 66). -/
def InFlightMapped (t : TTableInfo) : Prop :=
  ∀ shardIdx ∈ t.InFlightCondErase,
    ∃ (i : Nat) (e : TTableShardInfo),
      THashMap.find t.Shard2PartitionIdx shardIdx = some i ∧ t.Partitions[i]? = some e

/-- Each partition's shard is in exactly one of the in-flight set and the
    pending schedule, and there once. -/
def ExactlyOne (t : TTableInfo) : Prop :=
  ∀ e ∈ t.Partitions,
    t.InFlightCondErase.count e.ShardIdx + (PendingShards t).count e.ShardIdx = 1

/-- The order of service: `l` is due no later than `r`, ties by shard. -/
def ServedNoLater (l r : TTableShardInfo) : Prop :=
  r.Before l = false

/-- The outcome of a dispatch attempt that hits no fatal assertion: the
    partition is due and its shard resolves. -/
def DispatchAttempt (self : TSchemeShard) (e : TTableShardInfo) (ctx : TActorContext) : Bool :=
  decide (e.NextCondErase ≤ ctx.Now) && ShardResolves self e.ShardIdx

/-- The table with its in-flight set and pending schedule replaced. -/
def TTableInfo.WithSched (t : TTableInfo) (inFlight : THashSet TShardIdx)
    (schedule : List Nat) : TTableInfo :=
  { t with InFlightCondErase := inFlight, CondEraseSchedule := schedule }

/-- Two states with the same catalog: the maps agree and every table object
    has the same columns, key columns and schema version. -/
def SameCatalog (a b : TSchemeShard) : Prop :=
  b.ShardInfos = a.ShardInfos ∧ b.PathsById = a.PathsById ∧ b.Tables = a.Tables ∧
  b.Indexes = a.Indexes ∧
  ∀ q : TTablePtr, (b.TableObjs q).Columns = (a.TableObjs q).Columns ∧
    (b.TableObjs q).KeyColumnIds = (a.TableObjs q).KeyColumnIds ∧
    (b.TableObjs q).AlterVersion = (a.TableObjs q).AlterVersion

/-- Every request of the batch is addressed to the tablet of a shard that the
    catalog resolves. -/
def BatchResolves (self : TSchemeShard)
    (batch : THashMap TTabletId TEvConditionalEraseRowsRequest) : Prop :=
  ∀ k : TTabletId, THashMap.contains batch k = true →
    ∃ (s : TShardIdx) (info : TShardInfo),
      THashMap.find self.ShardInfos s = some info ∧ info.TabletID = k ∧
        ShardResolves self s = true

/-- The partition entry of a shard, through the shard-to-partition mapping. -/
def TTableInfo.PartitionOf (t : TTableInfo) (shardIdx : TShardIdx) : Option TTableShardInfo :=
  (THashMap.find t.Shard2PartitionIdx shardIdx).bind (fun i => t.Partitions[i]?)

/-- The batch `b` extended to `c` by requests addressed to tablets of shards
    that the catalog resolves, at most one request per tablet. -/
def BatchGrows (self : TSchemeShard)
    (b c : THashMap TTabletId TEvConditionalEraseRowsRequest) : Prop :=
  (∀ k : TTabletId, THashMap.contains b k = true → THashMap.contains c k = true) ∧
  (∀ k : TTabletId, THashMap.contains c k = true → THashMap.contains b k = true ∨
    ∃ (s : TShardIdx) (info : TShardInfo),
      THashMap.find self.ShardInfos s = some info ∧ info.TabletID = k ∧
        ShardResolves self s = true) ∧
  ((THashMap.keys b).Nodup → (THashMap.keys c).Nodup)

/-! ## A concrete catalog

One TTL-enabled table at address `0` with three partitions on the shards
`(1,1)`, `(1,2)`, `(1,3)`, tablets `101`, `102`, `103`, all due at time `10`,
at most two shards in flight; every other address holds an empty table. -/

namespace Example

def Settings : TTTLSettingsEnabled :=
  { ExpireAfterSeconds := 5, ColumnUnit := 0,
    SysSettings := { RunInterval := 100, RetryInterval := 7, BatchMaxBytes := 1,
                     BatchMinKeys := 2, BatchMaxKeys := 3, MaxShardsInFlight := 2 } }

def Shard1 : TShardIdx := { OwnerId := 1, LocalId := 1 }

def Shard2 : TShardIdx := { OwnerId := 1, LocalId := 2 }

def Shard3 : TShardIdx := { OwnerId := 1, LocalId := 3 }

def TablePath : TPathId := { OwnerId := 1, LocalPathId := 5 }

/-- The table with nothing in flight and the three partitions pending. -/
def Table : TTableInfo :=
  { AlterVersion := 1
    Columns := [(1, { Name := "a", Dropped := false }), (2, { Name := "ts", Dropped := false })]
    KeyColumnIds := [1]
    TTLSettings := some Settings
    TTLColumnId := 2
    Partitions := [{ ShardIdx := Shard1, NextCondErase := 10, LastCondEraseLag := some 0 },
                   { ShardIdx := Shard2, NextCondErase := 10, LastCondEraseLag := some 0 },
                   { ShardIdx := Shard3, NextCondErase := 10, LastCondEraseLag := some 0 }]
    Shard2PartitionIdx := [(Shard1, 0), (Shard2, 1), (Shard3, 2)]
    InFlightCondErase := []
    CondEraseSchedule := [2, 1, 0] }

def NoTable : TTableInfo :=
  { AlterVersion := 0, Columns := [], KeyColumnIds := [], TTLSettings := none, TTLColumnId := 0,
    Partitions := [], Shard2PartitionIdx := [], InFlightCondErase := [],
    CondEraseSchedule := [] }

/-- The catalog around a given table object at address `0`. -/
def Catalog (t : TTableInfo) (allow dropped : Bool) : TSchemeShard :=
  { AllowConditionalEraseOperations := allow
    ShardInfos := [(Shard1, { TabletID := 101, PathId := TablePath }),
                   (Shard2, { TabletID := 102, PathId := TablePath }),
                   (Shard3, { TabletID := 103, PathId := TablePath })]
    TabletIdToShardIdx := [(101, Shard1), (102, Shard2), (103, Shard3)]
    PathsById := [(TablePath, { PathId := TablePath, PathType := EPathType.EPathTypeTable,
                                IsDropped := dropped, Children := [] })]
    Tables := [(TablePath, 0)]
    Indexes := []
    TTLEnabledTables := [(TablePath, 0)]
    TableObjs := fun p => if p = 0 then t else NoTable
    DomainKeys := fun p => p
    LagCounter := fun _ => 0
    Db := [] }

/-- Nothing in flight, three partitions pending. -/
def Idle : TSchemeShard :=
  Catalog Table true false

/-- Shards 1 and 2 in flight, shard 3 pending. -/
def Busy : TSchemeShard :=
  Catalog (Table.WithSched [Shard1, Shard2] [2]) true false

/-- As `Busy`, with the table path dropped. -/
def BusyDropped : TSchemeShard :=
  Catalog (Table.WithSched [Shard1, Shard2] [2]) true true

/-- As `Busy`, with conditional erase operations not allowed. -/
def BusyDisallowed : TSchemeShard :=
  Catalog (Table.WithSched [Shard1, Shard2] [2]) false false

def At20 : TActorContext :=
  { Now := 20, EnableSystemViews := false }

def At30 : TActorContext :=
  { Now := 30, EnableSystemViews := false }

/-- A response of tablet 101 (shard 1) with the given status. -/
def Response (status : EStatus) : TEvConditionalEraseRowsResponse :=
  { TabletID := 101, Status := status, ErrorDescription := "",
    Stats := { RowsProcessed := 0, RowsErased := 0 } }

/-- The dispatcher transaction for the table, run on `Idle` at time 20. -/
def IdleRun : TTxRunConditionalErase :=
  (RunDue Idle (some 0) At20).getD (CreateTxRunConditionalEraseOnTable Idle 0)

/-- The dispatcher transaction for the table, run on `Busy` at time 20. -/
def BusyRun : TTxRunConditionalErase :=
  (RunDue Busy (some 0) At20).getD (CreateTxRunConditionalEraseOnTable Busy 0)

end Example

/-- The shards found at a list of partition positions. -/
def ShardsAt (partitions : List TTableShardInfo) (positions : List Nat) : List TShardIdx :=
  positions.filterMap (fun i => (partitions[i]?).map TTableShardInfo.ShardIdx)

/-- The scheduler invariant of a table: the mapping agrees with the partition
    list and each partition's shard is in exactly one of the two structures. -/
def SchedulerInvariant (t : TTableInfo) : Prop :=
  MappingConsistent t ∧ ExactlyOne t

/-! ## The index mapping, in the words of the specification -/

/-- All the values of a list of optional values, when none is missing. -/
def AllSome {α : Type} : List (Option α) → Option (List α)
  | [] => some []
  | none :: _ => none
  | some a :: rest =>
    match AllSome rest with
    | none => none
    | some r => some (a :: r)

/-- The columns that are not dropped, in iteration order, as (name, id). -/
def LiveColumns (columns : THashMap Nat TColumn) : THashMap String Nat :=
  (columns.filter (fun c => !c.2.IsDropped)).map (fun c => (c.2.Name, c.1))

/-- The id under which a name is found among the non-dropped columns. -/
def LiveColumnId (columns : THashMap Nat TColumn) (name : String) : Option Nat :=
  THashMap.find (LiveColumns columns) name

/-- No two non-dropped columns share a name. -/
def LiveNamesDistinct (columns : THashMap Nat TColumn) : Prop :=
  (THashMap.keys (LiveColumns columns)).Nodup

/-- The key columns of the main table whose name is not among the index keys
    (a key column id without a column is kept: it has no name to compare). -/
def UncoveredKeyColumns (mainTable : TTableInfo) (index : TTableIndexInfo) : List Nat :=
  mainTable.KeyColumnIds.filter (fun c =>
    match THashMap.find mainTable.Columns c with
    | some column => decide (column.Name ∉ index.IndexKeys)
    | none => true)

/-- The pair of an index key: its id in the index-implementation table and its
    id in the main table, both looked up by name among the live columns. -/
def IndexKeyPair (mainTable indexImplTable : TTableInfo) (k : String) : Option (Nat × Nat) :=
  match LiveColumnId indexImplTable.Columns k, LiveColumnId mainTable.Columns k with
  | some implId, some mainId => some (implId, mainId)
  | _, _ => none

/-- The pair of a main key column: the id of the live index-implementation
    column that has its name, and the key column id itself. -/
def MainKeyPair (mainTable indexImplTable : TTableInfo) (c : Nat) : Option (Nat × Nat) :=
  match THashMap.find mainTable.Columns c with
  | none => none
  | some column => (LiveColumnId indexImplTable.Columns column.Name).map (fun implId => (implId, c))

/-- The column-id correspondence as the specification words it: the pairs of
    the index keys, in order, followed by the pairs of the main key columns not
    covered by an index key, in order; undefined when a lookup fails. -/
def IndexMappingSpec (mainTable : TTableInfo) (index : TTableIndexInfo)
    (indexImplTable : TTableInfo) : Option (List (Nat × Nat)) :=
  match AllSome (index.IndexKeys.map (IndexKeyPair mainTable indexImplTable)),
        AllSome ((UncoveredKeyColumns mainTable index).map
          (MainKeyPair mainTable indexImplTable)) with
  | some a, some b => some (a ++ b)
  | _, _ => none

namespace Example

/-- The main table of the index example: columns `a` (1), `b` (2), `c` (3),
    primary key `{a, c}`. -/
def MainTable : TTableInfo :=
  { AlterVersion := 1
    Columns := [(1, { Name := "a", Dropped := false }), (2, { Name := "b", Dropped := false }),
                (3, { Name := "c", Dropped := false })]
    KeyColumnIds := [1, 3]
    TTLSettings := none
    TTLColumnId := 0
    Partitions := []
    Shard2PartitionIdx := []
    InFlightCondErase := []
    CondEraseSchedule := [] }

/-- The synchronous index over the columns `{a, b}`. -/
def IndexAB : TTableIndexInfo :=
  { IndexType := EIndexType.EIndexTypeGlobal, IndexKeys := ["a", "b"] }

/-- The index-implementation table: columns `a` (11), `b` (12), `c` (13). -/
def ImplTable : TTableInfo :=
  { AlterVersion := 1
    Columns := [(11, { Name := "a", Dropped := false }), (12, { Name := "b", Dropped := false }),
                (13, { Name := "c", Dropped := false })]
    KeyColumnIds := [11, 12, 13]
    TTLSettings := none
    TTLColumnId := 0
    Partitions := []
    Shard2PartitionIdx := []
    InFlightCondErase := []
    CondEraseSchedule := [] }

end Example

/-! ## The scheduler of one table as a function

The in-flight set and the schedule that `DoExecuteOnTable` leaves depend on
the catalog only through the outcome of the dispatch attempts; `RunTable` is
that dependence (`DoExecuteOnTable_RunTable`). -/

/-- The `while (true)` loop of `DoExecuteOnTable` on the table alone. -/
def DispatchTable (attempt : TTableShardInfo → Bool) (maxInFlight : Nat) :
    Nat → TTableInfo → TTableInfo
  | 0, t => t
  | fuel + 1, t =>
    if maxInFlight ≠ 0 ∧ t.InFlightCondErase.length ≥ maxInFlight then t
    else
      match ScheduleTop t.Partitions t.CondEraseSchedule with
      | none => t
      | some (i, e) =>
        if attempt e then
          DispatchTable attempt maxInFlight fuel
            (t.WithSched (THashSet.insert t.InFlightCondErase e.ShardIdx)
              (t.CondEraseSchedule.erase i))
        else t

/-- The dispatch attempt for the partition of an in-flight shard fails. -/
def AttemptFails (attempt : TTableShardInfo → Bool) (t : TTableInfo) (s : TShardIdx) : Bool :=
  match t.PartitionOf s with
  | some e => !attempt e
  | none => false

/-- The `reschedule` set that the first loop of `DoExecuteOnTable` collects. -/
def RescheduleSet (attempt : TTableShardInfo → Bool) (t : TTableInfo) : THashSet TShardIdx :=
  (t.InFlightCondErase.filter (AttemptFails attempt t)).foldl THashSet.insert []

/-- The table after the second loop of `DoExecuteOnTable`. -/
def AfterReschedule (t : TTableInfo) (R : THashSet TShardIdx) : TTableInfo :=
  t.WithSched (t.InFlightCondErase.filter (fun x => decide (x ∉ R)))
    (t.CondEraseSchedule ++ R.filterMap (THashMap.find t.Shard2PartitionIdx))

/-- The table after `DoExecuteOnTable`. -/
def RunTable (attempt : TTableShardInfo → Bool) (t : TTableInfo) : TTableInfo :=
  match t.TTLSettings with
  | none => t
  | some st =>
    DispatchTable attempt st.SysSettings.MaxShardsInFlight
      ((AfterReschedule t (RescheduleSet attempt t)).CondEraseSchedule.length + 1)
      (AfterReschedule t (RescheduleSet attempt t))

/-- The shard-to-partition map indexes the partition list: the shard of the
    partition at position `i` maps to `i`. -/
def PartitionsIndexed (t : TTableInfo) : Prop :=
  ∀ (i : Nat) (e : TTableShardInfo), t.Partitions[i]? = some e →
    THashMap.find t.Shard2PartitionIdx e.ShardIdx = some i

/-- The dispatch loop has nothing to do on the table: the cap is reached, no
    entry is pending, or the attempt for the top of the schedule fails. -/
def Stopped (attempt : TTableShardInfo → Bool) (maxInFlight : Nat) (t : TTableInfo) : Prop :=
  (maxInFlight ≠ 0 ∧ t.InFlightCondErase.length ≥ maxInFlight) ∨
  ScheduleTop t.Partitions t.CondEraseSchedule = none ∨
  ∃ i e, ScheduleTop t.Partitions t.CondEraseSchedule = some (i, e) ∧ attempt e = false

/-- The dispatch attempt for the partition hits no assertion: when it gets as
    far as the index mapper (line 139), the mapper returns. -/
def AttemptSafe (self : TSchemeShard) (e : TTableShardInfo) (ctx : TActorContext) : Prop :=
  DispatchAttempt self e ctx = true →
    ∀ info, THashMap.find self.ShardInfos e.ShardIdx = some info →
      (TTxRunConditionalErase.MakeIndexes self info.PathId).isSome = true

/-! ## The schedule store after a restart -/

/-- Modelled from the spec: the store is not in the excerpt. It holds one
    stored partition per table and partition position, a later write replacing
    an earlier one: what `rows` leave for the position, if they hold a row for
    it. -/
def LastWritten (rows : List TCondEraseRow) (tableId : TPathId) (idx : Nat) :
    Option (Option TStoredPartition) :=
  rows.foldl
    (fun acc row => if row.TableId = tableId ∧ row.PartitionIdx = idx then some row.Entry
      else acc)
    none

/-- Modelled from the spec: the loader is not in the excerpt. The schedule
    entry of a partition after a restart, read from the store alone: the
    partition last written for its position, loaded. -/
def ReloadPartition (db : List TCondEraseRow) (tableId : TPathId) (idx : Nat) :
    Option TTableShardInfo :=
  ((LastWritten db tableId idx).getD none).map TStoredPartition.Load

/-- The store reloads every partition of every TTL-enabled table as its
    schedule entry, to the precision of the persisted layout. -/
def StoreInSync (self : TSchemeShard) : Prop :=
  ∀ (tableId : TPathId) (p : TTablePtr) (idx : Nat),
    THashMap.find self.TTLEnabledTables tableId = some p →
      ReloadPartition self.Db tableId idx =
        ((self.TableObjs p).Partitions[idx]?).map (fun e => e.ToStored.Load)

/-- No two tables of `TTLEnabledTables` share a table object. -/
def TablesDistinct (self : TSchemeShard) : Prop :=
  ∀ (a b : TPathId) (p : TTablePtr), THashMap.find self.TTLEnabledTables a = some p →
    THashMap.find self.TTLEnabledTables b = some p → a = b

namespace Example

def At0 : TActorContext :=
  { Now := 0, EnableSystemViews := false }

/-- The reconciler transaction for the response `OK` of tablet 101 at time 30,
    after the run on `Idle` at time 20. -/
def Reconciled : TTxScheduleConditionalErase :=
  (OnEraseResponse IdleRun.Self (Response EStatus.OK) At30).getD
    (CreateTxScheduleConditionalErase IdleRun.Self (Response EStatus.OK))

end Example

/-! ## The scheduler under a clock -/

/-- The states reached by transactions run at non-decreasing times:
    `ReachableAt start c0 fin c` when `fin` is reached from `start`, the clock
    going from `c0` to `c`. -/
inductive ReachableAt (start : TSchemeShard) (c0 : TInstant) :
    TSchemeShard → TInstant → Prop where
  | refl : ReachableAt start c0 start c0
  | runDue (mid : TSchemeShard) (c : TInstant) (tableInfo : Option TTablePtr)
      (ctx : TActorContext) (tx : TTxRunConditionalErase) (h : ReachableAt start c0 mid c)
      (hclock : c ≤ ctx.Now) (hrun : RunDue mid tableInfo ctx = some tx) :
      ReachableAt start c0 tx.Self ctx.Now
  | onEraseResponse (mid : TSchemeShard) (c : TInstant) (ev : TEvConditionalEraseRowsResponse)
      (ctx : TActorContext) (tx : TTxScheduleConditionalErase)
      (h : ReachableAt start c0 mid c) (hclock : c ≤ ctx.Now)
      (hrun : OnEraseResponse mid ev ctx = some tx) :
      ReachableAt start c0 tx.Self ctx.Now

/-- Every in-flight shard was due by `c`: it was dispatched no later than `c`. -/
def InFlightDue (t : TTableInfo) (c : TInstant) : Prop :=
  ∀ s ∈ t.InFlightCondErase, ∀ e, t.PartitionOf s = some e → e.NextCondErase ≤ c

/-- The tables as the dispatcher leaves them by time `c`: the shard-to-partition
    map and the partition list index each other, and every in-flight shard was
    due by `c`. -/
def DispatchedBy (self : TSchemeShard) (c : TInstant) : Prop :=
  ∀ q : TTablePtr, MappingConsistent (self.TableObjs q) ∧
    PartitionsIndexed (self.TableObjs q) ∧ InFlightDue (self.TableObjs q) c

/-- The next-eligible-time of the partition at position `idx` of a table. -/
def NextEligibleTime (self : TSchemeShard) (p : TTablePtr) (idx : Nat) : Option TInstant :=
  ((self.TableObjs p).Partitions[idx]?).map TTableShardInfo.NextCondErase

namespace Example

/-- As `Idle`, with shard 1 missing from `ShardInfos`: the earliest pending
    entry does not resolve, the other two do. -/
def Orphan : TSchemeShard :=
  { Idle with
    ShardInfos := [(Shard2, { TabletID := 102, PathId := TablePath }),
                   (Shard3, { TabletID := 103, PathId := TablePath })] }

end Example

namespace Example

/-- As `Idle`, with no cap on the shards in flight. -/
def Unbounded : TSchemeShard :=
  Catalog
    { Table with
      TTLSettings := some { Settings with
        SysSettings := { Settings.SysSettings with MaxShardsInFlight := 0 } } }
    true false

end Example

/-- The response is accepted for the table `p`: the flag is on, the shard of
    the tablet resolves to a table of `TTLEnabledTables` that has TTL enabled,
    the shard is in flight on it and the status is not `PARTIAL`. -/
def Accepted (self : TSchemeShard) (ev : TEvConditionalEraseRowsResponse) (p : TTablePtr) :
    Prop :=
  self.AllowConditionalEraseOperations = true ∧
  ∃ info, THashMap.find self.ShardInfos (self.GetShardIdx ev.TabletID) = some info ∧
    THashMap.find self.TTLEnabledTables info.PathId = some p ∧
    (self.TableObjs p).IsTTLEnabled = true ∧
    self.GetShardIdx ev.TabletID ∈ (self.TableObjs p).InFlightCondErase ∧
    ev.Status ≠ EStatus.PARTIAL

/-- The per-table run applied to every table of a list in turn: `RunDue` on the
    first table, then on the next from the state that leaves, and so on;
    undefined when one of the runs hits an assertion. -/
def RunEach (ctx : TActorContext) : List TTablePtr → TSchemeShard → Option TSchemeShard
  | [], self => some self
  | q :: rest, self =>
    match RunDue self (some q) ctx with
    | none => none
    | some tx => RunEach ctx rest tx.Self

/-! ## The index selection, in the words of the specification -/

/-- The child path is a live synchronous index: it is a table index, it is not
    dropped and its index type is not global-async. -/
def IsLiveSyncIndex (self : TSchemeShard) (childPathId : TPathId) : Bool :=
  match THashMap.find self.PathsById childPathId with
  | none => false
  | some childPath =>
    childPath.IsTableIndex && !childPath.Dropped &&
      (match TTxRunConditionalErase.GetIndex self childPath with
       | some index => decide (index.IndexType ≠ EIndexType.EIndexTypeGlobalAsync)
       | none => true)

/-- The descriptor of an index child: keyed by the path id and the
    `AlterVersion` of its single implementation table, it holds the column-id
    correspondence of the index. -/
def IndexEntry (self : TSchemeShard) (mainTable : TTablePtr) (childPathId : TPathId) :
    Option (TTableId × List (Nat × Nat)) :=
  match THashMap.find self.PathsById childPathId with
  | none => none
  | some childPath =>
    match TTxRunConditionalErase.GetIndex self childPath, childPath.GetChildren with
    | some index, [(_, indexImplPathId)] =>
      match THashMap.find self.Tables indexImplPathId with
      | none => none
      | some indexImplTable =>
        (TTxRunConditionalErase.MakeColumnIds (self.TableObjs mainTable) index
          (self.TableObjs indexImplTable)).map
          (fun columnIds =>
            ({ PathId := indexImplPathId,
               SchemaVersion := (self.TableObjs indexImplTable).AlterVersion }, columnIds))
    | _, _ => none

/-- The children of a path that are live synchronous indexes, in order. -/
def LiveSyncIndexes (self : TSchemeShard) (mainPath : TPathElement) : List TPathId :=
  (mainPath.GetChildren.map Prod.snd).filter (IsLiveSyncIndex self)

namespace Example

def IdxPath : TPathId := { OwnerId := 1, LocalPathId := 6 }

def ImplPath : TPathId := { OwnerId := 1, LocalPathId := 7 }

def AsyncPath : TPathId := { OwnerId := 1, LocalPathId := 8 }

def OldPath : TPathId := { OwnerId := 1, LocalPathId := 9 }

/-- A catalog around the main table of the index example: its path has three
    index children, the synchronous index `IndexAB` (implementation table at
    address `1`), a global-async index and a dropped index. -/
def Indexed : TSchemeShard :=
  { AllowConditionalEraseOperations := true
    ShardInfos := [(Shard1, { TabletID := 101, PathId := TablePath })]
    TabletIdToShardIdx := [(101, Shard1)]
    PathsById :=
      [(TablePath, { PathId := TablePath, PathType := EPathType.EPathTypeTable,
                     IsDropped := false,
                     Children := [("idx", IdxPath), ("async", AsyncPath), ("old", OldPath)] }),
       (IdxPath, { PathId := IdxPath, PathType := EPathType.EPathTypeTableIndex,
                   IsDropped := false, Children := [("impl", ImplPath)] }),
       (AsyncPath, { PathId := AsyncPath, PathType := EPathType.EPathTypeTableIndex,
                     IsDropped := false, Children := [] }),
       (OldPath, { PathId := OldPath, PathType := EPathType.EPathTypeTableIndex,
                   IsDropped := true, Children := [] }),
       (ImplPath, { PathId := ImplPath, PathType := EPathType.EPathTypeTable,
                    IsDropped := false, Children := [] })]
    Tables := [(TablePath, 0), (ImplPath, 1)]
    Indexes := [(IdxPath, IndexAB),
                (AsyncPath, { IndexType := EIndexType.EIndexTypeGlobalAsync,
                              IndexKeys := ["a"] })]
    TTLEnabledTables := [(TablePath, 0)]
    TableObjs := fun p =>
      if p = 0 then
        { MainTable with
          TTLSettings := some Settings
          Partitions := [{ ShardIdx := Shard1, NextCondErase := 10,
                           LastCondEraseLag := some 0 }]
          Shard2PartitionIdx := [(Shard1, 0)]
          CondEraseSchedule := [0] }
      else if p = 1 then ImplTable else NoTable
    DomainKeys := fun p => p
    LagCounter := fun _ => 0
    Db := [] }

end Example

namespace Example

/-- A main table whose key column `x` (id 1) is dropped and whose key column
    `x` (id 2) is live. -/
def MainDroppedKey : TTableInfo :=
  { MainTable with
    Columns := [(1, { Name := "x", Dropped := true }), (2, { Name := "x", Dropped := false })]
    KeyColumnIds := [1, 2] }

/-- An index with no key of its own. -/
def IndexNoKeys : TTableIndexInfo :=
  { IndexType := EIndexType.EIndexTypeGlobal, IndexKeys := [] }

/-- An index-implementation table with the single live column `x` (id 11). -/
def ImplX : TTableInfo :=
  { ImplTable with
    Columns := [(11, { Name := "x", Dropped := false })]
    KeyColumnIds := [11] }

end Example

namespace Example

/-- A clock one minute after the epoch: later than the five seconds of
    `Settings.ExpireAfterSeconds`. -/
def At60s : TActorContext :=
  { Now := 60000000, EnableSystemViews := false }

end Example

end NSchemeShard

/-! ## Change-record sending of the datashard

The transactions `TTxRequestChangeRecords` and `TTxRemoveChangeRecords` of
`ydb/core/tx/datashard/datashard_change_sending.cpp`. The local database is
passed explicitly; a key of a table is either on a page that is not loaded,
or has no row, or has a row. `size_t` arithmetic on body sizes wraps at
`SizeMax`. -/

namespace NDataShard

open NSchemeShard (THashMap THashSet TPathId)

abbrev TActorId := Nat

/-- The modulus of `size_t`. -/
def SizeMax : Nat := 2 ^ 64

/-- A requested record, `TEvChangeExchange::TEvRequestRecords::TRecordInfo`. -/
structure TRecordInfo where
  Order : Nat
  BodySize : Nat
deriving DecidableEq

/-- The outcome of `Select()` on one key. -/
inductive TRowset (α : Type) where
  | NotReady
  | Absent
  | Row (value : α)

def TRowset.IsReady {α : Type} : TRowset α → Bool
  | TRowset.NotReady => false
  | _ => true

def TRowset.IsValid {α : Type} : TRowset α → Bool
  | TRowset.Row _ => true
  | _ => false

/-- A row of `Schema::ChangeRecords`. -/
structure TChangeRecordsRow where
  Group : Nat
  PlanStep : Nat
  TxId : Nat
  PathOwnerId : Nat
  LocalPathId : Nat
  SchemaVersion : Nat
  TableOwnerId : Nat
  TablePathId : Nat
deriving DecidableEq

/-- A row of `Schema::ChangeRecordDetails`. -/
structure TChangeRecordDetailsRow where
  Kind : Nat
  Body : String
deriving DecidableEq

/-- The two tables the transactions read and delete from. `Precharge()` on a
    key is taken to answer as `IsReady()` of the later `Select()` does. -/
structure TNiceDb where
  ChangeRecords : Nat → TRowset TChangeRecordsRow
  ChangeRecordDetails : Nat → TRowset TChangeRecordDetailsRow

/-- What `TChangeRecordBuilder` builds; `Schema` is the schema pointer, `none`
    when null. -/
structure TChangeRecord where
  Kind : Nat
  Order : Nat
  Group : Nat
  Step : Nat
  TxId : Nat
  PathId : TPathId
  Schema : Option Nat
  Body : String
deriving DecidableEq

structure TSchemaSnapshotKey where
  PathId : TPathId
  Version : Nat
deriving DecidableEq

/-- The state `Done()` of the change exchange splitter reads. -/
structure TChangeExchangeSplitter where
  Done : Bool
deriving DecidableEq

/-- The state `GetDstSet()` and `Acked(dst)` of the change sender activator
    read. -/
structure TChangeSenderActivator where
  DstSet : THashSet Nat
  Acks : THashSet Nat
deriving DecidableEq

def TChangeSenderActivator.GetDstSet (a : TChangeSenderActivator) : THashSet Nat :=
  a.DstSet

def TChangeSenderActivator.Acked (a : TChangeSenderActivator) (dstTabletId : Nat) : Bool :=
  THashSet.contains a.Acks dstTabletId

/-- The state `Acked(dst)` of the split source snapshot sender reads. -/
structure TSplitSrcSnapshotSender where
  Acks : THashSet Nat
deriving DecidableEq

def TSplitSrcSnapshotSender.Acked (s : TSplitSrcSnapshotSender) (dstTabletId : Nat) : Bool :=
  THashSet.contains s.Acks dstTabletId

/-- The members of `TDataShard` the two transactions touch. `ChangesQueue`
    holds the orders of the enqueued records, `SchemaSnapshots` what
    `GetSchemaSnapshotManager().FindSnapshot` finds. -/
structure TDataShard where
  ChangeRecordsRequested : THashMap TActorId (List TRecordInfo)
  RequestChangeRecordsInFly : Bool
  ChangeRecordsToRemove : List Nat
  RemoveChangeRecordsInFly : Bool
  ChangesQueue : THashSet Nat
  SchemaSnapshots : THashMap TSchemaSnapshotKey Nat
  ChangeExchangeSplitter : TChangeExchangeSplitter
  ChangeSenderActivator : TChangeSenderActivator
  SplitSrcSnapshotSender : TSplitSrcSnapshotSender
deriving DecidableEq

/-- The statement `m[k].emplace_back(v)`: the vector under `k` is created
    empty, at the end of the iteration order, when `k` is absent. -/
def PushBack {K V : Type} [DecidableEq K] (m : THashMap K (List V)) (k : K) (v : V) :
    THashMap K (List V) :=
  match m with
  | [] => [(k, [v])]
  | (a, l) :: rest => if a = k then (a, l ++ [v]) :: rest else (a, l) :: PushBack rest k v

/-- All values of a map of vectors, in iteration order. -/
def Flat {K V : Type} (m : THashMap K (List V)) : List V :=
  (m.map Prod.snd).flatten

/-- Modelled from the spec: `TDataShard::RemoveChangeRecord` is not in the
    excerpt; the model deletes the two rows of an enqueued record and drops
    the record from the queue of changes, and does nothing for a record that
    is not enqueued. -/
def TDataShard.RemoveChangeRecord (self : TDataShard) (db : TNiceDb) (order : Nat) :
    TDataShard × TNiceDb :=
  if THashSet.contains self.ChangesQueue order then
    ({ self with ChangesQueue := THashSet.erase self.ChangesQueue order },
     { ChangeRecords := fun k => if k = order then TRowset.Absent else db.ChangeRecords k
       ChangeRecordDetails :=
         fun k => if k = order then TRowset.Absent else db.ChangeRecordDetails k })
  else (self, db)

/-! ### `TTxRequestChangeRecords` -/

structure TTxRequestChangeRecords where
  Self : TDataShard
  MemUsage : Nat
  RecordsToSend : THashMap TActorId (List TChangeRecord)
  RecordsToForget : THashMap TActorId (List Nat)
deriving DecidableEq

namespace TTxRequestChangeRecords

def MemLimit : Nat := 512 * 1024

/-- The constructor `TTxRequestChangeRecords(self)`. -/
def New (self : TDataShard) : TTxRequestChangeRecords :=
  { Self := self, MemUsage := 0, RecordsToSend := [], RecordsToForget := [] }

/-- The inner loop of `Precharge` over the records of one recipient, on the
    pair of locals `(bodiesSize, ok)`. -/
def PrechargeRecords (db : TNiceDb) : List TRecordInfo → Nat × Bool → Nat × Bool
  | [], s => s
  | record :: rest, (bodiesSize, ok) =>
    if bodiesSize ≠ 0 ∧ (bodiesSize + record.BodySize) % SizeMax > MemLimit then
      (bodiesSize, ok)
    else
      PrechargeRecords db rest
        ((bodiesSize + record.BodySize) % SizeMax,
         ok && (db.ChangeRecords record.Order).IsReady
            && (db.ChangeRecordDetails record.Order).IsReady)

def Precharge (tx : TTxRequestChangeRecords) (db : TNiceDb) : Bool :=
  (tx.Self.ChangeRecordsRequested.foldl
    (fun s kv => PrechargeRecords db kv.2 s) ((0 : Nat), true)).2

/-- The record sent for the requested record `it`, from its two rows. -/
def BuildRecord (self : TDataShard) (it : TRecordInfo) (basic : TChangeRecordsRow)
    (details : TChangeRecordDetailsRow) : TChangeRecord :=
  let schemaVersion := basic.SchemaVersion
  let schema : Option Nat :=
    if schemaVersion ≠ 0 then
      THashMap.find self.SchemaSnapshots
        { PathId := { OwnerId := basic.TableOwnerId, LocalPathId := basic.TablePathId }
          Version := schemaVersion }
    else none
  { Kind := details.Kind
    Order := it.Order
    Group := basic.Group
    Step := basic.PlanStep
    TxId := basic.TxId
    PathId := { OwnerId := basic.PathOwnerId, LocalPathId := basic.LocalPathId }
    Schema := schema
    Body := details.Body }

/-- The `while` loop of `Select` over the records of one recipient. The
    result is `none` on the fatal assertion; otherwise it holds `false` when
    the function returns false and `true` when the loop is left (at its end or
    by `break`), the records still requested and the transaction. -/
def SelectRecords (db : TNiceDb) (recipient : TActorId) :
    List TRecordInfo → TTxRequestChangeRecords →
      Option (Bool × List TRecordInfo × TTxRequestChangeRecords)
  | [], tx => some (true, [], tx)
  | it :: rest, tx =>
    if tx.MemUsage ≠ 0 ∧ (tx.MemUsage + it.BodySize) % SizeMax > MemLimit then
      some (true, it :: rest, tx)
    else
      let basic := db.ChangeRecords it.Order
      let details := db.ChangeRecordDetails it.Order
      if !basic.IsReady || !details.IsReady then some (false, it :: rest, tx)
      else if !basic.IsValid && !details.IsValid then
        SelectRecords db recipient rest
          { tx with RecordsToForget := PushBack tx.RecordsToForget recipient it.Order }
      else
        match basic, details with
        | TRowset.Row b, TRowset.Row d =>
          SelectRecords db recipient rest
            { tx with
              RecordsToSend := PushBack tx.RecordsToSend recipient (BuildRecord tx.Self it b d)
              MemUsage := (tx.MemUsage + it.BodySize) % SizeMax }
        | _, _ => none

/-- The `for` loop of `Select` over the recipients; the second component of
    the result is `ChangeRecordsRequested` as the loop leaves it. -/
def SelectLoop (db : TNiceDb) :
    List (TActorId × List TRecordInfo) → TTxRequestChangeRecords →
      Option (Bool × List (TActorId × List TRecordInfo) × TTxRequestChangeRecords)
  | [], tx => some (true, [], tx)
  | (recipient, records) :: rest, tx =>
    if records.isEmpty then
      (SelectLoop db rest tx).map (fun r => (r.1, (recipient, records) :: r.2.1, r.2.2))
    else
      match SelectRecords db recipient records tx with
      | none => none
      | some (false, left, tx1) => some (false, (recipient, left) :: rest, tx1)
      | some (true, left, tx1) =>
        (SelectLoop db rest tx1).map (fun r => (r.1, (recipient, left) :: r.2.1, r.2.2))

def Select (tx : TTxRequestChangeRecords) (db : TNiceDb) :
    Option (Bool × TTxRequestChangeRecords) :=
  (SelectLoop db tx.Self.ChangeRecordsRequested tx).map
    (fun r => (r.1, { r.2.2 with Self := { r.2.2.Self with ChangeRecordsRequested := r.2.1 } }))

/-- The method `Execute`: `none` on the fatal assertion, otherwise the
    returned flag and the transaction. -/
def Execute (tx : TTxRequestChangeRecords) (db : TNiceDb) :
    Option (Bool × TTxRequestChangeRecords) :=
  if !Precharge tx db then some (false, tx)
  else Select tx db

/-- What `Complete` sends: the `TEvRecords` and `TEvForgetRecords` messages,
    and whether a new `TTxRequestChangeRecords` is submitted. -/
structure TEffects where
  Records : List (TActorId × List TChangeRecord)
  ForgetRecords : List (TActorId × List Nat)
  Resubmit : Bool
deriving DecidableEq

/-- The local `left` of `Complete`. -/
def Left (self : TDataShard) : Nat :=
  self.ChangeRecordsRequested.foldl (fun left kv => left + kv.2.length) 0

def Complete (tx : TTxRequestChangeRecords) : TDataShard × TEffects :=
  let left := Left tx.Self
  if left ≠ 0 then
    (tx.Self, { Records := tx.RecordsToSend, ForgetRecords := tx.RecordsToForget,
                Resubmit := true })
  else
    ({ tx.Self with RequestChangeRecordsInFly := false },
     { Records := tx.RecordsToSend, ForgetRecords := tx.RecordsToForget, Resubmit := false })

/-- The attempts of the executor at one transaction: `Execute` is called again
    on the same object while it returns false; `dbs` lists the database as
    each attempt finds it. -/
def ExecuteAttempts : List TNiceDb → TTxRequestChangeRecords →
    Option (Bool × TTxRequestChangeRecords)
  | [], tx => some (false, tx)
  | db :: rest, tx =>
    match Execute tx db with
    | none => none
    | some (true, tx1) => some (true, tx1)
    | some (false, tx1) => ExecuteAttempts rest tx1

/-- The chain of transactions `Complete` keeps going over an unchanging
    database: a fresh transaction is executed and completed, and another one
    follows while `Complete` submits one. The result counts the transactions
    and gives the final state; it is `none` when an `Execute` does not return
    true or when the fuel is used up. -/
def RunChain (db : TNiceDb) : Nat → TDataShard → Option (Nat × TDataShard)
  | 0, _ => none
  | fuel + 1, self =>
    match Execute (New self) db with
    | some (true, tx) =>
      if (Complete tx).2.Resubmit then
        (RunChain db fuel (Complete tx).1).map (fun r => (r.1 + 1, r.2))
      else some (1, (Complete tx).1)
    | _ => none

end TTxRequestChangeRecords

/-! ### `TTxRemoveChangeRecords` -/

structure TTxRemoveChangeRecords where
  Self : TDataShard
  RemovedCount : Nat
  ActivationList : THashSet Nat
  ChangeExchangeSplit : Bool
deriving DecidableEq

namespace TTxRemoveChangeRecords

def BucketSize : Nat := 1000

/-- The constructor `TTxRemoveChangeRecords(self)`. -/
def New (self : TDataShard) : TTxRemoveChangeRecords :=
  { Self := self, RemovedCount := 0, ActivationList := [], ChangeExchangeSplit := false }

def FillActivationList (tx : TTxRemoveChangeRecords) : TTxRemoveChangeRecords :=
  if tx.Self.ChangesQueue.isEmpty then
    if !tx.Self.ChangeExchangeSplitter.Done then
      { tx with ChangeExchangeSplit := true }
    else
      { tx with
        ActivationList :=
          tx.Self.ChangeSenderActivator.GetDstSet.foldl
            (fun list dstTabletId =>
              if tx.Self.SplitSrcSnapshotSender.Acked dstTabletId then
                THashSet.insert list dstTabletId
              else list)
            tx.ActivationList }
  else tx

/-- The `while` loop of `Execute` over the records to remove; the first
    component of the result is what is left of `ChangeRecordsToRemove`. -/
def RemoveLoop : List Nat → TTxRemoveChangeRecords → TNiceDb →
    List Nat × TTxRemoveChangeRecords × TNiceDb
  | [], tx, db => ([], tx, db)
  | order :: rest, tx, db =>
    if tx.RemovedCount < BucketSize then
      RemoveLoop rest
        { tx with
          Self := (tx.Self.RemoveChangeRecord db order).1
          RemovedCount := tx.RemovedCount + 1 }
        (tx.Self.RemoveChangeRecord db order).2
    else (order :: rest, tx, db)

def Execute (tx : TTxRemoveChangeRecords) (db : TNiceDb) :
    Bool × TTxRemoveChangeRecords × TNiceDb :=
  if tx.Self.ChangeRecordsToRemove.isEmpty then (true, FillActivationList tx, db)
  else
    let r := RemoveLoop tx.Self.ChangeRecordsToRemove tx db
    (true,
     FillActivationList { r.2.1 with Self := { r.2.1.Self with ChangeRecordsToRemove := r.1 } },
     r.2.2)

/-- What `Complete` does besides the flag: whether a new
    `TTxRemoveChangeRecords` is submitted, whether the splitter is told to
    split, and the activations sent. -/
structure TEffects where
  Resubmit : Bool
  DoSplit : Bool
  DoSend : List Nat
deriving DecidableEq

def Complete (tx : TTxRemoveChangeRecords) : TDataShard × TEffects :=
  let doSend := tx.ActivationList.filter (fun dstTabletId =>
    !tx.Self.ChangeSenderActivator.Acked dstTabletId)
  if !tx.Self.ChangeRecordsToRemove.isEmpty then
    (tx.Self, { Resubmit := true, DoSplit := tx.ChangeExchangeSplit, DoSend := doSend })
  else
    ({ tx.Self with RemoveChangeRecordsInFly := false },
     { Resubmit := false, DoSplit := tx.ChangeExchangeSplit, DoSend := doSend })

end TTxRemoveChangeRecords

namespace Example

/-- Rows for the orders 1, 2 and 3, none for any other order, every page
    loaded. -/
def Db : TNiceDb :=
  { ChangeRecords := fun order =>
      if order = 1 ∨ order = 2 ∨ order = 3 then
        TRowset.Row { Group := 1, PlanStep := 10, TxId := order, PathOwnerId := 1,
                      LocalPathId := 5, SchemaVersion := 0, TableOwnerId := 1,
                      TablePathId := 5 }
      else TRowset.Absent
    ChangeRecordDetails := fun order =>
      if order = 1 ∨ order = 2 ∨ order = 3 then TRowset.Row { Kind := 0, Body := "" }
      else TRowset.Absent }

/-- Two recipients: 7 asks for a record above the limit and a small one, 8 for
    a small one and for one that has no rows. -/
def Shard : TDataShard :=
  { ChangeRecordsRequested :=
      [(7, [{ Order := 1, BodySize := 600000 }, { Order := 2, BodySize := 10 }]),
       (8, [{ Order := 3, BodySize := 20 }, { Order := 4, BodySize := 5 }])]
    RequestChangeRecordsInFly := true
    ChangeRecordsToRemove := [1, 2, 3]
    RemoveChangeRecordsInFly := true
    ChangesQueue := [1, 2, 3]
    SchemaSnapshots := []
    ChangeExchangeSplitter := { Done := true }
    ChangeSenderActivator := { DstSet := [], Acks := [] }
    SplitSrcSnapshotSender := { Acks := [] } }

end Example

/-! ### Vocabulary of the specification -/

/-- The records sent so far, in the order of their selection, respect the
    memory limit: their body sizes sum to at most `MemLimit`, or the last one
    was admitted after records of body size 0 only. -/
def WithinMemLimit (sent : List TRecordInfo) : Prop :=
  (sent.map TRecordInfo.BodySize).sum ≤ TTxRequestChangeRecords.MemLimit ∨
    ∃ (zeros : List TRecordInfo) (r : TRecordInfo),
      sent = zeros ++ [r] ∧ ∀ z ∈ zeros, z.BodySize = 0

/-- Every read of the two tables finds its page loaded. -/
def ReadsReady (db : TNiceDb) : Prop :=
  ∀ order : Nat,
    (db.ChangeRecords order).IsReady = true ∧ (db.ChangeRecordDetails order).IsReady = true

/-- The basic row and the details row of a record are both there or both
    missing. -/
def RowsConsistent (db : TNiceDb) : Prop :=
  ∀ order : Nat, (db.ChangeRecords order).IsValid = (db.ChangeRecordDetails order).IsValid

namespace Example

/-- The transaction after one attempt of a fresh `TTxRequestChangeRecords` on
    `Shard`: record 1 is sent, the other three stay requested. -/
def FirstRun : TTxRequestChangeRecords :=
  ((TTxRequestChangeRecords.ExecuteAttempts [Db] (TTxRequestChangeRecords.New Shard)).getD
    (false, TTxRequestChangeRecords.New Shard)).2

end Example

end NDataShard

namespace NSchemeShard

namespace Example

/-- As `Busy`, with the three partitions, all of lag 0, counted in bucket 0 of
    the lag histogram. -/
def BusyCounted : TSchemeShard :=
  { Busy with LagCounter := fun k => if k = 0 then 3 else 0 }

end Example

namespace Example

/-- Shard 1 in flight, shards 2 and 3 pending. -/
def OneBusy : TSchemeShard :=
  Catalog (Table.WithSched [Shard1] [2, 1]) true false

/-- The dispatcher transaction for the table, run on `OneBusy` at time 20. -/
def OneBusyRun : TTxRunConditionalErase :=
  (RunDue OneBusy (some 0) At20).getD (CreateTxRunConditionalEraseOnTable OneBusy 0)

end Example

/-! ## The theory -/

open TTxRunConditionalErase

/-! ## Containers: basic facts -/

theorem THashMap.contains_append {K V : Type} [DecidableEq K] (m : THashMap K V) (k a : K)
    (v : V) : THashMap.contains (m ++ [(a, v)]) k = (THashMap.contains m k || decide (a = k)) := by
  induction m with
  | nil => simp [THashMap.contains, THashMap.find]; by_cases h : a = k <;> simp [h]
  | cons x rest ih =>
    obtain ⟨x1, x2⟩ := x
    simp only [THashMap.contains, List.cons_append, THashMap.find] at ih ⊢
    by_cases h : x1 = k
    · simp [h]
    · simp [h, ih]

theorem THashMap.contains_emplace {K V : Type} [DecidableEq K] (m : THashMap K V) (k a : K)
    (v : V) :
    THashMap.contains (THashMap.emplace m a v).1 k = (THashMap.contains m k || decide (a = k)) := by
  unfold THashMap.emplace
  by_cases h : THashMap.contains m a = true
  · simp only [h, if_true]
    by_cases hk : a = k
    · subst hk; simp [h]
    · simp [hk]
  · simp only [h]
    exact THashMap.contains_append m k a v

theorem THashMap.contains_iff_mem_keys {K V : Type} [DecidableEq K] (m : THashMap K V) (k : K) :
    THashMap.contains m k = true ↔ k ∈ THashMap.keys m := by
  induction m with
  | nil => simp [THashMap.contains, THashMap.find, THashMap.keys]
  | cons x rest ih =>
    obtain ⟨x1, x2⟩ := x
    simp only [THashMap.contains, THashMap.find, THashMap.keys, List.map_cons,
      List.mem_cons] at ih ⊢
    by_cases h : x1 = k
    · simp [h]
    · simp only [h, if_false, ih]
      constructor
      · intro hh; exact Or.inr hh
      · rintro (hh | hh)
        · exact absurd hh.symm h
        · exact hh

theorem THashMap.keys_emplace_nodup {K V : Type} [DecidableEq K] (m : THashMap K V) (a : K)
    (v : V) (h : (THashMap.keys m).Nodup) : (THashMap.keys (THashMap.emplace m a v).1).Nodup := by
  unfold THashMap.emplace
  by_cases hc : THashMap.contains m a = true
  · simpa [hc] using h
  · rw [if_neg hc]
    have hn : a ∉ THashMap.keys m := fun hm => hc ((THashMap.contains_iff_mem_keys m a).2 hm)
    simp only [THashMap.keys, List.map_append, List.map_cons, List.map_nil] at hn ⊢
    rw [List.nodup_append]
    refine ⟨h, by simp, ?_⟩
    intro x hx hx2
    simp at hx2
    subst hx2
    exact hn (by simpa using hx)

theorem THashSet.mem_insert {K : Type} [DecidableEq K] (s : THashSet K) (k x : K) :
    x ∈ THashSet.insert s k ↔ x ∈ s ∨ x = k := by
  unfold THashSet.insert
  by_cases h : k ∈ s
  · simp only [h, if_true]
    constructor
    · intro hx; exact Or.inl hx
    · rintro (hx | hx)
      · exact hx
      · subst hx; exact h
  · simp [h]

theorem THashSet.nodup_insert {K : Type} [DecidableEq K] (s : THashSet K) (k : K)
    (h : s.Nodup) : (THashSet.insert s k).Nodup := by
  unfold THashSet.insert
  by_cases hk : k ∈ s
  · simpa [hk] using h
  · simp only [hk, if_false]
    rw [List.nodup_append]
    refine ⟨h, by simp, ?_⟩
    intro x hx hx2
    simp at hx2
    subst hx2
    exact hk hx

theorem THashSet.length_insert_le {K : Type} [DecidableEq K] (s : THashSet K) (k : K) :
    (THashSet.insert s k).length ≤ s.length + 1 := by
  unfold THashSet.insert
  by_cases hk : k ∈ s <;> simp [hk]

theorem THashSet.mem_erase {K : Type} [DecidableEq K] (s : THashSet K) (k x : K) :
    x ∈ THashSet.erase s k ↔ x ∈ s ∧ x ≠ k := by
  simp [THashSet.erase]

theorem THashSet.length_erase_le {K : Type} [DecidableEq K] (s : THashSet K) (k : K) :
    (THashSet.erase s k).length ≤ s.length := by
  simpa [THashSet.erase] using List.length_filter_le _ s

/-! ## The order of service -/

theorem ServedNoLater_total (a b : TTableShardInfo) : ServedNoLater a b ∨ ServedNoLater b a := by
  unfold ServedNoLater TTableShardInfo.Before TShardIdx.Less
  simp only [Bool.or_eq_false_iff, Bool.and_eq_false_iff, decide_eq_false_iff_not]
  delta TInstant
  omega

theorem ServedNoLater_trans (a b c : TTableShardInfo) (h1 : ServedNoLater a b)
    (h2 : ServedNoLater b c) : ServedNoLater a c := by
  unfold ServedNoLater TTableShardInfo.Before TShardIdx.Less at *
  simp only [Bool.or_eq_false_iff, Bool.and_eq_false_iff, decide_eq_false_iff_not] at *
  delta TInstant at *
  omega

theorem ServedNoLater_of_Before (a b : TTableShardInfo) (h : a.Before b = true) :
    ServedNoLater a b := by
  unfold ServedNoLater TTableShardInfo.Before TShardIdx.Less at *
  simp only [Bool.or_eq_false_iff, Bool.and_eq_false_iff, decide_eq_false_iff_not,
    Bool.or_eq_true, Bool.and_eq_true, decide_eq_true_eq] at *
  delta TInstant at *
  omega


/-! ## State updates -/

theorem SetTable_TableObjs (S : TSchemeShard) (p q : TTablePtr) (t : TTableInfo) :
    (S.SetTable p t).TableObjs q = if q = p then t else S.TableObjs q := by
  simp [TSchemeShard.SetTable, Function.update_apply]

theorem SetTable_TableObjs_same (S : TSchemeShard) (p : TTablePtr) (t : TTableInfo) :
    (S.SetTable p t).TableObjs p = t := by
  simp [SetTable_TableObjs]

theorem SetTable_SetTable (S : TSchemeShard) (p : TTablePtr) (t u : TTableInfo) :
    (S.SetTable p t).SetTable p u = S.SetTable p u := by
  simp [TSchemeShard.SetTable]

theorem SetTable_self (S : TSchemeShard) (p : TTablePtr) :
    S.SetTable p (S.TableObjs p) = S := by
  cases S
  simp [TSchemeShard.SetTable]

theorem WithSched_self (t : TTableInfo) :
    t.WithSched t.InFlightCondErase t.CondEraseSchedule = t := by
  cases t
  rfl

theorem WithSched_WithSched (t : TTableInfo) (a b : THashSet TShardIdx) (c d : List Nat) :
    (t.WithSched a c).WithSched b d = t.WithSched b d := by
  cases t
  rfl

theorem SameCatalog_refl (S : TSchemeShard) : SameCatalog S S := by
  simp [SameCatalog]

theorem SameCatalog_trans (a b c : TSchemeShard) (h1 : SameCatalog a b)
    (h2 : SameCatalog b c) : SameCatalog a c := by
  obtain ⟨a1, a2, a3, a4, a5⟩ := h1
  obtain ⟨b1, b2, b3, b4, b5⟩ := h2
  refine ⟨b1.trans a1, b2.trans a2, b3.trans a3, b4.trans a4, fun q => ?_⟩
  exact ⟨(b5 q).1.trans (a5 q).1, (b5 q).2.1.trans (a5 q).2.1, (b5 q).2.2.trans (a5 q).2.2⟩

theorem SameCatalog_SetTable (S : TSchemeShard) (p : TTablePtr) (t : TTableInfo)
    (h1 : t.Columns = (S.TableObjs p).Columns)
    (h2 : t.KeyColumnIds = (S.TableObjs p).KeyColumnIds)
    (h3 : t.AlterVersion = (S.TableObjs p).AlterVersion) :
    SameCatalog S (S.SetTable p t) := by
  refine ⟨rfl, rfl, rfl, rfl, fun q => ?_⟩
  rw [SetTable_TableObjs]
  by_cases h : q = p
  · subst h; simp [h1, h2, h3]
  · simp [h]

theorem ShardResolves_congr (a b : TSchemeShard) (h : SameCatalog a b) (s : TShardIdx) :
    ShardResolves b s = ShardResolves a s := by
  obtain ⟨h1, h2, h3, _, _⟩ := h
  simp [ShardResolves, h1, h2, h3]

theorem DispatchAttempt_congr (a b : TSchemeShard) (h : SameCatalog a b) (e : TTableShardInfo)
    (ctx : TActorContext) : DispatchAttempt b e ctx = DispatchAttempt a e ctx := by
  simp [DispatchAttempt, ShardResolves_congr a b h]

/-! ## The index mapper reads the catalog only -/

theorem MakeIndexesLoop_congr (a b : TSchemeShard) (h : SameCatalog a b) (mainTable : TTablePtr)
    (children : List (String × TPathId)) (result : THashMap TTableId (List (Nat × Nat))) :
    MakeIndexesLoop b mainTable children result = MakeIndexesLoop a mainTable children result := by
  obtain ⟨h1, h2, h3, h4, h5⟩ := h
  induction children generalizing result with
  | nil => simp [MakeIndexesLoop]
  | cons c rest ih =>
    obtain ⟨c1, c2⟩ := c
    have hcol : ∀ (m i : TTablePtr) (idx : TTableIndexInfo),
        MakeColumnIds (b.TableObjs m) idx (b.TableObjs i) =
          MakeColumnIds (a.TableObjs m) idx (a.TableObjs i) := by
      intro m i idx
      simp [MakeColumnIds, (h5 m).1, (h5 m).2.1, (h5 i).1]
    simp only [MakeIndexesLoop, h2, GetIndex, h4, GetIndexImplTable, h3, hcol, (h5 _).2.2, ih]

theorem MakeIndexes_congr (a b : TSchemeShard) (h : SameCatalog a b) (pathId : TPathId) :
    MakeIndexes b pathId = MakeIndexes a pathId := by
  have hl := MakeIndexesLoop_congr a b h
  obtain ⟨h1, h2, h3, h4, h5⟩ := h
  simp only [MakeIndexes, h2, h3, hl]

theorem IndexCatalogOk_congr (a b : TSchemeShard) (h : SameCatalog a b)
    (hok : IndexCatalogOk a) : IndexCatalogOk b := by
  intro pathId hp ht
  rw [MakeIndexes_congr a b h]
  apply hok pathId
  · rw [← h.2.1]; exact hp
  · rw [← h.2.2.1]; exact ht

/-! ## One dispatch attempt -/

theorem DoExecuteOnShard_spec (tx tx1 : TTxRunConditionalErase) (p : TTablePtr)
    (e : TTableShardInfo) (ctx : TActorContext) (b : Bool)
    (h : DoExecuteOnShard tx p e ctx = some (b, tx1)) :
    tx1.Self = tx.Self ∧ tx1.TableInfo = tx.TableInfo ∧
    b = DispatchAttempt tx.Self e ctx ∧
    (b = false → tx1 = tx) ∧
    (b = true → ∃ info req, THashMap.find tx.Self.ShardInfos e.ShardIdx = some info ∧
        tx1.RunOnTablets = (THashMap.emplace tx.RunOnTablets info.TabletID req).1) := by
  unfold DoExecuteOnShard at h
  unfold DispatchAttempt ShardResolves
  split at h
  · rename_i hdue; simp at h; obtain ⟨rfl, rfl⟩ := h; simp
    intro h1; exact absurd h1 (Nat.not_le.mpr hdue)
  · rename_i hdue
    split at h
    · rename_i hs; simp at h; obtain ⟨rfl, rfl⟩ := h; simp [hs]
    · rename_i info hs
      split at h
      · rename_i hp; simp at h; obtain ⟨rfl, rfl⟩ := h; simp [hs, hp]
      · rename_i path hp
        split at h
        · rename_i hd; simp at h; obtain ⟨rfl, rfl⟩ := h; simp [hs, hp, hd]
        · rename_i hd
          split at h
          · rename_i ht; simp at h; obtain ⟨rfl, rfl⟩ := h; simp [hs, hp, hd]; simp at ht; simp [ht]
          · rename_i ht
            split at h
            · simp at h
            · rename_i indexes hi
              simp at h
              obtain ⟨rfl, rfl⟩ := h
              simp [hs, hp, hd]
              simp at ht hd hdue
              exact ⟨⟨hdue, ht⟩, _, rfl⟩

/-- With a consistent index catalog a dispatch attempt hits no assertion. -/
theorem DoExecuteOnShard_total (tx : TTxRunConditionalErase) (p : TTablePtr)
    (e : TTableShardInfo) (ctx : TActorContext) (hok : IndexCatalogOk tx.Self) :
    ∃ tx1, DoExecuteOnShard tx p e ctx = some (DispatchAttempt tx.Self e ctx, tx1) := by
  cases hres : DoExecuteOnShard tx p e ctx with
  | some r =>
    obtain ⟨b, tx1⟩ := r
    have hb := (DoExecuteOnShard_spec tx tx1 p e ctx b hres).2.2.1
    exact ⟨tx1, by rw [hb]⟩
  | none =>
    exfalso
    unfold DoExecuteOnShard at hres
    split at hres
    · simp at hres
    · split at hres
      · simp at hres
      · rename_i info hs
        split at hres
        · simp at hres
        · rename_i path hp
          split at hres
          · simp at hres
          · split at hres
            · simp at hres
            · rename_i ht
              have := hok info.PathId (by simp [THashMap.contains, hp]) (by simpa using ht)
              split at hres
              · rename_i hm; simp [hm] at this
              · simp at hres


/-! ## The top of the schedule -/

theorem ServedNoLater_refl (a : TTableShardInfo) : ServedNoLater a a := by
  rcases ServedNoLater_total a a with h | h <;> exact h

theorem ScheduleTop_none (P : List TTableShardInfo) (l : List Nat)
    (h : ScheduleTop P l = none) : ∀ j ∈ l, P[j]? = none := by
  induction l with
  | nil => simp
  | cons i rest ih =>
    unfold ScheduleTop at h
    split at h
    · rename_i hi
      intro j hj
      rcases List.mem_cons.1 hj with rfl | hj
      · exact hi
      · exact ih h j hj
    · simp at h
    · split at h <;> simp at h

theorem ScheduleTop_some (P : List TTableShardInfo) (l : List Nat) (i : Nat)
    (e : TTableShardInfo) (h : ScheduleTop P l = some (i, e)) :
    i ∈ l ∧ P[i]? = some e ∧ ∀ j ∈ l, ∀ f, P[j]? = some f → ServedNoLater e f := by
  induction l generalizing i e with
  | nil => simp [ScheduleTop] at h
  | cons a rest ih =>
    unfold ScheduleTop at h
    split at h
    · rename_i ha
      obtain ⟨h1, h2, h3⟩ := ih i e h
      refine ⟨List.mem_cons_of_mem _ h1, h2, ?_⟩
      intro j hj f hf
      rcases List.mem_cons.1 hj with rfl | hj
      · rw [ha] at hf; simp at hf
      · exact h3 j hj f hf
    · rename_i ea ha hr
      simp at h
      obtain ⟨rfl, rfl⟩ := h
      refine ⟨List.mem_cons_self _ _, ha, ?_⟩
      intro j hj f hf
      rcases List.mem_cons.1 hj with rfl | hj
      · rw [ha] at hf
        simp at hf
        subst hf
        exact ServedNoLater_refl _
      · have := ScheduleTop_none P rest hr j hj
        rw [this] at hf; simp at hf
    · rename_i ea j0 f0 ha hr
      obtain ⟨r1, r2, r3⟩ := ih j0 f0 hr
      split at h
      · rename_i hb
        simp at h
        obtain ⟨rfl, rfl⟩ := h
        refine ⟨List.mem_cons_of_mem _ r1, r2, ?_⟩
        intro j hj f hf
        rcases List.mem_cons.1 hj with rfl | hj
        · rw [ha] at hf
          simp at hf
          subst hf
          exact ServedNoLater_of_Before _ _ hb
        · exact r3 j hj f hf
      · rename_i hb
        simp at h
        obtain ⟨rfl, rfl⟩ := h
        refine ⟨List.mem_cons_self _ _, ha, ?_⟩
        intro j hj f hf
        rcases List.mem_cons.1 hj with rfl | hj
        · rw [ha] at hf
          simp at hf
          subst hf
          exact ServedNoLater_refl _
        · have h1 : ServedNoLater ea f0 := by simpa [ServedNoLater] using hb
          exact ServedNoLater_trans _ _ _ h1 (r3 j hj f hf)

theorem GetScheduledCondEraseShard_some (t : TTableInfo) (e : TTableShardInfo)
    (h : t.GetScheduledCondEraseShard = some e) :
    ∃ i, ScheduleTop t.Partitions t.CondEraseSchedule = some (i, e) := by
  unfold TTableInfo.GetScheduledCondEraseShard at h
  cases hs : ScheduleTop t.Partitions t.CondEraseSchedule with
  | none => simp [hs] at h
  | some r =>
    obtain ⟨i, f⟩ := r
    simp [hs] at h
    subst h
    exact ⟨i, rfl⟩

theorem GetScheduledCondEraseShard_none (t : TTableInfo)
    (h : t.GetScheduledCondEraseShard = none) :
    ScheduleTop t.Partitions t.CondEraseSchedule = none := by
  unfold TTableInfo.GetScheduledCondEraseShard at h
  simpa using h

theorem AddInFlightCondErase_eq (t : TTableInfo) (i : Nat) (e : TTableShardInfo)
    (h : ScheduleTop t.Partitions t.CondEraseSchedule = some (i, e)) (s : TShardIdx) :
    t.AddInFlightCondErase s =
      t.WithSched (THashSet.insert t.InFlightCondErase s) (t.CondEraseSchedule.erase i) := by
  simp [TTableInfo.AddInFlightCondErase, TTableInfo.WithSched, h]

theorem RescheduleCondErase_eq (t : TTableInfo) (s : TShardIdx) :
    t.RescheduleCondErase s =
      t.WithSched (THashSet.erase t.InFlightCondErase s)
        (t.CondEraseSchedule ++ (THashMap.find t.Shard2PartitionIdx s).toList) := by
  unfold TTableInfo.RescheduleCondErase TTableInfo.WithSched
  cases THashMap.find t.Shard2PartitionIdx s <;> simp

/-! ## Batches -/

theorem BatchGrows_refl (S : TSchemeShard)
    (b : THashMap TTabletId TEvConditionalEraseRowsRequest) : BatchGrows S b b :=
  ⟨fun _ h => h, fun _ h => Or.inl h, fun h => h⟩

theorem BatchGrows_trans (S : TSchemeShard)
    (a b c : THashMap TTabletId TEvConditionalEraseRowsRequest) (h1 : BatchGrows S a b)
    (h2 : BatchGrows S b c) : BatchGrows S a c := by
  refine ⟨fun k h => h2.1 k (h1.1 k h), fun k h => ?_, fun h => h2.2.2 (h1.2.2 h)⟩
  rcases h2.2.1 k h with h | h
  · exact h1.2.1 k h
  · exact Or.inr h

theorem BatchGrows_congr (a b : TSchemeShard) (h : SameCatalog a b)
    (x y : THashMap TTabletId TEvConditionalEraseRowsRequest) (hg : BatchGrows b x y) :
    BatchGrows a x y := by
  refine ⟨hg.1, fun k hk => ?_, hg.2.2⟩
  rcases hg.2.1 k hk with h1 | ⟨s, info, h1, h2, h3⟩
  · exact Or.inl h1
  · refine Or.inr ⟨s, info, ?_, h2, ?_⟩
    · rw [← h.1]; exact h1
    · rw [← ShardResolves_congr a b h]; exact h3

theorem DoExecuteOnShard_batch (tx tx1 : TTxRunConditionalErase) (p : TTablePtr)
    (e : TTableShardInfo) (ctx : TActorContext) (b : Bool)
    (h : DoExecuteOnShard tx p e ctx = some (b, tx1)) :
    BatchGrows tx.Self tx.RunOnTablets tx1.RunOnTablets ∧
    (b = true → ∃ info, THashMap.find tx.Self.ShardInfos e.ShardIdx = some info ∧
      THashMap.contains tx1.RunOnTablets info.TabletID = true) := by
  obtain ⟨h1, h2, h3, h4, h5⟩ := DoExecuteOnShard_spec tx tx1 p e ctx b h
  cases b with
  | false =>
    rw [h4 rfl]
    exact ⟨BatchGrows_refl _ _, by simp⟩
  | true =>
    obtain ⟨info, req, hi, hr⟩ := h5 rfl
    have hres : ShardResolves tx.Self e.ShardIdx = true := by
      have := h3.symm
      simp [DispatchAttempt] at this
      exact this.2
    refine ⟨⟨?_, ?_, ?_⟩, fun _ => ⟨info, hi, ?_⟩⟩
    · intro k hk
      rw [hr, THashMap.contains_emplace, hk]; rfl
    · intro k hk
      rw [hr, THashMap.contains_emplace] at hk
      simp at hk
      rcases hk with hk | hk
      · exact Or.inl hk
      · exact Or.inr ⟨e.ShardIdx, info, hi, hk, hres⟩
    · intro hn
      rw [hr]
      exact THashMap.keys_emplace_nodup _ _ _ hn
    · rw [hr, THashMap.contains_emplace]; simp


/-! ## The loops of `DoExecuteOnTable` -/

theorem PartitionOf_eq (t : TTableInfo) (s : TShardIdx) (i : Nat) (e : TTableShardInfo)
    (h1 : THashMap.find t.Shard2PartitionIdx s = some i) (h2 : t.Partitions[i]? = some e) :
    t.PartitionOf s = some e := by
  simp [TTableInfo.PartitionOf, h1, h2]

theorem InFlightLoop_spec (p : TTablePtr) (ctx : TActorContext) (l : List TShardIdx)
    (tx tx1 : TTxRunConditionalErase) (r r1 : THashSet TShardIdx)
    (h : InFlightLoop p ctx l tx r = some (tx1, r1)) :
    tx1.Self = tx.Self ∧ tx1.TableInfo = tx.TableInfo ∧
    (∀ s, s ∈ r1 ↔ s ∈ r ∨ (s ∈ l ∧ ∃ e, (tx.Self.TableObjs p).PartitionOf s = some e ∧
        DispatchAttempt tx.Self e ctx = false)) ∧
    (r.Nodup → r1.Nodup) ∧
    (∀ s ∈ l, ∃ e, (tx.Self.TableObjs p).PartitionOf s = some e) ∧
    BatchGrows tx.Self tx.RunOnTablets tx1.RunOnTablets ∧
    (∀ s ∈ l, ∀ e, (tx.Self.TableObjs p).PartitionOf s = some e →
      DispatchAttempt tx.Self e ctx = true →
        ∃ info, THashMap.find tx.Self.ShardInfos e.ShardIdx = some info ∧
          THashMap.contains tx1.RunOnTablets info.TabletID = true) := by
  induction l generalizing tx r with
  | nil =>
    simp [InFlightLoop] at h
    obtain ⟨rfl, rfl⟩ := h
    simp [BatchGrows_refl]
  | cons s0 rest ih =>
    unfold InFlightLoop at h
    split at h
    · simp at h
    · rename_i i hi
      split at h
      · simp at h
      · rename_i e0 he
        have hpo : (tx.Self.TableObjs p).PartitionOf s0 = some e0 := PartitionOf_eq _ _ _ _ hi he
        split at h
        · simp at h
        · rename_i tx2 hd
          obtain ⟨d1, d2, d3, -, -⟩ := DoExecuteOnShard_spec _ _ _ _ _ _ hd
          obtain ⟨g1, g2⟩ := DoExecuteOnShard_batch _ _ _ _ _ _ hd
          obtain ⟨i1, i2, i3, i4, i5, i6, i7⟩ := ih tx2 _ h
          rw [d1] at i3 i5 i6 i7
          refine ⟨i1.trans d1, i2.trans d2, ?_, i4, ?_, BatchGrows_trans _ _ _ _ g1 i6, ?_⟩
          · intro s
            rw [i3 s]
            constructor
            · rintro (hs | ⟨hs, hx⟩)
              · exact Or.inl hs
              · exact Or.inr ⟨List.mem_cons_of_mem _ hs, hx⟩
            · rintro (hs | ⟨hs, e, hx1, hx2⟩)
              · exact Or.inl hs
              · rcases List.mem_cons.1 hs with rfl | hs
                · rw [hpo] at hx1
                  simp at hx1
                  subst hx1
                  rw [← d3] at hx2
                  simp at hx2
                · exact Or.inr ⟨hs, e, hx1, hx2⟩
          · intro s hs
            rcases List.mem_cons.1 hs with rfl | hs
            · exact ⟨e0, hpo⟩
            · exact i5 s hs
          · intro s hs e hx1 hx2
            rcases List.mem_cons.1 hs with rfl | hs
            · rw [hpo] at hx1
              simp at hx1
              subst hx1
              obtain ⟨info, hinfo, hc⟩ := g2 rfl
              exact ⟨info, hinfo, i6.1 _ hc⟩
            · exact i7 s hs e hx1 hx2
        · rename_i tx2 hd
          obtain ⟨d1, d2, d3, -, -⟩ := DoExecuteOnShard_spec _ _ _ _ _ _ hd
          obtain ⟨g1, g2⟩ := DoExecuteOnShard_batch _ _ _ _ _ _ hd
          obtain ⟨i1, i2, i3, i4, i5, i6, i7⟩ := ih tx2 _ h
          rw [d1] at i3 i5 i6 i7
          refine ⟨i1.trans d1, i2.trans d2, ?_, ?_, ?_, BatchGrows_trans _ _ _ _ g1 i6, ?_⟩
          · intro s
            rw [i3 s, THashSet.mem_insert]
            constructor
            · rintro ((hs | rfl) | ⟨hs, hx⟩)
              · exact Or.inl hs
              · exact Or.inr ⟨List.mem_cons_self _ _, e0, hpo, d3.symm⟩
              · exact Or.inr ⟨List.mem_cons_of_mem _ hs, hx⟩
            · rintro (hs | ⟨hs, hx⟩)
              · exact Or.inl (Or.inl hs)
              · rcases List.mem_cons.1 hs with rfl | hs
                · exact Or.inl (Or.inr rfl)
                · exact Or.inr ⟨hs, hx⟩
          · intro hn
            exact i4 (THashSet.nodup_insert _ _ hn)
          · intro s hs
            rcases List.mem_cons.1 hs with rfl | hs
            · exact ⟨e0, hpo⟩
            · exact i5 s hs
          · intro s hs e hx1 hx2
            rcases List.mem_cons.1 hs with rfl | hs
            · rw [hpo] at hx1
              simp at hx1
              subst hx1
              rw [← d3] at hx2
              simp at hx2
            · exact i7 s hs e hx1 hx2

theorem InFlightLoop_total (p : TTablePtr) (ctx : TActorContext) (l : List TShardIdx)
    (tx : TTxRunConditionalErase) (r : THashSet TShardIdx) (hok : IndexCatalogOk tx.Self)
    (hm : ∀ s ∈ l, ∃ (i : Nat) (e : TTableShardInfo),
      THashMap.find (tx.Self.TableObjs p).Shard2PartitionIdx s = some i ∧
        (tx.Self.TableObjs p).Partitions[i]? = some e) :
    ∃ res, InFlightLoop p ctx l tx r = some res := by
  induction l generalizing tx r with
  | nil => exact ⟨_, rfl⟩
  | cons s0 rest ih =>
    obtain ⟨i, e, h1, h2⟩ := hm s0 (List.mem_cons_self _ _)
    obtain ⟨tx2, hd⟩ := DoExecuteOnShard_total tx p e ctx hok
    have hself := (DoExecuteOnShard_spec _ _ _ _ _ _ hd).1
    have hm2 : ∀ s ∈ rest, ∃ (i : Nat) (e : TTableShardInfo),
        THashMap.find (tx2.Self.TableObjs p).Shard2PartitionIdx s = some i ∧
          (tx2.Self.TableObjs p).Partitions[i]? = some e := by
      intro s hs
      rw [hself]
      exact hm s (List.mem_cons_of_mem _ hs)
    have hok2 : IndexCatalogOk tx2.Self := by rw [hself]; exact hok
    unfold InFlightLoop
    simp only [TTableInfo.GetShard2PartitionIdx, TTableInfo.GetPartitions, h1, h2, hd]
    cases DispatchAttempt tx.Self e ctx with
    | true => exact ih tx2 r hok2 hm2
    | false => exact ih tx2 _ hok2 hm2

theorem RescheduleLoop_eq (p : TTablePtr) (l : List TShardIdx) (tx : TTxRunConditionalErase) :
    RescheduleLoop p l tx =
      { tx with
        Self := tx.Self.SetTable p
          ((tx.Self.TableObjs p).WithSched
            ((tx.Self.TableObjs p).InFlightCondErase.filter (fun x => decide (x ∉ l)))
            ((tx.Self.TableObjs p).CondEraseSchedule ++
              l.filterMap (THashMap.find (tx.Self.TableObjs p).Shard2PartitionIdx))) } := by
  induction l generalizing tx with
  | nil =>
    simp [RescheduleLoop, WithSched_self, SetTable_self]
  | cons s rest ih =>
    unfold RescheduleLoop
    rw [ih]
    simp only [SetTable_TableObjs_same, SetTable_SetTable, RescheduleCondErase_eq,
      WithSched_WithSched]
    congr 2
    simp only [TTableInfo.WithSched, THashSet.erase, List.filter_filter, List.append_assoc]
    congr 1
    · apply List.filter_congr
      intro x _
      simp
      exact Bool.and_comm _ _
    · cases hf : THashMap.find (tx.Self.TableObjs p).Shard2PartitionIdx s <;>
        simp [List.filterMap_cons, hf]


theorem WithSched_InFlightCondErase (t : TTableInfo) (a : THashSet TShardIdx) (c : List Nat) :
    (t.WithSched a c).InFlightCondErase = a := rfl

theorem WithSched_CondEraseSchedule (t : TTableInfo) (a : THashSet TShardIdx) (c : List Nat) :
    (t.WithSched a c).CondEraseSchedule = c := rfl

theorem WithSched_Partitions (t : TTableInfo) (a : THashSet TShardIdx) (c : List Nat) :
    (t.WithSched a c).Partitions = t.Partitions := rfl

theorem WithSched_Shard2PartitionIdx (t : TTableInfo) (a : THashSet TShardIdx) (c : List Nat) :
    (t.WithSched a c).Shard2PartitionIdx = t.Shard2PartitionIdx := rfl

theorem WithSched_TTLSettings (t : TTableInfo) (a : THashSet TShardIdx) (c : List Nat) :
    (t.WithSched a c).TTLSettings = t.TTLSettings := rfl

theorem SetTable_ShardInfos (S : TSchemeShard) (p : TTablePtr) (t : TTableInfo) :
    (S.SetTable p t).ShardInfos = S.ShardInfos := rfl

theorem DispatchAttempt_SetTable (S : TSchemeShard) (p : TTablePtr) (t : TTableInfo)
    (e : TTableShardInfo) (ctx : TActorContext) :
    DispatchAttempt (S.SetTable p t) e ctx = DispatchAttempt S e ctx := by
  simp [DispatchAttempt, ShardResolves, TSchemeShard.SetTable]

theorem BatchGrows_SetTable (S : TSchemeShard) (p : TTablePtr) (t : TTableInfo)
    (x y : THashMap TTabletId TEvConditionalEraseRowsRequest) :
    BatchGrows (S.SetTable p t) x y ↔ BatchGrows S x y := by
  simp [BatchGrows, ShardResolves, TSchemeShard.SetTable]

theorem DispatchLoop_spec (p : TTablePtr) (ctx : TActorContext) (m fuel : Nat)
    (tx tx1 : TTxRunConditionalErase) (h : DispatchLoop p ctx m fuel tx = some tx1) :
    ∃ D : List (Nat × TTableShardInfo),
      tx1.Self = tx.Self.SetTable p ((tx.Self.TableObjs p).WithSched
        ((D.map (fun d => d.2.ShardIdx)).foldl THashSet.insert
          (tx.Self.TableObjs p).InFlightCondErase)
        ((D.map Prod.fst).foldl List.erase (tx.Self.TableObjs p).CondEraseSchedule)) ∧
      tx1.TableInfo = tx.TableInfo ∧
      (∀ d ∈ D, (tx.Self.TableObjs p).Partitions[d.1]? = some d.2 ∧
        DispatchAttempt tx.Self d.2 ctx = true) ∧
      (D.map Prod.fst ++ (tx1.Self.TableObjs p).CondEraseSchedule).Perm
        (tx.Self.TableObjs p).CondEraseSchedule ∧
      (D.map Prod.snd).Pairwise ServedNoLater ∧
      (∀ d ∈ D, ∀ j ∈ (tx1.Self.TableObjs p).CondEraseSchedule, ∀ f,
        (tx.Self.TableObjs p).Partitions[j]? = some f → ServedNoLater d.2 f) ∧
      ((m ≠ 0 ∧ (tx1.Self.TableObjs p).InFlightCondErase.length ≥ m) ∨
        ScheduleTop (tx1.Self.TableObjs p).Partitions
          (tx1.Self.TableObjs p).CondEraseSchedule = none ∨
        ∃ i e, ScheduleTop (tx1.Self.TableObjs p).Partitions
          (tx1.Self.TableObjs p).CondEraseSchedule = some (i, e) ∧
            DispatchAttempt tx.Self e ctx = false) ∧
      BatchGrows tx.Self tx.RunOnTablets tx1.RunOnTablets ∧
      (∀ d ∈ D, ∃ info, THashMap.find tx.Self.ShardInfos d.2.ShardIdx = some info ∧
        THashMap.contains tx1.RunOnTablets info.TabletID = true) ∧
      (m ≠ 0 → (tx.Self.TableObjs p).InFlightCondErase.length ≤ m →
        (tx1.Self.TableObjs p).InFlightCondErase.length ≤ m) := by
  induction fuel generalizing tx with
  | zero => simp [DispatchLoop] at h
  | succ fuel ih =>
    unfold DispatchLoop at h
    have hstay : tx.Self = tx.Self.SetTable p ((tx.Self.TableObjs p).WithSched
        (([] : List (Nat × TTableShardInfo)).map (fun d => d.2.ShardIdx) |>.foldl THashSet.insert
          (tx.Self.TableObjs p).InFlightCondErase)
        ((([] : List (Nat × TTableShardInfo)).map Prod.fst).foldl List.erase
          (tx.Self.TableObjs p).CondEraseSchedule)) := by
      simp [WithSched_self, SetTable_self]
    split at h
    · rename_i hcap
      simp at h
      subst h
      refine ⟨[], hstay, rfl, by simp, by simp, by simp, by simp, Or.inl ?_,
        BatchGrows_refl _ _, by simp, fun _ hh => hh⟩
      simpa [THashSet.size, TTableInfo.GetInFlightCondErase] using hcap
    · rename_i hcap
      split at h
      · rename_i hnone
        simp at h
        subst h
        refine ⟨[], hstay, rfl, by simp, by simp, by simp, by simp, Or.inr (Or.inl ?_),
          BatchGrows_refl _ _, by simp, fun _ hh => hh⟩
        exact GetScheduledCondEraseShard_none _ hnone
      · rename_i e hsome
        obtain ⟨i, htop⟩ := GetScheduledCondEraseShard_some _ _ hsome
        split at h
        · simp at h
        · rename_i tx2 hd
          simp at h
          subst h
          obtain ⟨-, -, d3, d4, -⟩ := DoExecuteOnShard_spec _ _ _ _ _ _ hd
          have := d4 rfl
          subst this
          refine ⟨[], hstay, rfl, by simp, by simp, by simp, by simp,
            Or.inr (Or.inr ⟨i, e, htop, d3.symm⟩), BatchGrows_refl _ _, by simp, fun _ hh => hh⟩
        · rename_i tx2 hd
          obtain ⟨d1, d2, d3, -, -⟩ := DoExecuteOnShard_spec _ _ _ _ _ _ hd
          obtain ⟨g1, g2⟩ := DoExecuteOnShard_batch _ _ _ _ _ _ hd
          obtain ⟨D, i1, i2, i3, i4, i5, i6, i7, i8, i9, i10⟩ := ih _ h
          have hadd := AddInFlightCondErase_eq (tx.Self.TableObjs p) i e htop e.ShardIdx
          obtain ⟨t1, t2, t3⟩ := ScheduleTop_some _ _ _ _ htop
          simp only [d1, SetTable_TableObjs_same, SetTable_SetTable, hadd, WithSched_WithSched,
            WithSched_InFlightCondErase, WithSched_CondEraseSchedule, WithSched_Partitions,
            DispatchAttempt_SetTable, BatchGrows_SetTable, SetTable_ShardInfos]
            at i1 i3 i4 i6 i7 i8 i9 i10
          have hsub : ∀ j, j ∈ D.map Prod.fst ++ (tx1.Self.TableObjs p).CondEraseSchedule →
              j ∈ (tx.Self.TableObjs p).CondEraseSchedule := by
            intro j hj
            exact List.mem_of_mem_erase ((i4.mem_iff).1 hj)
          refine ⟨(i, e) :: D, ?_, i2.trans d2, ?_, ?_, ?_, ?_, i7, BatchGrows_trans _ _ _ _ g1 i8,
            ?_, ?_⟩
          · simpa using i1
          · intro d hd
            rcases List.mem_cons.1 hd with rfl | hd
            · exact ⟨t2, d3.symm⟩
            · exact i3 d hd
          · simp only [List.map_cons, List.cons_append]
            exact (List.Perm.cons i i4).trans (List.perm_cons_erase t1).symm
          · simp only [List.map_cons, List.pairwise_cons]
            refine ⟨?_, i5⟩
            intro f hf
            obtain ⟨d, hd, rfl⟩ := List.mem_map.1 hf
            apply t3 d.1 _ d.2 (i3 d hd).1
            apply hsub
            exact List.mem_append_left _ (List.mem_map_of_mem _ hd)
          · intro d hd j hj f hf
            rcases List.mem_cons.1 hd with rfl | hd
            · exact t3 j (hsub j (List.mem_append_right _ hj)) f hf
            · exact i6 d hd j hj f hf
          · intro d hd
            rcases List.mem_cons.1 hd with rfl | hd
            · obtain ⟨info, hinfo, hc⟩ := g2 rfl
              exact ⟨info, hinfo, i8.1 _ hc⟩
            · exact i9 d hd
          · intro hm hlen
            apply i10 hm
            have hlt : (tx.Self.TableObjs p).InFlightCondErase.length < m := by
              simp only [THashSet.size, TTableInfo.GetInFlightCondErase, not_and, not_le] at hcap
              exact hcap hm
            have := THashSet.length_insert_le (tx.Self.TableObjs p).InFlightCondErase e.ShardIdx
            omega


theorem IndexCatalogOk_SetTable_WithSched (S : TSchemeShard) (p : TTablePtr)
    (a : THashSet TShardIdx) (c : List Nat) (hok : IndexCatalogOk S) :
    IndexCatalogOk (S.SetTable p ((S.TableObjs p).WithSched a c)) :=
  IndexCatalogOk_congr S _ (SameCatalog_SetTable S p _ rfl rfl rfl) hok

/-- The fuel of the dispatch loop is never exhausted above the schedule length. -/
theorem DispatchLoop_total (p : TTablePtr) (ctx : TActorContext) (m fuel : Nat)
    (tx : TTxRunConditionalErase) (hok : IndexCatalogOk tx.Self)
    (hf : (tx.Self.TableObjs p).CondEraseSchedule.length < fuel) :
    ∃ tx1, DispatchLoop p ctx m fuel tx = some tx1 := by
  induction fuel generalizing tx with
  | zero => exact absurd hf (Nat.not_lt_zero _)
  | succ fuel ih =>
    unfold DispatchLoop
    split
    · exact ⟨_, rfl⟩
    · split
      · exact ⟨_, rfl⟩
      · rename_i e hsome
        obtain ⟨i, htop⟩ := GetScheduledCondEraseShard_some _ _ hsome
        obtain ⟨tx2, hd⟩ := DoExecuteOnShard_total tx p e ctx hok
        obtain ⟨d1, -, -, -, -⟩ := DoExecuteOnShard_spec _ _ _ _ _ _ hd
        rw [hd]
        cases DispatchAttempt tx.Self e ctx with
        | false => exact ⟨_, rfl⟩
        | true =>
          simp only
          apply ih
          · simp only [d1, AddInFlightCondErase_eq _ i e htop]
            exact IndexCatalogOk_SetTable_WithSched _ _ _ _ hok
          · simp only [d1, AddInFlightCondErase_eq _ i e htop, SetTable_TableObjs_same,
              WithSched_CondEraseSchedule]
            have hmem := (ScheduleTop_some _ _ _ _ htop).1
            rw [List.length_erase_of_mem hmem]
            have : 0 < (tx.Self.TableObjs p).CondEraseSchedule.length :=
              List.length_pos_of_mem hmem
            omega

/-- The result of the dispatch loop does not depend on the fuel, once it
    exceeds the schedule length. -/
theorem DispatchLoop_fuel (p : TTablePtr) (ctx : TActorContext) (m fuel1 fuel2 : Nat)
    (tx : TTxRunConditionalErase)
    (h1 : (tx.Self.TableObjs p).CondEraseSchedule.length < fuel1)
    (h2 : (tx.Self.TableObjs p).CondEraseSchedule.length < fuel2) :
    DispatchLoop p ctx m fuel1 tx = DispatchLoop p ctx m fuel2 tx := by
  induction fuel1 generalizing tx fuel2 with
  | zero => exact absurd h1 (Nat.not_lt_zero _)
  | succ fuel1 ih =>
    cases fuel2 with
    | zero => exact absurd h2 (Nat.not_lt_zero _)
    | succ fuel2 =>
      unfold DispatchLoop
      split
      · rfl
      · split
        · rfl
        · rename_i e hsome
          obtain ⟨i, htop⟩ := GetScheduledCondEraseShard_some _ _ hsome
          cases hd : DoExecuteOnShard tx p e ctx with
          | none => rfl
          | some r =>
            obtain ⟨b, tx2⟩ := r
            obtain ⟨d1, -, -, -, -⟩ := DoExecuteOnShard_spec _ _ _ _ _ _ hd
            cases b with
            | false => rfl
            | true =>
              simp only
              have hmem := (ScheduleTop_some _ _ _ _ htop).1
              have hpos : 0 < (tx.Self.TableObjs p).CondEraseSchedule.length :=
                List.length_pos_of_mem hmem
              apply ih
              · simp only [d1, AddInFlightCondErase_eq _ i e htop, SetTable_TableObjs_same,
                  WithSched_CondEraseSchedule]
                rw [List.length_erase_of_mem hmem]
                omega
              · simp only [d1, AddInFlightCondErase_eq _ i e htop, SetTable_TableObjs_same,
                  WithSched_CondEraseSchedule]
                rw [List.length_erase_of_mem hmem]
                omega

theorem DoExecuteOnTable_disabled (tx : TTxRunConditionalErase) (p : TTablePtr)
    (ctx : TActorContext) (h : (tx.Self.TableObjs p).TTLSettings = none) :
    DoExecuteOnTable tx p ctx = some tx := by
  simp [DoExecuteOnTable, TTableInfo.IsTTLEnabled, h]

theorem DoExecuteOnTable_enabled (tx tx3 : TTxRunConditionalErase) (p : TTablePtr)
    (ctx : TActorContext) (st : TTTLSettingsEnabled)
    (hst : (tx.Self.TableObjs p).TTLSettings = some st)
    (h : DoExecuteOnTable tx p ctx = some tx3) :
    ∃ tx1 R, InFlightLoop p ctx (tx.Self.TableObjs p).InFlightCondErase tx [] = some (tx1, R) ∧
      DispatchLoop p ctx st.SysSettings.MaxShardsInFlight
        (((RescheduleLoop p R tx1).Self.TableObjs p).CondEraseSchedule.length + 1)
        (RescheduleLoop p R tx1) = some tx3 := by
  unfold DoExecuteOnTable at h
  simp only [TTableInfo.IsTTLEnabled, hst, Option.isSome_some, Bool.not_true] at h
  simp only [Bool.false_eq_true, if_false, TTableInfo.GetInFlightCondErase] at h
  split at h
  · simp at h
  · rename_i tx1 R hl
    refine ⟨tx1, R, hl, ?_⟩
    obtain ⟨l1, -⟩ := InFlightLoop_spec _ _ _ _ _ _ _ hl
    have hset : ((RescheduleLoop p R tx1).Self.TableObjs p).GetEnabled = st := by
      rw [RescheduleLoop_eq]
      simp [SetTable_TableObjs_same, TTableInfo.GetEnabled, WithSched_TTLSettings, l1, hst]
    simpa [hset] using h

theorem DoExecuteOnTable_total (tx : TTxRunConditionalErase) (p : TTablePtr)
    (ctx : TActorContext) (hok : IndexCatalogOk tx.Self)
    (hm : InFlightMapped (tx.Self.TableObjs p)) :
    ∃ tx3, DoExecuteOnTable tx p ctx = some tx3 := by
  unfold DoExecuteOnTable
  split
  · exact ⟨_, rfl⟩
  · obtain ⟨res, hl⟩ := InFlightLoop_total p ctx (tx.Self.TableObjs p).InFlightCondErase tx []
      hok hm
    obtain ⟨tx1, R⟩ := res
    obtain ⟨l1, -⟩ := InFlightLoop_spec _ _ _ _ _ _ _ hl
    simp only [TTableInfo.GetInFlightCondErase, hl]
    apply DispatchLoop_total
    · rw [RescheduleLoop_eq]
      simp only [l1]
      exact IndexCatalogOk_SetTable_WithSched _ _ _ _ hok
    · exact Nat.lt_succ_self _


/-! ## The reconciler -/

theorem ScheduleNextCondErase_eq (t : TTableInfo) (s : TShardIdx) (now : TInstant)
    (next : TDuration) (idx : Nat) (e : TTableShardInfo)
    (h1 : THashMap.find t.Shard2PartitionIdx s = some idx) (h2 : t.Partitions[idx]? = some e) :
    t.ScheduleNextCondErase s now next =
      { t with
        Partitions := t.Partitions.set idx
          { e with NextCondErase := now + next
                   LastCondEraseLag := some (now - e.NextCondErase) }
        CondEraseSchedule := t.CondEraseSchedule ++ [idx]
        InFlightCondErase := THashSet.erase t.InFlightCondErase s } := by
  simp [TTableInfo.ScheduleNextCondErase, h1, h2]

theorem AddToLagCounter_TableObjs (S : TSchemeShard) (k : Nat) (d : Int) :
    (S.AddToLagCounter k d).TableObjs = S.TableObjs := rfl

theorem PersistTablePartitionCondErase_TableObjs (S : TSchemeShard) (a : TPathId) (i : Nat)
    (p : TTablePtr) : (S.PersistTablePartitionCondErase a i p).TableObjs = S.TableObjs := rfl

/-- The accepted case of `Execute`: what it returns, field by field. -/
theorem Execute_accept (tx : TTxScheduleConditionalErase) (ctx : TActorContext)
    (info : TShardInfo) (p : TTablePtr) (st : TTTLSettingsEnabled) (next : TDuration)
    (idx : Nat) (e : TTableShardInfo)
    (hflag : tx.Self.AllowConditionalEraseOperations = true)
    (hinfo : THashMap.find tx.Self.ShardInfos (tx.Self.GetShardIdx tx.Ev.TabletID) = some info)
    (hp : THashMap.find tx.Self.TTLEnabledTables info.PathId = some p)
    (hst : (tx.Self.TableObjs p).TTLSettings = some st)
    (hin : tx.Self.GetShardIdx tx.Ev.TabletID ∈ (tx.Self.TableObjs p).InFlightCondErase)
    (hnext : TTxScheduleConditionalErase.SwitchStatus st.SysSettings tx.Ev.Status = some next)
    (hidx : THashMap.find (tx.Self.TableObjs p).Shard2PartitionIdx
      (tx.Self.GetShardIdx tx.Ev.TabletID) = some idx)
    (he : (tx.Self.TableObjs p).Partitions[idx]? = some e) :
    ∃ tx1, TTxScheduleConditionalErase.Execute tx ctx = some tx1 ∧
      tx1.TableInfo = some p ∧
      tx1.Self.TableObjs = Function.update tx.Self.TableObjs p
        ((tx.Self.TableObjs p).ScheduleNextCondErase (tx.Self.GetShardIdx tx.Ev.TabletID)
          ctx.Now next) ∧
      tx1.Self.AllowConditionalEraseOperations = tx.Self.AllowConditionalEraseOperations ∧
      tx1.Self.ShardInfos = tx.Self.ShardInfos ∧
      tx1.Self.TabletIdToShardIdx = tx.Self.TabletIdToShardIdx ∧
      tx1.Self.PathsById = tx.Self.PathsById ∧ tx1.Self.Tables = tx.Self.Tables ∧
      tx1.Self.Indexes = tx.Self.Indexes ∧
      tx1.Self.TTLEnabledTables = tx.Self.TTLEnabledTables := by
  have hlt : idx < (tx.Self.TableObjs p).Partitions.length := by
    rcases List.getElem?_eq_some.1 he with ⟨h, -⟩
    exact h
  unfold TTxScheduleConditionalErase.Execute
  simp only [hflag, Bool.not_true, Bool.false_eq_true, if_false, hinfo, hp,
    TTableInfo.IsTTLEnabled, hst, Option.isSome_some, TTableInfo.GetInFlightCondErase,
    THashSet.contains, hin, decide_True, TTableInfo.GetEnabled, Option.getD_some, hnext,
    TTableInfo.GetShard2PartitionIdx, hidx, TTableInfo.GetPartitions, he]
  cases hlag : e.LastCondEraseLag with
  | none =>
    simp [TSchemeShard.PersistTablePartitionCondErase, TSchemeShard.AddToLagCounter,
      TSchemeShard.SetTable, ScheduleNextCondErase_eq _ _ _ _ _ _ hidx he, hlt, hflag]
  | some lag =>
    simp [TSchemeShard.PersistTablePartitionCondErase, TSchemeShard.AddToLagCounter,
      TSchemeShard.SetTable, ScheduleNextCondErase_eq _ _ _ _ _ _ hidx he, hlt, hflag]

/-- A response is either discarded (the transaction is returned untouched) or
    accepted under the conditions of `Execute_accept`. -/
theorem Execute_cases (tx tx1 : TTxScheduleConditionalErase) (ctx : TActorContext)
    (h : TTxScheduleConditionalErase.Execute tx ctx = some tx1) :
    tx1 = tx ∨
    ∃ (info : TShardInfo) (p : TTablePtr) (st : TTTLSettingsEnabled) (next : TDuration)
      (idx : Nat) (e : TTableShardInfo),
      tx.Self.AllowConditionalEraseOperations = true ∧
      THashMap.find tx.Self.ShardInfos (tx.Self.GetShardIdx tx.Ev.TabletID) = some info ∧
      THashMap.find tx.Self.TTLEnabledTables info.PathId = some p ∧
      (tx.Self.TableObjs p).TTLSettings = some st ∧
      tx.Self.GetShardIdx tx.Ev.TabletID ∈ (tx.Self.TableObjs p).InFlightCondErase ∧
      TTxScheduleConditionalErase.SwitchStatus st.SysSettings tx.Ev.Status = some next ∧
      THashMap.find (tx.Self.TableObjs p).Shard2PartitionIdx
        (tx.Self.GetShardIdx tx.Ev.TabletID) = some idx ∧
      (tx.Self.TableObjs p).Partitions[idx]? = some e := by
  unfold TTxScheduleConditionalErase.Execute at h
  split at h
  · simp at h; exact Or.inl h.symm
  · rename_i hflag
    simp only [] at h
    split at h
    · simp at h; exact Or.inl h.symm
    · rename_i info hinfo
      split at h
      · simp at h; exact Or.inl h.symm
      · rename_i p hp
        split at h
        · simp at h; exact Or.inl h.symm
        · rename_i hen
          split at h
          · simp at h; exact Or.inl h.symm
          · rename_i hin
            split at h
            · simp at h; exact Or.inl h.symm
            · rename_i next hnext
              split at h
              · simp at h
              · rename_i idx hidx
                split at h
                · simp at h
                · rename_i e he
                  right
                  cases hst : (tx.Self.TableObjs p).TTLSettings with
                  | none => simp [TTableInfo.IsTTLEnabled, hst] at hen
                  | some st =>
                    refine ⟨info, p, st, next, idx, e, by simpa using hflag, hinfo, hp, hst,
                      ?_, ?_, hidx, he⟩
                    · simpa [THashSet.contains, TTableInfo.GetInFlightCondErase] using hin
                    · simpa [TTableInfo.GetEnabled, hst] using hnext


/-! ## The frame of the dispatcher -/

/-- `DoExecuteOnTable` writes the in-flight set and the schedule of its table
    and nothing else, and respects the cap of the table. -/
theorem DoExecuteOnTable_frame (tx tx3 : TTxRunConditionalErase) (q : TTablePtr)
    (ctx : TActorContext) (h : DoExecuteOnTable tx q ctx = some tx3) :
    ∃ (a : THashSet TShardIdx) (c : List Nat),
      tx3.Self = tx.Self.SetTable q ((tx.Self.TableObjs q).WithSched a c) ∧
      tx3.TableInfo = tx.TableInfo ∧
      BatchGrows tx.Self tx.RunOnTablets tx3.RunOnTablets ∧
      (∀ st : TTTLSettingsEnabled, (tx.Self.TableObjs q).TTLSettings = some st →
        st.SysSettings.MaxShardsInFlight ≠ 0 →
        (tx.Self.TableObjs q).InFlightCondErase.length ≤ st.SysSettings.MaxShardsInFlight →
        a.length ≤ st.SysSettings.MaxShardsInFlight) := by
  cases hst : (tx.Self.TableObjs q).TTLSettings with
  | none =>
    rw [DoExecuteOnTable_disabled tx q ctx hst] at h
    simp at h
    subst h
    refine ⟨(tx.Self.TableObjs q).InFlightCondErase, (tx.Self.TableObjs q).CondEraseSchedule,
      ?_, rfl, BatchGrows_refl _ _, ?_⟩
    · simp [WithSched_self, SetTable_self]
    · intro st hs; simp at hs
  | some st =>
    obtain ⟨tx1, R, hl, hd⟩ := DoExecuteOnTable_enabled tx tx3 q ctx st hst h
    obtain ⟨l1, l2, -, -, -, l6, -⟩ := InFlightLoop_spec _ _ _ _ _ _ _ hl
    obtain ⟨D, i1, i2, -, -, -, -, -, i8, -, i10⟩ := DispatchLoop_spec _ _ _ _ _ _ hd
    rw [RescheduleLoop_eq] at i1 i2 i8 i10
    simp only [l1, SetTable_TableObjs_same, SetTable_SetTable, WithSched_WithSched,
      WithSched_InFlightCondErase, WithSched_CondEraseSchedule, BatchGrows_SetTable] at i1 i8 i10
    refine ⟨_, _, i1, i2.trans l2, BatchGrows_trans _ _ _ _ l6 i8, ?_⟩
    intro st2 hst2 hne hlen
    simp only [Option.some.injEq] at hst2
    subst hst2
    have := i10 hne (le_trans (List.length_filter_le _ _) hlen)
    rw [i1, SetTable_TableObjs_same, WithSched_InFlightCondErase] at this
    exact this

/-- The cap of table `p` survives a dispatcher run on any table `q`. -/
theorem DoExecuteOnTable_bound (tx tx3 : TTxRunConditionalErase) (p q : TTablePtr)
    (ctx : TActorContext) (st : TTTLSettingsEnabled)
    (h : DoExecuteOnTable tx q ctx = some tx3)
    (hst : (tx.Self.TableObjs p).TTLSettings = some st)
    (hne : st.SysSettings.MaxShardsInFlight ≠ 0)
    (hlen : (tx.Self.TableObjs p).InFlightCondErase.length ≤ st.SysSettings.MaxShardsInFlight) :
    (tx3.Self.TableObjs p).TTLSettings = some st ∧
    (tx3.Self.TableObjs p).InFlightCondErase.length ≤ st.SysSettings.MaxShardsInFlight := by
  obtain ⟨a, c, h1, -, -, h4⟩ := DoExecuteOnTable_frame tx tx3 q ctx h
  rw [h1, SetTable_TableObjs]
  by_cases hpq : p = q
  · subst hpq
    simp only [if_true, WithSched_TTLSettings, WithSched_InFlightCondErase]
    exact ⟨hst, h4 st hst hne hlen⟩
  · simp only [hpq, if_false]
    exact ⟨hst, hlen⟩

theorem DoExecuteAll_bound (ctx : TActorContext) (l : List (TPathId × TTablePtr))
    (tx tx3 : TTxRunConditionalErase) (p : TTablePtr) (st : TTTLSettingsEnabled)
    (h : DoExecuteAll ctx l tx = some tx3)
    (hst : (tx.Self.TableObjs p).TTLSettings = some st)
    (hne : st.SysSettings.MaxShardsInFlight ≠ 0)
    (hlen : (tx.Self.TableObjs p).InFlightCondErase.length ≤ st.SysSettings.MaxShardsInFlight) :
    (tx3.Self.TableObjs p).TTLSettings = some st ∧
    (tx3.Self.TableObjs p).InFlightCondErase.length ≤ st.SysSettings.MaxShardsInFlight := by
  induction l generalizing tx with
  | nil =>
    simp [DoExecuteAll] at h
    subst h
    exact ⟨hst, hlen⟩
  | cons x rest ih =>
    obtain ⟨x1, x2⟩ := x
    unfold DoExecuteAll at h
    split at h
    · simp at h
    · rename_i tx1 h1
      obtain ⟨b1, b2⟩ := DoExecuteOnTable_bound tx tx1 p x2 ctx st h1 hst hne hlen
      exact ih tx1 h b1 b2

theorem DoExecute_bound (ctx : TActorContext) (tx tx3 : TTxRunConditionalErase)
    (p : TTablePtr) (st : TTTLSettingsEnabled) (h : DoExecute tx ctx = some tx3)
    (hst : (tx.Self.TableObjs p).TTLSettings = some st)
    (hne : st.SysSettings.MaxShardsInFlight ≠ 0)
    (hlen : (tx.Self.TableObjs p).InFlightCondErase.length ≤ st.SysSettings.MaxShardsInFlight) :
    (tx3.Self.TableObjs p).TTLSettings = some st ∧
    (tx3.Self.TableObjs p).InFlightCondErase.length ≤ st.SysSettings.MaxShardsInFlight := by
  unfold DoExecute at h
  split at h
  · simp at h; subst h; exact ⟨hst, hlen⟩
  · split at h
    · exact DoExecuteAll_bound ctx _ tx tx3 p st h hst hne hlen
    · exact DoExecuteOnTable_bound tx tx3 p _ ctx st h hst hne hlen

theorem ScheduleNextCondErase_TTLSettings (t : TTableInfo) (s : TShardIdx) (now : TInstant)
    (next : TDuration) : (t.ScheduleNextCondErase s now next).TTLSettings = t.TTLSettings := by
  unfold TTableInfo.ScheduleNextCondErase
  split
  · rfl
  · split <;> rfl

theorem ScheduleNextCondErase_InFlightCondErase (t : TTableInfo) (s : TShardIdx)
    (now : TInstant) (next : TDuration) :
    (t.ScheduleNextCondErase s now next).InFlightCondErase =
      THashSet.erase t.InFlightCondErase s := by
  unfold TTableInfo.ScheduleNextCondErase
  split
  · rfl
  · split <;> rfl

theorem Execute_bound (ctx : TActorContext) (tx tx3 : TTxScheduleConditionalErase)
    (p : TTablePtr) (st : TTTLSettingsEnabled)
    (h : TTxScheduleConditionalErase.Execute tx ctx = some tx3)
    (hst : (tx.Self.TableObjs p).TTLSettings = some st)
    (hlen : (tx.Self.TableObjs p).InFlightCondErase.length ≤ st.SysSettings.MaxShardsInFlight) :
    (tx3.Self.TableObjs p).TTLSettings = some st ∧
    (tx3.Self.TableObjs p).InFlightCondErase.length ≤ st.SysSettings.MaxShardsInFlight := by
  rcases Execute_cases tx tx3 ctx h with rfl | ⟨info, q, stq, next, idx, e, c1, c2, c3, c4, c5,
    c6, c7, c8⟩
  · exact ⟨hst, hlen⟩
  · obtain ⟨tx4, a1, -, a3, -⟩ := Execute_accept tx ctx info q stq next idx e c1 c2 c3 c4 c5 c6
      c7 c8
    rw [h] at a1
    simp at a1
    subst a1
    rw [a3, Function.update_apply]
    by_cases hpq : p = q
    · subst hpq
      simp only [if_true, ScheduleNextCondErase_TTLSettings,
        ScheduleNextCondErase_InFlightCondErase]
      exact ⟨hst, le_trans (THashSet.length_erase_le _ _) hlen⟩
    · simp only [hpq, if_false]
      exact ⟨hst, hlen⟩

/-- C1 (concurrency bound). For a TTL-enabled table whose cap
    `MaxShardsInFlight` is `K > 0`, started with at most `K` shards in flight (in
    particular with none), every state reached by any sequence of `RunDue` and
    `OnEraseResponse` transactions keeps the same settings and has at most `K`
    shards in flight; and one `RunDue`, for the table or for all, started with
    at most `K` shards in flight ends with at most `K`. -/
theorem concurrency_bound (start fin : TSchemeShard) (p : TTablePtr)
    (st : TTTLSettingsEnabled) (K : Nat) (hK : 0 < K)
    (hst : (start.TableObjs p).TTLSettings = some st)
    (hmax : st.SysSettings.MaxShardsInFlight = K)
    (hlen : THashSet.size (start.TableObjs p).InFlightCondErase ≤ K)
    (hreach : Reachable start fin) :
    ((fin.TableObjs p).TTLSettings = some st ∧
      THashSet.size (fin.TableObjs p).InFlightCondErase ≤ K) ∧
    ∀ (tableInfo : Option TTablePtr) (ctx : TActorContext) (tx : TTxRunConditionalErase),
      RunDue start tableInfo ctx = some tx →
        THashSet.size (tx.Self.TableObjs p).InFlightCondErase ≤ K := by
  subst hmax
  have hne : st.SysSettings.MaxShardsInFlight ≠ 0 := Nat.pos_iff_ne_zero.1 hK
  constructor
  · induction hreach with
    | refl => exact ⟨hst, hlen⟩
    | step mid fin _ s ih =>
      obtain ⟨m1, m2⟩ := ih
      cases s with
      | runDue tableInfo ctx tx h =>
        exact DoExecute_bound ctx _ tx p st h m1 hne m2
      | onEraseResponse ev ctx tx h =>
        exact Execute_bound ctx _ tx p st h m1 m2
  · intro tableInfo ctx tx h
    exact (DoExecute_bound ctx _ tx p st h hst hne hlen).2

theorem Example.reachable_IdleRun : Reachable Example.Idle Example.IdleRun.Self :=
  Reachable.step _ _ Reachable.refl
    (Step.runDue Example.Idle (some 0) Example.At20 Example.IdleRun rfl)

/-- Witness of C1: the table of `Example.Idle` starts with nothing in flight
    and cap 2; after one `RunDue` it has two shards in flight. -/
theorem concurrency_bound_witness :
    Reachable Example.Idle Example.IdleRun.Self ∧
    (Example.IdleRun.Self.TableObjs 0).InFlightCondErase = [Example.Shard1, Example.Shard2] ∧
    THashSet.size (Example.IdleRun.Self.TableObjs 0).InFlightCondErase ≤ 2 :=
  ⟨Example.reachable_IdleRun, by decide,
    (concurrency_bound Example.Idle Example.IdleRun.Self 0 Example.Settings 2 (by decide) rfl rfl
      (by decide) Example.reachable_IdleRun).1.2⟩


theorem THashSet.mem_foldl_insert {K : Type} [DecidableEq K] (D : List K) (l : THashSet K)
    (x : K) : x ∈ D.foldl THashSet.insert l ↔ x ∈ l ∨ x ∈ D := by
  induction D generalizing l with
  | nil => simp
  | cons d rest ih =>
    simp only [List.foldl_cons, ih, THashSet.mem_insert, List.mem_cons]
    tauto

theorem RunDue_on_table (S : TSchemeShard) (p : TTablePtr) (ctx : TActorContext)
    (hflag : S.AllowConditionalEraseOperations = true) :
    RunDue S (some p) ctx =
      DoExecuteOnTable { Self := S, TableInfo := some p, RunOnTablets := [] } p ctx := by
  simp [RunDue, DoExecute, hflag]

theorem Example.IndexCatalogOk_Catalog (t : TTableInfo) (allow dropped : Bool) :
    IndexCatalogOk (Example.Catalog t allow dropped) := by
  intro pid h1 _
  simp [Example.Catalog, THashMap.contains, THashMap.find] at h1
  subst h1
  rfl

theorem Example.InFlightMapped_Busy : InFlightMapped (Example.Busy.TableObjs 0) := by
  intro s hs
  simp [Example.Busy, Example.Catalog, Example.Table, TTableInfo.WithSched] at hs
  rcases hs with rfl | rfl
  · exact ⟨0, _, rfl, rfl⟩
  · exact ⟨1, _, rfl, rfl⟩

/-- Counterexample to C2 as stated: `Example.Busy` is the table as the first
    `RunDue` on `Example.Idle` leaves it, with shard 1 dispatched, in flight and
    resolving; yet the batch built by the next `RunDue` on the table holds a
    request addressed to its tablet 101. -/
theorem no_double_dispatch_counterexample :
    RunDue Example.Idle (some 0) Example.At20 = some Example.IdleRun ∧
    Example.IdleRun.Self.TableObjs 0 = Example.Busy.TableObjs 0 ∧
    Example.Shard1 ∈ (Example.Busy.TableObjs 0).InFlightCondErase ∧
    ShardResolves Example.Busy Example.Shard1 = true ∧
    RunDue Example.Busy (some 0) Example.At20 = some Example.BusyRun ∧
    AddressedTo Example.BusyRun.Self Example.BusyRun.RunOnTablets Example.Shard1 = true ∧
    THashMap.keys Example.BusyRun.RunOnTablets = [101, 102] :=
  ⟨rfl, by decide, by decide, by decide, rfl, by decide, by decide⟩


/-! ## Backoff -/

/-- An accepted response re-arms the partition at `now + next`, where `next`
    is the value the status switch leaves. -/
theorem OnEraseResponse_accept (S : TSchemeShard) (ev : TEvConditionalEraseRowsResponse)
    (ctx : TActorContext) (info : TShardInfo) (p : TTablePtr) (st : TTTLSettingsEnabled)
    (next : TDuration) (idx : Nat) (e : TTableShardInfo)
    (hflag : S.AllowConditionalEraseOperations = true)
    (hinfo : THashMap.find S.ShardInfos (S.GetShardIdx ev.TabletID) = some info)
    (hp : THashMap.find S.TTLEnabledTables info.PathId = some p)
    (hst : (S.TableObjs p).TTLSettings = some st)
    (hin : S.GetShardIdx ev.TabletID ∈ (S.TableObjs p).InFlightCondErase)
    (hnext : TTxScheduleConditionalErase.SwitchStatus st.SysSettings ev.Status = some next)
    (hidx : THashMap.find (S.TableObjs p).Shard2PartitionIdx (S.GetShardIdx ev.TabletID) =
      some idx)
    (he : (S.TableObjs p).Partitions[idx]? = some e) :
    ∃ tx, OnEraseResponse S ev ctx = some tx ∧ tx.TableInfo = some p ∧
      tx.Self.TableObjs = Function.update S.TableObjs p
        ((S.TableObjs p).ScheduleNextCondErase (S.GetShardIdx ev.TabletID) ctx.Now next) ∧
      (tx.Self.TableObjs p).PartitionOf (S.GetShardIdx ev.TabletID) =
        some { e with NextCondErase := ctx.Now + next
                      LastCondEraseLag := some (ctx.Now - e.NextCondErase) } := by
  obtain ⟨tx, a1, a2, a3, -⟩ := Execute_accept (CreateTxScheduleConditionalErase S ev) ctx info p
    st next idx e hflag hinfo hp hst hin hnext hidx he
  refine ⟨tx, a1, a2, a3, ?_⟩
  have hlt : idx < (S.TableObjs p).Partitions.length := by
    rcases List.getElem?_eq_some.1 he with ⟨h, -⟩
    exact h
  rw [a3]
  simp only [CreateTxScheduleConditionalErase, Function.update_same]
  rw [ScheduleNextCondErase_eq _ _ _ _ _ _ hidx he]
  simp [TTableInfo.PartitionOf, hidx, hlt]

/-- C3 (backoff on success). A response with status `OK` for a shard that is
    in flight on a TTL-enabled table (flag on, the shard has a partition) is
    accepted and sets the partition's next-eligible-time to exactly
    `now + RunInterval`, whatever the retry interval is. -/
theorem backoff_on_success (S : TSchemeShard) (ev : TEvConditionalEraseRowsResponse)
    (ctx : TActorContext) (info : TShardInfo) (p : TTablePtr) (st : TTTLSettingsEnabled)
    (idx : Nat) (e : TTableShardInfo)
    (hflag : S.AllowConditionalEraseOperations = true)
    (hstatus : ev.Status = EStatus.OK)
    (hinfo : THashMap.find S.ShardInfos (S.GetShardIdx ev.TabletID) = some info)
    (hp : THashMap.find S.TTLEnabledTables info.PathId = some p)
    (hst : (S.TableObjs p).TTLSettings = some st)
    (hin : S.GetShardIdx ev.TabletID ∈ (S.TableObjs p).InFlightCondErase)
    (hidx : THashMap.find (S.TableObjs p).Shard2PartitionIdx (S.GetShardIdx ev.TabletID) =
      some idx)
    (he : (S.TableObjs p).Partitions[idx]? = some e) :
    ∃ tx e1, OnEraseResponse S ev ctx = some tx ∧
      (tx.Self.TableObjs p).PartitionOf (S.GetShardIdx ev.TabletID) = some e1 ∧
      e1.ShardIdx = e.ShardIdx ∧
      e1.NextCondErase = ctx.Now + st.SysSettings.RunInterval := by
  obtain ⟨tx, a1, -, -, a4⟩ := OnEraseResponse_accept S ev ctx info p st
    st.SysSettings.RunInterval idx e hflag hinfo hp hst hin
    (by rw [hstatus]; rfl) hidx he
  exact ⟨tx, _, a1, a4, rfl, rfl⟩

/-- Witness of C3 on `Example.Busy`: the `OK` response of tablet 101 at time
    30 re-arms shard 1 at `30 + 100`. -/
theorem backoff_on_success_witness :
    ∃ tx e1, OnEraseResponse Example.Busy (Example.Response EStatus.OK) Example.At30 = some tx ∧
      (tx.Self.TableObjs 0).PartitionOf
        (Example.Busy.GetShardIdx (Example.Response EStatus.OK).TabletID) = some e1 ∧
      e1.ShardIdx = Example.Shard1 ∧
      e1.NextCondErase = Example.At30.Now + Example.Settings.SysSettings.RunInterval :=
  backoff_on_success Example.Busy (Example.Response EStatus.OK) Example.At30
    { TabletID := 101, PathId := Example.TablePath } 0 Example.Settings 0
    { ShardIdx := Example.Shard1, NextCondErase := 10, LastCondEraseLag := some 0 }
    rfl rfl rfl rfl rfl (by decide) rfl rfl

/-- C4 (backoff on failure). A response whose status is one of `BAD_REQUEST`,
    `ABORTED`, `ERASE_ERROR`, `OVERLOADED`, `SCHEME_ERROR` for a shard that is in
    flight on a TTL-enabled table (flag on, the shard has a partition) is
    accepted and sets the partition's next-eligible-time to exactly
    `now + RetryInterval`, whatever the run interval is. -/
theorem backoff_on_failure (S : TSchemeShard) (ev : TEvConditionalEraseRowsResponse)
    (ctx : TActorContext) (info : TShardInfo) (p : TTablePtr) (st : TTTLSettingsEnabled)
    (idx : Nat) (e : TTableShardInfo)
    (hflag : S.AllowConditionalEraseOperations = true)
    (hstatus : ev.Status ∈ [EStatus.BAD_REQUEST, EStatus.ABORTED, EStatus.ERASE_ERROR,
      EStatus.OVERLOADED, EStatus.SCHEME_ERROR])
    (hinfo : THashMap.find S.ShardInfos (S.GetShardIdx ev.TabletID) = some info)
    (hp : THashMap.find S.TTLEnabledTables info.PathId = some p)
    (hst : (S.TableObjs p).TTLSettings = some st)
    (hin : S.GetShardIdx ev.TabletID ∈ (S.TableObjs p).InFlightCondErase)
    (hidx : THashMap.find (S.TableObjs p).Shard2PartitionIdx (S.GetShardIdx ev.TabletID) =
      some idx)
    (he : (S.TableObjs p).Partitions[idx]? = some e) :
    ∃ tx e1, OnEraseResponse S ev ctx = some tx ∧
      (tx.Self.TableObjs p).PartitionOf (S.GetShardIdx ev.TabletID) = some e1 ∧
      e1.ShardIdx = e.ShardIdx ∧
      e1.NextCondErase = ctx.Now + st.SysSettings.RetryInterval := by
  have hsw : TTxScheduleConditionalErase.SwitchStatus st.SysSettings ev.Status =
      some st.SysSettings.RetryInterval := by
    simp only [List.mem_cons, List.mem_singleton, List.not_mem_nil, or_false] at hstatus
    rcases hstatus with h | h | h | h | h <;> rw [h] <;> rfl
  obtain ⟨tx, a1, -, -, a4⟩ := OnEraseResponse_accept S ev ctx info p st
    st.SysSettings.RetryInterval idx e hflag hinfo hp hst hin hsw hidx he
  exact ⟨tx, _, a1, a4, rfl, rfl⟩

/-- Witness of C4 on `Example.Busy`: the `OVERLOADED` response of tablet 101 at
    time 30 re-arms shard 1 at `30 + 7`. -/
theorem backoff_on_failure_witness :
    ∃ tx e1, OnEraseResponse Example.Busy (Example.Response EStatus.OVERLOADED) Example.At30 =
        some tx ∧
      (tx.Self.TableObjs 0).PartitionOf
        (Example.Busy.GetShardIdx (Example.Response EStatus.OVERLOADED).TabletID) = some e1 ∧
      e1.ShardIdx = Example.Shard1 ∧
      e1.NextCondErase = Example.At30.Now + Example.Settings.SysSettings.RetryInterval :=
  backoff_on_failure Example.Busy (Example.Response EStatus.OVERLOADED) Example.At30
    { TabletID := 101, PathId := Example.TablePath } 0 Example.Settings 0
    { ShardIdx := Example.Shard1, NextCondErase := 10, LastCondEraseLag := some 0 }
    rfl (by decide) rfl rfl rfl (by decide) rfl rfl

/-- C5, amended (an unknown status keeps the run interval). A response whose
    status is none of the seven named ones, for a shard that is in flight on a
    TTL-enabled table (flag on, the shard has a partition), is accepted; the
    default branch of the switch leaves `next` at the run interval, so the
    partition's next-eligible-time becomes `now + RunInterval`. -/
theorem unknown_status_keeps_run_interval (S : TSchemeShard)
    (ev : TEvConditionalEraseRowsResponse) (ctx : TActorContext) (info : TShardInfo)
    (p : TTablePtr) (st : TTTLSettingsEnabled) (idx : Nat) (e : TTableShardInfo)
    (hflag : S.AllowConditionalEraseOperations = true)
    (hstatus : ev.Status ∉ [EStatus.OK, EStatus.PARTIAL, EStatus.BAD_REQUEST, EStatus.ABORTED,
      EStatus.ERASE_ERROR, EStatus.OVERLOADED, EStatus.SCHEME_ERROR])
    (hinfo : THashMap.find S.ShardInfos (S.GetShardIdx ev.TabletID) = some info)
    (hp : THashMap.find S.TTLEnabledTables info.PathId = some p)
    (hst : (S.TableObjs p).TTLSettings = some st)
    (hin : S.GetShardIdx ev.TabletID ∈ (S.TableObjs p).InFlightCondErase)
    (hidx : THashMap.find (S.TableObjs p).Shard2PartitionIdx (S.GetShardIdx ev.TabletID) =
      some idx)
    (he : (S.TableObjs p).Partitions[idx]? = some e) :
    ∃ tx e1, OnEraseResponse S ev ctx = some tx ∧
      (tx.Self.TableObjs p).PartitionOf (S.GetShardIdx ev.TabletID) = some e1 ∧
      e1.ShardIdx = e.ShardIdx ∧
      e1.NextCondErase = ctx.Now + st.SysSettings.RunInterval := by
  have hsw : TTxScheduleConditionalErase.SwitchStatus st.SysSettings ev.Status =
      some st.SysSettings.RunInterval := by
    cases hs : ev.Status <;> first | rfl | (rw [hs] at hstatus; simp at hstatus)
  obtain ⟨tx, a1, -, -, a4⟩ := OnEraseResponse_accept S ev ctx info p st
    st.SysSettings.RunInterval idx e hflag hinfo hp hst hin hsw hidx he
  exact ⟨tx, _, a1, a4, rfl, rfl⟩

/-- Witness of the amended C5 on `Example.Busy`: the response of tablet 101
    with the unknown status 99 at time 30 re-arms shard 1 at `30 + 100`. -/
theorem unknown_status_keeps_run_interval_witness :
    ∃ tx e1, OnEraseResponse Example.Busy (Example.Response (EStatus.UNKNOWN 99)) Example.At30 =
        some tx ∧
      (tx.Self.TableObjs 0).PartitionOf
        (Example.Busy.GetShardIdx (Example.Response (EStatus.UNKNOWN 99)).TabletID) = some e1 ∧
      e1.ShardIdx = Example.Shard1 ∧
      e1.NextCondErase = Example.At30.Now + Example.Settings.SysSettings.RunInterval :=
  unknown_status_keeps_run_interval Example.Busy (Example.Response (EStatus.UNKNOWN 99))
    Example.At30 { TabletID := 101, PathId := Example.TablePath } 0 Example.Settings 0
    { ShardIdx := Example.Shard1, NextCondErase := 10, LastCondEraseLag := some 0 }
    rfl (by decide) rfl rfl rfl (by decide) rfl rfl

/-- Counterexample to C5 as stated: in `Example.Busy` (run interval 100, retry
    interval 7) the response of tablet 101 with the unknown status 99 at time 30
    leaves shard 1 with next-eligible-time 130, not `30 + 7 = 37`. -/
theorem unknown_status_counterexample :
    Example.Busy.AllowConditionalEraseOperations = true ∧
    (Example.Busy.TableObjs 0).TTLSettings = some Example.Settings ∧
    Example.Busy.GetShardIdx (Example.Response (EStatus.UNKNOWN 99)).TabletID = Example.Shard1 ∧
    Example.Shard1 ∈ (Example.Busy.TableObjs 0).InFlightCondErase ∧
    Example.At30.Now + Example.Settings.SysSettings.RetryInterval = 37 ∧
    (OnEraseResponse Example.Busy (Example.Response (EStatus.UNKNOWN 99)) Example.At30).map
      (fun tx => ((tx.Self.TableObjs 0).PartitionOf Example.Shard1).map
        TTableShardInfo.NextCondErase) = some (some 130) :=
  ⟨rfl, rfl, by decide, by decide, by decide, by decide⟩


/-! ## Counting shards -/

theorem PendingShards_eq (t : TTableInfo) :
    PendingShards t = ShardsAt t.Partitions t.CondEraseSchedule := rfl

theorem ShardsAt_append (P : List TTableShardInfo) (a b : List Nat) :
    ShardsAt P (a ++ b) = ShardsAt P a ++ ShardsAt P b := by
  simp [ShardsAt, List.filterMap_append]

theorem ShardsAt_perm (P : List TTableShardInfo) (a b : List Nat) (h : a.Perm b) :
    (ShardsAt P a).Perm (ShardsAt P b) :=
  List.Perm.filterMap _ h

theorem count_filter_not_mem (l R : List TShardIdx) (x : TShardIdx) :
    (l.filter (fun y => decide (y ∉ R))).count x = if x ∈ R then 0 else l.count x := by
  by_cases h : x ∈ R
  · simp only [h, if_true]
    apply List.count_eq_zero_of_not_mem
    simp [List.mem_filter, h]
  · simp only [h, if_false]
    apply List.count_filter
    simp [h]

theorem count_insert (l : THashSet TShardIdx) (k x : TShardIdx) :
    (THashSet.insert l k).count x =
      if k ∈ l then l.count x else l.count x + (if x = k then 1 else 0) := by
  unfold THashSet.insert
  by_cases h : k ∈ l
  · simp [h]
  · simp only [h, if_false, List.count_append, List.count_cons, List.count_nil]
    by_cases hx : x = k
    · subst hx; simp
    · have : (k == x) = false := by simpa using fun h2 => hx h2.symm
      simp [hx, this]

theorem count_foldl_insert (L : List TShardIdx) (l : THashSet TShardIdx) (x : TShardIdx) :
    (L.foldl THashSet.insert l).count x =
      if x ∈ l then l.count x else if x ∈ L then 1 else 0 := by
  induction L generalizing l with
  | nil =>
    by_cases h : x ∈ l
    · simp [h]
    · simp [h, List.count_eq_zero_of_not_mem h]
  | cons k rest ih =>
    simp only [List.foldl_cons, ih, THashSet.mem_insert, count_insert, List.mem_cons]
    by_cases hx : x ∈ l
    · simp only [hx, true_or, if_true]
      by_cases hk : k ∈ l
      · simp [hk]
      · simp only [hk, if_false]
        have : x ≠ k := fun h => hk (h ▸ hx)
        simp [this]
    · simp only [hx, false_or, if_false]
      by_cases hxk : x = k
      · subst hxk
        simp [hx, List.count_eq_zero_of_not_mem hx]
      · by_cases hk : k ∈ l
        · simp [hxk, hk, List.count_eq_zero_of_not_mem hx]
        · simp [hxk, hk, List.count_eq_zero_of_not_mem hx]

theorem count_erase (l : THashSet TShardIdx) (k x : TShardIdx) :
    (THashSet.erase l k).count x = if x = k then 0 else l.count x := by
  unfold THashSet.erase
  by_cases h : x = k
  · subst h
    simp only [if_true]
    apply List.count_eq_zero_of_not_mem
    simp [List.mem_filter]
  · simp only [h, if_false]
    apply List.count_filter
    simp [h]

theorem count_nodup (R : List TShardIdx) (x : TShardIdx) (h : R.Nodup) :
    R.count x = if x ∈ R then 1 else 0 := by
  by_cases hx : x ∈ R
  · simp [hx, List.count_eq_one_of_mem h hx]
  · simp [hx, List.count_eq_zero_of_not_mem hx]

/-- The positions of rescheduled shards hold exactly those shards. -/
theorem ShardsAt_reschedule (t : TTableInfo) (R : List TShardIdx) (hmap : MappingConsistent t)
    (hR : ∀ s ∈ R, ∃ e, t.PartitionOf s = some e) :
    ShardsAt t.Partitions (R.filterMap (THashMap.find t.Shard2PartitionIdx)) = R := by
  induction R with
  | nil => rfl
  | cons s rest ih =>
    obtain ⟨e, he⟩ := hR s (List.mem_cons_self _ _)
    have ih2 := ih (fun x hx => hR x (List.mem_cons_of_mem _ hx))
    unfold TTableInfo.PartitionOf at he
    cases hf : THashMap.find t.Shard2PartitionIdx s with
    | none => simp [hf] at he
    | some i =>
      simp only [hf, Option.some_bind] at he
      have hs : e.ShardIdx = s := hmap s i e hf he
      simp only [List.filterMap_cons, hf]
      unfold ShardsAt at ih2 ⊢
      simp only [List.filterMap_cons, he, Option.map_some', hs, ih2]


/-! ## The scheduler invariant -/

theorem ShardsAt_dispatched (P : List TTableShardInfo) (D : List (Nat × TTableShardInfo))
    (h : ∀ d ∈ D, P[d.1]? = some d.2) :
    ShardsAt P (D.map Prod.fst) = D.map (fun d => d.2.ShardIdx) := by
  induction D with
  | nil => rfl
  | cons d rest ih =>
    have h1 := h d (List.mem_cons_self _ _)
    have ih2 := ih (fun x hx => h x (List.mem_cons_of_mem _ hx))
    unfold ShardsAt at ih2 ⊢
    simp only [List.map_cons, List.filterMap_cons, h1, Option.map_some', ih2]

/-- The in-flight set and the schedule after the three loops of
    `DoExecuteOnTable` keep each partition's shard in exactly one of them. -/
theorem ExactlyOne_after_run (t : TTableInfo) (R : List TShardIdx)
    (D : List (Nat × TTableShardInfo)) (C : List Nat) (hI : SchedulerInvariant t)
    (hRn : R.Nodup) (hRin : ∀ s ∈ R, s ∈ t.InFlightCondErase)
    (hRp : ∀ s ∈ R, ∃ e, t.PartitionOf s = some e)
    (hD : ∀ d ∈ D, t.Partitions[d.1]? = some d.2)
    (hperm : (D.map Prod.fst ++ C).Perm
      (t.CondEraseSchedule ++ R.filterMap (THashMap.find t.Shard2PartitionIdx))) :
    SchedulerInvariant (t.WithSched
      ((D.map (fun d => d.2.ShardIdx)).foldl THashSet.insert
        (t.InFlightCondErase.filter (fun x => decide (x ∉ R)))) C) := by
  obtain ⟨hmap, hone⟩ := hI
  refine ⟨hmap, ?_⟩
  intro e he
  have h1 := hone e he
  rw [PendingShards_eq] at h1 ⊢
  simp only [WithSched_InFlightCondErase, WithSched_CondEraseSchedule, WithSched_Partitions]
  have hp := (ShardsAt_perm t.Partitions _ _ hperm).count_eq e.ShardIdx
  rw [ShardsAt_append, ShardsAt_append, List.count_append, List.count_append,
    ShardsAt_reschedule t R hmap hRp, ShardsAt_dispatched t.Partitions D hD,
    count_nodup R _ hRn] at hp
  rw [count_foldl_insert, count_filter_not_mem]
  have hmemf : e.ShardIdx ∈ t.InFlightCondErase.filter (fun x => decide (x ∉ R)) ↔
      e.ShardIdx ∈ t.InFlightCondErase ∧ e.ShardIdx ∉ R := by
    simp [List.mem_filter]
  by_cases hR : e.ShardIdx ∈ R
  · have hin := hRin _ hR
    have hpos : 0 < t.InFlightCondErase.count e.ShardIdx := List.count_pos_iff.2 hin
    have hnf : e.ShardIdx ∉ t.InFlightCondErase.filter (fun x => decide (x ∉ R)) := by
      rw [hmemf]; tauto
    simp only [hR, if_true, hnf, if_false] at hp ⊢
    by_cases hd : e.ShardIdx ∈ D.map (fun d => d.2.ShardIdx)
    · have : 0 < (D.map (fun d => d.2.ShardIdx)).count e.ShardIdx := List.count_pos_iff.2 hd
      simp only [hd, if_true]
      omega
    · have := List.count_eq_zero_of_not_mem hd
      simp only [hd, if_false]
      omega
  · simp only [hR, if_false] at hp ⊢
    by_cases hin : e.ShardIdx ∈ t.InFlightCondErase
    · have hpos : 0 < t.InFlightCondErase.count e.ShardIdx := List.count_pos_iff.2 hin
      have hf : e.ShardIdx ∈ t.InFlightCondErase.filter (fun x => decide (x ∉ R)) := by
        rw [hmemf]; exact ⟨hin, hR⟩
      simp only [hf, if_true]
      omega
    · have hz := List.count_eq_zero_of_not_mem hin
      have hnf : e.ShardIdx ∉ t.InFlightCondErase.filter (fun x => decide (x ∉ R)) := by
        rw [hmemf]; tauto
      simp only [hnf, if_false]
      by_cases hd : e.ShardIdx ∈ D.map (fun d => d.2.ShardIdx)
      · have : 0 < (D.map (fun d => d.2.ShardIdx)).count e.ShardIdx := List.count_pos_iff.2 hd
        simp only [hd, if_true]
        omega
      · have := List.count_eq_zero_of_not_mem hd
        simp only [hd, if_false]
        omega

theorem DoExecuteOnTable_invariant (tx tx3 : TTxRunConditionalErase) (p q : TTablePtr)
    (ctx : TActorContext) (h : DoExecuteOnTable tx q ctx = some tx3)
    (hI : SchedulerInvariant (tx.Self.TableObjs p)) :
    SchedulerInvariant (tx3.Self.TableObjs p) := by
  by_cases hpq : p = q
  · subst hpq
    cases hst : (tx.Self.TableObjs p).TTLSettings with
    | none =>
      rw [DoExecuteOnTable_disabled tx p ctx hst] at h
      simp at h
      subst h
      exact hI
    | some st =>
      obtain ⟨tx1, R, hl, hd⟩ := DoExecuteOnTable_enabled tx tx3 p ctx st hst h
      obtain ⟨l1, -, l3, l4, l5, -, -⟩ := InFlightLoop_spec _ _ _ _ _ _ _ hl
      obtain ⟨D, i1, -, i3, i4, -, -, -, -, -, -⟩ := DispatchLoop_spec _ _ _ _ _ _ hd
      rw [RescheduleLoop_eq] at i1 i3 i4
      simp only [l1, SetTable_TableObjs_same, SetTable_SetTable, WithSched_WithSched,
        WithSched_InFlightCondErase, WithSched_CondEraseSchedule, WithSched_Partitions]
        at i1 i3 i4
      have hC : (tx3.Self.TableObjs p).CondEraseSchedule =
          (D.map Prod.fst).foldl List.erase ((tx.Self.TableObjs p).CondEraseSchedule ++
            R.filterMap (THashMap.find (tx.Self.TableObjs p).Shard2PartitionIdx)) := by
        rw [i1, SetTable_TableObjs_same, WithSched_CondEraseSchedule]
      rw [hC] at i4
      rw [i1, SetTable_TableObjs_same]
      apply ExactlyOne_after_run _ R D _ hI (l4 List.nodup_nil)
      · intro s hs
        rcases (l3 s).1 hs with h0 | ⟨h1, -⟩
        · simp at h0
        · exact h1
      · intro s hs
        rcases (l3 s).1 hs with h0 | ⟨h1, -⟩
        · simp at h0
        · exact l5 s h1
      · exact fun d hd => (i3 d hd).1
      · exact i4
  · obtain ⟨a, c, h1, -⟩ := DoExecuteOnTable_frame tx tx3 q ctx h
    rw [h1, SetTable_TableObjs]
    simpa [hpq] using hI


theorem ShardsAt_set (P : List TTableShardInfo) (idx : Nat) (e e1 : TTableShardInfo)
    (he : P[idx]? = some e) (hs : e1.ShardIdx = e.ShardIdx) (l : List Nat) :
    ShardsAt (P.set idx e1) l = ShardsAt P l := by
  unfold ShardsAt
  apply List.filterMap_congr
  intro i _
  rw [List.getElem?_set]
  by_cases h : idx = i
  · subst h
    have hlt : idx < P.length := by
      rcases List.getElem?_eq_some.1 he with ⟨h, -⟩
      exact h
    simp [hlt, he, hs]
  · simp [h]

theorem ScheduleNextCondErase_invariant (t : TTableInfo) (s : TShardIdx) (now : TInstant)
    (next : TDuration) (idx : Nat) (e : TTableShardInfo)
    (hidx : THashMap.find t.Shard2PartitionIdx s = some idx) (he : t.Partitions[idx]? = some e)
    (hin : s ∈ t.InFlightCondErase) (hI : SchedulerInvariant t) :
    SchedulerInvariant (t.ScheduleNextCondErase s now next) := by
  obtain ⟨hmap, hone⟩ := hI
  have hes : e.ShardIdx = s := hmap s idx e hidx he
  have hlt : idx < t.Partitions.length := by
    rcases List.getElem?_eq_some.1 he with ⟨h, -⟩
    exact h
  rw [ScheduleNextCondErase_eq _ _ _ _ _ _ hidx he]
  constructor
  · intro s1 i e0 h1 h2
    simp only [List.getElem?_set] at h2
    by_cases h : idx = i
    · subst h
      simp only [if_true, hlt] at h2
      simp only [Option.some.injEq] at h2
      subst h2
      exact hmap s1 idx e h1 he
    · simp only [h, if_false] at h2
      exact hmap s1 i e0 h1 h2
  · intro e0 he0
    simp only at he0
    have hx : ∃ e00 ∈ t.Partitions, e00.ShardIdx = e0.ShardIdx := by
      rcases List.mem_or_eq_of_mem_set he0 with h | h
      · exact ⟨e0, h, rfl⟩
      · exact ⟨e, List.getElem?_mem he, by rw [h]⟩
    obtain ⟨e00, hm, hsame⟩ := hx
    have h1 := hone e00 hm
    rw [hsame, PendingShards_eq] at h1
    rw [PendingShards_eq]
    simp only
    have hset := ShardsAt_set t.Partitions idx e
      { ShardIdx := e.ShardIdx, NextCondErase := now + next,
        LastCondEraseLag := some (now - e.NextCondErase) } he rfl
    rw [hset, ShardsAt_append, List.count_append, count_erase]
    have hlast : ShardsAt t.Partitions [idx] = [s] := by
      simp [ShardsAt, he, hes]
    rw [hlast]
    by_cases hxs : e0.ShardIdx = s
    · rw [hxs] at h1 ⊢
      have hpos : 0 < t.InFlightCondErase.count s := List.count_pos_iff.2 hin
      simp only [if_true, List.count_cons_self, List.count_nil]
      omega
    · have : (s == e0.ShardIdx) = false := by simpa using fun h2 => hxs h2.symm
      simp only [hxs, if_false, List.count_cons, this, List.count_nil]
      simpa using h1


theorem DoExecuteAll_invariant (ctx : TActorContext) (l : List (TPathId × TTablePtr))
    (tx tx3 : TTxRunConditionalErase) (p : TTablePtr) (h : DoExecuteAll ctx l tx = some tx3)
    (hI : SchedulerInvariant (tx.Self.TableObjs p)) :
    SchedulerInvariant (tx3.Self.TableObjs p) := by
  induction l generalizing tx with
  | nil =>
    simp [DoExecuteAll] at h
    subst h
    exact hI
  | cons x rest ih =>
    obtain ⟨x1, x2⟩ := x
    unfold DoExecuteAll at h
    split at h
    · simp at h
    · rename_i tx1 h1
      exact ih tx1 h (DoExecuteOnTable_invariant tx tx1 p x2 ctx h1 hI)

theorem DoExecute_invariant (ctx : TActorContext) (tx tx3 : TTxRunConditionalErase)
    (p : TTablePtr) (h : DoExecute tx ctx = some tx3)
    (hI : SchedulerInvariant (tx.Self.TableObjs p)) :
    SchedulerInvariant (tx3.Self.TableObjs p) := by
  unfold DoExecute at h
  split at h
  · simp at h; subst h; exact hI
  · split at h
    · exact DoExecuteAll_invariant ctx _ tx tx3 p h hI
    · exact DoExecuteOnTable_invariant tx tx3 p _ ctx h hI

theorem Execute_invariant (ctx : TActorContext) (tx tx3 : TTxScheduleConditionalErase)
    (p : TTablePtr) (h : TTxScheduleConditionalErase.Execute tx ctx = some tx3)
    (hI : SchedulerInvariant (tx.Self.TableObjs p)) :
    SchedulerInvariant (tx3.Self.TableObjs p) := by
  rcases Execute_cases tx tx3 ctx h with rfl | ⟨info, q, stq, next, idx, e, c1, c2, c3, c4, c5,
    c6, c7, c8⟩
  · exact hI
  · obtain ⟨tx4, a1, -, a3, -⟩ := Execute_accept tx ctx info q stq next idx e c1 c2 c3 c4 c5 c6
      c7 c8
    rw [h] at a1
    simp at a1
    subst a1
    rw [a3, Function.update_apply]
    by_cases hpq : p = q
    · subst hpq
      simp only [if_true]
      exact ScheduleNextCondErase_invariant _ _ _ _ idx e c7 c8 c5 hI
    · simpa [hpq] using hI

theorem ExactlyOne_membership (t : TTableInfo) (h : ExactlyOne t) :
    ∀ e ∈ t.Partitions,
      (e.ShardIdx ∈ t.InFlightCondErase ∧ e.ShardIdx ∉ PendingShards t) ∨
      (e.ShardIdx ∉ t.InFlightCondErase ∧ e.ShardIdx ∈ PendingShards t) := by
  intro e he
  have h1 := h e he
  by_cases hin : e.ShardIdx ∈ t.InFlightCondErase
  · left
    refine ⟨hin, fun hp => ?_⟩
    have a := List.count_pos_iff.2 hin
    have b := List.count_pos_iff.2 hp
    omega
  · right
    refine ⟨hin, ?_⟩
    have a := List.count_eq_zero_of_not_mem hin
    apply List.count_pos_iff.1
    omega

/-- C6 (scheduler partition invariant). From a state in which each partition's
    shard is in exactly one of the in-flight set and the pending schedule (and
    there once, the shard-to-partition mapping agreeing with the partition
    list), every state reached by `RunDue` and `OnEraseResponse` transactions has
    each partition's shard in exactly one of the two: never both, never
    neither. -/
theorem scheduler_partition_invariant (start fin : TSchemeShard) (p : TTablePtr)
    (hmap : MappingConsistent (start.TableObjs p)) (hone : ExactlyOne (start.TableObjs p))
    (hreach : Reachable start fin) :
    ExactlyOne (fin.TableObjs p) ∧
    ∀ e ∈ (fin.TableObjs p).Partitions,
      (e.ShardIdx ∈ (fin.TableObjs p).InFlightCondErase ∧
        e.ShardIdx ∉ PendingShards (fin.TableObjs p)) ∨
      (e.ShardIdx ∉ (fin.TableObjs p).InFlightCondErase ∧
        e.ShardIdx ∈ PendingShards (fin.TableObjs p)) := by
  have hinv : SchedulerInvariant (fin.TableObjs p) := by
    induction hreach with
    | refl => exact ⟨hmap, hone⟩
    | step mid fin _ s ih =>
      cases s with
      | runDue tableInfo ctx tx h => exact DoExecute_invariant ctx _ tx p h ih
      | onEraseResponse ev ctx tx h => exact Execute_invariant ctx _ tx p h ih
  exact ⟨hinv.2, ExactlyOne_membership _ hinv.2⟩

theorem Example.MappingConsistent_Table : MappingConsistent (Example.Idle.TableObjs 0) := by
  intro s i e h1 h2
  simp only [Example.Idle, Example.Catalog, Example.Table, if_true, THashMap.find] at h1 h2
  split at h1
  · simp at h1; subst h1; simp at h2; subst h2; assumption
  · split at h1
    · simp at h1; subst h1; simp at h2; subst h2; assumption
    · split at h1
      · simp at h1; subst h1; simp at h2; subst h2; assumption
      · simp at h1

theorem Example.ExactlyOne_Table : ExactlyOne (Example.Idle.TableObjs 0) := by
  unfold ExactlyOne
  decide

/-- Witness of C6: `Example.Idle` has the three shards pending and none in
    flight; after one `RunDue` shards 1 and 2 are in flight only and shard 3 is
    pending only. -/
theorem scheduler_partition_invariant_witness :
    (ExactlyOne (Example.IdleRun.Self.TableObjs 0) ∧
      ∀ e ∈ (Example.IdleRun.Self.TableObjs 0).Partitions,
        (e.ShardIdx ∈ (Example.IdleRun.Self.TableObjs 0).InFlightCondErase ∧
          e.ShardIdx ∉ PendingShards (Example.IdleRun.Self.TableObjs 0)) ∨
        (e.ShardIdx ∉ (Example.IdleRun.Self.TableObjs 0).InFlightCondErase ∧
          e.ShardIdx ∈ PendingShards (Example.IdleRun.Self.TableObjs 0))) ∧
    (Example.IdleRun.Self.TableObjs 0).InFlightCondErase = [Example.Shard1, Example.Shard2] ∧
    PendingShards (Example.IdleRun.Self.TableObjs 0) = [Example.Shard3] :=
  ⟨scheduler_partition_invariant Example.Idle Example.IdleRun.Self 0
    Example.MappingConsistent_Table Example.ExactlyOne_Table Example.reachable_IdleRun,
    by decide, by decide⟩


/-! ## The order of dispatch -/

theorem PendingEntries_WithSched (t : TTableInfo) (a : THashSet TShardIdx) (c : List Nat) :
    PendingEntries (t.WithSched a c) = c.filterMap (fun i => t.Partitions[i]?) := rfl

theorem EntriesAt_dispatched (P : List TTableShardInfo) (D : List (Nat × TTableShardInfo))
    (h : ∀ d ∈ D, P[d.1]? = some d.2) :
    (D.map Prod.fst).filterMap (fun i => P[i]?) = D.map Prod.snd := by
  induction D with
  | nil => rfl
  | cons d rest ih =>
    have h1 := h d (List.mem_cons_self _ _)
    have ih2 := ih (fun x hx => h x (List.mem_cons_of_mem _ hx))
    simp only [List.map_cons, List.filterMap_cons, h1, ih2]

/-- Any list can be arranged in the order of service. -/
theorem exists_served_order (l : List TTableShardInfo) :
    ∃ L : List TTableShardInfo, L.Perm l ∧ L.Pairwise ServedNoLater := by
  haveI : DecidableRel ServedNoLater := fun a b => by
    unfold ServedNoLater
    infer_instance
  haveI : IsTotal TTableShardInfo ServedNoLater := ⟨ServedNoLater_total⟩
  haveI : IsTrans TTableShardInfo ServedNoLater := ⟨ServedNoLater_trans⟩
  exact ⟨l.insertionSort ServedNoLater, List.perm_insertionSort _ l,
    List.sorted_insertionSort _ l⟩

/-- C7 (monotonic fairness). Within one `DoExecuteOnTable` on a TTL-enabled
    table: the call completes when the catalog is consistent, and whenever it
    completes, the partitions newly dispatched, `D` in dispatch order, are added
    to the in-flight set in that order, are removed from the pending schedule,
    and form an initial segment of an arrangement `L` of the pending schedule
    that is ascending in next-eligible-time with ties broken by ascending shard
    identifier. The pending schedule is the one the dispatch loop starts from:
    the schedule at the call plus the positions of the in-flight shards `R` that
    the call has just returned to it. -/
theorem dispatch_in_service_order (tx : TTxRunConditionalErase) (p : TTablePtr)
    (ctx : TActorContext) (st : TTTLSettingsEnabled)
    (hst : (tx.Self.TableObjs p).TTLSettings = some st) :
    (IndexCatalogOk tx.Self → InFlightMapped (tx.Self.TableObjs p) →
      ∃ tx3, DoExecuteOnTable tx p ctx = some tx3) ∧
    ∀ tx3, DoExecuteOnTable tx p ctx = some tx3 →
      ∃ (tx1 : TTxRunConditionalErase) (R : THashSet TShardIdx)
        (D L : List TTableShardInfo),
        InFlightLoop p ctx (tx.Self.TableObjs p).InFlightCondErase tx [] = some (tx1, R) ∧
        ((RescheduleLoop p R tx1).Self.TableObjs p).CondEraseSchedule =
          (tx.Self.TableObjs p).CondEraseSchedule ++
            R.filterMap (THashMap.find (tx.Self.TableObjs p).Shard2PartitionIdx) ∧
        (tx3.Self.TableObjs p).InFlightCondErase =
          (D.map TTableShardInfo.ShardIdx).foldl THashSet.insert
            ((RescheduleLoop p R tx1).Self.TableObjs p).InFlightCondErase ∧
        (D ++ PendingEntries (tx3.Self.TableObjs p)).Perm
          (PendingEntries ((RescheduleLoop p R tx1).Self.TableObjs p)) ∧
        L.Perm (PendingEntries ((RescheduleLoop p R tx1).Self.TableObjs p)) ∧
        L.Pairwise ServedNoLater ∧ D <+: L := by
  refine ⟨fun hok hm => DoExecuteOnTable_total tx p ctx hok hm, ?_⟩
  intro tx3 h
  obtain ⟨tx1, R, hl, hd⟩ := DoExecuteOnTable_enabled tx tx3 p ctx st hst h
  obtain ⟨D, i1, -, i3, i4, i5, i6, -, -, -, -⟩ := DispatchLoop_spec _ _ _ _ _ _ hd
  obtain ⟨L2, hL1, hL2⟩ := exists_served_order (PendingEntries (tx3.Self.TableObjs p))
  have hP : (tx3.Self.TableObjs p).Partitions =
      ((RescheduleLoop p R tx1).Self.TableObjs p).Partitions := by
    rw [i1, SetTable_TableObjs_same, WithSched_Partitions]
  have hperm : (D.map Prod.snd ++ PendingEntries (tx3.Self.TableObjs p)).Perm
      (PendingEntries ((RescheduleLoop p R tx1).Self.TableObjs p)) := by
    have := List.Perm.filterMap
      (fun i => ((RescheduleLoop p R tx1).Self.TableObjs p).Partitions[i]?) i4
    rw [List.filterMap_append, EntriesAt_dispatched _ D (fun d hd => (i3 d hd).1)] at this
    unfold PendingEntries
    rw [hP]
    exact this
  refine ⟨tx1, R, D.map Prod.snd, D.map Prod.snd ++ L2, hl, ?_, ?_, hperm, ?_, ?_, ?_⟩
  · rw [RescheduleLoop_eq, SetTable_TableObjs_same, WithSched_CondEraseSchedule,
      (InFlightLoop_spec _ _ _ _ _ _ _ hl).1]
  · rw [i1, SetTable_TableObjs_same, WithSched_InFlightCondErase, List.map_map]
    rfl
  · exact (List.Perm.append_left _ hL1).trans hperm
  · rw [List.pairwise_append]
    refine ⟨i5, hL2, ?_⟩
    intro a ha b hb
    obtain ⟨d, hd1, rfl⟩ := List.mem_map.1 ha
    have hb2 : b ∈ PendingEntries (tx3.Self.TableObjs p) := (hL1.mem_iff).1 hb
    unfold PendingEntries at hb2
    obtain ⟨j, hj1, hj2⟩ := List.mem_filterMap.1 hb2
    rw [hP] at hj2
    exact i6 d hd1 j hj1 b hj2
  · exact List.prefix_append _ _

theorem Example.InFlightMapped_Idle : InFlightMapped (Example.Idle.TableObjs 0) := by
  intro s hs
  simp [Example.Idle, Example.Catalog, Example.Table] at hs

/-- Witness of C7 on `Example.Idle` (three partitions due at the same time,
    cap 2): the run completes and dispatches shards 1 and 2, in that order. -/
theorem dispatch_in_service_order_witness :
    (∃ tx3, DoExecuteOnTable (CreateTxRunConditionalEraseOnTable Example.Idle 0) 0
      Example.At20 = some tx3) ∧
    (∃ (tx1 : TTxRunConditionalErase) (R : THashSet TShardIdx) (D L : List TTableShardInfo),
      InFlightLoop 0 Example.At20
        ((CreateTxRunConditionalEraseOnTable Example.Idle 0).Self.TableObjs 0).InFlightCondErase
        (CreateTxRunConditionalEraseOnTable Example.Idle 0) [] = some (tx1, R) ∧
      ((RescheduleLoop 0 R tx1).Self.TableObjs 0).CondEraseSchedule =
        ((CreateTxRunConditionalEraseOnTable Example.Idle 0).Self.TableObjs 0).CondEraseSchedule ++
          R.filterMap (THashMap.find
            ((CreateTxRunConditionalEraseOnTable Example.Idle 0).Self.TableObjs
              0).Shard2PartitionIdx) ∧
      (Example.IdleRun.Self.TableObjs 0).InFlightCondErase =
        (D.map TTableShardInfo.ShardIdx).foldl THashSet.insert
          ((RescheduleLoop 0 R tx1).Self.TableObjs 0).InFlightCondErase ∧
      (D ++ PendingEntries (Example.IdleRun.Self.TableObjs 0)).Perm
        (PendingEntries ((RescheduleLoop 0 R tx1).Self.TableObjs 0)) ∧
      L.Perm (PendingEntries ((RescheduleLoop 0 R tx1).Self.TableObjs 0)) ∧
      L.Pairwise ServedNoLater ∧ D <+: L) ∧
    (Example.IdleRun.Self.TableObjs 0).InFlightCondErase = [Example.Shard1, Example.Shard2] :=
  ⟨(dispatch_in_service_order (CreateTxRunConditionalEraseOnTable Example.Idle 0) 0
      Example.At20 Example.Settings rfl).1 (Example.IndexCatalogOk_Catalog _ _ _)
      Example.InFlightMapped_Idle,
    (dispatch_in_service_order (CreateTxRunConditionalEraseOnTable Example.Idle 0) 0
      Example.At20 Example.Settings rfl).2 Example.IdleRun rfl,
    by decide⟩

/-! ## Self-healing -/

theorem BatchGrows_from_empty (S : TSchemeShard)
    (b : THashMap TTabletId TEvConditionalEraseRowsRequest) (h : BatchGrows S [] b) :
    BatchResolves S b := by
  intro k hk
  rcases h.2.1 k hk with h1 | h1
  · simp [THashMap.contains, THashMap.find] at h1
  · exact h1

/-- C8 (self-healing on drop). If a shard of the in-flight set of a
    TTL-enabled table no longer resolves in the catalog (shard info missing,
    owning path missing or dropped, or table entry missing), the next `RunDue`
    on that table (flag on, catalog otherwise consistent) completes without a
    fatal assertion, removes the shard from the in-flight set, puts it back in
    the pending schedule and emits no request for it: no request of the batch is
    addressed to its tablet and every request goes to a shard that resolves. -/
theorem self_healing_on_drop (S : TSchemeShard) (p : TTablePtr) (ctx : TActorContext)
    (s : TShardIdx) (st : TTTLSettingsEnabled) (e : TTableShardInfo)
    (hflag : S.AllowConditionalEraseOperations = true)
    (hst : (S.TableObjs p).TTLSettings = some st)
    (hin : s ∈ (S.TableObjs p).InFlightCondErase)
    (hmap : InFlightMapped (S.TableObjs p)) (hok : IndexCatalogOk S)
    (he : (S.TableObjs p).PartitionOf s = some e) (hes : e.ShardIdx = s)
    (htab : ∀ (s2 : TShardIdx) (info info2 : TShardInfo),
      THashMap.find S.ShardInfos s = some info → THashMap.find S.ShardInfos s2 = some info2 →
        info2.TabletID = info.TabletID → s2 = s)
    (hgone : ShardResolves S s = false) :
    ∃ tx, RunDue S (some p) ctx = some tx ∧
      s ∉ (tx.Self.TableObjs p).InFlightCondErase ∧
      s ∈ PendingShards (tx.Self.TableObjs p) ∧
      AddressedTo tx.Self tx.RunOnTablets s = false ∧
      BatchResolves S tx.RunOnTablets := by
  rw [RunDue_on_table S p ctx hflag]
  obtain ⟨tx3, h3⟩ := DoExecuteOnTable_total
    { Self := S, TableInfo := some p, RunOnTablets := [] } p ctx hok hmap
  refine ⟨tx3, h3, ?_⟩
  obtain ⟨tx1, R, hl, hd⟩ := DoExecuteOnTable_enabled _ tx3 p ctx st hst h3
  obtain ⟨l1, -, l3, -, -, l6, -⟩ := InFlightLoop_spec _ _ _ _ _ _ _ hl
  obtain ⟨D, i1, -, i3, i4, -, -, -, i8, -, -⟩ := DispatchLoop_spec _ _ _ _ _ _ hd
  rw [RescheduleLoop_eq] at i1 i3 i4 i8
  simp only [l1, SetTable_TableObjs_same, SetTable_SetTable, WithSched_WithSched,
    WithSched_InFlightCondErase, WithSched_CondEraseSchedule, WithSched_Partitions,
    BatchGrows_SetTable, DispatchAttempt_SetTable] at i1 i3 i4 i8 l3 l6
  have hatt : DispatchAttempt S e ctx = false := by
    simp [DispatchAttempt, hes, hgone]
  have hR : s ∈ R := (l3 s).2 (Or.inr ⟨hin, e, he, hatt⟩)
  have hD : ∀ d ∈ D, d.2.ShardIdx ≠ s := by
    intro d hd hds
    have := (i3 d hd).2
    simp only [DispatchAttempt, hds, hgone, Bool.and_false] at this
    exact absurd this (by simp)
  have hgrow := BatchGrows_trans _ _ _ _ l6 i8
  obtain ⟨idx, hidx, hpe⟩ : ∃ idx, THashMap.find (S.TableObjs p).Shard2PartitionIdx s = some idx ∧
      (S.TableObjs p).Partitions[idx]? = some e := by
    unfold TTableInfo.PartitionOf at he
    cases hf : THashMap.find (S.TableObjs p).Shard2PartitionIdx s with
    | none => simp [hf] at he
    | some i => exact ⟨i, rfl, by simpa [hf] using he⟩
  refine ⟨?_, ?_, ?_, BatchGrows_from_empty S _ hgrow⟩
  · rw [i1, SetTable_TableObjs_same, WithSched_InFlightCondErase, THashSet.mem_foldl_insert]
    rintro (h | h)
    · simp [List.mem_filter, hR] at h
    · obtain ⟨d, hd1, hd2⟩ := List.mem_map.1 h
      exact hD d hd1 hd2
  · have hC : (tx3.Self.TableObjs p).CondEraseSchedule =
        (D.map Prod.fst).foldl List.erase ((S.TableObjs p).CondEraseSchedule ++
          R.filterMap (THashMap.find (S.TableObjs p).Shard2PartitionIdx)) := by
      rw [i1, SetTable_TableObjs_same, WithSched_CondEraseSchedule]
    have hP : (tx3.Self.TableObjs p).Partitions = (S.TableObjs p).Partitions := by
      rw [i1, SetTable_TableObjs_same, WithSched_Partitions]
    have hmem : idx ∈ D.map Prod.fst ++ (tx3.Self.TableObjs p).CondEraseSchedule := by
      rw [i4.mem_iff]
      apply List.mem_append_right
      exact List.mem_filterMap.2 ⟨s, hR, hidx⟩
    rcases List.mem_append.1 hmem with h | h
    · exfalso
      obtain ⟨d, hd1, hd2⟩ := List.mem_map.1 h
      have h1 := (i3 d hd1).1
      rw [hd2, hpe] at h1
      simp only [Option.some.injEq] at h1
      exact hD d hd1 (by rw [← h1]; exact hes)
    · rw [PendingShards_eq, hP]
      unfold ShardsAt
      exact List.mem_filterMap.2 ⟨idx, h, by simp [hpe, hes]⟩
  · rw [i1]
    simp only [AddressedTo, SetTable_ShardInfos]
    cases hinfo : THashMap.find S.ShardInfos s with
    | none => rfl
    | some info =>
      simp only
      cases hc : THashMap.contains tx3.RunOnTablets info.TabletID with
      | false => rfl
      | true =>
        exfalso
        rcases hgrow.2.1 _ hc with h1 | ⟨s2, info2, h1, h2, h3⟩
        · simp [THashMap.contains, THashMap.find] at h1
        · have := htab s2 info info2 hinfo h1 h2
          subst this
          rw [hgone] at h3
          simp at h3

theorem Example.InFlightMapped_BusyDropped :
    InFlightMapped (Example.BusyDropped.TableObjs 0) := by
  intro s hs
  simp [Example.BusyDropped, Example.Catalog, Example.Table, TTableInfo.WithSched] at hs
  rcases hs with rfl | rfl
  · exact ⟨0, _, rfl, rfl⟩
  · exact ⟨1, _, rfl, rfl⟩

theorem Example.tablets_distinct (t : TTableInfo) (allow dropped : Bool) (s s2 : TShardIdx)
    (info info2 : TShardInfo)
    (h1 : THashMap.find (Example.Catalog t allow dropped).ShardInfos s = some info)
    (h2 : THashMap.find (Example.Catalog t allow dropped).ShardInfos s2 = some info2)
    (h3 : info2.TabletID = info.TabletID) : s2 = s := by
  simp only [Example.Catalog, THashMap.find] at h1 h2
  split at h1 <;> split at h2 <;> try split at h1
  all_goals try split at h2
  all_goals try split at h1
  all_goals try split at h2
  all_goals simp at h1 h2
  all_goals subst h1 h2
  all_goals first | (subst_vars; rfl) | simp at h3

/-- Witness of C8 on `Example.BusyDropped` (shards 1 and 2 in flight, the
    table path dropped): the run at time 20 completes, shard 1 leaves the
    in-flight set, is pending again and gets no request. -/
theorem self_healing_on_drop_witness :
    ∃ tx, RunDue Example.BusyDropped (some 0) Example.At20 = some tx ∧
      Example.Shard1 ∉ (tx.Self.TableObjs 0).InFlightCondErase ∧
      Example.Shard1 ∈ PendingShards (tx.Self.TableObjs 0) ∧
      AddressedTo tx.Self tx.RunOnTablets Example.Shard1 = false ∧
      BatchResolves Example.BusyDropped tx.RunOnTablets :=
  self_healing_on_drop Example.BusyDropped 0 Example.At20 Example.Shard1 Example.Settings
    { ShardIdx := Example.Shard1, NextCondErase := 10, LastCondEraseLag := some 0 }
    rfl rfl (by decide) Example.InFlightMapped_BusyDropped
    (Example.IndexCatalogOk_Catalog _ _ _) rfl rfl
    (fun s2 info info2 h1 h2 h3 => Example.tablets_distinct _ _ _ _ s2 info info2 h1 h2 h3)
    (by decide)


/-! ## The dispatch-attempt predicate and the policy switch -/

theorem ShardResolves_iff (S : TSchemeShard) (s : TShardIdx) :
    ShardResolves S s = true ↔
      ∃ (info : TShardInfo) (path : TPathElement),
        THashMap.find S.ShardInfos s = some info ∧
        THashMap.find S.PathsById info.PathId = some path ∧
        path.Dropped = false ∧ THashMap.contains S.Tables info.PathId = true := by
  unfold ShardResolves
  cases h1 : THashMap.find S.ShardInfos s with
  | none => simp
  | some info =>
    cases h2 : THashMap.find S.PathsById info.PathId with
    | none => simp [h2]
    | some path => simp [h2]

/-- C9 (dispatch-attempt predicate). For a partition that is due, with a
    consistent index catalog, `DoExecuteOnShard` returns, and returns true if
    and only if the shard is in `ShardInfos`, its path is in `PathsById` and not
    dropped, and its path id is in `Tables`; it never writes the scheme shard
    (in-flight sets and schedules included), and when it returns false the
    whole transaction, outgoing batch included, is unchanged. -/
theorem dispatch_attempt_predicate (tx : TTxRunConditionalErase) (p : TTablePtr)
    (e : TTableShardInfo) (ctx : TActorContext) (hdue : e.NextCondErase ≤ ctx.Now)
    (hok : IndexCatalogOk tx.Self) :
    ∃ (b : Bool) (tx1 : TTxRunConditionalErase),
      DoExecuteOnShard tx p e ctx = some (b, tx1) ∧
      (b = true ↔
        ∃ (info : TShardInfo) (path : TPathElement),
          THashMap.find tx.Self.ShardInfos e.ShardIdx = some info ∧
          THashMap.find tx.Self.PathsById info.PathId = some path ∧
          path.Dropped = false ∧ THashMap.contains tx.Self.Tables info.PathId = true) ∧
      tx1.Self = tx.Self ∧
      (b = false → tx1 = tx) := by
  obtain ⟨tx1, h⟩ := DoExecuteOnShard_total tx p e ctx hok
  obtain ⟨d1, -, -, d4, -⟩ := DoExecuteOnShard_spec _ _ _ _ _ _ h
  refine ⟨_, tx1, h, ?_, d1, d4⟩
  rw [← ShardResolves_iff]
  simp [DispatchAttempt, hdue]

/-- Witness of C9 on `Example.Busy`: partition of shard 3, due at time 20. -/
theorem dispatch_attempt_predicate_witness :
    ∃ (b : Bool) (tx1 : TTxRunConditionalErase),
      DoExecuteOnShard (CreateTxRunConditionalEraseOnTable Example.Busy 0) 0
        { ShardIdx := Example.Shard3, NextCondErase := 10, LastCondEraseLag := some 0 }
        Example.At20 = some (b, tx1) ∧
      (b = true ↔
        ∃ (info : TShardInfo) (path : TPathElement),
          THashMap.find (CreateTxRunConditionalEraseOnTable Example.Busy 0).Self.ShardInfos
            Example.Shard3 = some info ∧
          THashMap.find (CreateTxRunConditionalEraseOnTable Example.Busy 0).Self.PathsById
            info.PathId = some path ∧
          path.Dropped = false ∧
          THashMap.contains (CreateTxRunConditionalEraseOnTable Example.Busy 0).Self.Tables
            info.PathId = true) ∧
      tx1.Self = (CreateTxRunConditionalEraseOnTable Example.Busy 0).Self ∧
      (b = false → tx1 = CreateTxRunConditionalEraseOnTable Example.Busy 0) :=
  dispatch_attempt_predicate (CreateTxRunConditionalEraseOnTable Example.Busy 0) 0
    { ShardIdx := Example.Shard3, NextCondErase := 10, LastCondEraseLag := some 0 }
    Example.At20 (by decide) (Example.IndexCatalogOk_Catalog _ _ _)

/-- C10 (policy-disabled no-op). With `AllowConditionalEraseOperations` off,
    `RunDue`, for one table or for all, returns with the scheme shard unchanged
    (so every table keeps its in-flight set and its pending schedule) and an
    empty outgoing batch, and `DoComplete` sends no request. -/
theorem policy_disabled_noop (S : TSchemeShard) (tableInfo : Option TTablePtr)
    (ctx : TActorContext) (hflag : S.AllowConditionalEraseOperations = false) :
    ∃ tx, RunDue S tableInfo ctx = some tx ∧ tx.Self = S ∧ tx.RunOnTablets = [] ∧
      (DoComplete tx).Sent = [] := by
  refine ⟨{ Self := S, TableInfo := tableInfo, RunOnTablets := [] }, ?_, rfl, rfl, rfl⟩
  simp [RunDue, DoExecute, hflag]

/-- Witness of C10 on `Example.BusyDisallowed`, for the table and for all. -/
theorem policy_disabled_noop_witness :
    (∃ tx, RunDue Example.BusyDisallowed (some 0) Example.At20 = some tx ∧
      tx.Self = Example.BusyDisallowed ∧ tx.RunOnTablets = [] ∧ (DoComplete tx).Sent = []) ∧
    (∃ tx, RunDue Example.BusyDisallowed none Example.At20 = some tx ∧
      tx.Self = Example.BusyDisallowed ∧ tx.RunOnTablets = [] ∧ (DoComplete tx).Sent = []) :=
  ⟨policy_disabled_noop Example.BusyDisallowed (some 0) Example.At20 rfl,
    policy_disabled_noop Example.BusyDisallowed none Example.At20 rfl⟩


/-! ## Discarded responses -/

/-- C11 (stale responses are discarded). A response whose tablet maps to a
    shard absent from `ShardInfos`, or whose table is not in `TTLEnabledTables`
    or has TTL no longer enabled, or whose shard is not in the table's in-flight
    set, is consumed without effect: `Execute` returns, the scheme shard (every
    table's in-flight set, schedule and partition entries, and the store) is
    unchanged, and `Complete` sends no statistics and launches no `RunDue`. -/
theorem stale_response_discarded (S : TSchemeShard) (ev : TEvConditionalEraseRowsResponse)
    (ctx : TActorContext)
    (hstale : THashMap.find S.ShardInfos (S.GetShardIdx ev.TabletID) = none ∨
      ∃ info, THashMap.find S.ShardInfos (S.GetShardIdx ev.TabletID) = some info ∧
        (THashMap.find S.TTLEnabledTables info.PathId = none ∨
          ∃ p, THashMap.find S.TTLEnabledTables info.PathId = some p ∧
            ((S.TableObjs p).TTLSettings = none ∨
              S.GetShardIdx ev.TabletID ∉ (S.TableObjs p).InFlightCondErase))) :
    ∃ tx, OnEraseResponse S ev ctx = some tx ∧ tx.Self = S ∧ tx.Self.Db = S.Db ∧
      (TTxScheduleConditionalErase.Complete tx).StatsSent = none ∧
      (TTxScheduleConditionalErase.Complete tx).RunConditionalErase = none := by
  refine ⟨CreateTxScheduleConditionalErase S ev, ?_, rfl, rfl, rfl, rfl⟩
  unfold OnEraseResponse TTxScheduleConditionalErase.Execute
  by_cases hflag : S.AllowConditionalEraseOperations = true
  · simp only [CreateTxScheduleConditionalErase, hflag, Bool.not_true, Bool.false_eq_true,
      if_false]
    rcases hstale with h | ⟨info, h, h2⟩
    · simp only [h]
    · simp only [h]
      rcases h2 with h2 | ⟨p, h2, h3⟩
      · simp only [h2]
      · simp only [h2]
        rcases h3 with h3 | h3
        · simp [TTableInfo.IsTTLEnabled, h3]
        · by_cases hen : (S.TableObjs p).IsTTLEnabled = true
          · simp [hen, THashSet.contains, TTableInfo.GetInFlightCondErase, h3]
          · simp [hen]
  · simp [CreateTxScheduleConditionalErase, hflag]

/-- Witness of C11 on `Example.Busy`: shard 3 (tablet 103) is pending, not in
    flight, so its response is discarded. -/
theorem stale_response_discarded_witness :
    ∃ tx, OnEraseResponse Example.Busy
        { TabletID := 103, Status := EStatus.OK, ErrorDescription := "",
          Stats := { RowsProcessed := 0, RowsErased := 0 } } Example.At30 = some tx ∧
      tx.Self = Example.Busy ∧ tx.Self.Db = Example.Busy.Db ∧
      (TTxScheduleConditionalErase.Complete tx).StatsSent = none ∧
      (TTxScheduleConditionalErase.Complete tx).RunConditionalErase = none :=
  stale_response_discarded Example.Busy _ Example.At30
    (Or.inr ⟨{ TabletID := 103, PathId := Example.TablePath }, rfl,
      Or.inr ⟨0, rfl, Or.inr (by decide)⟩⟩)

/-- C12 (`PARTIAL` does not reschedule). A response with status `PARTIAL` for a
    shard that is in flight is consumed without effect: `Execute` returns, the
    scheme shard is unchanged (the shard's partition entry and next-eligible-time,
    the in-flight set still holding the shard, the schedule, the store), and
    `Complete` launches no `RunDue`. -/
theorem partial_does_not_reschedule (S : TSchemeShard) (ev : TEvConditionalEraseRowsResponse)
    (ctx : TActorContext) (info : TShardInfo) (p : TTablePtr)
    (hstatus : ev.Status = EStatus.PARTIAL)
    (hinfo : THashMap.find S.ShardInfos (S.GetShardIdx ev.TabletID) = some info)
    (hp : THashMap.find S.TTLEnabledTables info.PathId = some p)
    (hin : S.GetShardIdx ev.TabletID ∈ (S.TableObjs p).InFlightCondErase) :
    ∃ tx, OnEraseResponse S ev ctx = some tx ∧ tx.Self = S ∧
      (tx.Self.TableObjs p).PartitionOf (S.GetShardIdx ev.TabletID) =
        (S.TableObjs p).PartitionOf (S.GetShardIdx ev.TabletID) ∧
      S.GetShardIdx ev.TabletID ∈ (tx.Self.TableObjs p).InFlightCondErase ∧
      PendingShards (tx.Self.TableObjs p) = PendingShards (S.TableObjs p) ∧
      tx.Self.Db = S.Db ∧
      (TTxScheduleConditionalErase.Complete tx).RunConditionalErase = none := by
  refine ⟨CreateTxScheduleConditionalErase S ev, ?_, rfl, rfl, hin, rfl, rfl, rfl⟩
  unfold OnEraseResponse TTxScheduleConditionalErase.Execute
  by_cases hflag : S.AllowConditionalEraseOperations = true
  · simp only [CreateTxScheduleConditionalErase, hflag, Bool.not_true, Bool.false_eq_true,
      if_false, hinfo, hp]
    by_cases hen : (S.TableObjs p).IsTTLEnabled = true
    · simp [hen, THashSet.contains, TTableInfo.GetInFlightCondErase, hin, hstatus,
        TTxScheduleConditionalErase.SwitchStatus]
    · simp [hen]
  · simp [CreateTxScheduleConditionalErase, hflag]

/-- Witness of C12 on `Example.Busy`: the `PARTIAL` response of tablet 101. -/
theorem partial_does_not_reschedule_witness :
    ∃ tx, OnEraseResponse Example.Busy (Example.Response EStatus.PARTIAL) Example.At30 =
        some tx ∧ tx.Self = Example.Busy ∧
      (tx.Self.TableObjs 0).PartitionOf
          (Example.Busy.GetShardIdx (Example.Response EStatus.PARTIAL).TabletID) =
        (Example.Busy.TableObjs 0).PartitionOf
          (Example.Busy.GetShardIdx (Example.Response EStatus.PARTIAL).TabletID) ∧
      Example.Busy.GetShardIdx (Example.Response EStatus.PARTIAL).TabletID ∈
        (tx.Self.TableObjs 0).InFlightCondErase ∧
      PendingShards (tx.Self.TableObjs 0) = PendingShards (Example.Busy.TableObjs 0) ∧
      tx.Self.Db = Example.Busy.Db ∧
      (TTxScheduleConditionalErase.Complete tx).RunConditionalErase = none :=
  partial_does_not_reschedule Example.Busy (Example.Response EStatus.PARTIAL) Example.At30
    { TabletID := 101, PathId := Example.TablePath } 0 rfl rfl rfl (by decide)


/-! ## The index mapper -/

theorem AllSome_length {α : Type} (l : List (Option α)) (a : List α) (h : AllSome l = some a) :
    a.length = l.length := by
  induction l generalizing a with
  | nil => simp [AllSome] at h; subst h; rfl
  | cons x rest ih =>
    cases x with
    | none => simp [AllSome] at h
    | some v =>
      unfold AllSome at h
      cases hr : AllSome rest with
      | none => simp [hr] at h
      | some r =>
        simp [hr] at h
        subst h
        simp [ih r hr]

theorem AllSome_eq_none {α : Type} (l : List (Option α)) :
    AllSome l = none ↔ none ∈ l := by
  induction l with
  | nil => simp [AllSome]
  | cons x rest ih =>
    cases x with
    | none => simp [AllSome]
    | some v =>
      unfold AllSome
      cases hr : AllSome rest with
      | none => simp [ih.1 hr]
      | some r =>
        simp only [List.mem_cons]
        constructor
        · intro h; simp at h
        · rintro (h | h)
          · simp at h
          · rw [ih.2 h] at hr; simp at hr

/-- `MakeColumnNameToId` keeps the live columns, in order, when their names
    are distinct from each other and from the names already collected. -/
theorem MakeColumnNameToIdLoop_some (l : THashMap Nat TColumn) (acc : THashMap String Nat)
    (h1 : ∀ n ∈ THashMap.keys (LiveColumns l), n ∉ THashMap.keys acc)
    (h2 : (THashMap.keys (LiveColumns l)).Nodup) :
    MakeColumnNameToIdLoop l acc = some (acc ++ LiveColumns l) := by
  induction l generalizing acc with
  | nil => simp [MakeColumnNameToIdLoop, LiveColumns]
  | cons x rest ih =>
    obtain ⟨id, column⟩ := x
    unfold MakeColumnNameToIdLoop
    by_cases hd : column.IsDropped = true
    · simp only [hd, if_true]
      have hl : LiveColumns ((id, column) :: rest) = LiveColumns rest := by
        simp [LiveColumns, hd]
      rw [hl] at h1 h2 ⊢
      exact ih acc h1 h2
    · simp only [hd, if_false]
      have hl : LiveColumns ((id, column) :: rest) = (column.Name, id) :: LiveColumns rest := by
        simp [LiveColumns, hd]
      rw [hl] at h1 h2 ⊢
      simp only [THashMap.keys, List.map_cons, List.nodup_cons] at h2
      have hnot : THashMap.contains acc column.Name = false := by
        cases hc : THashMap.contains acc column.Name with
        | false => rfl
        | true =>
          exfalso
          exact h1 column.Name (by simp [THashMap.keys])
            ((THashMap.contains_iff_mem_keys acc column.Name).1 hc)
      simp only [THashMap.emplace, hnot, Bool.false_eq_true, if_false]
      rw [ih (acc ++ [(column.Name, id)])]
      · simp
      · intro n hn hn2
        simp only [THashMap.keys, List.map_append, List.map_cons, List.map_nil, List.mem_append,
          List.mem_singleton] at hn2
        rcases hn2 with hn2 | hn2
        · exact h1 n (by simp only [THashMap.keys, List.map_cons, List.mem_cons]; right; exact hn)
            hn2
        · subst hn2
          exact h2.1 hn
      · exact h2.2

theorem MakeColumnNameToIdLoop_inv (l : THashMap Nat TColumn) (acc m : THashMap String Nat)
    (h : MakeColumnNameToIdLoop l acc = some m) :
    (∀ n ∈ THashMap.keys (LiveColumns l), n ∉ THashMap.keys acc) ∧
    (THashMap.keys (LiveColumns l)).Nodup := by
  induction l generalizing acc with
  | nil => simp [LiveColumns, THashMap.keys]
  | cons x rest ih =>
    obtain ⟨id, column⟩ := x
    unfold MakeColumnNameToIdLoop at h
    by_cases hd : column.IsDropped = true
    · simp only [hd, if_true] at h
      have hl : LiveColumns ((id, column) :: rest) = LiveColumns rest := by
        simp [LiveColumns, hd]
      rw [hl]
      exact ih acc h
    · simp only [hd, if_false] at h
      have hl : LiveColumns ((id, column) :: rest) = (column.Name, id) :: LiveColumns rest := by
        simp [LiveColumns, hd]
      rw [hl]
      cases hc : THashMap.contains acc column.Name with
      | true => simp [THashMap.emplace, hc] at h
      | false =>
        simp only [THashMap.emplace, hc, Bool.false_eq_true, if_false] at h
        obtain ⟨i1, i2⟩ := ih _ h
        have hnotin : column.Name ∉ THashMap.keys acc := by
          intro hm
          rw [(THashMap.contains_iff_mem_keys acc column.Name).2 hm] at hc
          simp at hc
        constructor
        · intro n hn
          simp only [THashMap.keys, List.map_cons, List.mem_cons] at hn
          rcases hn with rfl | hn
          · exact hnotin
          · intro hn2
            exact i1 n hn (by simp [THashMap.keys]; left; simpa [THashMap.keys] using hn2)
        · simp only [THashMap.keys, List.map_cons, List.nodup_cons]
          refine ⟨?_, i2⟩
          intro hn
          exact i1 column.Name hn (by simp [THashMap.keys])

theorem MakeColumnNameToId_some (columns : THashMap Nat TColumn) (h : LiveNamesDistinct columns) :
    MakeColumnNameToId columns = some (LiveColumns columns) := by
  unfold MakeColumnNameToId
  rw [MakeColumnNameToIdLoop_some columns [] (by simp [THashMap.keys]) h]
  simp

theorem MakeColumnNameToId_none (columns : THashMap Nat TColumn)
    (h : ¬ LiveNamesDistinct columns) : MakeColumnNameToId columns = none := by
  cases hm : MakeColumnNameToId columns with
  | none => rfl
  | some m => exact absurd (MakeColumnNameToIdLoop_inv columns [] m hm).2 h

/-- The first loop of `MakeColumnIds` collects the pairs of the index keys. -/
theorem MakeColumnIdsIndexKeys_eq (mainColumns indexImplColumns : THashMap String Nat)
    (l : List String) (result : List (Nat × Nat)) (keys : THashSet String) :
    MakeColumnIdsIndexKeys mainColumns indexImplColumns l (result, keys) =
      (AllSome (l.map (fun k =>
        match THashMap.find indexImplColumns k, THashMap.find mainColumns k with
        | some implId, some mainId => some (implId, mainId)
        | _, _ => none))).map (fun a => (result ++ a, l.foldl THashSet.insert keys)) := by
  induction l generalizing result keys with
  | nil => simp [MakeColumnIdsIndexKeys, AllSome]
  | cons k rest ih =>
    unfold MakeColumnIdsIndexKeys
    cases hm : THashMap.find mainColumns k with
    | none =>
      cases hi : THashMap.find indexImplColumns k <;> simp [AllSome, hm, hi]
    | some mainId =>
      cases hi : THashMap.find indexImplColumns k with
      | none => simp [AllSome, hm, hi]
      | some implId =>
        simp only [ih, List.map_cons, hm, hi, AllSome, List.foldl_cons]
        cases AllSome (rest.map (fun k =>
          match THashMap.find indexImplColumns k, THashMap.find mainColumns k with
          | some implId, some mainId => some (implId, mainId)
          | _, _ => none)) <;> simp

/-- The second loop of `MakeColumnIds` collects the pairs of the key columns
    whose name is not in `keys`. -/
theorem MakeColumnIdsMainKeys_eq (mainTableColumns : THashMap Nat TColumn)
    (indexImplColumns : THashMap String Nat) (keys : THashSet String) (l : List Nat)
    (result : List (Nat × Nat)) :
    MakeColumnIdsMainKeys mainTableColumns indexImplColumns keys l result =
      (AllSome ((l.filter (fun c =>
          match THashMap.find mainTableColumns c with
          | some column => decide (column.Name ∉ keys)
          | none => true)).map (fun c =>
        match THashMap.find mainTableColumns c with
        | none => none
        | some column =>
          (THashMap.find indexImplColumns column.Name).map (fun implId => (implId, c))))).map
        (fun b => result ++ b) := by
  induction l generalizing result with
  | nil => simp [MakeColumnIdsMainKeys, AllSome]
  | cons c rest ih =>
    unfold MakeColumnIdsMainKeys
    cases hc : THashMap.find mainTableColumns c with
    | none => simp [List.filter_cons, hc, AllSome]
    | some column =>
      by_cases hk : column.Name ∈ keys
      · simp only [THashSet.contains, hk, decide_True, if_true, ih, List.filter_cons, hc,
          not_true_eq_false, decide_False, Bool.false_eq_true, if_false]
      · simp only [THashSet.contains, hk, decide_False, Bool.false_eq_true, if_false,
          List.filter_cons, hc, not_false_eq_true, decide_True, if_true, List.map_cons, AllSome]
        cases hi : THashMap.find indexImplColumns column.Name with
        | none => simp [AllSome]
        | some implId =>
          simp only [ih, Option.map_some', AllSome]
          cases AllSome ((rest.filter (fun c =>
              match THashMap.find mainTableColumns c with
              | some column => decide (column.Name ∉ keys)
              | none => true)).map (fun c =>
            match THashMap.find mainTableColumns c with
            | none => none
            | some column =>
              (THashMap.find indexImplColumns column.Name).map (fun implId => (implId, c)))) <;>
            simp


theorem AllSome_eq_some {α : Type} (l : List (Option α)) (a : List α) (h : AllSome l = some a) :
    l = a.map some := by
  induction l generalizing a with
  | nil => simp [AllSome] at h; subst h; rfl
  | cons x rest ih =>
    cases x with
    | none => simp [AllSome] at h
    | some v =>
      unfold AllSome at h
      cases hr : AllSome rest with
      | none => simp [hr] at h
      | some r =>
        simp [hr] at h
        subst h
        simp [ih r hr]

/-- `MakeColumnIds` computes the mapping of the specification when the live
    column names of both tables are distinct. -/
theorem MakeColumnIds_eq_spec (mainTable : TTableInfo) (index : TTableIndexInfo)
    (indexImplTable : TTableInfo) (h1 : LiveNamesDistinct mainTable.Columns)
    (h2 : LiveNamesDistinct indexImplTable.Columns) :
    MakeColumnIds mainTable index indexImplTable =
      IndexMappingSpec mainTable index indexImplTable := by
  unfold MakeColumnIds IndexMappingSpec
  rw [MakeColumnNameToId_some _ h1, MakeColumnNameToId_some _ h2]
  simp only [MakeColumnIdsIndexKeys_eq]
  have hf : (fun k =>
      match THashMap.find (LiveColumns indexImplTable.Columns) k,
            THashMap.find (LiveColumns mainTable.Columns) k with
      | some implId, some mainId => some (implId, mainId)
      | _, _ => none) = IndexKeyPair mainTable indexImplTable := by
    funext k
    rfl
  rw [hf]
  cases ha : AllSome (index.IndexKeys.map (IndexKeyPair mainTable indexImplTable)) with
  | none => rfl
  | some a =>
    simp only [Option.map_some', MakeColumnIdsMainKeys_eq]
    have hfilter : mainTable.KeyColumnIds.filter (fun c =>
        match THashMap.find mainTable.Columns c with
        | some column => decide (column.Name ∉ index.IndexKeys.foldl THashSet.insert [])
        | none => true) = UncoveredKeyColumns mainTable index := by
      unfold UncoveredKeyColumns
      apply List.filter_congr
      intro c _
      cases THashMap.find mainTable.Columns c with
      | none => rfl
      | some column =>
        simp only [THashSet.mem_foldl_insert, List.not_mem_nil, false_or]
    have hg : (fun c =>
        match THashMap.find mainTable.Columns c with
        | none => none
        | some column =>
          (THashMap.find (LiveColumns indexImplTable.Columns) column.Name).map
            (fun implId => (implId, c))) = MainKeyPair mainTable indexImplTable := by
      funext c
      rfl
    rw [hfilter, hg]
    cases AllSome ((UncoveredKeyColumns mainTable index).map
      (MainKeyPair mainTable indexImplTable)) <;> rfl

theorem MakeColumnIds_none_of_duplicate (mainTable : TTableInfo) (index : TTableIndexInfo)
    (indexImplTable : TTableInfo)
    (h : ¬ LiveNamesDistinct mainTable.Columns ∨ ¬ LiveNamesDistinct indexImplTable.Columns) :
    MakeColumnIds mainTable index indexImplTable = none := by
  unfold MakeColumnIds
  rcases h with h | h
  · rw [MakeColumnNameToId_none _ h]
  · rw [MakeColumnNameToId_none _ h]
    cases MakeColumnNameToId mainTable.Columns <;> rfl

theorem MakeColumnIds_distinct (mainTable : TTableInfo) (index : TTableIndexInfo)
    (indexImplTable : TTableInfo) (result : List (Nat × Nat))
    (h : MakeColumnIds mainTable index indexImplTable = some result) :
    LiveNamesDistinct mainTable.Columns ∧ LiveNamesDistinct indexImplTable.Columns := by
  by_contra hc
  rw [not_and_or] at hc
  rw [MakeColumnIds_none_of_duplicate _ _ _ hc] at h
  simp at h

/-- C15 (index mapping definition). Whenever `MakeColumnIds` succeeds, its
    result is the mapping of the specification: the pairs (index-implementation
    id, main id) of the index keys, in order, followed by the pairs
    (index-implementation id of the name, key column id) of the main key columns
    whose name is not an index key, in order, every name being looked up among
    the non-dropped columns; its length is the number of index keys plus the
    number of uncovered key columns. -/
theorem index_mapping_definition (mainTable : TTableInfo) (index : TTableIndexInfo)
    (indexImplTable : TTableInfo) (result : List (Nat × Nat))
    (h : MakeColumnIds mainTable index indexImplTable = some result) :
    IndexMappingSpec mainTable index indexImplTable = some result ∧
    (∃ a b, result = a ++ b ∧
      index.IndexKeys.map (IndexKeyPair mainTable indexImplTable) = a.map some ∧
      (UncoveredKeyColumns mainTable index).map (MainKeyPair mainTable indexImplTable) =
        b.map some) ∧
    result.length = index.IndexKeys.length + (UncoveredKeyColumns mainTable index).length := by
  obtain ⟨h1, h2⟩ := MakeColumnIds_distinct _ _ _ _ h
  rw [MakeColumnIds_eq_spec _ _ _ h1 h2] at h
  refine ⟨h, ?_⟩
  unfold IndexMappingSpec at h
  cases ha : AllSome (index.IndexKeys.map (IndexKeyPair mainTable indexImplTable)) with
  | none => simp [ha] at h
  | some a =>
    cases hb : AllSome ((UncoveredKeyColumns mainTable index).map
        (MainKeyPair mainTable indexImplTable)) with
    | none => simp [ha, hb] at h
    | some b =>
      simp only [ha, hb, Option.some.injEq] at h
      subst h
      have la := AllSome_length _ _ ha
      have lb := AllSome_length _ _ hb
      simp only [List.length_map] at la lb
      refine ⟨⟨a, b, rfl, AllSome_eq_some _ _ ha, AllSome_eq_some _ _ hb⟩, ?_⟩
      simp [la, lb]


/-- Witness of C15 on the index example. -/
theorem index_mapping_definition_witness :
    IndexMappingSpec Example.MainTable Example.IndexAB Example.ImplTable =
      some [(11, 1), (12, 2), (13, 3)] ∧
    (∃ a b, [(11, 1), (12, 2), (13, 3)] = a ++ b ∧
      Example.IndexAB.IndexKeys.map (IndexKeyPair Example.MainTable Example.ImplTable) =
        a.map some ∧
      (UncoveredKeyColumns Example.MainTable Example.IndexAB).map
        (MainKeyPair Example.MainTable Example.ImplTable) = b.map some) ∧
    [(11, 1), (12, 2), (13, 3)].length =
      Example.IndexAB.IndexKeys.length +
        (UncoveredKeyColumns Example.MainTable Example.IndexAB).length :=
  index_mapping_definition Example.MainTable Example.IndexAB Example.ImplTable
    [(11, 1), (12, 2), (13, 3)] (by decide)

theorem IndexKeyPair_none (mainTable indexImplTable : TTableInfo) (k : String) :
    IndexKeyPair mainTable indexImplTable k = none ↔
      LiveColumnId mainTable.Columns k = none ∨ LiveColumnId indexImplTable.Columns k = none := by
  unfold IndexKeyPair
  cases LiveColumnId indexImplTable.Columns k <;> cases LiveColumnId mainTable.Columns k <;> simp

theorem IndexMappingSpec_none (mainTable : TTableInfo) (index : TTableIndexInfo)
    (indexImplTable : TTableInfo) :
    IndexMappingSpec mainTable index indexImplTable = none ↔
      (∃ k ∈ index.IndexKeys,
        LiveColumnId mainTable.Columns k = none ∨ LiveColumnId indexImplTable.Columns k = none) ∨
      (∃ c ∈ mainTable.KeyColumnIds, THashMap.find mainTable.Columns c = none) ∨
      (∃ c ∈ mainTable.KeyColumnIds, ∃ column,
        THashMap.find mainTable.Columns c = some column ∧ column.Name ∉ index.IndexKeys ∧
          LiveColumnId indexImplTable.Columns column.Name = none) := by
  have hA : AllSome (index.IndexKeys.map (IndexKeyPair mainTable indexImplTable)) = none ↔
      ∃ k ∈ index.IndexKeys,
        LiveColumnId mainTable.Columns k = none ∨
          LiveColumnId indexImplTable.Columns k = none := by
    rw [AllSome_eq_none, List.mem_map]
    constructor
    · rintro ⟨k, hk, h⟩
      exact ⟨k, hk, (IndexKeyPair_none _ _ k).1 h⟩
    · rintro ⟨k, hk, h⟩
      exact ⟨k, hk, (IndexKeyPair_none _ _ k).2 h⟩
  have hB : AllSome ((UncoveredKeyColumns mainTable index).map
      (MainKeyPair mainTable indexImplTable)) = none ↔
      (∃ c ∈ mainTable.KeyColumnIds, THashMap.find mainTable.Columns c = none) ∨
      (∃ c ∈ mainTable.KeyColumnIds, ∃ column,
        THashMap.find mainTable.Columns c = some column ∧ column.Name ∉ index.IndexKeys ∧
          LiveColumnId indexImplTable.Columns column.Name = none) := by
    rw [AllSome_eq_none, List.mem_map]
    unfold UncoveredKeyColumns MainKeyPair
    constructor
    · rintro ⟨c, hc, h⟩
      rw [List.mem_filter] at hc
      obtain ⟨hc1, hc2⟩ := hc
      cases hf : THashMap.find mainTable.Columns c with
      | none => exact Or.inl ⟨c, hc1, hf⟩
      | some column =>
        simp only [hf, decide_eq_true_eq] at hc2
        simp only [hf, Option.map_eq_none'] at h
        exact Or.inr ⟨c, hc1, column, hf, hc2, h⟩
    · rintro (⟨c, hc1, hf⟩ | ⟨c, hc1, column, hf, hn, hl⟩)
      · exact ⟨c, by rw [List.mem_filter]; exact ⟨hc1, by simp [hf]⟩, by simp [hf]⟩
      · exact ⟨c, by rw [List.mem_filter]; exact ⟨hc1, by simp [hf, hn]⟩, by simp [hf, hl]⟩
  unfold IndexMappingSpec
  rw [← hA, ← hB]
  cases AllSome (index.IndexKeys.map (IndexKeyPair mainTable indexImplTable)) <;>
    cases AllSome ((UncoveredKeyColumns mainTable index).map
      (MainKeyPair mainTable indexImplTable)) <;> simp

/-- C16 (invariant violations are fatal). `MakeColumnIds` hits a fatal
    assertion (returns no mapping) if and only if some index key is not the name
    of a non-dropped column of the main table or of the index-implementation
    table, or some main key column id is absent from the main table's columns,
    or some uncovered main key column's name is not a non-dropped column of the
    index-implementation table, or two non-dropped columns of one table share a
    name; otherwise it returns a mapping. -/
theorem invariant_violations_fatal (mainTable : TTableInfo) (index : TTableIndexInfo)
    (indexImplTable : TTableInfo) :
    (MakeColumnIds mainTable index indexImplTable = none ↔
      (∃ k ∈ index.IndexKeys,
        LiveColumnId mainTable.Columns k = none ∨ LiveColumnId indexImplTable.Columns k = none) ∨
      (∃ c ∈ mainTable.KeyColumnIds, THashMap.find mainTable.Columns c = none) ∨
      (∃ c ∈ mainTable.KeyColumnIds, ∃ column,
        THashMap.find mainTable.Columns c = some column ∧ column.Name ∉ index.IndexKeys ∧
          LiveColumnId indexImplTable.Columns column.Name = none) ∨
      ¬ LiveNamesDistinct mainTable.Columns ∨ ¬ LiveNamesDistinct indexImplTable.Columns) ∧
    (MakeColumnIds mainTable index indexImplTable = none ∨
      ∃ result, MakeColumnIds mainTable index indexImplTable = some result) := by
  constructor
  · by_cases hd : LiveNamesDistinct mainTable.Columns ∧ LiveNamesDistinct indexImplTable.Columns
    · rw [MakeColumnIds_eq_spec _ _ _ hd.1 hd.2, IndexMappingSpec_none]
      constructor
      · rintro (h | h | h)
        · exact Or.inl h
        · exact Or.inr (Or.inl h)
        · exact Or.inr (Or.inr (Or.inl h))
      · rintro (h | h | h | h | h)
        · exact Or.inl h
        · exact Or.inr (Or.inl h)
        · exact Or.inr (Or.inr h)
        · exact absurd hd.1 h
        · exact absurd hd.2 h
    · rw [not_and_or] at hd
      constructor
      · intro _
        rcases hd with h | h
        · exact Or.inr (Or.inr (Or.inr (Or.inl h)))
        · exact Or.inr (Or.inr (Or.inr (Or.inr h)))
      · intro _
        exact MakeColumnIds_none_of_duplicate _ _ _ hd
  · cases h : MakeColumnIds mainTable index indexImplTable with
    | none => exact Or.inl rfl
    | some r => exact Or.inr ⟨r, rfl⟩


/-- C14, amended (index mapping of the example). For a main table with primary
    key `{a, c}` and an index over the columns `{a, b}`, the three columns being
    distinct and live in both tables, `MakeColumnIds` returns exactly the three
    pairs `(idx_a, a)`, `(idx_b, b)`, `(idx_c, c)`, without duplicates: the index
    keys `a`, `b` first, then the uncovered primary-key column `c`. -/
theorem index_mapping_example (mainTable : TTableInfo) (index : TTableIndexInfo)
    (indexImplTable : TTableInfo) (na nb nc : String) (ma mb mc ia ib ic : Nat)
    (colA colC : TColumn)
    (hkey : mainTable.KeyColumnIds = [ma, mc]) (hidx : index.IndexKeys = [na, nb])
    (hcolA : THashMap.find mainTable.Columns ma = some colA) (hnameA : colA.Name = na)
    (hcolC : THashMap.find mainTable.Columns mc = some colC) (hnameC : colC.Name = nc)
    (hca : nc ≠ na) (hcb : nc ≠ nb) (hab : ma ≠ mb) (hbc : mb ≠ mc)
    (hd1 : LiveNamesDistinct mainTable.Columns)
    (hd2 : LiveNamesDistinct indexImplTable.Columns)
    (hma : LiveColumnId mainTable.Columns na = some ma)
    (hmb : LiveColumnId mainTable.Columns nb = some mb)
    (hia : LiveColumnId indexImplTable.Columns na = some ia)
    (hib : LiveColumnId indexImplTable.Columns nb = some ib)
    (hic : LiveColumnId indexImplTable.Columns nc = some ic) :
    MakeColumnIds mainTable index indexImplTable = some [(ia, ma), (ib, mb), (ic, mc)] ∧
    [(ia, ma), (ib, mb), (ic, mc)].Nodup := by
  have hac : ma ≠ mc := by
    intro h
    rw [h, hcolC] at hcolA
    simp only [Option.some.injEq] at hcolA
    rw [hcolA, hnameA] at hnameC
    exact hca hnameC.symm
  constructor
  · rw [MakeColumnIds_eq_spec _ _ _ hd1 hd2]
    have h1 : index.IndexKeys.map (IndexKeyPair mainTable indexImplTable) =
        [some (ia, ma), some (ib, mb)] := by
      simp [hidx, IndexKeyPair, hma, hmb, hia, hib]
    have h2 : UncoveredKeyColumns mainTable index = [mc] := by
      simp [UncoveredKeyColumns, hkey, List.filter_cons, hcolA, hcolC, hidx, hnameA, hnameC,
        hca, hcb]
    have h3 : MainKeyPair mainTable indexImplTable mc = some (ic, mc) := by
      simp [MainKeyPair, hcolC, hnameC, hic]
    simp [IndexMappingSpec, h1, h2, h3, AllSome]
  · simp [hab, hbc, hac]

/-- Witness of the amended C14 on the index example: columns `a`, `b`, `c`
    with ids 1, 2, 3 in the main table and 11, 12, 13 in the index table. -/
theorem index_mapping_example_witness :
    MakeColumnIds Example.MainTable Example.IndexAB Example.ImplTable =
      some [(11, 1), (12, 2), (13, 3)] ∧
    [(11, 1), (12, 2), (13, 3)].Nodup :=
  index_mapping_example Example.MainTable Example.IndexAB Example.ImplTable "a" "b" "c"
    1 2 3 11 12 13 { Name := "a", Dropped := false } { Name := "c", Dropped := false }
    rfl rfl rfl rfl rfl rfl (by decide) (by decide) (by decide) (by decide)
    (by unfold LiveNamesDistinct; decide) (by unfold LiveNamesDistinct; decide)
    (by decide) (by decide) (by decide) (by decide) (by decide)

/-- Counterexample to C14 as stated: in the index example (primary key
    `{a, c}` = ids `[1, 3]`, index keys `[a, b]`, every column live) the mapping
    has three pairs, the pair `(12, 2)` of the index key `b` among them, not only
    the two pairs `(11, 1)` and `(13, 3)`. -/
theorem index_mapping_counterexample :
    Example.MainTable.KeyColumnIds = [1, 3] ∧
    Example.IndexAB.IndexKeys = ["a", "b"] ∧
    LiveColumnId Example.MainTable.Columns "b" = some 2 ∧
    LiveColumnId Example.ImplTable.Columns "b" = some 12 ∧
    MakeColumnIds Example.MainTable Example.IndexAB Example.ImplTable =
      some [(11, 1), (12, 2), (13, 3)] ∧
    (MakeColumnIds Example.MainTable Example.IndexAB Example.ImplTable ==
      some [(11, 1), (13, 3)]) = false :=
  ⟨rfl, rfl, by decide, by decide, by decide, by decide⟩


/-! ## Reconciliation: monotone and idempotent -/

theorem SwitchStatus_some (sysSettings : TSysSettings) (status : EStatus)
    (h : status ≠ EStatus.PARTIAL) :
    ∃ next, TTxScheduleConditionalErase.SwitchStatus sysSettings status = some next := by
  cases status <;> first | exact ⟨_, rfl⟩ | exact absurd rfl h

/-- A response for a shard that is not in flight is returned untouched. -/
theorem OnEraseResponse_not_in_flight (S : TSchemeShard) (ev : TEvConditionalEraseRowsResponse)
    (ctx : TActorContext) (info : TShardInfo) (p : TTablePtr)
    (hinfo : THashMap.find S.ShardInfos (S.GetShardIdx ev.TabletID) = some info)
    (hp : THashMap.find S.TTLEnabledTables info.PathId = some p)
    (hout : S.GetShardIdx ev.TabletID ∉ (S.TableObjs p).InFlightCondErase) :
    OnEraseResponse S ev ctx = some (CreateTxScheduleConditionalErase S ev) := by
  unfold OnEraseResponse TTxScheduleConditionalErase.Execute
  by_cases hflag : S.AllowConditionalEraseOperations = true
  · simp only [CreateTxScheduleConditionalErase, hflag, Bool.not_true, Bool.false_eq_true,
      if_false, hinfo, hp]
    by_cases hen : (S.TableObjs p).IsTTLEnabled = true
    · simp [hen, THashSet.contains, TTableInfo.GetInFlightCondErase, hout]
    · simp [hen]
  · simp [CreateTxScheduleConditionalErase, hflag]

/-- If the dispatch attempt for a partition succeeded at time `d` (so its
    next-eligible-time was at most `d`) and its response, with any status but
    `PARTIAL`, is reconciled at a time `now ≥ d`, then the response is accepted
    and the partition's new next-eligible-time is at least the old one. -/
theorem OnEraseResponse_monotone (S : TSchemeShard) (ev : TEvConditionalEraseRowsResponse)
    (ctx ctxd : TActorContext) (txd txd1 : TTxRunConditionalErase) (info : TShardInfo)
    (p : TTablePtr) (st : TTTLSettingsEnabled) (idx : Nat) (e : TTableShardInfo)
    (hdispatch : DoExecuteOnShard txd p e ctxd = some (true, txd1))
    (hclock : ctxd.Now ≤ ctx.Now)
    (hflag : S.AllowConditionalEraseOperations = true)
    (hstatus : ev.Status ≠ EStatus.PARTIAL)
    (hinfo : THashMap.find S.ShardInfos (S.GetShardIdx ev.TabletID) = some info)
    (hp : THashMap.find S.TTLEnabledTables info.PathId = some p)
    (hst : (S.TableObjs p).TTLSettings = some st)
    (hin : S.GetShardIdx ev.TabletID ∈ (S.TableObjs p).InFlightCondErase)
    (hidx : THashMap.find (S.TableObjs p).Shard2PartitionIdx (S.GetShardIdx ev.TabletID) =
      some idx)
    (he : (S.TableObjs p).Partitions[idx]? = some e) :
    e.NextCondErase ≤ ctxd.Now ∧
    ∃ tx e1, OnEraseResponse S ev ctx = some tx ∧
      (tx.Self.TableObjs p).Partitions[idx]? = some e1 ∧
      (tx.Self.TableObjs p).PartitionOf (S.GetShardIdx ev.TabletID) = some e1 ∧
      e.NextCondErase ≤ e1.NextCondErase := by
  have hdue : e.NextCondErase ≤ ctxd.Now := by
    have := (DoExecuteOnShard_spec _ _ _ _ _ _ hdispatch).2.2.1
    simp only [DispatchAttempt, Bool.true_eq, Bool.and_eq_true, decide_eq_true_eq] at this
    exact this.1
  refine ⟨hdue, ?_⟩
  obtain ⟨next, hnext⟩ := SwitchStatus_some st.SysSettings ev.Status hstatus
  obtain ⟨tx, a1, -, a3, a4⟩ := OnEraseResponse_accept S ev ctx info p st next idx e hflag hinfo
    hp hst hin hnext hidx he
  refine ⟨tx, _, a1, ?_, a4, ?_⟩
  · have := a4
    simp only [TTableInfo.PartitionOf] at this
    rw [a3, Function.update_same] at this ⊢
    rw [ScheduleNextCondErase_eq _ _ _ _ _ _ hidx he] at this ⊢
    simpa [hidx] using this
  · show e.NextCondErase ≤ ctx.Now + next
    exact le_trans hdue (le_trans hclock (Nat.le_add_right _ _))

/-- C19 (`OnEraseResponse` is idempotent). A response with any status but
    `PARTIAL` that is accepted for an in-flight shard removes the shard from the
    in-flight set; the same response delivered a second time, before any
    `RunDue`, is discarded as not in flight: the scheme shard (in-flight set,
    schedule, the shard's next-eligible-time) stays exactly as the first
    delivery left it, and no `RunDue` is launched. -/
theorem response_idempotent (S : TSchemeShard) (ev : TEvConditionalEraseRowsResponse)
    (ctx ctx2 : TActorContext) (info : TShardInfo) (p : TTablePtr) (st : TTTLSettingsEnabled)
    (idx : Nat) (e : TTableShardInfo)
    (hflag : S.AllowConditionalEraseOperations = true)
    (hstatus : ev.Status ≠ EStatus.PARTIAL)
    (hinfo : THashMap.find S.ShardInfos (S.GetShardIdx ev.TabletID) = some info)
    (hp : THashMap.find S.TTLEnabledTables info.PathId = some p)
    (hst : (S.TableObjs p).TTLSettings = some st)
    (hin : S.GetShardIdx ev.TabletID ∈ (S.TableObjs p).InFlightCondErase)
    (hidx : THashMap.find (S.TableObjs p).Shard2PartitionIdx (S.GetShardIdx ev.TabletID) =
      some idx)
    (he : (S.TableObjs p).Partitions[idx]? = some e) :
    ∃ tx1 tx2, OnEraseResponse S ev ctx = some tx1 ∧
      S.GetShardIdx ev.TabletID ∉ (tx1.Self.TableObjs p).InFlightCondErase ∧
      OnEraseResponse tx1.Self ev ctx2 = some tx2 ∧ tx2.Self = tx1.Self ∧
      (TTxScheduleConditionalErase.Complete tx2).RunConditionalErase = none := by
  obtain ⟨next, hnext⟩ := SwitchStatus_some st.SysSettings ev.Status hstatus
  obtain ⟨tx1, a1, -, a3, -, a5, a6, -, -, -, a10⟩ := Execute_accept
    (CreateTxScheduleConditionalErase S ev) ctx info p st next idx e hflag hinfo hp hst hin hnext
    hidx he
  simp only [CreateTxScheduleConditionalErase] at a3 a5 a6 a10
  have hsame : tx1.Self.GetShardIdx ev.TabletID = S.GetShardIdx ev.TabletID := by
    simp [TSchemeShard.GetShardIdx, a6]
  have hout : S.GetShardIdx ev.TabletID ∉ (tx1.Self.TableObjs p).InFlightCondErase := by
    rw [a3, Function.update_same, ScheduleNextCondErase_InFlightCondErase, THashSet.mem_erase]
    simp
  refine ⟨tx1, CreateTxScheduleConditionalErase tx1.Self ev, a1, hout, ?_, rfl, rfl⟩
  apply OnEraseResponse_not_in_flight tx1.Self ev ctx2 info p
  · rw [hsame, a5]; exact hinfo
  · rw [a10]; exact hp
  · rw [hsame]; exact hout


/-- Witness of C19 on `Example.Busy`: the `OK` response of tablet 101 delivered
    at time 30 and again at time 30. -/
theorem response_idempotent_witness :
    ∃ tx1 tx2, OnEraseResponse Example.Busy (Example.Response EStatus.OK) Example.At30 =
        some tx1 ∧
      Example.Busy.GetShardIdx (Example.Response EStatus.OK).TabletID ∉
        (tx1.Self.TableObjs 0).InFlightCondErase ∧
      OnEraseResponse tx1.Self (Example.Response EStatus.OK) Example.At30 = some tx2 ∧
      tx2.Self = tx1.Self ∧
      (TTxScheduleConditionalErase.Complete tx2).RunConditionalErase = none :=
  response_idempotent Example.Busy (Example.Response EStatus.OK) Example.At30 Example.At30
    { TabletID := 101, PathId := Example.TablePath } 0 Example.Settings 0
    { ShardIdx := Example.Shard1, NextCondErase := 10, LastCondEraseLag := some 0 }
    rfl (by decide) rfl rfl rfl (by decide) rfl rfl


/-! ## The scheduler of one table as a function -/

theorem DispatchLoop_table (p : TTablePtr) (ctx : TActorContext) (m fuel : Nat)
    (tx tx1 : TTxRunConditionalErase) (h : DispatchLoop p ctx m fuel tx = some tx1) :
    tx1.Self = tx.Self.SetTable p
      (DispatchTable (fun e => DispatchAttempt tx.Self e ctx) m fuel (tx.Self.TableObjs p)) := by
  induction fuel generalizing tx with
  | zero => simp [DispatchLoop] at h
  | succ fuel ih =>
    unfold DispatchLoop at h
    unfold DispatchTable
    split at h
    · rename_i hcap
      simp at h
      subst h
      have hcap2 : m ≠ 0 ∧ (tx.Self.TableObjs p).InFlightCondErase.length ≥ m := by
        simpa [THashSet.size, TTableInfo.GetInFlightCondErase] using hcap
      rw [if_pos hcap2, SetTable_self]
    · rename_i hcap
      have hcap2 : ¬ (m ≠ 0 ∧ (tx.Self.TableObjs p).InFlightCondErase.length ≥ m) := by
        simpa [THashSet.size, TTableInfo.GetInFlightCondErase] using hcap
      rw [if_neg hcap2]
      split at h
      · rename_i hnone
        simp at h
        subst h
        rw [GetScheduledCondEraseShard_none _ hnone, SetTable_self]
      · rename_i e hsome
        obtain ⟨i, htop⟩ := GetScheduledCondEraseShard_some _ _ hsome
        rw [htop]
        simp only
        split at h
        · simp at h
        · rename_i tx2 hd
          simp at h
          subst h
          obtain ⟨d1, -, d3, -, -⟩ := DoExecuteOnShard_spec _ _ _ _ _ _ hd
          rw [← d3, d1]
          simp [SetTable_self]
        · rename_i tx2 hd
          obtain ⟨d1, -, d3, -, -⟩ := DoExecuteOnShard_spec _ _ _ _ _ _ hd
          rw [← d3]
          simp only [if_true]
          have := ih _ h
          simp only [d1, SetTable_TableObjs_same, SetTable_SetTable, DispatchAttempt_SetTable,
            AddInFlightCondErase_eq _ i e htop] at this
          exact this

theorem InFlightLoop_reschedule (p : TTablePtr) (ctx : TActorContext) (l : List TShardIdx)
    (tx tx1 : TTxRunConditionalErase) (r r1 : THashSet TShardIdx)
    (h : InFlightLoop p ctx l tx r = some (tx1, r1)) :
    r1 = (l.filter (AttemptFails (fun e => DispatchAttempt tx.Self e ctx)
      (tx.Self.TableObjs p))).foldl THashSet.insert r := by
  induction l generalizing tx r with
  | nil =>
    simp [InFlightLoop] at h
    simp [h.2]
  | cons s0 rest ih =>
    unfold InFlightLoop at h
    split at h
    · simp at h
    · rename_i i hi
      split at h
      · simp at h
      · rename_i e0 he
        have hpo : (tx.Self.TableObjs p).PartitionOf s0 = some e0 := PartitionOf_eq _ _ _ _ hi he
        split at h
        · simp at h
        · rename_i tx2 hd
          obtain ⟨d1, -, d3, -, -⟩ := DoExecuteOnShard_spec _ _ _ _ _ _ hd
          have := ih tx2 _ h
          rw [d1] at this
          rw [this, List.filter_cons]
          simp [AttemptFails, hpo, ← d3]
        · rename_i tx2 hd
          obtain ⟨d1, -, d3, -, -⟩ := DoExecuteOnShard_spec _ _ _ _ _ _ hd
          have := ih tx2 _ h
          rw [d1] at this
          rw [this, List.filter_cons]
          simp [AttemptFails, hpo, ← d3]

/-- `DoExecuteOnTable` leaves its table as `RunTable` computes it, and writes
    nothing else of the scheme shard. -/
theorem DoExecuteOnTable_RunTable (tx tx3 : TTxRunConditionalErase) (p : TTablePtr)
    (ctx : TActorContext) (h : DoExecuteOnTable tx p ctx = some tx3) :
    tx3.Self = tx.Self.SetTable p
      (RunTable (fun e => DispatchAttempt tx.Self e ctx) (tx.Self.TableObjs p)) := by
  unfold RunTable
  cases hst : (tx.Self.TableObjs p).TTLSettings with
  | none =>
    rw [DoExecuteOnTable_disabled tx p ctx hst] at h
    simp at h
    subst h
    simp [SetTable_self]
  | some st =>
    obtain ⟨tx1, R, hl, hd⟩ := DoExecuteOnTable_enabled tx tx3 p ctx st hst h
    obtain ⟨l1, -⟩ := InFlightLoop_spec _ _ _ _ _ _ _ hl
    have hR := InFlightLoop_reschedule _ _ _ _ _ _ _ hl
    have := DispatchLoop_table _ _ _ _ _ _ hd
    rw [RescheduleLoop_eq] at this
    simp only [l1, SetTable_TableObjs_same, SetTable_SetTable, DispatchAttempt_SetTable,
      WithSched_CondEraseSchedule] at this
    rw [this]
    simp only [AfterReschedule, RescheduleSet, WithSched_CondEraseSchedule, ← hR]


theorem DispatchTable_spec (a : TTableShardInfo → Bool) (m fuel : Nat) (t : TTableInfo) :
    ∃ X Y, DispatchTable a m fuel t = t.WithSched X Y ∧
      (∀ s ∈ X, s ∈ t.InFlightCondErase ∨
        ∃ (i : Nat) (e : TTableShardInfo),
          t.Partitions[i]? = some e ∧ a e = true ∧ e.ShardIdx = s) ∧
      (t.CondEraseSchedule.length < fuel → Stopped a m (t.WithSched X Y)) := by
  induction fuel generalizing t with
  | zero =>
    exact ⟨t.InFlightCondErase, t.CondEraseSchedule, by simp [DispatchTable, WithSched_self],
      fun s hs => Or.inl hs, fun h => absurd h (Nat.not_lt_zero _)⟩
  | succ fuel ih =>
    unfold DispatchTable
    split
    · rename_i hcap
      refine ⟨t.InFlightCondErase, t.CondEraseSchedule, (WithSched_self t).symm,
        fun s hs => Or.inl hs, fun _ => ?_⟩
      rw [WithSched_self]
      exact Or.inl hcap
    · cases htop : ScheduleTop t.Partitions t.CondEraseSchedule with
      | none =>
        refine ⟨t.InFlightCondErase, t.CondEraseSchedule, (WithSched_self t).symm,
          fun s hs => Or.inl hs, fun _ => ?_⟩
        rw [WithSched_self]
        exact Or.inr (Or.inl htop)
      | some r =>
        obtain ⟨i, e⟩ := r
        obtain ⟨hi, he, -⟩ := ScheduleTop_some _ _ _ _ htop
        simp only
        cases ha : a e with
        | false =>
          refine ⟨t.InFlightCondErase, t.CondEraseSchedule, by simp [WithSched_self],
            fun s hs => Or.inl hs, fun _ => ?_⟩
          rw [WithSched_self]
          exact Or.inr (Or.inr ⟨i, e, htop, ha⟩)
        | true =>
          obtain ⟨X, Y, h1, h2, h3⟩ := ih (t.WithSched
            (THashSet.insert t.InFlightCondErase e.ShardIdx) (t.CondEraseSchedule.erase i))
          refine ⟨X, Y, by simp [h1, WithSched_WithSched], ?_, ?_⟩
          · intro s hs
            rcases h2 s hs with h | h
            · rw [WithSched_InFlightCondErase, THashSet.mem_insert] at h
              rcases h with h | h
              · exact Or.inl h
              · exact Or.inr ⟨i, e, he, ha, h.symm⟩
            · exact Or.inr h
          · intro hf
            have hlen : (t.CondEraseSchedule.erase i).length < fuel := by
              rw [List.length_erase_of_mem hi]
              have : 0 < t.CondEraseSchedule.length := List.length_pos_of_mem hi
              omega
            have := h3 (by simpa [WithSched_CondEraseSchedule] using hlen)
            simpa [WithSched_WithSched] using this

theorem DispatchTable_stopped (a : TTableShardInfo → Bool) (m fuel : Nat) (t : TTableInfo)
    (h : Stopped a m t) : DispatchTable a m fuel t = t := by
  cases fuel with
  | zero => rfl
  | succ fuel =>
    unfold DispatchTable
    rcases h with h | h | ⟨i, e, h, hf⟩
    · rw [if_pos h]
    · split
      · rfl
      · rw [h]
    · split
      · rfl
      · rw [h]
        simp [hf]

theorem AttemptFails_WithSched (a : TTableShardInfo → Bool) (t : TTableInfo)
    (X : THashSet TShardIdx) (Y : List Nat) (s : TShardIdx) :
    AttemptFails a (t.WithSched X Y) s = AttemptFails a t s := rfl

theorem AfterReschedule_nil (t : TTableInfo) : AfterReschedule t [] = t := by
  simp [AfterReschedule, WithSched_self]

/-- What a run leaves: the table with another in-flight set and schedule, on
    which the dispatch loop has nothing to do and, when the map indexes the
    partitions, every in-flight shard passes its dispatch attempt. -/
theorem RunTable_spec (a : TTableShardInfo → Bool) (t : TTableInfo) (st : TTTLSettingsEnabled)
    (hst : t.TTLSettings = some st) :
    ∃ X Y, RunTable a t = t.WithSched X Y ∧
      Stopped a st.SysSettings.MaxShardsInFlight (t.WithSched X Y) ∧
      (PartitionsIndexed t → RescheduleSet a (t.WithSched X Y) = []) := by
  obtain ⟨X, Y, hX, hmem, hstop⟩ := DispatchTable_spec a st.SysSettings.MaxShardsInFlight
    ((AfterReschedule t (RescheduleSet a t)).CondEraseSchedule.length + 1)
    (AfterReschedule t (RescheduleSet a t))
  refine ⟨X, Y, ?_, ?_, ?_⟩
  · simp only [RunTable, hst, hX]
    simp [AfterReschedule, WithSched_WithSched]
  · have := hstop (Nat.lt_succ_self _)
    simpa [AfterReschedule, WithSched_WithSched] using this
  · intro hidx
    have : X.filter (AttemptFails a (t.WithSched X Y)) = [] := by
      rw [List.filter_eq_nil_iff]
      intro s hs
      rw [AttemptFails_WithSched]
      rcases hmem s hs with h | ⟨i, e, he, hae, rfl⟩
      · simp only [AfterReschedule, WithSched_InFlightCondErase, List.mem_filter,
          decide_eq_true_eq] at h
        intro hfail
        apply h.2
        unfold RescheduleSet
        rw [THashSet.mem_foldl_insert]
        exact Or.inr (List.mem_filter.2 ⟨h.1, hfail⟩)
      · simp only [AfterReschedule, WithSched_Partitions] at he
        simp [AttemptFails, PartitionOf_eq t _ i e (hidx i e he) he, hae]
    simp [RescheduleSet, WithSched_InFlightCondErase, this]

/-- The scheduler of one table is idempotent when the shard-to-partition map
    indexes the partition list. -/
theorem RunTable_idem (a : TTableShardInfo → Bool) (t : TTableInfo)
    (hidx : PartitionsIndexed t) : RunTable a (RunTable a t) = RunTable a t := by
  cases hst : t.TTLSettings with
  | none => simp [RunTable, hst]
  | some st =>
    obtain ⟨X, Y, ht1, hstop1, hR⟩ := RunTable_spec a t st hst
    rw [ht1]
    simp only [RunTable, WithSched_TTLSettings, hst, hR hidx, AfterReschedule_nil]
    exact DispatchTable_stopped _ _ _ _ hstop1


/-! ## Replaying a run -/

theorem SameCatalog_symm (a b : TSchemeShard) (h : SameCatalog a b) : SameCatalog b a := by
  obtain ⟨h1, h2, h3, h4, h5⟩ := h
  exact ⟨h1.symm, h2.symm, h3.symm, h4.symm,
    fun q => ⟨(h5 q).1.symm, (h5 q).2.1.symm, (h5 q).2.2.symm⟩⟩

theorem DoExecuteOnShard_safe (tx : TTxRunConditionalErase) (p : TTablePtr)
    (e : TTableShardInfo) (ctx : TActorContext) (r : Bool × TTxRunConditionalErase)
    (h : DoExecuteOnShard tx p e ctx = some r) : AttemptSafe tx.Self e ctx := by
  intro hatt info hinfo
  unfold DispatchAttempt ShardResolves at hatt
  unfold DoExecuteOnShard at h
  simp only [hinfo, Bool.and_eq_true, decide_eq_true_eq] at hatt h
  obtain ⟨hdue, hres⟩ := hatt
  rw [if_neg (Nat.not_lt.mpr hdue)] at h
  cases hp : THashMap.find tx.Self.PathsById info.PathId with
  | none => simp [hp] at hres
  | some path =>
    simp only [hp] at hres h
    simp at hres
    cases hm : MakeIndexes tx.Self info.PathId with
    | some _ => rfl
    | none => simp [hm, hres.1, hres.2] at h

theorem DoExecuteOnShard_of_safe (tx : TTxRunConditionalErase) (p : TTablePtr)
    (e : TTableShardInfo) (ctx : TActorContext) (hsafe : AttemptSafe tx.Self e ctx) :
    ∃ tx1, DoExecuteOnShard tx p e ctx = some (DispatchAttempt tx.Self e ctx, tx1) := by
  cases hres : DoExecuteOnShard tx p e ctx with
  | some r =>
    obtain ⟨b, tx1⟩ := r
    have hb := (DoExecuteOnShard_spec tx tx1 p e ctx b hres).2.2.1
    exact ⟨tx1, by rw [hb]⟩
  | none =>
    exfalso
    have hatt : DispatchAttempt tx.Self e ctx = true := by
      unfold DoExecuteOnShard at hres
      unfold DispatchAttempt ShardResolves
      split at hres
      · simp at hres
      · rename_i hdue
        split at hres
        · simp at hres
        · rename_i info hs
          split at hres
          · simp at hres
          · rename_i path hp
            split at hres
            · simp at hres
            · rename_i hd
              split at hres
              · simp at hres
              · rename_i ht
                simp at hd ht hdue
                simp [hs, hp, hd, ht, hdue]
    unfold DoExecuteOnShard at hres
    split at hres
    · simp at hres
    · split at hres
      · simp at hres
      · rename_i info hs
        have := hsafe hatt info hs
        split at hres
        · simp at hres
        · split at hres
          · simp at hres
          · split at hres
            · simp at hres
            · split at hres
              · rename_i hm; simp [hm] at this
              · simp at hres

theorem AttemptSafe_congr (a b : TSchemeShard) (h : SameCatalog a b) (e : TTableShardInfo)
    (ctx : TActorContext) (hs : AttemptSafe a e ctx) : AttemptSafe b e ctx := by
  intro hatt info hinfo
  rw [DispatchAttempt_congr a b h] at hatt
  rw [MakeIndexes_congr a b h]
  rw [h.1] at hinfo
  exact hs hatt info hinfo

theorem InFlightLoop_safe (p : TTablePtr) (ctx : TActorContext) (l : List TShardIdx)
    (tx : TTxRunConditionalErase) (r : THashSet TShardIdx)
    (res : TTxRunConditionalErase × THashSet TShardIdx)
    (h : InFlightLoop p ctx l tx r = some res) :
    ∀ s ∈ l, ∃ e, (tx.Self.TableObjs p).PartitionOf s = some e ∧ AttemptSafe tx.Self e ctx := by
  induction l generalizing tx r with
  | nil => simp
  | cons s0 rest ih =>
    unfold InFlightLoop at h
    split at h
    · simp at h
    · rename_i i hi
      split at h
      · simp at h
      · rename_i e0 he
        have hpo : (tx.Self.TableObjs p).PartitionOf s0 = some e0 := PartitionOf_eq _ _ _ _ hi he
        have key : ∀ (b : Bool) (tx2 : TTxRunConditionalErase) (r2 : THashSet TShardIdx),
            DoExecuteOnShard tx p e0 ctx = some (b, tx2) →
            InFlightLoop p ctx rest tx2 r2 = some res →
            ∀ s ∈ s0 :: rest, ∃ e, (tx.Self.TableObjs p).PartitionOf s = some e ∧
              AttemptSafe tx.Self e ctx := by
          intro b tx2 r2 hd hrest s hs
          obtain ⟨d1, -⟩ := DoExecuteOnShard_spec _ _ _ _ _ _ hd
          rcases List.mem_cons.1 hs with rfl | hs
          · exact ⟨e0, hpo, DoExecuteOnShard_safe _ _ _ _ _ hd⟩
          · have := ih tx2 r2 hrest s hs
            rw [d1] at this
            exact this
        split at h
        · simp at h
        · rename_i tx2 hd
          exact key _ _ _ hd h
        · rename_i tx2 hd
          exact key _ _ _ hd h

theorem InFlightLoop_of_safe (p : TTablePtr) (ctx : TActorContext) (l : List TShardIdx)
    (tx : TTxRunConditionalErase) (r : THashSet TShardIdx)
    (hs : ∀ s ∈ l, ∃ e, (tx.Self.TableObjs p).PartitionOf s = some e ∧
      AttemptSafe tx.Self e ctx) :
    ∃ res, InFlightLoop p ctx l tx r = some res := by
  induction l generalizing tx r with
  | nil => exact ⟨_, rfl⟩
  | cons s0 rest ih =>
    obtain ⟨e0, hpo, hsafe⟩ := hs s0 (List.mem_cons_self _ _)
    unfold TTableInfo.PartitionOf at hpo
    cases hi : THashMap.find (tx.Self.TableObjs p).Shard2PartitionIdx s0 with
    | none => simp [hi] at hpo
    | some i =>
      simp only [hi, Option.some_bind] at hpo
      obtain ⟨tx1, hd⟩ := DoExecuteOnShard_of_safe tx p e0 ctx hsafe
      obtain ⟨d1, -⟩ := DoExecuteOnShard_spec _ _ _ _ _ _ hd
      have hrest : ∀ s ∈ rest, ∃ e, (tx1.Self.TableObjs p).PartitionOf s = some e ∧
          AttemptSafe tx1.Self e ctx := by
        intro s hmem
        rw [d1]
        exact hs s (List.mem_cons_of_mem _ hmem)
      unfold InFlightLoop
      simp only [TTableInfo.GetShard2PartitionIdx, TTableInfo.GetPartitions, hi, hpo, hd]
      cases DispatchAttempt tx.Self e0 ctx with
      | true => exact ih tx1 r hrest
      | false => exact ih tx1 _ hrest

theorem DispatchLoop_safe (p : TTablePtr) (ctx : TActorContext) (m fuel : Nat)
    (tx tx1 : TTxRunConditionalErase) (h : DispatchLoop p ctx m fuel tx = some tx1) :
    ∀ s ∈ (tx1.Self.TableObjs p).InFlightCondErase,
      s ∈ (tx.Self.TableObjs p).InFlightCondErase ∨
      ∃ (i : Nat) (e : TTableShardInfo), (tx.Self.TableObjs p).Partitions[i]? = some e ∧
        e.ShardIdx = s ∧ AttemptSafe tx.Self e ctx := by
  induction fuel generalizing tx with
  | zero => simp [DispatchLoop] at h
  | succ fuel ih =>
    unfold DispatchLoop at h
    split at h
    · simp at h
      subst h
      exact fun s hs => Or.inl hs
    · split at h
      · simp at h
        subst h
        exact fun s hs => Or.inl hs
      · rename_i e hsome
        obtain ⟨i, htop⟩ := GetScheduledCondEraseShard_some _ _ hsome
        obtain ⟨-, he, -⟩ := ScheduleTop_some _ _ _ _ htop
        split at h
        · simp at h
        · rename_i tx2 hd
          simp at h
          subst h
          obtain ⟨d1, -⟩ := DoExecuteOnShard_spec _ _ _ _ _ _ hd
          rw [d1]
          exact fun s hs => Or.inl hs
        · rename_i tx2 hd
          obtain ⟨d1, -⟩ := DoExecuteOnShard_spec _ _ _ _ _ _ hd
          have hsafe := DoExecuteOnShard_safe _ _ _ _ _ hd
          intro s hs
          have := ih _ h s hs
          simp only [d1, SetTable_TableObjs_same, AddInFlightCondErase_eq _ i e htop,
            WithSched_InFlightCondErase, WithSched_Partitions, THashSet.mem_insert] at this
          rcases this with (h1 | h1) | ⟨j, f, hj, hf, hfs⟩
          · exact Or.inl h1
          · exact Or.inr ⟨i, e, he, h1.symm, hsafe⟩
          · refine Or.inr ⟨j, f, hj, hf, ?_⟩
            exact AttemptSafe_congr _ _
              (SameCatalog_symm _ _ (SameCatalog_SetTable tx.Self p
                ((tx.Self.TableObjs p).WithSched
                  (THashSet.insert (tx.Self.TableObjs p).InFlightCondErase e.ShardIdx)
                  ((tx.Self.TableObjs p).CondEraseSchedule.erase i)) rfl rfl rfl)) f ctx hfs

theorem DispatchLoop_stopped (p : TTablePtr) (ctx : TActorContext) (m fuel : Nat)
    (tx : TTxRunConditionalErase)
    (h : Stopped (fun e => DispatchAttempt tx.Self e ctx) m (tx.Self.TableObjs p)) :
    DispatchLoop p ctx m (fuel + 1) tx = some tx := by
  unfold DispatchLoop
  rcases h with h | h | ⟨i, e, h, hf⟩
  · rw [if_pos (by simpa [THashSet.size, TTableInfo.GetInFlightCondErase] using h)]
  · split
    · rfl
    · simp [TTableInfo.GetScheduledCondEraseShard, h]
  · split
    · rfl
    · have hsafe : AttemptSafe tx.Self e ctx := by
        intro hatt
        simp only at hf
        rw [hf] at hatt
        exact absurd hatt (by simp)
      obtain ⟨tx1, hd⟩ := DoExecuteOnShard_of_safe tx p e ctx hsafe
      simp only at hf
      rw [hf] at hd
      have heq := (DoExecuteOnShard_spec _ _ _ _ _ _ hd).2.2.2.1 rfl
      simp [TTableInfo.GetScheduledCondEraseShard, h, hd, heq]


theorem PartitionOf_WithSched (t : TTableInfo) (X : THashSet TShardIdx) (Y : List Nat)
    (s : TShardIdx) : (t.WithSched X Y).PartitionOf s = t.PartitionOf s := rfl

/-- A second `DoExecuteOnTable` on the state the first one left, at the same
    time, returns and changes nothing of the scheme shard. -/
theorem DoExecuteOnTable_twice (tx tx1 txb : TTxRunConditionalErase) (p : TTablePtr)
    (ctx : TActorContext) (hidx : PartitionsIndexed (tx.Self.TableObjs p))
    (h : DoExecuteOnTable tx p ctx = some tx1) (hself : txb.Self = tx1.Self) :
    ∃ tx2, DoExecuteOnTable txb p ctx = some tx2 ∧ tx2.Self = tx1.Self := by
  cases hst : (tx.Self.TableObjs p).TTLSettings with
  | none =>
    rw [DoExecuteOnTable_disabled tx p ctx hst] at h
    simp at h
    subst h
    exact ⟨txb, DoExecuteOnTable_disabled txb p ctx (by rw [hself]; exact hst), hself⟩
  | some st =>
    obtain ⟨txa, R, hl, hd⟩ := DoExecuteOnTable_enabled tx tx1 p ctx st hst h
    obtain ⟨l1, -⟩ := InFlightLoop_spec _ _ _ _ _ _ _ hl
    have hrun := DoExecuteOnTable_RunTable tx tx1 p ctx h
    obtain ⟨X, Y, hXY, hstop, hR⟩ :=
      RunTable_spec (fun e => DispatchAttempt tx.Self e ctx) (tx.Self.TableObjs p) st hst
    rw [hXY] at hrun
    have htab : txb.Self.TableObjs p = (tx.Self.TableObjs p).WithSched X Y := by
      rw [hself, hrun, SetTable_TableObjs_same]
    have hcat : SameCatalog tx.Self txb.Self := by
      rw [hself, hrun]
      exact SameCatalog_SetTable _ _ _ rfl rfl rfl
    have hatt : (fun e => DispatchAttempt txb.Self e ctx) =
        (fun e => DispatchAttempt tx.Self e ctx) :=
      funext (fun e => DispatchAttempt_congr _ _ hcat e ctx)
    have hsafe : ∀ s ∈ (txb.Self.TableObjs p).InFlightCondErase,
        ∃ e, (txb.Self.TableObjs p).PartitionOf s = some e ∧ AttemptSafe txb.Self e ctx := by
      intro s hs
      have hs1 : s ∈ (tx1.Self.TableObjs p).InFlightCondErase := by
        rw [← hself]
        exact hs
      rcases DispatchLoop_safe _ _ _ _ _ _ hd s hs1 with h1 | ⟨i, e, he, hes, hsf⟩
      · rw [RescheduleLoop_eq] at h1
        simp only [SetTable_TableObjs_same, WithSched_InFlightCondErase, List.mem_filter,
          l1] at h1
        obtain ⟨e, hpo, hsf⟩ := InFlightLoop_safe _ _ _ _ _ _ hl s h1.1
        exact ⟨e, by rw [htab, PartitionOf_WithSched]; exact hpo,
          AttemptSafe_congr _ _ hcat e ctx hsf⟩
      · rw [RescheduleLoop_eq] at he hsf
        simp only [SetTable_TableObjs_same, WithSched_Partitions, l1] at he hsf
        subst hes
        refine ⟨e, ?_, ?_⟩
        · rw [htab, PartitionOf_WithSched]
          exact PartitionOf_eq _ _ i e (hidx i e he) he
        · have hback := SameCatalog_symm _ _ (SameCatalog_SetTable tx.Self p
            ((tx.Self.TableObjs p).WithSched
              ((tx.Self.TableObjs p).InFlightCondErase.filter (fun x => decide (x ∉ R)))
              ((tx.Self.TableObjs p).CondEraseSchedule ++
                R.filterMap (THashMap.find (tx.Self.TableObjs p).Shard2PartitionIdx)))
            rfl rfl rfl)
          exact AttemptSafe_congr _ _ (SameCatalog_trans _ _ _ hback hcat) e ctx hsf
    obtain ⟨res, hl2⟩ := InFlightLoop_of_safe p ctx (txb.Self.TableObjs p).InFlightCondErase
      txb [] hsafe
    obtain ⟨txc, R2⟩ := res
    have hR2 := InFlightLoop_reschedule _ _ _ _ _ _ _ hl2
    have hnil : R2 = [] := by
      rw [hR2, hatt, htab]
      exact hR hidx
    subst hnil
    obtain ⟨c1, -⟩ := InFlightLoop_spec _ _ _ _ _ _ _ hl2
    refine ⟨txc, ?_, c1.trans hself⟩
    have hsetc : (txc.Self.TableObjs p).GetEnabled = st := by
      rw [c1, htab]
      simp [TTableInfo.GetEnabled, WithSched_TTLSettings, hst]
    unfold DoExecuteOnTable
    simp only [TTableInfo.IsTTLEnabled, htab, WithSched_TTLSettings, hst, Option.isSome_some,
      Bool.not_true, Bool.false_eq_true, if_false, TTableInfo.GetInFlightCondErase]
    rw [← htab, hl2]
    simp only [RescheduleLoop, hsetc]
    apply DispatchLoop_stopped
    rw [c1, hatt, htab]
    exact hstop

/-- C18. Running `RunDue` on a table twice in a row at the same time, the
    catalog unchanged in between, is the same as running it once: when the
    first run returns, the second run (on the state the first one left, the
    shard-to-partition map indexing the partition list) returns too, and leaves
    the whole scheme shard, hence the in-flight set and the pending schedule of
    the table, as the first run left them. -/
theorem run_due_idempotent (S : TSchemeShard) (p : TTablePtr) (ctx : TActorContext)
    (tx1 : TTxRunConditionalErase) (hidx : PartitionsIndexed (S.TableObjs p))
    (h1 : RunDue S (some p) ctx = some tx1) :
    ∃ tx2, RunDue tx1.Self (some p) ctx = some tx2 ∧
      (tx2.Self.TableObjs p).InFlightCondErase = (tx1.Self.TableObjs p).InFlightCondErase ∧
      (tx2.Self.TableObjs p).CondEraseSchedule = (tx1.Self.TableObjs p).CondEraseSchedule ∧
      tx2.Self = tx1.Self := by
  cases hflag : S.AllowConditionalEraseOperations with
  | false =>
    have e1 : tx1.Self = S := by
      simp [RunDue, DoExecute, hflag] at h1
      subst h1
      rfl
    refine ⟨{ Self := tx1.Self, TableInfo := some p, RunOnTablets := [] }, ?_, rfl, rfl, rfl⟩
    simp [RunDue, DoExecute, e1, hflag]
  | true =>
    rw [RunDue_on_table S p ctx hflag] at h1
    have hflag1 : tx1.Self.AllowConditionalEraseOperations = true := by
      rw [DoExecuteOnTable_RunTable _ _ _ _ h1]
      exact hflag
    obtain ⟨tx2, h2, e2⟩ := DoExecuteOnTable_twice
      { Self := S, TableInfo := some p, RunOnTablets := [] } tx1
      { Self := tx1.Self, TableInfo := some p, RunOnTablets := [] } p ctx hidx h1 rfl
    refine ⟨tx2, ?_, by rw [e2], by rw [e2], e2⟩
    rw [RunDue_on_table tx1.Self p ctx hflag1]
    exact h2

theorem Example.PartitionsIndexed_Table : PartitionsIndexed (Example.Idle.TableObjs 0) := by
  intro i e he
  have hi : i < 3 := by
    by_contra hge
    have : (Example.Idle.TableObjs 0).Partitions[i]? = none :=
      List.getElem?_eq_none (by simpa using Nat.not_lt.mp hge)
    rw [this] at he
    simp at he
  interval_cases i <;> (simp [Example.Idle, Example.Catalog, Example.Table] at he; subst he; rfl)

/-- Witness of C18 on the idle example table: the run at time 20 dispatches two
    shards, and a second run at time 20 leaves the state as it is. -/
theorem run_due_idempotent_witness :
    ∃ tx2, RunDue Example.IdleRun.Self (some 0) Example.At20 = some tx2 ∧
      (tx2.Self.TableObjs 0).InFlightCondErase =
        (Example.IdleRun.Self.TableObjs 0).InFlightCondErase ∧
      (tx2.Self.TableObjs 0).CondEraseSchedule =
        (Example.IdleRun.Self.TableObjs 0).CondEraseSchedule ∧
      tx2.Self = Example.IdleRun.Self :=
  run_due_idempotent Example.Idle 0 Example.At20 Example.IdleRun
    Example.PartitionsIndexed_Table rfl


/-! ## A run on three partitions -/

theorem ScheduleTop_unique (P : List TTableShardInfo) (l : List Nat) (i : Nat)
    (e : TTableShardInfo) (hi : i ∈ l) (he : P[i]? = some e)
    (hmin : ∀ j ∈ l, ∀ f, P[j]? = some f → j = i ∨ e.Before f = true) :
    ScheduleTop P l = some (i, e) := by
  cases h : ScheduleTop P l with
  | none =>
    have := ScheduleTop_none P l h i hi
    rw [this] at he
    simp at he
  | some r =>
    obtain ⟨j, f⟩ := r
    obtain ⟨hj, hf, hall⟩ := ScheduleTop_some P l j f h
    rcases hmin j hj f hf with rfl | hb
    · rw [hf] at he
      simp at he
      rw [he]
    · have := hall i hi e he
      unfold ServedNoLater at this
      rw [this] at hb
      simp at hb

theorem DispatchTable_step (a : TTableShardInfo → Bool) (m fuel : Nat) (t : TTableInfo)
    (i : Nat) (e : TTableShardInfo) (hcap : t.InFlightCondErase.length < m)
    (htop : ScheduleTop t.Partitions t.CondEraseSchedule = some (i, e)) (ha : a e = true) :
    DispatchTable a m (fuel + 1) t =
      DispatchTable a m fuel (t.WithSched (THashSet.insert t.InFlightCondErase e.ShardIdx)
        (t.CondEraseSchedule.erase i)) := by
  conv => lhs; unfold DispatchTable
  rw [if_neg (by omega), htop]
  simp [ha]

/-- Three partitions due in the order e1, e2, e3, nothing in flight, a cap of
    two: the run puts the shards of e1 and e2 in flight and leaves e3 pending. -/
theorem RunTable_first (a : TTableShardInfo → Bool) (t : TTableInfo) (st : TTTLSettingsEnabled)
    (e1 e2 e3 : TTableShardInfo) (hst : t.TTLSettings = some st)
    (hmax : st.SysSettings.MaxShardsInFlight = 2) (hparts : t.Partitions = [e1, e2, e3])
    (hempty : t.InFlightCondErase = []) (hsched : t.CondEraseSchedule.Perm [0, 1, 2])
    (hb12 : e1.Before e2 = true) (hb13 : e1.Before e3 = true) (hb23 : e2.Before e3 = true)
    (hne : e1.ShardIdx ≠ e2.ShardIdx) (ha1 : a e1 = true) (ha2 : a e2 = true) :
    RunTable a t = t.WithSched [e1.ShardIdx, e2.ShardIdx] [2] := by
  have hR : RescheduleSet a t = [] := by simp [RescheduleSet, hempty]
  have hlen : t.CondEraseSchedule.length = 3 := by simpa using hsched.length_eq
  have hp1 : (t.CondEraseSchedule.erase 0).Perm [1, 2] := by
    simpa using List.Perm.erase 0 hsched
  have hp2 : (t.CondEraseSchedule.erase 0).erase 1 = [2] := by
    have : ((t.CondEraseSchedule.erase 0).erase 1).Perm [2] := by
      simpa using List.Perm.erase 1 hp1
    exact List.perm_singleton.1 this
  have top1 : ScheduleTop t.Partitions t.CondEraseSchedule = some (0, e1) := by
    apply ScheduleTop_unique
    · exact hsched.mem_iff.2 (by simp)
    · simp [hparts]
    · intro j hj f hf
      have hj2 := hsched.mem_iff.1 hj
      simp at hj2
      rcases hj2 with rfl | rfl | rfl
      · exact Or.inl rfl
      · simp [hparts] at hf; subst hf; exact Or.inr hb12
      · simp [hparts] at hf; subst hf; exact Or.inr hb13
  have top2 : ScheduleTop t.Partitions (t.CondEraseSchedule.erase 0) = some (1, e2) := by
    apply ScheduleTop_unique
    · exact hp1.mem_iff.2 (by simp)
    · simp [hparts]
    · intro j hj f hf
      have hj2 := hp1.mem_iff.1 hj
      simp at hj2
      rcases hj2 with rfl | rfl
      · exact Or.inl rfl
      · simp [hparts] at hf; subst hf; exact Or.inr hb23
  simp only [RunTable, hst, hR, AfterReschedule_nil, hlen, hmax]
  rw [DispatchTable_step a 2 3 t 0 e1 (by simp [hempty]) top1 ha1]
  rw [DispatchTable_step a 2 2 _ 1 e2
    (by simp [hempty, THashSet.insert, WithSched_InFlightCondErase]) top2 ha2]
  simp only [WithSched_InFlightCondErase, WithSched_CondEraseSchedule, WithSched_WithSched,
    hempty, hp2]
  have hins : THashSet.insert (THashSet.insert ([] : THashSet TShardIdx) e1.ShardIdx) e2.ShardIdx =
      [e1.ShardIdx, e2.ShardIdx] := by
    simp [THashSet.insert, Ne.symm hne]
  rw [hins]
  apply DispatchTable_stopped
  exact Or.inl ⟨by decide, by simp [WithSched_InFlightCondErase]⟩

/-- The shard of e2 in flight, e3 and then the re-armed e1 pending, a cap of
    two: the run keeps e2 in flight, dispatches e3 and leaves e1 pending. -/
theorem RunTable_second (a : TTableShardInfo → Bool) (t : TTableInfo)
    (st : TTTLSettingsEnabled) (e1 e2 e3 : TTableShardInfo) (hst : t.TTLSettings = some st)
    (hmax : st.SysSettings.MaxShardsInFlight = 2) (hparts : t.Partitions = [e1, e2, e3])
    (hin : t.InFlightCondErase = [e2.ShardIdx]) (hsched : t.CondEraseSchedule = [2, 0])
    (hpo : t.PartitionOf e2.ShardIdx = some e2) (hb31 : e3.Before e1 = true)
    (hne : e2.ShardIdx ≠ e3.ShardIdx) (ha2 : a e2 = true) (ha3 : a e3 = true) :
    RunTable a t = t.WithSched [e2.ShardIdx, e3.ShardIdx] [0] := by
  have hR : RescheduleSet a t = [] := by
    simp [RescheduleSet, hin, AttemptFails, hpo, ha2]
  have top1 : ScheduleTop t.Partitions t.CondEraseSchedule = some (2, e3) := by
    apply ScheduleTop_unique
    · simp [hsched]
    · simp [hparts]
    · intro j hj f hf
      simp [hsched] at hj
      rcases hj with rfl | rfl
      · exact Or.inl rfl
      · simp [hparts] at hf; subst hf; exact Or.inr hb31
  simp only [RunTable, hst, hR, AfterReschedule_nil, hmax]
  have hlen : t.CondEraseSchedule.length + 1 = 2 + 1 := by simp [hsched]
  rw [hlen, DispatchTable_step a 2 2 t 2 e3 (by simp [hin]) top1 ha3]
  have hins : THashSet.insert t.InFlightCondErase e3.ShardIdx =
      [e2.ShardIdx, e3.ShardIdx] := by
    simp [THashSet.insert, hin, Ne.symm hne]
  rw [hins, hsched]
  apply DispatchTable_stopped
  exact Or.inl ⟨by decide, by simp [WithSched_InFlightCondErase]⟩


theorem TShardIdx.Less_ne (a b : TShardIdx) (h : a.Less b = true) : a ≠ b := by
  rintro rfl
  simp [TShardIdx.Less] at h

theorem TShardIdx.Less_trans (a b c : TShardIdx) (h1 : a.Less b = true)
    (h2 : b.Less c = true) : a.Less c = true := by
  simp only [TShardIdx.Less, Bool.or_eq_true, Bool.and_eq_true, decide_eq_true_eq] at *
  omega

/-- A shard that a run on the table moved into the in-flight set has a request
    addressed to its tablet in the outgoing batch. -/
theorem DoExecuteOnTable_dispatched (tx tx3 : TTxRunConditionalErase) (p : TTablePtr)
    (ctx : TActorContext) (s : TShardIdx) (h : DoExecuteOnTable tx p ctx = some tx3)
    (hin : s ∈ (tx3.Self.TableObjs p).InFlightCondErase)
    (hout : s ∉ (tx.Self.TableObjs p).InFlightCondErase) :
    AddressedTo tx.Self tx3.RunOnTablets s = true := by
  cases hst : (tx.Self.TableObjs p).TTLSettings with
  | none =>
    rw [DoExecuteOnTable_disabled tx p ctx hst] at h
    simp at h
    subst h
    exact absurd hin hout
  | some st =>
    obtain ⟨txa, R, hl, hd⟩ := DoExecuteOnTable_enabled tx tx3 p ctx st hst h
    obtain ⟨l1, -⟩ := InFlightLoop_spec _ _ _ _ _ _ _ hl
    obtain ⟨D, d1, -, -, -, -, -, -, -, d9, -⟩ := DispatchLoop_spec _ _ _ _ _ _ hd
    rw [d1, RescheduleLoop_eq] at hin
    simp only [SetTable_TableObjs_same, WithSched_InFlightCondErase, l1,
      THashSet.mem_foldl_insert, List.mem_filter, List.mem_map] at hin
    rcases hin with hin | ⟨d, hd1, hd2⟩
    · exact absurd hin.1 hout
    · obtain ⟨info, i1, i2⟩ := d9 d hd1
      rw [RescheduleLoop_eq] at i1
      simp only [l1, SetTable_ShardInfos, hd2] at i1
      simp [AddressedTo, i1, i2]


/-- C13 (end-to-end scenario). A table with three partitions e1, e2, e3, their
    shards resolvable and in ascending order, all three due at `t0`, nothing in
    flight, all three pending, a cap of two shards in flight (flag on, index
    catalog consistent, the shard-to-partition map indexing the partitions).
    `RunDue` on the table at a time from `t0` on returns with the shards of e1
    and e2 in flight, their requests in the batch, and e3 pending. A response
    `OK` of the tablet of e1 at a later time `now` is accepted and triggers a
    run on the table; that run, before `now + RunInterval`, returns with the
    shard of e1 not in flight and pending at `now + RunInterval`, the shard of
    e3 in flight with its request in the batch, and the shard of e2 still in
    flight. -/
theorem end_to_end_scenario (S : TSchemeShard) (p : TTablePtr)
    (ctx1 ctx2 ctx3 : TActorContext) (ev : TEvConditionalEraseRowsResponse)
    (st : TTTLSettingsEnabled) (e1 e2 e3 : TTableShardInfo) (info : TShardInfo)
    (t0 : TInstant)
    (hflag : S.AllowConditionalEraseOperations = true) (hok : IndexCatalogOk S)
    (hst : (S.TableObjs p).TTLSettings = some st)
    (hmax : st.SysSettings.MaxShardsInFlight = 2)
    (hparts : (S.TableObjs p).Partitions = [e1, e2, e3])
    (hidx : PartitionsIndexed (S.TableObjs p))
    (h12 : e1.ShardIdx.Less e2.ShardIdx = true) (h23 : e2.ShardIdx.Less e3.ShardIdx = true)
    (hd1 : e1.NextCondErase = t0) (hd2 : e2.NextCondErase = t0) (hd3 : e3.NextCondErase = t0)
    (hr1 : ShardResolves S e1.ShardIdx = true) (hr2 : ShardResolves S e2.ShardIdx = true)
    (hr3 : ShardResolves S e3.ShardIdx = true)
    (hempty : (S.TableObjs p).InFlightCondErase = [])
    (hsched : (S.TableObjs p).CondEraseSchedule.Perm [0, 1, 2])
    (ht1 : t0 ≤ ctx1.Now) (ht2 : ctx1.Now ≤ ctx2.Now) (ht3 : ctx2.Now ≤ ctx3.Now)
    (ht4 : ctx3.Now < ctx2.Now + st.SysSettings.RunInterval)
    (hev : S.GetShardIdx ev.TabletID = e1.ShardIdx) (hstatus : ev.Status = EStatus.OK)
    (hinfo : THashMap.find S.ShardInfos e1.ShardIdx = some info)
    (hp : THashMap.find S.TTLEnabledTables info.PathId = some p) :
    ∃ tx1, RunDue S (some p) ctx1 = some tx1 ∧
      (tx1.Self.TableObjs p).InFlightCondErase = [e1.ShardIdx, e2.ShardIdx] ∧
      PendingShards (tx1.Self.TableObjs p) = [e3.ShardIdx] ∧
      AddressedTo S tx1.RunOnTablets e1.ShardIdx = true ∧
      AddressedTo S tx1.RunOnTablets e2.ShardIdx = true ∧
      ∃ tx2, OnEraseResponse tx1.Self ev ctx2 = some tx2 ∧
        (TTxScheduleConditionalErase.Complete tx2).RunConditionalErase = some p ∧
        ∃ tx3, RunDue tx2.Self (some p) ctx3 = some tx3 ∧
          (tx3.Self.TableObjs p).InFlightCondErase = [e2.ShardIdx, e3.ShardIdx] ∧
          e1.ShardIdx ∉ (tx3.Self.TableObjs p).InFlightCondErase ∧
          PendingShards (tx3.Self.TableObjs p) = [e1.ShardIdx] ∧
          (tx3.Self.TableObjs p).PartitionOf e1.ShardIdx =
            some { e1 with NextCondErase := ctx2.Now + st.SysSettings.RunInterval
                           LastCondEraseLag := some (ctx2.Now - e1.NextCondErase) } ∧
          AddressedTo tx2.Self tx3.RunOnTablets e3.ShardIdx = true := by
  delta TInstant at *
  have n12 := TShardIdx.Less_ne _ _ h12
  have n23 := TShardIdx.Less_ne _ _ h23
  have n13 := TShardIdx.Less_ne _ _ (TShardIdx.Less_trans _ _ _ h12 h23)
  have i1 := hidx 0 e1 (by simp [hparts])
  have i2 := hidx 1 e2 (by simp [hparts])
  -- the first run
  obtain ⟨tx1, h1⟩ := DoExecuteOnTable_total
    { Self := S, TableInfo := some p, RunOnTablets := [] } p ctx1 hok
    (by intro s hs; simp only [hempty] at hs; cases hs)
  have hrun1 := DoExecuteOnTable_RunTable _ _ _ _ h1
  simp only at hrun1
  rw [RunTable_first _ _ st e1 e2 e3 hst hmax hparts hempty hsched
    (by simp [TTableShardInfo.Before, hd1, hd2, h12])
    (by simp [TTableShardInfo.Before, hd1, hd3, TShardIdx.Less_trans _ _ _ h12 h23])
    (by simp [TTableShardInfo.Before, hd2, hd3, h23]) n12
    (by simp [DispatchAttempt, hd1, ht1, hr1])
    (by simp [DispatchAttempt, hd2, ht1, hr2])] at hrun1
  have tab1 : tx1.Self.TableObjs p =
      (S.TableObjs p).WithSched [e1.ShardIdx, e2.ShardIdx] [2] := by
    rw [hrun1, SetTable_TableObjs_same]
  have hcat1 : SameCatalog S tx1.Self := by
    rw [hrun1]
    exact SameCatalog_SetTable _ _ _ rfl rfl rfl
  refine ⟨tx1, by rw [RunDue_on_table S p ctx1 hflag]; exact h1, by rw [tab1]; rfl,
    by simp [PendingShards, tab1, WithSched_CondEraseSchedule, WithSched_Partitions, hparts],
    DoExecuteOnTable_dispatched _ _ _ _ _ h1 (by simp [tab1, WithSched_InFlightCondErase])
      (by simp [hempty]),
    DoExecuteOnTable_dispatched _ _ _ _ _ h1 (by simp [tab1, WithSched_InFlightCondErase])
      (by simp [hempty]), ?_⟩
  -- the response
  have f1 : tx1.Self.AllowConditionalEraseOperations = true := by rw [hrun1]; exact hflag
  have f2 : tx1.Self.GetShardIdx ev.TabletID = e1.ShardIdx := by rw [hrun1]; exact hev
  have f8 : THashMap.find (tx1.Self.TableObjs p).Shard2PartitionIdx e1.ShardIdx = some 0 := by
    rw [tab1]; exact i1
  have f9 : (tx1.Self.TableObjs p).Partitions[0]? = some e1 := by
    rw [tab1]; simp [WithSched_Partitions, hparts]
  obtain ⟨tx2, b1, b2, b3, b4, b5, -, b7, b8, b9, -⟩ := Execute_accept
    (CreateTxScheduleConditionalErase tx1.Self ev) ctx2 info p st st.SysSettings.RunInterval
    0 e1 f1 (by rw [hrun1] at f2 ⊢; simp only [CreateTxScheduleConditionalErase]; rw [f2]; exact hinfo)
    (by rw [hrun1]; exact hp)
    (by show (tx1.Self.TableObjs p).TTLSettings = some st; rw [tab1]; exact hst)
    (by simp only [CreateTxScheduleConditionalErase]; rw [f2, tab1]; simp [WithSched_InFlightCondErase])
    (by simp only [CreateTxScheduleConditionalErase]; rw [hstatus]; rfl)
    (by simp only [CreateTxScheduleConditionalErase]; rw [f2]; exact f8) f9
  simp only [CreateTxScheduleConditionalErase] at b3 b4 b5 b7 b8 b9
  rw [f2, ScheduleNextCondErase_eq _ _ _ _ _ _ f8 f9] at b3
  have tab2 : tx2.Self.TableObjs p =
      { (S.TableObjs p) with
        Partitions := [{ e1 with NextCondErase := ctx2.Now + st.SysSettings.RunInterval
                                 LastCondEraseLag := some (ctx2.Now - e1.NextCondErase) },
                       e2, e3]
        CondEraseSchedule := [2, 0]
        InFlightCondErase := [e2.ShardIdx] } := by
    rw [b3, Function.update_same, tab1]
    simp [TTableInfo.WithSched, hparts, THashSet.erase, n12, Ne.symm n12]
  have hcat2 : SameCatalog S tx2.Self := by
    refine SameCatalog_trans _ _ _ hcat1 ⟨b5, b7, b8, b9, fun q => ?_⟩
    rw [b3]
    by_cases hq : q = p
    · subst hq
      simp
    · simp [Function.update_noteq hq]
  refine ⟨tx2, b1, b2, ?_⟩
  -- the run that the response triggers
  have hflag2 : tx2.Self.AllowConditionalEraseOperations = true := b4.trans f1
  obtain ⟨tx3, h3⟩ := DoExecuteOnTable_total
    { Self := tx2.Self, TableInfo := some p, RunOnTablets := [] } p ctx3
    (IndexCatalogOk_congr _ _ hcat2 hok)
    (by
      intro s hs
      simp only [tab2, List.mem_singleton] at hs
      subst hs
      exact ⟨1, e2, by rw [tab2]; exact i2, by rw [tab2]; rfl⟩)
  have hrun3 := DoExecuteOnTable_RunTable _ _ _ _ h3
  simp only at hrun3
  rw [RunTable_second _ _ st _ e2 e3 (by rw [tab2]; exact hst) hmax (by rw [tab2])
    (by rw [tab2]) (by rw [tab2])
    (by rw [tab2]; exact PartitionOf_eq _ _ 1 e2 i2 rfl)
    (by simp [TTableShardInfo.Before, hd3]; left; (try delta TInstant TDuration at *); omega) n23
    (by simp only [DispatchAttempt, ShardResolves_congr _ _ hcat2, hr2, hd2]
        simp; (try delta TInstant TDuration at *); omega)
    (by simp only [DispatchAttempt, ShardResolves_congr _ _ hcat2, hr3, hd3]
        simp; (try delta TInstant TDuration at *); omega)] at hrun3
  have tab3 : tx3.Self.TableObjs p =
      (tx2.Self.TableObjs p).WithSched [e2.ShardIdx, e3.ShardIdx] [0] := by
    rw [hrun3, SetTable_TableObjs_same]
  refine ⟨tx3, by rw [RunDue_on_table tx2.Self p ctx3 hflag2]; exact h3, by rw [tab3]; rfl,
    by simp [tab3, WithSched_InFlightCondErase, n12, n13],
    by simp [PendingShards, tab3, tab2, TTableInfo.WithSched], ?_,
    DoExecuteOnTable_dispatched _ _ _ _ _ h3 (by simp [tab3, WithSched_InFlightCondErase])
      (by simp [tab2, Ne.symm n23])⟩
  rw [tab3, PartitionOf_WithSched, tab2]
  exact PartitionOf_eq _ _ 0 _ i1 rfl


/-- Witness of C13 on the idle example table: a run at time 20, the response
    of tablet 101 at time 30 and the run it triggers at time 30. -/
theorem end_to_end_scenario_witness :
    ∃ tx1, RunDue Example.Idle (some 0) Example.At20 = some tx1 ∧
      (tx1.Self.TableObjs 0).InFlightCondErase = [Example.Shard1, Example.Shard2] ∧
      PendingShards (tx1.Self.TableObjs 0) = [Example.Shard3] ∧
      AddressedTo Example.Idle tx1.RunOnTablets Example.Shard1 = true ∧
      AddressedTo Example.Idle tx1.RunOnTablets Example.Shard2 = true ∧
      ∃ tx2, OnEraseResponse tx1.Self (Example.Response EStatus.OK) Example.At30 = some tx2 ∧
        (TTxScheduleConditionalErase.Complete tx2).RunConditionalErase = some 0 ∧
        ∃ tx3, RunDue tx2.Self (some 0) Example.At30 = some tx3 ∧
          (tx3.Self.TableObjs 0).InFlightCondErase = [Example.Shard2, Example.Shard3] ∧
          Example.Shard1 ∉ (tx3.Self.TableObjs 0).InFlightCondErase ∧
          PendingShards (tx3.Self.TableObjs 0) = [Example.Shard1] ∧
          (tx3.Self.TableObjs 0).PartitionOf Example.Shard1 =
            some { ShardIdx := Example.Shard1, NextCondErase := 130,
                   LastCondEraseLag := some 20 } ∧
          AddressedTo tx2.Self tx3.RunOnTablets Example.Shard3 = true :=
  end_to_end_scenario Example.Idle 0 Example.At20 Example.At30 Example.At30
    (Example.Response EStatus.OK) Example.Settings
    { ShardIdx := Example.Shard1, NextCondErase := 10, LastCondEraseLag := some 0 }
    { ShardIdx := Example.Shard2, NextCondErase := 10, LastCondEraseLag := some 0 }
    { ShardIdx := Example.Shard3, NextCondErase := 10, LastCondEraseLag := some 0 }
    { TabletID := 101, PathId := Example.TablePath } 10
    rfl (Example.IndexCatalogOk_Catalog _ _ _) rfl rfl rfl Example.PartitionsIndexed_Table
    rfl rfl rfl rfl rfl rfl rfl rfl rfl (by decide)
    (by decide) (by decide) (by decide) (by decide) rfl rfl rfl rfl


/-! ## What the transactions write to the store -/

theorem DoExecuteOnTable_store (tx tx3 : TTxRunConditionalErase) (q : TTablePtr)
    (ctx : TActorContext) (h : DoExecuteOnTable tx q ctx = some tx3) :
    tx3.Self.Db = tx.Self.Db ∧ tx3.Self.TTLEnabledTables = tx.Self.TTLEnabledTables ∧
    ∀ r, (tx3.Self.TableObjs r).Partitions = (tx.Self.TableObjs r).Partitions := by
  obtain ⟨a, c, h1, -⟩ := DoExecuteOnTable_frame tx tx3 q ctx h
  rw [h1]
  refine ⟨rfl, rfl, fun r => ?_⟩
  rw [SetTable_TableObjs]
  by_cases hr : r = q
  · subst hr
    simp [WithSched_Partitions]
  · simp [hr]

theorem DoExecuteAll_store (ctx : TActorContext) (l : List (TPathId × TTablePtr))
    (tx tx3 : TTxRunConditionalErase) (h : DoExecuteAll ctx l tx = some tx3) :
    tx3.Self.Db = tx.Self.Db ∧ tx3.Self.TTLEnabledTables = tx.Self.TTLEnabledTables ∧
    ∀ r, (tx3.Self.TableObjs r).Partitions = (tx.Self.TableObjs r).Partitions := by
  induction l generalizing tx with
  | nil =>
    simp [DoExecuteAll] at h
    subst h
    exact ⟨rfl, rfl, fun _ => rfl⟩
  | cons x rest ih =>
    obtain ⟨x1, x2⟩ := x
    unfold DoExecuteAll at h
    split at h
    · simp at h
    · rename_i tx1 h1
      obtain ⟨a1, a2, a3⟩ := DoExecuteOnTable_store tx tx1 x2 ctx h1
      obtain ⟨b1, b2, b3⟩ := ih tx1 h
      exact ⟨b1.trans a1, b2.trans a2, fun r => (b3 r).trans (a3 r)⟩

/-- The dispatcher writes nothing to the store and leaves every partition
    entry as it is: `DoExecute` never touches its transaction context. -/
theorem RunDue_store (S : TSchemeShard) (tableInfo : Option TTablePtr) (ctx : TActorContext)
    (tx : TTxRunConditionalErase) (h : RunDue S tableInfo ctx = some tx) :
    tx.Self.Db = S.Db ∧ tx.Self.TTLEnabledTables = S.TTLEnabledTables ∧
    ∀ r, (tx.Self.TableObjs r).Partitions = (S.TableObjs r).Partitions := by
  unfold RunDue DoExecute at h
  split at h
  · simp at h
    subst h
    exact ⟨rfl, rfl, fun _ => rfl⟩
  · split at h
    · exact DoExecuteAll_store _ _ _ _ h
    · exact DoExecuteOnTable_store _ _ _ _ h

/-- The reconciler either changes nothing or re-arms one partition of a table
    of `TTLEnabledTables` and writes the new entry of that partition. -/
theorem OnEraseResponse_store (S : TSchemeShard) (ev : TEvConditionalEraseRowsResponse)
    (ctx : TActorContext) (tx1 : TTxScheduleConditionalErase)
    (h : OnEraseResponse S ev ctx = some tx1) :
    tx1.Self = S ∨
    ∃ (tableId : TPathId) (p : TTablePtr) (idx : Nat),
      THashMap.find S.TTLEnabledTables tableId = some p ∧
      tx1.Self.TTLEnabledTables = S.TTLEnabledTables ∧
      tx1.Self.Db = S.Db ++ [{ TableId := tableId, PartitionIdx := idx,
                               Entry := ((tx1.Self.TableObjs p).Partitions[idx]?).map
                                 TTableShardInfo.ToStored }] ∧
      (∀ q, q ≠ p → tx1.Self.TableObjs q = S.TableObjs q) ∧
      (∀ j, j ≠ idx →
        (tx1.Self.TableObjs p).Partitions[j]? = (S.TableObjs p).Partitions[j]?) := by
  unfold OnEraseResponse at h
  rcases Execute_cases _ _ _ h with rfl | ⟨info, p, st, next, idx, e, c1, c2, c3, c4, c5, c6,
    c7, c8⟩
  · exact Or.inl rfl
  · right
    obtain ⟨tx2, a1, -, a3, -, -, -, -, -, -, a10⟩ := Execute_accept _ ctx info p st next idx e
      c1 c2 c3 c4 c5 c6 c7 c8
    rw [h] at a1
    simp at a1
    subst a1
    refine ⟨info.PathId, p, idx, c3, a10, ?_, ?_, ?_⟩
    · have hlt : idx < (S.TableObjs p).Partitions.length := by
        rcases List.getElem?_eq_some.1 c8 with ⟨hl, -⟩
        exact hl
      simp only [CreateTxScheduleConditionalErase] at c1 c2 c3 c4 c5 c6 c7 c8 hlt
      unfold TTxScheduleConditionalErase.Execute at h
      simp only [CreateTxScheduleConditionalErase, c1, Bool.not_true, Bool.false_eq_true,
        if_false, c2, c3, TTableInfo.IsTTLEnabled, c4, Option.isSome_some,
        TTableInfo.GetInFlightCondErase, THashSet.contains, c5, decide_True,
        TTableInfo.GetEnabled, Option.getD_some, c6, TTableInfo.GetShard2PartitionIdx, c7,
        TTableInfo.GetPartitions, c8] at h
      cases hlag : e.LastCondEraseLag with
      | none =>
        simp [hlag, TSchemeShard.PersistTablePartitionCondErase, TSchemeShard.AddToLagCounter,
          TSchemeShard.SetTable, ScheduleNextCondErase_eq _ _ _ _ _ _ c7 c8, hlt] at h
        rw [← h]
        simp [ScheduleNextCondErase_eq _ _ _ _ _ _ c7 c8, hlt]
      | some lag =>
        simp [hlag, TSchemeShard.PersistTablePartitionCondErase, TSchemeShard.AddToLagCounter,
          TSchemeShard.SetTable, ScheduleNextCondErase_eq _ _ _ _ _ _ c7 c8, hlt] at h
        rw [← h]
        simp [ScheduleNextCondErase_eq _ _ _ _ _ _ c7 c8, hlt]
    · intro q hq
      rw [a3]
      simp [CreateTxScheduleConditionalErase, Function.update_noteq hq]
    · intro j hj
      rw [a3]
      simp only [CreateTxScheduleConditionalErase, Function.update_same] at c7 c8 ⊢
      rw [ScheduleNextCondErase_eq _ _ _ _ _ _ c7 c8]
      simp [List.getElem?_set_ne (Ne.symm hj)]

theorem LastWritten_append (rows : List TCondEraseRow) (row : TCondEraseRow)
    (tableId : TPathId) (idx : Nat) :
    LastWritten (rows ++ [row]) tableId idx =
      if row.TableId = tableId ∧ row.PartitionIdx = idx then some row.Entry
      else LastWritten rows tableId idx := by
  simp [LastWritten, List.foldl_append]


/-- Rows written later decide what the store holds for a position. -/
theorem LastWritten_append_rows (a b : List TCondEraseRow) (tableId : TPathId) (idx : Nat) :
    LastWritten (a ++ b) tableId idx =
      match LastWritten b tableId idx with
      | some x => some x
      | none => LastWritten a tableId idx := by
  induction b using List.reverseRecOn with
  | nil => simp [LastWritten]
  | append_singleton b row ih =>
    rw [← List.append_assoc, LastWritten_append, LastWritten_append, ih]
    by_cases hrow : row.TableId = tableId ∧ row.PartitionIdx = idx
    · simp [hrow]
    · simp [hrow]

/-- What a load makes of a stored schedule entry: the shard is kept, the
    next-eligible-time is rounded down to a whole millisecond. -/
theorem ToStored_Load (e : TTableShardInfo) :
    e.ToStored.Load.ShardIdx = e.ShardIdx ∧
    e.ToStored.Load.NextCondErase = e.NextCondErase / 1000 * 1000 ∧
    e.ToStored.Load.NextCondErase ≤ e.NextCondErase ∧
    e.NextCondErase < e.ToStored.Load.NextCondErase + 1000 ∧
    (1000 ∣ e.NextCondErase → e.ToStored.Load.NextCondErase = e.NextCondErase) := by
  refine ⟨rfl, rfl, ?_, ?_, fun h => ?_⟩ <;>
    simp only [TTableShardInfo.ToStored, TStoredPartition.Load] <;>
    delta TInstant at *
  · exact Nat.div_mul_le_self _ _
  · have := Nat.div_add_mod e.NextCondErase 1000
    have := Nat.mod_lt e.NextCondErase (show 0 < 1000 by decide)
    omega
  · exact Nat.div_mul_cancel h

/-- C20, amended (the schedule entries are written in the persisted layout,
    the in-flight set is not written). For every state reached from `start` by
    `RunDue` and `OnEraseResponse` (no two TTL-enabled tables sharing a table
    object) the store is the store of `start` followed by the rows written
    since. For every partition position of a TTL-enabled table, either no row
    was written for it and its schedule entry is that of `start`, or the row
    last written holds its current schedule entry in the persisted layout and
    a reload from the store gives that entry with the next-eligible-time
    rounded down to a whole millisecond: the same shard, a time not later and
    less than a millisecond earlier, and the same time when it is a whole
    number of milliseconds. If the store of `start` reloads every partition in
    this way, so does the store of the state reached. -/
theorem crash_recovery_next_eligible_time (start fin : TSchemeShard)
    (hreach : Reachable start fin) (hdist : TablesDistinct start) :
    ∃ rows, fin.Db = start.Db ++ rows ∧
      (∀ (tableId : TPathId) (p : TTablePtr) (idx : Nat),
        THashMap.find start.TTLEnabledTables tableId = some p →
          (LastWritten rows tableId idx = none ∧
            (fin.TableObjs p).Partitions[idx]? = (start.TableObjs p).Partitions[idx]?) ∨
          (LastWritten rows tableId idx =
              some (((fin.TableObjs p).Partitions[idx]?).map TTableShardInfo.ToStored) ∧
            ReloadPartition fin.Db tableId idx =
              ((fin.TableObjs p).Partitions[idx]?).map (fun e => e.ToStored.Load))) ∧
      (∀ e : TTableShardInfo,
        e.ToStored.Load.ShardIdx = e.ShardIdx ∧
        e.ToStored.Load.NextCondErase = e.NextCondErase / 1000 * 1000 ∧
        e.ToStored.Load.NextCondErase ≤ e.NextCondErase ∧
        e.NextCondErase < e.ToStored.Load.NextCondErase + 1000 ∧
        (1000 ∣ e.NextCondErase → e.ToStored.Load.NextCondErase = e.NextCondErase)) ∧
      (StoreInSync start → StoreInSync fin) := by
  have key : fin.TTLEnabledTables = start.TTLEnabledTables ∧
      ∃ rows, fin.Db = start.Db ++ rows ∧
        ∀ (tableId : TPathId) (p : TTablePtr) (idx : Nat),
          THashMap.find start.TTLEnabledTables tableId = some p →
            (LastWritten rows tableId idx = none ∧
              (fin.TableObjs p).Partitions[idx]? = (start.TableObjs p).Partitions[idx]?) ∨
            LastWritten rows tableId idx =
              some (((fin.TableObjs p).Partitions[idx]?).map TTableShardInfo.ToStored) := by
    induction hreach with
    | refl => exact ⟨rfl, [], by simp, fun _ _ _ _ => Or.inl ⟨rfl, rfl⟩⟩
    | step mid fin hr s ih =>
      obtain ⟨httl, rows, hdb, hrel⟩ := ih
      cases s with
      | runDue tableInfo ctx tx h =>
        obtain ⟨a1, a2, a3⟩ := RunDue_store mid tableInfo ctx tx h
        refine ⟨a2.trans httl, rows, a1.trans hdb, fun tableId p idx hp => ?_⟩
        rw [a3 p]
        exact hrel tableId p idx hp
      | onEraseResponse ev ctx tx h =>
        rcases OnEraseResponse_store mid ev ctx tx h with heq | ⟨tid, q, i, b1, b2, b3, b4, b5⟩
        · rw [heq]
          exact ⟨httl, rows, hdb, hrel⟩
        · rw [httl] at b1
          refine ⟨b2.trans httl,
            rows ++ [(⟨tid, i, ((tx.Self.TableObjs q).Partitions[i]?).map
              TTableShardInfo.ToStored⟩ : TCondEraseRow)], ?_,
            fun tableId p idx hp => ?_⟩
          · rw [b3, hdb, List.append_assoc]
          · rw [LastWritten_append]
            by_cases hrow : tid = tableId ∧ i = idx
            · obtain ⟨rfl, rfl⟩ := hrow
              have hpq : p = q := by
                rw [b1] at hp
                simpa using hp.symm
              subst hpq
              right
              simp
            · rw [if_neg hrow]
              have hsame : (tx.Self.TableObjs p).Partitions[idx]? =
                  (mid.TableObjs p).Partitions[idx]? := by
                by_cases hpq : p = q
                · subst hpq
                  have htid : tid = tableId := hdist tid tableId p b1 hp
                  have hidx : idx ≠ i := fun hh => hrow ⟨htid, hh.symm⟩
                  exact b5 idx hidx
                · rw [b4 p hpq]
              rw [hsame]
              exact hrel tableId p idx hp
  obtain ⟨httl, rows, hdb, hrel⟩ := key
  have hreload : ∀ (tableId : TPathId) (idx : Nat) (x : Option TStoredPartition),
      LastWritten rows tableId idx = some x →
        ReloadPartition fin.Db tableId idx = x.map TStoredPartition.Load := by
    intro tableId idx x hx
    unfold ReloadPartition
    rw [hdb, LastWritten_append_rows, hx]
    rfl
  refine ⟨rows, hdb, fun tableId p idx hp => ?_, ToStored_Load, fun hsync => ?_⟩
  · rcases hrel tableId p idx hp with h | h
    · exact Or.inl h
    · refine Or.inr ⟨h, ?_⟩
      rw [hreload tableId idx _ h, Option.map_map]
      rfl
  · intro tableId p idx hp
    rw [httl] at hp
    rcases hrel tableId p idx hp with ⟨h1, h2⟩ | h
    · rw [h2, ← hsync tableId p idx hp]
      unfold ReloadPartition
      rw [hdb, LastWritten_append_rows, h1]
    · rw [hreload tableId idx _ h, Option.map_map]
      rfl

theorem Example.TablesDistinct_Idle : TablesDistinct Example.Idle := by
  intro a b p ha hb
  simp only [Example.Idle, Example.Catalog, THashMap.find] at ha hb
  have ha1 : a = Example.TablePath := by
    by_contra hne
    simp [List.find?, Ne.symm hne] at ha
  have hb1 : b = Example.TablePath := by
    by_contra hne
    simp [List.find?, Ne.symm hne] at hb
  rw [ha1, hb1]

theorem Example.reachable_Reconciled : Reachable Example.Idle Example.Reconciled.Self :=
  Reachable.step _ _ Example.reachable_IdleRun
    (Step.onEraseResponse Example.IdleRun.Self (Example.Response EStatus.OK) Example.At30
      Example.Reconciled rfl)

/-- Witness of C20, amended: the example table after a run at time 20 and the
    response `OK` of tablet 101 at time 30. The one row written holds shard 1
    with next-eligible-time 0 ms and lag 0 s, the entry in memory being due at
    130 microseconds. -/
theorem crash_recovery_next_eligible_time_witness :
    Example.Reconciled.Self.Db =
        [{ TableId := Example.TablePath, PartitionIdx := 0,
           Entry := some { ShardIdx := Example.Shard1, NextCondErase := 0,
                           LastCondEraseLag := some 0 } }] ∧
      ((Example.Reconciled.Self.TableObjs 0).Partitions[0]?).map
        TTableShardInfo.NextCondErase = some 130 ∧
      (ReloadPartition Example.Reconciled.Self.Db Example.TablePath 0).map
        TTableShardInfo.NextCondErase = some 0 ∧
      ∃ rows, Example.Reconciled.Self.Db = Example.Idle.Db ++ rows ∧
        (∀ (tableId : TPathId) (p : TTablePtr) (idx : Nat),
          THashMap.find Example.Idle.TTLEnabledTables tableId = some p →
            (LastWritten rows tableId idx = none ∧
              (Example.Reconciled.Self.TableObjs p).Partitions[idx]? =
                (Example.Idle.TableObjs p).Partitions[idx]?) ∨
            (LastWritten rows tableId idx =
                some (((Example.Reconciled.Self.TableObjs p).Partitions[idx]?).map
                  TTableShardInfo.ToStored) ∧
              ReloadPartition Example.Reconciled.Self.Db tableId idx =
                ((Example.Reconciled.Self.TableObjs p).Partitions[idx]?).map
                  (fun e => e.ToStored.Load))) ∧
        (∀ e : TTableShardInfo,
          e.ToStored.Load.ShardIdx = e.ShardIdx ∧
          e.ToStored.Load.NextCondErase = e.NextCondErase / 1000 * 1000 ∧
          e.ToStored.Load.NextCondErase ≤ e.NextCondErase ∧
          e.NextCondErase < e.ToStored.Load.NextCondErase + 1000 ∧
          (1000 ∣ e.NextCondErase → e.ToStored.Load.NextCondErase = e.NextCondErase)) ∧
        (StoreInSync Example.Idle → StoreInSync Example.Reconciled.Self) :=
  ⟨by decide, by decide, by decide,
    crash_recovery_next_eligible_time Example.Idle Example.Reconciled.Self
      Example.reachable_Reconciled Example.TablesDistinct_Idle⟩

/-- Counterexample to C20: two runs on the idle example table, at time 0 and
    at time 20, leave the same store (neither writes), yet the first leaves
    shard 1 pending and the second leaves it in flight: the store does not
    determine the in-flight / pending classification. -/
theorem crash_recovery_counterexample :
    ∃ txa txb, RunDue Example.Idle (some 0) Example.At0 = some txa ∧
      RunDue Example.Idle (some 0) Example.At20 = some txb ∧
      txa.Self.Db = txb.Self.Db ∧
      Example.Shard1 ∉ (txa.Self.TableObjs 0).InFlightCondErase ∧
      Example.Shard1 ∈ PendingShards (txa.Self.TableObjs 0) ∧
      Example.Shard1 ∈ (txb.Self.TableObjs 0).InFlightCondErase ∧
      Example.Shard1 ∉ PendingShards (txb.Self.TableObjs 0) :=
  ⟨_, _, rfl, rfl, rfl, by decide, by decide, by decide, by decide⟩


/-! ## The scheduler under a clock -/

theorem RunTable_mem (a : TTableShardInfo → Bool) (t : TTableInfo) :
    ∃ X Y, RunTable a t = t.WithSched X Y ∧
      ∀ s ∈ X, s ∈ t.InFlightCondErase ∨
        ∃ (i : Nat) (e : TTableShardInfo),
          t.Partitions[i]? = some e ∧ a e = true ∧ e.ShardIdx = s := by
  cases hst : t.TTLSettings with
  | none =>
    exact ⟨t.InFlightCondErase, t.CondEraseSchedule, by simp [RunTable, hst, WithSched_self],
      fun s hs => Or.inl hs⟩
  | some st =>
    obtain ⟨X, Y, hX, hmem, -⟩ := DispatchTable_spec a st.SysSettings.MaxShardsInFlight
      ((AfterReschedule t (RescheduleSet a t)).CondEraseSchedule.length + 1)
      (AfterReschedule t (RescheduleSet a t))
    refine ⟨X, Y, ?_, fun s hs => ?_⟩
    · simp only [RunTable, hst, hX]
      simp [AfterReschedule, WithSched_WithSched]
    · rcases hmem s hs with h | h
      · simp only [AfterReschedule, WithSched_InFlightCondErase, List.mem_filter] at h
        exact Or.inl h.1
      · exact Or.inr h

theorem InFlightDue_mono (t : TTableInfo) (c d : TInstant) (hcd : c ≤ d)
    (h : InFlightDue t c) : InFlightDue t d :=
  fun s hs e he => Nat.le_trans (h s hs e he) hcd

theorem DispatchedBy_mono (S : TSchemeShard) (c d : TInstant) (hcd : c ≤ d)
    (h : DispatchedBy S c) : DispatchedBy S d :=
  fun q => ⟨(h q).1, (h q).2.1, InFlightDue_mono _ c d hcd (h q).2.2⟩

theorem DoExecuteOnTable_clock (tx tx3 : TTxRunConditionalErase) (p : TTablePtr)
    (ctx : TActorContext) (c : TInstant) (hinv : DispatchedBy tx.Self c) (hc : c ≤ ctx.Now)
    (h : DoExecuteOnTable tx p ctx = some tx3) : DispatchedBy tx3.Self ctx.Now := by
  have hrun := DoExecuteOnTable_RunTable tx tx3 p ctx h
  obtain ⟨X, Y, hXY, hmem⟩ :=
    RunTable_mem (fun e => DispatchAttempt tx.Self e ctx) (tx.Self.TableObjs p)
  rw [hXY] at hrun
  intro q
  rw [hrun, SetTable_TableObjs]
  by_cases hq : q = p
  · subst hq
    simp only [if_true]
    obtain ⟨m1, m2, m3⟩ := hinv q
    refine ⟨m1, m2, ?_⟩
    intro s hs e he
    rw [PartitionOf_WithSched] at he
    rw [WithSched_InFlightCondErase] at hs
    rcases hmem s hs with h1 | ⟨i, e0, hi, ha, rfl⟩
    · exact Nat.le_trans (m3 s h1 e he) hc
    · rw [PartitionOf_eq _ _ i e0 (m2 i e0 hi) hi] at he
      simp only [Option.some.injEq] at he
      subst he
      simp only [DispatchAttempt, Bool.and_eq_true, decide_eq_true_eq] at ha
      exact ha.1
  · simp only [hq, if_false]
    exact (DispatchedBy_mono _ c _ hc hinv) q

theorem DoExecuteAll_clock (ctx : TActorContext) (l : List (TPathId × TTablePtr))
    (tx tx3 : TTxRunConditionalErase) (c : TInstant) (hinv : DispatchedBy tx.Self c)
    (hc : c ≤ ctx.Now) (h : DoExecuteAll ctx l tx = some tx3) :
    DispatchedBy tx3.Self ctx.Now := by
  induction l generalizing tx c with
  | nil =>
    simp [DoExecuteAll] at h
    subst h
    exact DispatchedBy_mono _ c _ hc hinv
  | cons x rest ih =>
    obtain ⟨x1, x2⟩ := x
    unfold DoExecuteAll at h
    split at h
    · simp at h
    · rename_i tx1 h1
      exact ih tx1 ctx.Now (DoExecuteOnTable_clock tx tx1 x2 ctx c hinv hc h1)
        (Nat.le_refl _) h

theorem RunDue_clock (S : TSchemeShard) (tableInfo : Option TTablePtr) (ctx : TActorContext)
    (tx : TTxRunConditionalErase) (c : TInstant) (hinv : DispatchedBy S c) (hc : c ≤ ctx.Now)
    (h : RunDue S tableInfo ctx = some tx) : DispatchedBy tx.Self ctx.Now := by
  unfold RunDue DoExecute at h
  split at h
  · simp at h
    subst h
    exact DispatchedBy_mono _ c _ hc hinv
  · split at h
    · exact DoExecuteAll_clock _ _ _ _ c hinv hc h
    · exact DoExecuteOnTable_clock _ _ _ _ c hinv hc h


/-- An accepted or discarded response keeps the tables as the dispatcher leaves
    them and lowers no next-eligible-time. -/
theorem OnEraseResponse_clock (S : TSchemeShard) (ev : TEvConditionalEraseRowsResponse)
    (ctx : TActorContext) (tx1 : TTxScheduleConditionalErase) (c : TInstant)
    (hinv : DispatchedBy S c) (hc : c ≤ ctx.Now)
    (h : OnEraseResponse S ev ctx = some tx1) :
    DispatchedBy tx1.Self ctx.Now ∧
    ∀ (q : TTablePtr) (j : Nat) (v : TInstant), NextEligibleTime S q j = some v →
      ∃ w, NextEligibleTime tx1.Self q j = some w ∧ v ≤ w := by
  unfold OnEraseResponse at h
  rcases Execute_cases _ _ _ h with rfl | ⟨info, p, st, next, idx, e, c1, c2, c3, c4, c5, c6,
    c7, c8⟩
  · exact ⟨DispatchedBy_mono _ c _ hc hinv, fun q j v hv => ⟨v, hv, Nat.le_refl _⟩⟩
  · obtain ⟨tx2, a1, -, a3, -⟩ := Execute_accept _ ctx info p st next idx e
      c1 c2 c3 c4 c5 c6 c7 c8
    rw [h] at a1
    simp at a1
    subst a1
    simp only [CreateTxScheduleConditionalErase] at c5 c7 c8 a3
    rw [ScheduleNextCondErase_eq _ _ _ _ _ _ c7 c8] at a3
    obtain ⟨m1, m2, m3⟩ := hinv p
    have hlt : idx < (S.TableObjs p).Partitions.length := by
      rcases List.getElem?_eq_some.1 c8 with ⟨hl, -⟩
      exact hl
    have hdue : e.NextCondErase ≤ c := m3 _ c5 e (PartitionOf_eq _ _ _ _ c7 c8)
    have hshard : e.ShardIdx = S.GetShardIdx ev.TabletID := m1 _ idx e c7 c8
    constructor
    · intro q
      rw [a3]
      by_cases hq : q = p
      · subst hq
        simp only [Function.update_same]
        refine ⟨?_, ?_, ?_⟩
        · intro sh i f hfind hf
          simp only at hfind hf
          by_cases hi : i = idx
          · subst hi
            simp [hlt] at hf
            subst hf
            exact m1 sh i e hfind c8
          · rw [List.getElem?_set_ne (Ne.symm hi)] at hf
            exact m1 sh i f hfind hf
        · intro i f hf
          simp only at hf ⊢
          by_cases hi : i = idx
          · subst hi
            simp [hlt] at hf
            subst hf
            exact m2 i e c8
          · rw [List.getElem?_set_ne (Ne.symm hi)] at hf
            exact m2 i f hf
        · intro s hs f hf
          simp only [THashSet.mem_erase] at hs
          simp only [TTableInfo.PartitionOf] at hf
          cases hfind : THashMap.find (S.TableObjs q).Shard2PartitionIdx s with
          | none => simp [hfind] at hf
          | some j =>
            simp only [hfind, Option.some_bind] at hf
            by_cases hj : j = idx
            · subst hj
              exact absurd ((m1 s j e hfind c8).symm.trans hshard) hs.2
            · rw [List.getElem?_set_ne (Ne.symm hj)] at hf
              exact Nat.le_trans (m3 s hs.1 f (PartitionOf_eq _ _ _ _ hfind hf)) hc
      · simp only [Function.update_noteq hq]
        exact (DispatchedBy_mono _ c _ hc hinv) q
    · intro q j v hv
      unfold NextEligibleTime at hv ⊢
      rw [a3]
      by_cases hq : q = p
      · subst hq
        simp only [Function.update_same]
        by_cases hj : j = idx
        · subst hj
          rw [c8] at hv
          simp only [Option.map_some', Option.some.injEq] at hv
          subst hv
          refine ⟨ctx.Now + next, by simp [hlt], ?_⟩
          exact Nat.le_trans hdue (Nat.le_trans hc (Nat.le_add_right _ _))
        · rw [List.getElem?_set_ne (Ne.symm hj)]
          exact ⟨v, hv, Nat.le_refl _⟩
      · simp only [Function.update_noteq hq]
        exact ⟨v, hv, Nat.le_refl _⟩

/-- Under a non-decreasing clock no next-eligible-time ever decreases. -/
theorem ReachableAt_monotone (start fin : TSchemeShard) (c0 c : TInstant)
    (hinv : DispatchedBy start c0) (hreach : ReachableAt start c0 fin c) :
    DispatchedBy fin c ∧
    ∀ (q : TTablePtr) (j : Nat) (v : TInstant), NextEligibleTime start q j = some v →
      ∃ w, NextEligibleTime fin q j = some w ∧ v ≤ w := by
  induction hreach with
  | refl => exact ⟨hinv, fun q j v hv => ⟨v, hv, Nat.le_refl _⟩⟩
  | runDue mid c tableInfo ctx tx h hclock hrun ih =>
    obtain ⟨i1, i2⟩ := ih
    refine ⟨RunDue_clock mid tableInfo ctx tx c i1 hclock hrun, fun q j v hv => ?_⟩
    obtain ⟨w, hw, hle⟩ := i2 q j v hv
    refine ⟨w, ?_, hle⟩
    unfold NextEligibleTime at hw ⊢
    rw [(RunDue_store mid tableInfo ctx tx hrun).2.2 q]
    exact hw
  | onEraseResponse mid c ev ctx tx h hclock hrun ih =>
    obtain ⟨i1, i2⟩ := ih
    obtain ⟨j1, j2⟩ := OnEraseResponse_clock mid ev ctx tx c i1 hclock hrun
    refine ⟨j1, fun q j v hv => ?_⟩
    obtain ⟨w, hw, hle⟩ := i2 q j v hv
    obtain ⟨w2, hw2, hle2⟩ := j2 q j w hw
    exact ⟨w2, hw2, Nat.le_trans hle hle2⟩


/-- C17 (monotone next-eligible-time). First part: if the dispatch attempt for
    a partition succeeded at time `d` (so its next-eligible-time was at most
    `d`) and its response, with status `OK` or a failure status (any status but
    `PARTIAL`), is reconciled at a time `now ≥ d` while the shard is in flight,
    the response is accepted and the new next-eligible-time is at least the old
    one. Second part: from a state whose in-flight shards were due by the
    starting time (the shard-to-partition map and the partition list indexing
    each other), along every sequence of `RunDue` and `OnEraseResponse` run at
    non-decreasing times, no partition's next-eligible-time ever decreases. -/
theorem next_eligible_time_monotone :
    (∀ (S : TSchemeShard) (ev : TEvConditionalEraseRowsResponse) (ctx ctxd : TActorContext)
      (txd txd1 : TTxRunConditionalErase) (info : TShardInfo) (p : TTablePtr)
      (st : TTTLSettingsEnabled) (idx : Nat) (e : TTableShardInfo),
      DoExecuteOnShard txd p e ctxd = some (true, txd1) →
      ctxd.Now ≤ ctx.Now →
      S.AllowConditionalEraseOperations = true →
      ev.Status ≠ EStatus.PARTIAL →
      THashMap.find S.ShardInfos (S.GetShardIdx ev.TabletID) = some info →
      THashMap.find S.TTLEnabledTables info.PathId = some p →
      (S.TableObjs p).TTLSettings = some st →
      S.GetShardIdx ev.TabletID ∈ (S.TableObjs p).InFlightCondErase →
      THashMap.find (S.TableObjs p).Shard2PartitionIdx (S.GetShardIdx ev.TabletID) =
        some idx →
      (S.TableObjs p).Partitions[idx]? = some e →
      e.NextCondErase ≤ ctxd.Now ∧
      ∃ tx e1, OnEraseResponse S ev ctx = some tx ∧
        (tx.Self.TableObjs p).Partitions[idx]? = some e1 ∧
        (tx.Self.TableObjs p).PartitionOf (S.GetShardIdx ev.TabletID) = some e1 ∧
        e.NextCondErase ≤ e1.NextCondErase) ∧
    (∀ (start fin : TSchemeShard) (c0 c : TInstant),
      DispatchedBy start c0 → ReachableAt start c0 fin c →
      ∀ (q : TTablePtr) (j : Nat) (v : TInstant), NextEligibleTime start q j = some v →
        ∃ w, NextEligibleTime fin q j = some w ∧ v ≤ w) :=
  ⟨fun S ev ctx ctxd txd txd1 info p st idx e h1 h2 h3 h4 h5 h6 h7 h8 h9 h10 =>
      OnEraseResponse_monotone S ev ctx ctxd txd txd1 info p st idx e h1 h2 h3 h4 h5 h6 h7 h8
        h9 h10,
    fun start fin c0 c hinv hreach => (ReachableAt_monotone start fin c0 c hinv hreach).2⟩

theorem Example.DispatchedBy_Idle : DispatchedBy Example.Idle 10 := by
  intro q
  by_cases hq : q = 0
  · subst hq
    exact ⟨Example.MappingConsistent_Table, Example.PartitionsIndexed_Table,
      fun s hs => by simp [Example.Idle, Example.Catalog, Example.Table] at hs⟩
  · have hno : Example.Idle.TableObjs q = Example.NoTable := by
      simp [Example.Idle, Example.Catalog, hq]
    rw [hno]
    refine ⟨?_, ?_, ?_⟩
    · intro s i e h
      simp [Example.NoTable, THashMap.find] at h
    · intro i e h
      simp [Example.NoTable] at h
    · intro s hs
      simp [Example.NoTable] at hs

theorem Example.reachableAt_Reconciled :
    ReachableAt Example.Idle 10 Example.Reconciled.Self 30 :=
  ReachableAt.onEraseResponse Example.IdleRun.Self 20 (Example.Response EStatus.OK)
    Example.At30 Example.Reconciled
    (ReachableAt.runDue Example.Idle 10 (some 0) Example.At20 Example.IdleRun
      ReachableAt.refl (by decide) rfl)
    (by decide) rfl

/-- Witness of C17. First part: the partition of shard 1 (next-eligible-time
    10) is dispatched on `Example.Idle` at time 20 and reconciled with `OK` on
    `Example.Busy` at time 30. Second part: the run at time 20 and the response
    at time 30 from `Example.Idle`, clock starting at 10. -/
theorem next_eligible_time_monotone_witness :
    ((10 : Nat) ≤ Example.At20.Now ∧
      ∃ tx e1, OnEraseResponse Example.Busy (Example.Response EStatus.OK) Example.At30 =
          some tx ∧
        (tx.Self.TableObjs 0).Partitions[0]? = some e1 ∧
        (tx.Self.TableObjs 0).PartitionOf
          (Example.Busy.GetShardIdx (Example.Response EStatus.OK).TabletID) = some e1 ∧
        (10 : Nat) ≤ e1.NextCondErase) ∧
    (∀ (q : TTablePtr) (j : Nat) (v : TInstant), NextEligibleTime Example.Idle q j = some v →
      ∃ w, NextEligibleTime Example.Reconciled.Self q j = some w ∧ v ≤ w) :=
  ⟨next_eligible_time_monotone.1 Example.Busy (Example.Response EStatus.OK) Example.At30
      Example.At20 (CreateTxRunConditionalEraseOnTable Example.Idle 0) _
      { TabletID := 101, PathId := Example.TablePath } 0 Example.Settings 0
      { ShardIdx := Example.Shard1, NextCondErase := 10, LastCondEraseLag := some 0 }
      rfl (by decide) rfl (by decide) rfl rfl rfl (by decide) rfl rfl,
    next_eligible_time_monotone.2 Example.Idle Example.Reconciled.Self 10 30
      Example.DispatchedBy_Idle Example.reachableAt_Reconciled⟩


/-! ## Head of the line -/

theorem ServedNoLater_antisymm (a b : TTableShardInfo) (h1 : ServedNoLater a b)
    (h2 : ServedNoLater b a) : a.NextCondErase = b.NextCondErase ∧ a.ShardIdx = b.ShardIdx := by
  unfold ServedNoLater TTableShardInfo.Before TShardIdx.Less at h1 h2
  simp only [Bool.or_eq_false_iff, Bool.and_eq_false_iff, decide_eq_false_iff_not,
    Bool.or_eq_true, Bool.and_eq_true, decide_eq_true_eq] at h1 h2
  obtain ⟨a1, a2, a3⟩ := a
  obtain ⟨b1, b2, b3⟩ := b
  obtain ⟨ao, al⟩ := a1
  obtain ⟨bo, bl⟩ := b1
  simp only [TShardIdx.mk.injEq] at *
  delta TInstant at *
  omega

theorem DispatchAttempt_key (S : TSchemeShard) (ctx : TActorContext) (e f : TTableShardInfo)
    (h1 : e.NextCondErase = f.NextCondErase) (h2 : e.ShardIdx = f.ShardIdx) :
    DispatchAttempt S e ctx = DispatchAttempt S f ctx := by
  simp [DispatchAttempt, h1, h2]

theorem mem_RescheduleSet (a : TTableShardInfo → Bool) (t : TTableInfo) (s : TShardIdx) :
    s ∈ RescheduleSet a t ↔ s ∈ t.InFlightCondErase ∧ AttemptFails a t s = true := by
  unfold RescheduleSet
  rw [THashSet.mem_foldl_insert]
  simp [List.mem_filter]

/-- When the attempt for the top of the schedule fails, the dispatch loop has
    nothing to do after the abandoned in-flight shards are returned to the
    schedule: the entries returned fail their attempt as well. -/
theorem Stopped_AfterReschedule (a : TTableShardInfo → Bool) (m : Nat) (t : TTableInfo)
    (i : Nat) (e : TTableShardInfo)
    (hkey : ∀ x y : TTableShardInfo, x.NextCondErase = y.NextCondErase →
      x.ShardIdx = y.ShardIdx → a x = a y)
    (htop : ScheduleTop t.Partitions t.CondEraseSchedule = some (i, e)) (hfail : a e = false) :
    Stopped a m (AfterReschedule t (RescheduleSet a t)) := by
  obtain ⟨hi, he, hmin⟩ := ScheduleTop_some _ _ _ _ htop
  cases hnew : ScheduleTop (AfterReschedule t (RescheduleSet a t)).Partitions
      (AfterReschedule t (RescheduleSet a t)).CondEraseSchedule with
  | none => exact Or.inr (Or.inl hnew)
  | some r =>
    obtain ⟨j, f⟩ := r
    refine Or.inr (Or.inr ⟨j, f, hnew, ?_⟩)
    obtain ⟨hj, hf, hminj⟩ := ScheduleTop_some _ _ _ _ hnew
    simp only [AfterReschedule, WithSched_Partitions, WithSched_CondEraseSchedule,
      List.mem_append, List.mem_filterMap] at hj hf hminj
    rcases hj with hj | ⟨s, hs, hsj⟩
    · have h1 := hmin j hj f hf
      have h2 := hminj i (Or.inl hi) e he
      obtain ⟨k1, k2⟩ := ServedNoLater_antisymm _ _ h1 h2
      rw [← hkey e f k1 k2]
      exact hfail
    · have hfails := ((mem_RescheduleSet a t s).1 hs).2
      simp only [AttemptFails, PartitionOf_eq t s j f hsj hf, Bool.not_eq_true'] at hfails
      exact hfails

/-- C21 (head-of-line stop). In `RunDue` on a TTL-enabled table (flag on,
    catalog consistent so no assertion fires), if the dispatch attempt for the
    earliest pending schedule entry fails (it is not due, or its shard, path or
    table does not resolve), the run returns with no shard added to the
    in-flight set, nothing popped from the schedule (the schedule is the old one
    followed by the positions of the abandoned in-flight shards) and every
    pending shard still pending, whatever the later entries and the cap are. -/
theorem head_of_line_stop (S : TSchemeShard) (p : TTablePtr) (ctx : TActorContext)
    (st : TTTLSettingsEnabled) (i : Nat) (e : TTableShardInfo)
    (hflag : S.AllowConditionalEraseOperations = true)
    (hst : (S.TableObjs p).TTLSettings = some st)
    (hok : IndexCatalogOk S) (hmap : InFlightMapped (S.TableObjs p))
    (htop : ScheduleTop (S.TableObjs p).Partitions (S.TableObjs p).CondEraseSchedule =
      some (i, e))
    (hfail : DispatchAttempt S e ctx = false) :
    ∃ tx, RunDue S (some p) ctx = some tx ∧
      (∀ s ∈ (tx.Self.TableObjs p).InFlightCondErase, s ∈ (S.TableObjs p).InFlightCondErase) ∧
      (tx.Self.TableObjs p).CondEraseSchedule =
        (S.TableObjs p).CondEraseSchedule ++
          (RescheduleSet (fun f => DispatchAttempt S f ctx) (S.TableObjs p)).filterMap
            (THashMap.find (S.TableObjs p).Shard2PartitionIdx) ∧
      (∀ s ∈ PendingShards (S.TableObjs p), s ∈ PendingShards (tx.Self.TableObjs p)) := by
  rw [RunDue_on_table S p ctx hflag]
  obtain ⟨tx, h⟩ := DoExecuteOnTable_total
    { Self := S, TableInfo := some p, RunOnTablets := [] } p ctx hok hmap
  have hrun := DoExecuteOnTable_RunTable _ _ _ _ h
  simp only at hrun
  have hstop := Stopped_AfterReschedule (fun f => DispatchAttempt S f ctx)
    st.SysSettings.MaxShardsInFlight (S.TableObjs p) i e
    (fun x y h1 h2 => DispatchAttempt_key S ctx x y h1 h2) htop hfail
  have htab : tx.Self.TableObjs p =
      AfterReschedule (S.TableObjs p)
        (RescheduleSet (fun f => DispatchAttempt S f ctx) (S.TableObjs p)) := by
    rw [hrun, SetTable_TableObjs_same]
    simp only [RunTable, hst]
    exact DispatchTable_stopped _ _ _ _ hstop
  refine ⟨tx, h, ?_, ?_, ?_⟩
  · intro s hs
    rw [htab] at hs
    simp only [AfterReschedule, WithSched_InFlightCondErase, List.mem_filter] at hs
    exact hs.1
  · rw [htab]
    rfl
  · intro s hs
    rw [htab]
    simp only [PendingShards, AfterReschedule, WithSched_CondEraseSchedule,
      WithSched_Partitions, List.filterMap_append, List.mem_append] at hs ⊢
    exact Or.inl hs

theorem Example.InFlightMapped_Orphan : InFlightMapped (Example.Orphan.TableObjs 0) := by
  intro s hs
  simp [Example.Orphan, Example.Idle, Example.Catalog, Example.Table] at hs

theorem Example.IndexCatalogOk_Orphan : IndexCatalogOk Example.Orphan := by
  intro pid h1 _
  simp [Example.Orphan, Example.Idle, Example.Catalog, THashMap.contains, THashMap.find] at h1
  subst h1
  rfl

/-- Witness of C21: on `Example.Orphan` at time 20 the earliest entry (shard 1)
    does not resolve while the entry of shard 2 is due and resolves and the cap
    of two is not reached; the run adds nothing to the in-flight set. -/
theorem head_of_line_stop_witness :
    DispatchAttempt Example.Orphan
        { ShardIdx := Example.Shard2, NextCondErase := 10, LastCondEraseLag := some 0 }
        Example.At20 = true ∧
    ∃ tx, RunDue Example.Orphan (some 0) Example.At20 = some tx ∧
      (∀ s ∈ (tx.Self.TableObjs 0).InFlightCondErase,
        s ∈ (Example.Orphan.TableObjs 0).InFlightCondErase) ∧
      (tx.Self.TableObjs 0).CondEraseSchedule =
        (Example.Orphan.TableObjs 0).CondEraseSchedule ++
          (RescheduleSet (fun f => DispatchAttempt Example.Orphan f Example.At20)
            (Example.Orphan.TableObjs 0)).filterMap
            (THashMap.find (Example.Orphan.TableObjs 0).Shard2PartitionIdx) ∧
      (∀ s ∈ PendingShards (Example.Orphan.TableObjs 0),
        s ∈ PendingShards (tx.Self.TableObjs 0)) :=
  ⟨by decide,
    head_of_line_stop Example.Orphan 0 Example.At20 Example.Settings 0
      { ShardIdx := Example.Shard1, NextCondErase := 10, LastCondEraseLag := some 0 }
      rfl rfl Example.IndexCatalogOk_Orphan Example.InFlightMapped_Orphan (by decide)
      (by decide)⟩


/-! ## Work conservation -/

theorem mem_of_getElem?_eq_some {α : Type} (l : List α) (i : Nat) (a : α)
    (h : l[i]? = some a) : a ∈ l := by
  rcases List.getElem?_eq_some.1 h with ⟨hl, rfl⟩
  exact List.getElem_mem _

/-- On a stopped table whose shards all resolve, the cap is reached or no
    pending entry is due. -/
theorem Stopped_not_due (S : TSchemeShard) (ctx : TActorContext) (m : Nat) (t : TTableInfo)
    (hres : ∀ e ∈ t.Partitions, ShardResolves S e.ShardIdx = true)
    (h : Stopped (fun e => DispatchAttempt S e ctx) m t) :
    (m ≠ 0 ∧ t.InFlightCondErase.length ≥ m) ∨
      ∀ e ∈ PendingEntries t, ctx.Now < e.NextCondErase := by
  rcases h with h | h | ⟨i, e, h, hf⟩
  · exact Or.inl h
  · right
    intro f hf
    simp only [PendingEntries, List.mem_filterMap] at hf
    obtain ⟨j, hj, hjf⟩ := hf
    rw [ScheduleTop_none _ _ h j hj] at hjf
    simp at hjf
  · right
    obtain ⟨hi, he, hmin⟩ := ScheduleTop_some _ _ _ _ h
    have hnd : ctx.Now < e.NextCondErase := by
      simp only [DispatchAttempt, hres e (mem_of_getElem?_eq_some _ _ _ he), Bool.and_true,
        decide_eq_false_iff_not] at hf
      exact Nat.lt_of_not_le hf
    intro f hf
    simp only [PendingEntries, List.mem_filterMap] at hf
    obtain ⟨j, hj, hjf⟩ := hf
    have := hmin j hj f hjf
    simp only [ServedNoLater, TTableShardInfo.Before, Bool.or_eq_false_iff,
      decide_eq_false_iff_not] at this
    exact Nat.lt_of_lt_of_le hnd (Nat.le_of_not_lt this.1)

/-- C22 (work conservation). After `RunDue` on a TTL-enabled table all of
    whose shards resolve (flag on, catalog consistent so no assertion fires),
    either the cap `K > 0` is reached by the in-flight set or no pending
    schedule entry is due; and with `K = 0`, on a table that satisfies the
    scheduler invariant, every due partition is in flight afterwards. -/
theorem work_conservation (S : TSchemeShard) (p : TTablePtr) (ctx : TActorContext)
    (st : TTTLSettingsEnabled)
    (hflag : S.AllowConditionalEraseOperations = true)
    (hst : (S.TableObjs p).TTLSettings = some st)
    (hok : IndexCatalogOk S) (hmap : InFlightMapped (S.TableObjs p))
    (hres : ∀ e ∈ (S.TableObjs p).Partitions, ShardResolves S e.ShardIdx = true) :
    ∃ tx, RunDue S (some p) ctx = some tx ∧
      ((st.SysSettings.MaxShardsInFlight ≠ 0 ∧
          (tx.Self.TableObjs p).InFlightCondErase.length ≥ st.SysSettings.MaxShardsInFlight) ∨
        ∀ e ∈ PendingEntries (tx.Self.TableObjs p), ctx.Now < e.NextCondErase) ∧
      (st.SysSettings.MaxShardsInFlight = 0 → SchedulerInvariant (S.TableObjs p) →
        PartitionsIndexed (S.TableObjs p) →
        ∀ e ∈ (tx.Self.TableObjs p).Partitions, e.NextCondErase ≤ ctx.Now →
          e.ShardIdx ∈ (tx.Self.TableObjs p).InFlightCondErase) := by
  rw [RunDue_on_table S p ctx hflag]
  obtain ⟨tx, h⟩ := DoExecuteOnTable_total
    { Self := S, TableInfo := some p, RunOnTablets := [] } p ctx hok hmap
  have hrun := DoExecuteOnTable_RunTable _ _ _ _ h
  simp only at hrun
  obtain ⟨X, Y, hXY, hstop, -⟩ :=
    RunTable_spec (fun e => DispatchAttempt S e ctx) (S.TableObjs p) st hst
  have htab : tx.Self.TableObjs p = (S.TableObjs p).WithSched X Y := by
    rw [hrun, SetTable_TableObjs_same, hXY]
  have hcons := Stopped_not_due S ctx st.SysSettings.MaxShardsInFlight
    ((S.TableObjs p).WithSched X Y) hres hstop
  rw [← htab] at hcons
  refine ⟨tx, h, hcons, ?_⟩
  intro hzero hinv hidx e he hdue
  have hinv2 := DoExecuteOnTable_invariant _ tx p p ctx h hinv
  rcases hcons with hc | hc
  · exact absurd hzero hc.1
  · rcases ExactlyOne_membership _ hinv2.2 e he with h1 | h1
    · exact h1.1
    · exfalso
      have hpend := h1.2
      simp only [PendingShards, List.mem_filterMap, Option.map_eq_some'] at hpend
      obtain ⟨j, hj, f, hjf, hfs⟩ := hpend
      obtain ⟨k, hk⟩ := List.getElem?_of_mem he
      rw [htab, WithSched_Partitions] at hjf hk
      have e1 := hidx j f hjf
      have e2 := hidx k e hk
      rw [hfs, e2] at e1
      simp only [Option.some.injEq] at e1
      subst e1
      rw [hk] at hjf
      simp only [Option.some.injEq] at hjf
      subst hjf
      have := hc e (by
        simp only [PendingEntries, List.mem_filterMap]
        exact ⟨k, hj, by rw [htab, WithSched_Partitions]; exact hk⟩)
      exact absurd hdue (Nat.not_le.mpr this)

theorem Example.SchedulerInvariant_Unbounded :
    SchedulerInvariant (Example.Unbounded.TableObjs 0) :=
  ⟨Example.MappingConsistent_Table, Example.ExactlyOne_Table⟩

/-- Witness of C22 on `Example.Unbounded` at time 20: no cap, the three
    partitions are due and all three are in flight after the run. -/
theorem work_conservation_witness :
    ∃ tx, RunDue Example.Unbounded (some 0) Example.At20 = some tx ∧
      (((0 : Nat) ≠ 0 ∧ (tx.Self.TableObjs 0).InFlightCondErase.length ≥ 0) ∨
        ∀ e ∈ PendingEntries (tx.Self.TableObjs 0), Example.At20.Now < e.NextCondErase) ∧
      ∀ e ∈ (tx.Self.TableObjs 0).Partitions, e.NextCondErase ≤ Example.At20.Now →
        e.ShardIdx ∈ (tx.Self.TableObjs 0).InFlightCondErase :=
  let ⟨tx, h1, h2, h3⟩ := work_conservation Example.Unbounded 0 Example.At20
    { Example.Settings with
      SysSettings := { Example.Settings.SysSettings with MaxShardsInFlight := 0 } }
    rfl rfl (Example.IndexCatalogOk_Catalog _ _ _) Example.InFlightMapped_Idle
    (by decide)
  ⟨tx, h1, h2, h3 rfl Example.SchedulerInvariant_Unbounded Example.PartitionsIndexed_Table⟩


/-! ## What a reconciliation changes -/

theorem THashSet.length_erase_nodup {K : Type} [DecidableEq K] (s : THashSet K) (k : K)
    (hk : k ∈ s) (hnd : s.Nodup) : (THashSet.erase s k).length + 1 = s.length := by
  induction s with
  | nil => simp at hk
  | cons a rest ih =>
    have hnd2 := List.nodup_cons.1 hnd
    by_cases hak : a = k
    · subst hak
      have : THashSet.erase rest a = rest := by
        unfold THashSet.erase
        rw [List.filter_eq_self]
        intro x hx
        simp only [ne_eq, decide_not, Bool.not_eq_true', decide_eq_false_iff_not]
        rintro rfl
        exact hnd2.1 hx
      simp only [THashSet.erase, List.filter_cons, ne_eq, not_true_eq_false, decide_False,
        Bool.false_eq_true, if_false, List.length_cons]
      unfold THashSet.erase at this
      simp only [ne_eq] at this
      rw [this]
    · have hk2 : k ∈ rest := by
        rcases List.mem_cons.1 hk with h | h
        · exact absurd h.symm hak
        · exact h
      have := ih hk2 hnd2.2
      simp only [THashSet.erase, List.filter_cons, ne_eq, hak, not_false_eq_true, decide_True,
        if_true, List.length_cons] at this ⊢
      omega

/-- C23 (reconciliation frees exactly one slot). An accepted response (any
    status but `PARTIAL`) for the in-flight shard `s` of a table whose
    shard-to-partition map agrees with the partition list: after `Execute`, `s`
    is not in the in-flight set and is in the pending schedule, the in-flight
    set is the old one without `s` (one element fewer), every other table is
    untouched, and every other shard of the table keeps its partition entry
    (hence its next-eligible-time) and its in-flight / pending membership. -/
theorem reconciliation_frees_one_slot (S : TSchemeShard)
    (ev : TEvConditionalEraseRowsResponse) (ctx : TActorContext) (info : TShardInfo)
    (p : TTablePtr) (st : TTTLSettingsEnabled) (idx : Nat) (e : TTableShardInfo)
    (hflag : S.AllowConditionalEraseOperations = true)
    (hstatus : ev.Status ≠ EStatus.PARTIAL)
    (hinfo : THashMap.find S.ShardInfos (S.GetShardIdx ev.TabletID) = some info)
    (hp : THashMap.find S.TTLEnabledTables info.PathId = some p)
    (hst : (S.TableObjs p).TTLSettings = some st)
    (hin : S.GetShardIdx ev.TabletID ∈ (S.TableObjs p).InFlightCondErase)
    (hidx : THashMap.find (S.TableObjs p).Shard2PartitionIdx (S.GetShardIdx ev.TabletID) =
      some idx)
    (he : (S.TableObjs p).Partitions[idx]? = some e)
    (hmc : MappingConsistent (S.TableObjs p))
    (hnd : (S.TableObjs p).InFlightCondErase.Nodup) :
    ∃ tx, OnEraseResponse S ev ctx = some tx ∧
      S.GetShardIdx ev.TabletID ∉ (tx.Self.TableObjs p).InFlightCondErase ∧
      S.GetShardIdx ev.TabletID ∈ PendingShards (tx.Self.TableObjs p) ∧
      (tx.Self.TableObjs p).InFlightCondErase =
        THashSet.erase (S.TableObjs p).InFlightCondErase (S.GetShardIdx ev.TabletID) ∧
      (tx.Self.TableObjs p).InFlightCondErase.length + 1 =
        (S.TableObjs p).InFlightCondErase.length ∧
      (∀ q, q ≠ p → tx.Self.TableObjs q = S.TableObjs q) ∧
      ∀ s2, s2 ≠ S.GetShardIdx ev.TabletID →
        (tx.Self.TableObjs p).PartitionOf s2 = (S.TableObjs p).PartitionOf s2 ∧
        (s2 ∈ (tx.Self.TableObjs p).InFlightCondErase ↔
          s2 ∈ (S.TableObjs p).InFlightCondErase) ∧
        (s2 ∈ PendingShards (tx.Self.TableObjs p) ↔ s2 ∈ PendingShards (S.TableObjs p)) := by
  obtain ⟨next, hnext⟩ := SwitchStatus_some st.SysSettings ev.Status hstatus
  obtain ⟨tx, a1, -, a3, -⟩ := Execute_accept
    (CreateTxScheduleConditionalErase S ev) ctx info p st next idx e hflag hinfo hp hst hin hnext
    hidx he
  simp only [CreateTxScheduleConditionalErase] at a3
  rw [ScheduleNextCondErase_eq _ _ _ _ _ _ hidx he] at a3
  have hshard : e.ShardIdx = S.GetShardIdx ev.TabletID := hmc _ idx e hidx he
  have hlt : idx < (S.TableObjs p).Partitions.length := by
    rcases List.getElem?_eq_some.1 he with ⟨hl, -⟩
    exact hl
  have hpend : PendingShards (tx.Self.TableObjs p) =
      PendingShards (S.TableObjs p) ++ [S.GetShardIdx ev.TabletID] := by
    rw [a3, Function.update_same]
    simp only [PendingShards_eq]
    have hset := ShardsAt_set (S.TableObjs p).Partitions idx e
      { e with NextCondErase := ctx.Now + next
               LastCondEraseLag := some (ctx.Now - e.NextCondErase) } he rfl
      ((S.TableObjs p).CondEraseSchedule ++ [idx])
    rw [hset, ShardsAt_append]
    simp [ShardsAt, he, hshard]
  refine ⟨tx, a1, ?_, ?_, ?_, ?_, ?_, ?_⟩
  · rw [a3, Function.update_same]
    simp [THashSet.mem_erase]
  · rw [hpend]
    simp
  · rw [a3, Function.update_same]
  · rw [a3, Function.update_same]
    exact THashSet.length_erase_nodup _ _ hin hnd
  · intro q hq
    rw [a3, Function.update_noteq hq]
  · intro s2 hs2
    refine ⟨?_, ?_, ?_⟩
    · rw [a3, Function.update_same]
      simp only [TTableInfo.PartitionOf]
      cases hfind : THashMap.find (S.TableObjs p).Shard2PartitionIdx s2 with
      | none => rfl
      | some j =>
        simp only [Option.some_bind]
        by_cases hj : j = idx
        · subst hj
          exact absurd ((hmc s2 j e hfind he).symm.trans hshard) hs2
        · exact List.getElem?_set_ne (Ne.symm hj)
    · rw [a3, Function.update_same]
      simp [THashSet.mem_erase, hs2]
    · rw [hpend]
      simp [hs2]

/-- Witness of C23 on `Example.Busy`: the `OK` response of tablet 101 at time
    30 frees the slot of shard 1 and leaves shard 2 in flight. -/
theorem reconciliation_frees_one_slot_witness :
    ∃ tx, OnEraseResponse Example.Busy (Example.Response EStatus.OK) Example.At30 = some tx ∧
      Example.Busy.GetShardIdx (Example.Response EStatus.OK).TabletID ∉
        (tx.Self.TableObjs 0).InFlightCondErase ∧
      Example.Busy.GetShardIdx (Example.Response EStatus.OK).TabletID ∈
        PendingShards (tx.Self.TableObjs 0) ∧
      (tx.Self.TableObjs 0).InFlightCondErase =
        THashSet.erase (Example.Busy.TableObjs 0).InFlightCondErase
          (Example.Busy.GetShardIdx (Example.Response EStatus.OK).TabletID) ∧
      (tx.Self.TableObjs 0).InFlightCondErase.length + 1 =
        (Example.Busy.TableObjs 0).InFlightCondErase.length ∧
      (∀ q, q ≠ 0 → tx.Self.TableObjs q = Example.Busy.TableObjs q) ∧
      ∀ s2, s2 ≠ Example.Busy.GetShardIdx (Example.Response EStatus.OK).TabletID →
        (tx.Self.TableObjs 0).PartitionOf s2 = (Example.Busy.TableObjs 0).PartitionOf s2 ∧
        (s2 ∈ (tx.Self.TableObjs 0).InFlightCondErase ↔
          s2 ∈ (Example.Busy.TableObjs 0).InFlightCondErase) ∧
        (s2 ∈ PendingShards (tx.Self.TableObjs 0) ↔
          s2 ∈ PendingShards (Example.Busy.TableObjs 0)) :=
  reconciliation_frees_one_slot Example.Busy (Example.Response EStatus.OK) Example.At30
    { TabletID := 101, PathId := Example.TablePath } 0 Example.Settings 0
    { ShardIdx := Example.Shard1, NextCondErase := 10, LastCondEraseLag := some 0 }
    rfl (by decide) rfl rfl rfl (by decide) rfl rfl Example.MappingConsistent_Table (by decide)


/-! ## The run that a reconciliation launches -/

theorem SwitchStatus_PARTIAL (sysSettings : TSysSettings) (status : EStatus) (next : TDuration)
    (h : TTxScheduleConditionalErase.SwitchStatus sysSettings status = some next) :
    status ≠ EStatus.PARTIAL := by
  rintro rfl
  simp [TTxScheduleConditionalErase.SwitchStatus] at h

/-- When the response is accepted for `p` and `Execute` returns, it has set
    `TableInfo` to `p`. -/
theorem Execute_accepted (S : TSchemeShard) (ev : TEvConditionalEraseRowsResponse)
    (ctx : TActorContext) (tx : TTxScheduleConditionalErase) (p : TTablePtr)
    (hacc : Accepted S ev p) (h : OnEraseResponse S ev ctx = some tx) :
    tx.TableInfo = some p := by
  obtain ⟨hflag, info, hinfo, hp, hen, hin, hstatus⟩ := hacc
  cases hst : (S.TableObjs p).TTLSettings with
  | none => simp [TTableInfo.IsTTLEnabled, hst] at hen
  | some st =>
    obtain ⟨next, hnext⟩ := SwitchStatus_some st.SysSettings ev.Status hstatus
    unfold OnEraseResponse at h
    rcases Execute_cases _ _ _ h with rfl | ⟨info2, p2, st2, next2, idx, e, c1, c2, c3, c4, c5,
      c6, c7, c8⟩
    · exfalso
      unfold TTxScheduleConditionalErase.Execute at h
      simp only [CreateTxScheduleConditionalErase, hflag, Bool.not_true, Bool.false_eq_true,
        if_false, hinfo, hp, TTableInfo.IsTTLEnabled, hst, Option.isSome_some,
        TTableInfo.GetInFlightCondErase, THashSet.contains, hin, decide_True,
        TTableInfo.GetEnabled, Option.getD_some, hnext, TTableInfo.GetShard2PartitionIdx,
        TTableInfo.GetPartitions] at h
      split at h
      · simp at h
      · split at h
        · simp at h
        · split at h
          · simp at h
          · simp only [Option.some.injEq] at h
            have := congrArg TTxScheduleConditionalErase.TableInfo h
            simp at this
    · obtain ⟨tx2, a1, a2, -⟩ := Execute_accept _ ctx info2 p2 st2 next2 idx e
        c1 c2 c3 c4 c5 c6 c7 c8
      rw [h] at a1
      simp only [Option.some.injEq] at a1
      subst a1
      simp only [CreateTxScheduleConditionalErase] at c2 c3
      rw [hinfo] at c2
      simp only [Option.some.injEq] at c2
      subst c2
      rw [hp] at c3
      simp only [Option.some.injEq] at c3
      subst c3
      exact a2

/-- C24 (reconciliation re-invokes the dispatcher). Whenever `Execute` has
    returned, `Complete` launches a run of the dispatcher restricted to the
    table `p` exactly when the response was accepted for `p` (flag on, shard
    resolved to a TTL-enabled table `p`, shard in flight, status not
    `PARTIAL`); it launches a run for one table at most, and none when the
    response was accepted for no table. -/
theorem reconciliation_reinvokes_dispatcher (S : TSchemeShard)
    (ev : TEvConditionalEraseRowsResponse) (ctx : TActorContext)
    (tx : TTxScheduleConditionalErase) (h : OnEraseResponse S ev ctx = some tx) :
    (∀ p, (TTxScheduleConditionalErase.Complete tx).RunConditionalErase = some p ↔
      Accepted S ev p) ∧
    ((∀ p, ¬ Accepted S ev p) →
      (TTxScheduleConditionalErase.Complete tx).RunConditionalErase = none) := by
  have key : ∀ p, (TTxScheduleConditionalErase.Complete tx).RunConditionalErase = some p ↔
      Accepted S ev p := by
    intro p
    constructor
    · intro hrun
      simp only [TTxScheduleConditionalErase.Complete] at hrun
      have h0 := h
      unfold OnEraseResponse at h0
      rcases Execute_cases _ _ _ h0 with rfl | ⟨info, p2, st, next, idx, e, c1, c2, c3, c4, c5,
        c6, c7, c8⟩
      · simp [CreateTxScheduleConditionalErase] at hrun
      · obtain ⟨tx2, a1, a2, -⟩ := Execute_accept _ ctx info p2 st next idx e
          c1 c2 c3 c4 c5 c6 c7 c8
        rw [h0] at a1
        simp only [Option.some.injEq] at a1
        subst a1
        rw [a2] at hrun
        simp only [Option.some.injEq] at hrun
        subst hrun
        simp only [CreateTxScheduleConditionalErase] at c1 c2 c3 c4 c5 c6
        exact ⟨c1, info, c2, c3, by simp [TTableInfo.IsTTLEnabled, c4], c5,
          SwitchStatus_PARTIAL _ _ _ c6⟩
    · intro hacc
      simp only [TTxScheduleConditionalErase.Complete]
      exact Execute_accepted S ev ctx tx p hacc h
  refine ⟨key, fun hnone => ?_⟩
  cases hrun : (TTxScheduleConditionalErase.Complete tx).RunConditionalErase with
  | none => rfl
  | some p => exact absurd ((key p).1 hrun) (hnone p)

/-- Witness of C24: the `OK` response of tablet 101 at time 30 after the run
    on `Example.Idle`; `Complete` launches a run on table 0. -/
theorem reconciliation_reinvokes_dispatcher_witness :
    (TTxScheduleConditionalErase.Complete Example.Reconciled).RunConditionalErase = some 0 ∧
    (∀ p, (TTxScheduleConditionalErase.Complete Example.Reconciled).RunConditionalErase =
        some p ↔ Accepted Example.IdleRun.Self (Example.Response EStatus.OK) p) ∧
    ((∀ p, ¬ Accepted Example.IdleRun.Self (Example.Response EStatus.OK) p) →
      (TTxScheduleConditionalErase.Complete Example.Reconciled).RunConditionalErase = none) :=
  ⟨rfl, reconciliation_reinvokes_dispatcher Example.IdleRun.Self
    (Example.Response EStatus.OK) Example.At30 Example.Reconciled rfl⟩


/-! ## The lag histogram -/

theorem Execute_accept_lag (tx : TTxScheduleConditionalErase) (ctx : TActorContext)
    (info : TShardInfo) (p : TTablePtr) (st : TTTLSettingsEnabled) (next : TDuration)
    (idx : Nat) (e : TTableShardInfo) (lag : TDuration)
    (hflag : tx.Self.AllowConditionalEraseOperations = true)
    (hinfo : THashMap.find tx.Self.ShardInfos (tx.Self.GetShardIdx tx.Ev.TabletID) = some info)
    (hp : THashMap.find tx.Self.TTLEnabledTables info.PathId = some p)
    (hst : (tx.Self.TableObjs p).TTLSettings = some st)
    (hin : tx.Self.GetShardIdx tx.Ev.TabletID ∈ (tx.Self.TableObjs p).InFlightCondErase)
    (hnext : TTxScheduleConditionalErase.SwitchStatus st.SysSettings tx.Ev.Status = some next)
    (hidx : THashMap.find (tx.Self.TableObjs p).Shard2PartitionIdx
      (tx.Self.GetShardIdx tx.Ev.TabletID) = some idx)
    (he : (tx.Self.TableObjs p).Partitions[idx]? = some e)
    (hlag : e.LastCondEraseLag = some lag) :
    ∃ tx1, TTxScheduleConditionalErase.Execute tx ctx = some tx1 ∧
      tx1.Self.LagCounter =
        Function.update
          (Function.update tx.Self.LagCounter (TDurationSeconds lag)
            (tx.Self.LagCounter (TDurationSeconds lag) + -1))
          (TDurationSeconds (ctx.Now - e.NextCondErase))
          (Function.update tx.Self.LagCounter (TDurationSeconds lag)
            (tx.Self.LagCounter (TDurationSeconds lag) + -1)
            (TDurationSeconds (ctx.Now - e.NextCondErase)) + 1) := by
  have hlt : idx < (tx.Self.TableObjs p).Partitions.length := by
    rcases List.getElem?_eq_some.1 he with ⟨h, -⟩
    exact h
  unfold TTxScheduleConditionalErase.Execute
  simp only [hflag, Bool.not_true, Bool.false_eq_true, if_false, hinfo, hp,
    TTableInfo.IsTTLEnabled, hst, Option.isSome_some, TTableInfo.GetInFlightCondErase,
    THashSet.contains, hin, decide_True, TTableInfo.GetEnabled, Option.getD_some, hnext,
    TTableInfo.GetShard2PartitionIdx, hidx, TTableInfo.GetPartitions, he]
  simp [hlag, TSchemeShard.PersistTablePartitionCondErase, TSchemeShard.AddToLagCounter,
    TSchemeShard.SetTable, ScheduleNextCondErase_eq _ _ _ _ _ _ hidx he, hlt]

theorem sum_indicator (B : Finset Nat) (x : Nat) (hx : x ∈ B) :
    B.sum (fun k => if k = x then (1 : Int) else 0) = 1 := by
  rw [Finset.sum_ite_eq' B x (fun _ => (1 : Int))]
  simp [hx]

/-- C28 (lag histogram bookkeeping). An accepted response (any status but
    `PARTIAL`) for a partition whose prior lag is defined: `OnEraseResponse`
    returns; the partition is re-armed at `now + next` and its lag becomes the
    time from its old next-eligible-time to `now`; the histogram is the old one
    decremented by one at the bucket (whole seconds) of the prior lag and then
    incremented by one at the bucket of the new lag, each once. When the two
    buckets differ the first holds one shard fewer and the second one more, all
    other buckets are unchanged, and over any set of buckets that holds both
    the number of shards counted is unchanged. -/
theorem lag_histogram_bookkeeping (S : TSchemeShard) (ev : TEvConditionalEraseRowsResponse)
    (ctx : TActorContext) (info : TShardInfo) (p : TTablePtr) (st : TTTLSettingsEnabled)
    (idx : Nat) (e : TTableShardInfo) (lag : TDuration)
    (hflag : S.AllowConditionalEraseOperations = true)
    (hstatus : ev.Status ≠ EStatus.PARTIAL)
    (hinfo : THashMap.find S.ShardInfos (S.GetShardIdx ev.TabletID) = some info)
    (hp : THashMap.find S.TTLEnabledTables info.PathId = some p)
    (hst : (S.TableObjs p).TTLSettings = some st)
    (hin : S.GetShardIdx ev.TabletID ∈ (S.TableObjs p).InFlightCondErase)
    (hidx : THashMap.find (S.TableObjs p).Shard2PartitionIdx (S.GetShardIdx ev.TabletID) =
      some idx)
    (he : (S.TableObjs p).Partitions[idx]? = some e)
    (hlag : e.LastCondEraseLag = some lag) :
    ∃ tx next,
      TTxScheduleConditionalErase.SwitchStatus st.SysSettings ev.Status = some next ∧
      OnEraseResponse S ev ctx = some tx ∧
      (tx.Self.TableObjs p).Partitions[idx]? =
        some { e with NextCondErase := ctx.Now + next
                      LastCondEraseLag := some (ctx.Now - e.NextCondErase) } ∧
      tx.Self.LagCounter =
        ((S.AddToLagCounter (TDurationSeconds lag) (-1)).AddToLagCounter
          (TDurationSeconds (ctx.Now - e.NextCondErase)) 1).LagCounter ∧
      (∀ k, tx.Self.LagCounter k =
        S.LagCounter k - (if k = TDurationSeconds lag then 1 else 0) +
          (if k = TDurationSeconds (ctx.Now - e.NextCondErase) then 1 else 0)) ∧
      (TDurationSeconds lag ≠ TDurationSeconds (ctx.Now - e.NextCondErase) →
        tx.Self.LagCounter (TDurationSeconds lag) = S.LagCounter (TDurationSeconds lag) - 1 ∧
        tx.Self.LagCounter (TDurationSeconds (ctx.Now - e.NextCondErase)) =
          S.LagCounter (TDurationSeconds (ctx.Now - e.NextCondErase)) + 1) ∧
      (∀ B : Finset Nat, TDurationSeconds lag ∈ B →
        TDurationSeconds (ctx.Now - e.NextCondErase) ∈ B →
          B.sum tx.Self.LagCounter = B.sum S.LagCounter) := by
  obtain ⟨next, hnext⟩ := SwitchStatus_some st.SysSettings ev.Status hstatus
  obtain ⟨tx, a1, -, a3, -⟩ := Execute_accept
    (CreateTxScheduleConditionalErase S ev) ctx info p st next idx e hflag hinfo hp hst hin hnext
    hidx he
  obtain ⟨tx2, b1, b2⟩ := Execute_accept_lag
    (CreateTxScheduleConditionalErase S ev) ctx info p st next idx e lag hflag hinfo hp hst hin
    hnext hidx he hlag
  rw [a1] at b1
  simp only [Option.some.injEq] at b1
  subst b1
  simp only [CreateTxScheduleConditionalErase] at a3 b2
  have hlt : idx < (S.TableObjs p).Partitions.length := by
    rcases List.getElem?_eq_some.1 he with ⟨h, -⟩
    exact h
  have hpoint : ∀ k, tx.Self.LagCounter k =
      S.LagCounter k - (if k = TDurationSeconds lag then 1 else 0) +
        (if k = TDurationSeconds (ctx.Now - e.NextCondErase) then 1 else 0) := by
    intro k
    rw [b2]
    simp only [Function.update_apply]
    split_ifs <;> first | (simp_all; done) | (simp_all; omega)
  refine ⟨tx, next, hnext, a1, ?_, ?_, hpoint, ?_, ?_⟩
  · rw [a3, Function.update_same, ScheduleNextCondErase_eq _ _ _ _ _ _ hidx he]
    simp [hlt]
  · rw [b2]
    rfl
  · intro hne
    constructor
    · rw [hpoint, if_pos rfl, if_neg hne]
      omega
    · rw [hpoint, if_neg (Ne.symm hne), if_pos rfl]
      omega
  · intro B h1 h2
    have : B.sum tx.Self.LagCounter = B.sum (fun k =>
        S.LagCounter k - (if k = TDurationSeconds lag then 1 else 0) +
          (if k = TDurationSeconds (ctx.Now - e.NextCondErase) then 1 else 0)) :=
      Finset.sum_congr rfl (fun k _ => hpoint k)
    rw [this, Finset.sum_add_distrib, Finset.sum_sub_distrib, sum_indicator B _ h1,
      sum_indicator B _ h2]
    exact sub_add_cancel _ _

/-- Witness of C28 on `Example.BusyCounted`: the `OK` response of tablet 101
    at one minute, prior lag 0; bucket 0 goes from three shards to two and
    bucket 59 from none to one. -/
theorem lag_histogram_bookkeeping_witness :
    Example.BusyCounted.LagCounter 0 = 3 ∧ Example.BusyCounted.LagCounter 59 = 0 ∧
    ∃ tx,
      OnEraseResponse Example.BusyCounted (Example.Response EStatus.OK) Example.At60s =
        some tx ∧
      (tx.Self.TableObjs 0).Partitions[0]? =
        some { ShardIdx := Example.Shard1, NextCondErase := 60000100,
               LastCondEraseLag := some 59999990 } ∧
      tx.Self.LagCounter 0 = 2 ∧ tx.Self.LagCounter 59 = 1 ∧
      (∀ k, k ≠ 0 → k ≠ 59 → tx.Self.LagCounter k = Example.BusyCounted.LagCounter k) ∧
      ({0, 59} : Finset Nat).sum tx.Self.LagCounter =
        ({0, 59} : Finset Nat).sum Example.BusyCounted.LagCounter := by
  obtain ⟨tx, next, hn, h1, h2, -, hpoint, hdiff, hsum⟩ :=
    lag_histogram_bookkeeping Example.BusyCounted (Example.Response EStatus.OK) Example.At60s
      { TabletID := 101, PathId := Example.TablePath } 0 Example.Settings 0
      { ShardIdx := Example.Shard1, NextCondErase := 10, LastCondEraseLag := some 0 } 0
      rfl (by decide) rfl rfl rfl (by decide) rfl rfl rfl
  have hnext : next = 100 := (Option.some.inj hn).symm
  subst hnext
  have hb0 : TDurationSeconds 0 = 0 := rfl
  have hb59 : TDurationSeconds (Example.At60s.Now - 10) = 59 := by decide
  simp only [hb0, hb59] at hpoint hdiff hsum
  obtain ⟨d1, d2⟩ := hdiff (by decide)
  refine ⟨rfl, rfl, tx, h1, h2, d1, d2, fun k k0 k59 => ?_, hsum {0, 59} (by decide) (by decide)⟩
  rw [hpoint k, if_neg k0, if_neg k59]
  omega


/-! ## Where the requests of a batch come from -/

theorem DoExecuteOnShard_origin (tx tx1 : TTxRunConditionalErase) (p : TTablePtr)
    (e : TTableShardInfo) (ctx : TActorContext) (b : Bool)
    (h : DoExecuteOnShard tx p e ctx = some (b, tx1)) (k : TTabletId)
    (hk : THashMap.contains tx1.RunOnTablets k = true) :
    THashMap.contains tx.RunOnTablets k = true ∨
      (b = true ∧ ∃ info, THashMap.find tx.Self.ShardInfos e.ShardIdx = some info ∧
        info.TabletID = k) := by
  obtain ⟨-, -, -, d4, d5⟩ := DoExecuteOnShard_spec _ _ _ _ _ _ h
  cases b with
  | false =>
    rw [d4 rfl] at hk
    exact Or.inl hk
  | true =>
    obtain ⟨info, req, hinfo, hbatch⟩ := d5 rfl
    rw [hbatch, THashMap.contains_emplace] at hk
    simp only [Bool.or_eq_true, decide_eq_true_eq] at hk
    rcases hk with hk | hk
    · exact Or.inl hk
    · exact Or.inr ⟨rfl, info, hinfo, hk⟩

theorem InFlightLoop_origin (p : TTablePtr) (ctx : TActorContext) (l : List TShardIdx)
    (tx tx1 : TTxRunConditionalErase) (r r1 : THashSet TShardIdx)
    (h : InFlightLoop p ctx l tx r = some (tx1, r1)) (k : TTabletId)
    (hk : THashMap.contains tx1.RunOnTablets k = true) :
    THashMap.contains tx.RunOnTablets k = true ∨
      ∃ s ∈ l, ∃ (e : TTableShardInfo) (info : TShardInfo),
        (tx.Self.TableObjs p).PartitionOf s = some e ∧
        DispatchAttempt tx.Self e ctx = true ∧
        THashMap.find tx.Self.ShardInfos e.ShardIdx = some info ∧ info.TabletID = k := by
  induction l generalizing tx r with
  | nil =>
    simp [InFlightLoop] at h
    rw [h.1]
    exact Or.inl hk
  | cons s0 rest ih =>
    unfold InFlightLoop at h
    split at h
    · simp at h
    · rename_i i hi
      split at h
      · simp at h
      · rename_i e0 he
        have hpo : (tx.Self.TableObjs p).PartitionOf s0 = some e0 := PartitionOf_eq _ _ _ _ hi he
        have key : ∀ (b : Bool) (tx2 : TTxRunConditionalErase) (r2 : THashSet TShardIdx),
            DoExecuteOnShard tx p e0 ctx = some (b, tx2) →
            InFlightLoop p ctx rest tx2 r2 = some (tx1, r1) →
            THashMap.contains tx.RunOnTablets k = true ∨
              ∃ s ∈ s0 :: rest, ∃ (e : TTableShardInfo) (info : TShardInfo),
                (tx.Self.TableObjs p).PartitionOf s = some e ∧
                DispatchAttempt tx.Self e ctx = true ∧
                THashMap.find tx.Self.ShardInfos e.ShardIdx = some info ∧
                info.TabletID = k := by
          intro b tx2 r2 hd hrest
          obtain ⟨d1, -, d3, -, -⟩ := DoExecuteOnShard_spec _ _ _ _ _ _ hd
          rcases ih tx2 r2 hrest with h1 | ⟨s, hs, e, info, g1, g2, g3, g4⟩
          · rcases DoExecuteOnShard_origin _ _ _ _ _ _ hd k h1 with h2 | ⟨hb, info, g3, g4⟩
            · exact Or.inl h2
            · refine Or.inr ⟨s0, List.mem_cons_self _ _, e0, info, hpo, ?_, g3, g4⟩
              rw [← d3]
              exact hb
          · rw [d1] at g1 g2 g3
            exact Or.inr ⟨s, List.mem_cons_of_mem _ hs, e, info, g1, g2, g3, g4⟩
        split at h
        · simp at h
        · rename_i tx2 hd
          exact key _ _ _ hd h
        · rename_i tx2 hd
          exact key _ _ _ hd h

theorem DispatchLoop_mono (p : TTablePtr) (ctx : TActorContext) (m fuel : Nat)
    (tx tx1 : TTxRunConditionalErase) (h : DispatchLoop p ctx m fuel tx = some tx1)
    (s : TShardIdx) (hs : s ∈ (tx.Self.TableObjs p).InFlightCondErase) :
    s ∈ (tx1.Self.TableObjs p).InFlightCondErase := by
  obtain ⟨D, d1, -⟩ := DispatchLoop_spec _ _ _ _ _ _ h
  rw [d1, SetTable_TableObjs_same, WithSched_InFlightCondErase, THashSet.mem_foldl_insert]
  exact Or.inl hs

theorem DispatchLoop_origin (p : TTablePtr) (ctx : TActorContext) (m fuel : Nat)
    (tx tx1 : TTxRunConditionalErase) (h : DispatchLoop p ctx m fuel tx = some tx1)
    (k : TTabletId) (hk : THashMap.contains tx1.RunOnTablets k = true) :
    THashMap.contains tx.RunOnTablets k = true ∨
      ∃ (i : Nat) (e : TTableShardInfo) (info : TShardInfo),
        (tx.Self.TableObjs p).Partitions[i]? = some e ∧
        e.ShardIdx ∈ (tx1.Self.TableObjs p).InFlightCondErase ∧
        THashMap.find tx.Self.ShardInfos e.ShardIdx = some info ∧ info.TabletID = k := by
  induction fuel generalizing tx with
  | zero => simp [DispatchLoop] at h
  | succ fuel ih =>
    have h0 := h
    unfold DispatchLoop at h
    split at h
    · simp at h
      subst h
      exact Or.inl hk
    · split at h
      · simp at h
        subst h
        exact Or.inl hk
      · rename_i e hsome
        obtain ⟨i, htop⟩ := GetScheduledCondEraseShard_some _ _ hsome
        obtain ⟨-, he, -⟩ := ScheduleTop_some _ _ _ _ htop
        split at h
        · simp at h
        · rename_i tx2 hd
          simp at h
          subst h
          obtain ⟨-, -, -, d4, -⟩ := DoExecuteOnShard_spec _ _ _ _ _ _ hd
          rw [d4 rfl] at hk
          exact Or.inl hk
        · rename_i tx2 hd
          obtain ⟨d1, -⟩ := DoExecuteOnShard_spec _ _ _ _ _ _ hd
          have hin : e.ShardIdx ∈ (tx1.Self.TableObjs p).InFlightCondErase := by
            apply DispatchLoop_mono _ _ _ _ _ _ h
            simp only [d1, SetTable_TableObjs_same, AddInFlightCondErase_eq _ i e htop,
              WithSched_InFlightCondErase, THashSet.mem_insert, or_true]
          rcases ih _ h with h1 | ⟨j, f, info, g1, g2, g3, g4⟩
          · rcases DoExecuteOnShard_origin _ _ _ _ _ _ hd k h1 with h2 | ⟨-, info, g3, g4⟩
            · exact Or.inl h2
            · exact Or.inr ⟨i, e, info, he, hin, g3, g4⟩
          · simp only [d1, SetTable_TableObjs_same, AddInFlightCondErase_eq _ i e htop,
              WithSched_Partitions, SetTable_ShardInfos] at g1 g3
            exact Or.inr ⟨j, f, info, g1, g2, g3, g4⟩

/-- Every request that a run on a table adds to the batch is addressed to the
    tablet of the shard of a partition of the table, and that partition is the
    partition of a shard left in flight or has its own shard left in flight. -/
theorem DoExecuteOnTable_origin (tx tx3 : TTxRunConditionalErase) (p : TTablePtr)
    (ctx : TActorContext) (h : DoExecuteOnTable tx p ctx = some tx3) (k : TTabletId)
    (hk : THashMap.contains tx3.RunOnTablets k = true) :
    THashMap.contains tx.RunOnTablets k = true ∨
      ∃ (s : TShardIdx) (e : TTableShardInfo) (info : TShardInfo),
        s ∈ (tx3.Self.TableObjs p).InFlightCondErase ∧
        e ∈ (tx.Self.TableObjs p).Partitions ∧
        (e.ShardIdx = s ∨ (tx.Self.TableObjs p).PartitionOf s = some e) ∧
        THashMap.find tx.Self.ShardInfos e.ShardIdx = some info ∧ info.TabletID = k := by
  cases hst : (tx.Self.TableObjs p).TTLSettings with
  | none =>
    rw [DoExecuteOnTable_disabled tx p ctx hst] at h
    simp at h
    subst h
    exact Or.inl hk
  | some st =>
    obtain ⟨txa, R, hl, hd⟩ := DoExecuteOnTable_enabled tx tx3 p ctx st hst h
    obtain ⟨l1, -, l3, -, -⟩ := InFlightLoop_spec _ _ _ _ _ _ _ hl
    rcases DispatchLoop_origin _ _ _ _ _ _ hd k hk with h1 | ⟨i, e, info, g1, g2, g3, g4⟩
    · rw [RescheduleLoop_eq] at h1
      simp only at h1
      rcases InFlightLoop_origin _ _ _ _ _ _ _ hl k h1 with h2 | ⟨s, hs, e, info, g1, g2, g3, g4⟩
      · exact Or.inl h2
      · right
        refine ⟨s, e, info, ?_, ?_, Or.inr g1, g3, g4⟩
        · apply DispatchLoop_mono _ _ _ _ _ _ hd
          rw [RescheduleLoop_eq]
          simp only [SetTable_TableObjs_same, WithSched_InFlightCondErase, List.mem_filter,
            l1, decide_eq_true_eq]
          refine ⟨hs, fun hR => ?_⟩
          rcases (l3 s).1 hR with hnil | ⟨-, e2, he2, hfail⟩
          · simp at hnil
          · rw [g1] at he2
            simp only [Option.some.injEq] at he2
            subst he2
            rw [g2] at hfail
            simp at hfail
        · simp only [TTableInfo.PartitionOf] at g1
          cases hfind : THashMap.find (tx.Self.TableObjs p).Shard2PartitionIdx s with
          | none => simp [hfind] at g1
          | some j =>
            simp only [hfind, Option.some_bind] at g1
            exact mem_of_getElem?_eq_some _ _ _ g1
    · rw [RescheduleLoop_eq] at g1 g3
      simp only [SetTable_TableObjs_same, WithSched_Partitions, SetTable_ShardInfos, l1] at g1 g3
      exact Or.inr ⟨e.ShardIdx, e, info, g2, mem_of_getElem?_eq_some _ _ _ g1, Or.inl rfl,
        g3, g4⟩


/-- C29 (the in-flight set matches the outgoing batch). After `RunDue` on a
    TTL-enabled table (flag on, the batch starting empty, the run returning),
    the shard-to-partition map agreeing with the partition list and distinct
    shards having distinct tablets: every shard of the in-flight set has a
    request addressed to its tablet, every shard with a request addressed to its
    tablet is in the in-flight set, and the tablets of the batch are exactly the
    tablets of the in-flight shards. -/
theorem in_flight_matches_batch (S : TSchemeShard) (p : TTablePtr) (ctx : TActorContext)
    (st : TTTLSettingsEnabled) (tx : TTxRunConditionalErase)
    (hflag : S.AllowConditionalEraseOperations = true)
    (hst : (S.TableObjs p).TTLSettings = some st)
    (hmc : MappingConsistent (S.TableObjs p))
    (hdist : ∀ (s1 s2 : TShardIdx) (info1 info2 : TShardInfo),
      THashMap.find S.ShardInfos s1 = some info1 → THashMap.find S.ShardInfos s2 = some info2 →
        info1.TabletID = info2.TabletID → s1 = s2)
    (h : RunDue S (some p) ctx = some tx) :
    (∀ s ∈ (tx.Self.TableObjs p).InFlightCondErase,
      AddressedTo S tx.RunOnTablets s = true) ∧
    (∀ s, AddressedTo S tx.RunOnTablets s = true →
      s ∈ (tx.Self.TableObjs p).InFlightCondErase) ∧
    (∀ k, THashMap.contains tx.RunOnTablets k = true ↔
      ∃ s ∈ (tx.Self.TableObjs p).InFlightCondErase, ∃ info,
        THashMap.find S.ShardInfos s = some info ∧ info.TabletID = k) := by
  rw [RunDue_on_table S p ctx hflag] at h
  have hshard : ∀ s e, (S.TableObjs p).PartitionOf s = some e → e.ShardIdx = s := by
    intro s e hpo
    simp only [TTableInfo.PartitionOf] at hpo
    cases hfind : THashMap.find (S.TableObjs p).Shard2PartitionIdx s with
    | none => simp [hfind] at hpo
    | some j =>
      simp only [hfind, Option.some_bind] at hpo
      exact hmc s j e hfind hpo
  have hfwd : ∀ s ∈ (tx.Self.TableObjs p).InFlightCondErase,
      ∃ info, THashMap.find S.ShardInfos s = some info ∧
        THashMap.contains tx.RunOnTablets info.TabletID = true := by
    intro s hs
    obtain ⟨txa, R, hl, hd⟩ := DoExecuteOnTable_enabled _ tx p ctx st hst h
    obtain ⟨l1, -, l3, -, l5, -, l7⟩ := InFlightLoop_spec _ _ _ _ _ _ _ hl
    obtain ⟨D, d1, -, -, -, -, -, -, d8, d9, -⟩ := DispatchLoop_spec _ _ _ _ _ _ hd
    rw [RescheduleLoop_eq] at d1 d8 d9
    simp only [l1, SetTable_TableObjs_same, SetTable_SetTable, WithSched_WithSched,
      WithSched_InFlightCondErase, SetTable_ShardInfos, BatchGrows_SetTable] at d1 d8 d9 l3 l5 l7
    rw [d1, SetTable_TableObjs_same, WithSched_InFlightCondErase,
      THashSet.mem_foldl_insert] at hs
    rcases hs with hs | hs
    · simp only [List.mem_filter, decide_eq_true_eq] at hs
      obtain ⟨e, hpo⟩ := l5 s hs.1
      have hatt : DispatchAttempt S e ctx = true := by
        cases hb : DispatchAttempt S e ctx with
        | true => rfl
        | false => exact absurd ((l3 s).2 (Or.inr ⟨hs.1, e, hpo, hb⟩)) hs.2
      obtain ⟨info, g1, g2⟩ := l7 s hs.1 e hpo hatt
      rw [hshard s e hpo] at g1
      exact ⟨info, g1, d8.1 _ g2⟩
    · simp only [List.mem_map] at hs
      obtain ⟨d, hdD, hds⟩ := hs
      obtain ⟨info, g1, g2⟩ := d9 d hdD
      rw [hds] at g1
      exact ⟨info, g1, g2⟩
  have hback : ∀ k, THashMap.contains tx.RunOnTablets k = true →
      ∃ s ∈ (tx.Self.TableObjs p).InFlightCondErase, ∃ info,
        THashMap.find S.ShardInfos s = some info ∧ info.TabletID = k := by
    intro k hk
    rcases DoExecuteOnTable_origin _ _ _ _ h k hk with h1 | ⟨s, e, info, g1, -, g3, g4, g5⟩
    · simp [THashMap.contains, THashMap.find] at h1
    · have : e.ShardIdx = s := by
        rcases g3 with g3 | g3
        · exact g3
        · exact hshard s e g3
      rw [this] at g4
      exact ⟨s, g1, info, g4, g5⟩
  refine ⟨?_, ?_, fun k => ⟨hback k, ?_⟩⟩
  · intro s hs
    obtain ⟨info, g1, g2⟩ := hfwd s hs
    simp [AddressedTo, g1, g2]
  · intro s hs
    unfold AddressedTo at hs
    cases hfind : THashMap.find S.ShardInfos s with
    | none => simp [hfind] at hs
    | some info =>
      simp only [hfind] at hs
      obtain ⟨s2, hs2, info2, g1, g2⟩ := hback _ hs
      rw [hdist s s2 info info2 hfind g1 g2.symm]
      exact hs2
  · rintro ⟨s, hs, info, g1, rfl⟩
    obtain ⟨info2, g2, g3⟩ := hfwd s hs
    rw [g1] at g2
    simp only [Option.some.injEq] at g2
    subst g2
    exact g3

/-- Witness of C29 on `Example.Busy` at time 20: shards 1 and 2 stay in flight
    and the batch holds the requests of tablets 101 and 102. -/
theorem in_flight_matches_batch_witness :
    (∀ s ∈ (Example.BusyRun.Self.TableObjs 0).InFlightCondErase,
      AddressedTo Example.Busy Example.BusyRun.RunOnTablets s = true) ∧
    (∀ s, AddressedTo Example.Busy Example.BusyRun.RunOnTablets s = true →
      s ∈ (Example.BusyRun.Self.TableObjs 0).InFlightCondErase) ∧
    (∀ k, THashMap.contains Example.BusyRun.RunOnTablets k = true ↔
      ∃ s ∈ (Example.BusyRun.Self.TableObjs 0).InFlightCondErase, ∃ info,
        THashMap.find Example.Busy.ShardInfos s = some info ∧ info.TabletID = k) :=
  in_flight_matches_batch Example.Busy 0 Example.At20 Example.Settings Example.BusyRun
    rfl rfl Example.MappingConsistent_Table
    (fun s1 s2 info1 info2 h1 h2 h3 =>
      (Example.tablets_distinct _ true false s2 s1 info2 info1 h2 h1 h3))
    rfl


/-! ## A run depends on the scheme shard only -/

theorem DoExecuteOnShard_congr (tx txb tx1 : TTxRunConditionalErase) (p : TTablePtr)
    (e : TTableShardInfo) (ctx : TActorContext) (b : Bool) (hself : txb.Self = tx.Self)
    (h : DoExecuteOnShard tx p e ctx = some (b, tx1)) :
    ∃ tx2, DoExecuteOnShard txb p e ctx = some (b, tx2) ∧ tx2.Self = tx1.Self := by
  have hsafe := DoExecuteOnShard_safe _ _ _ _ _ h
  rw [← hself] at hsafe
  obtain ⟨tx2, h2⟩ := DoExecuteOnShard_of_safe txb p e ctx hsafe
  obtain ⟨d1, -, d3, -⟩ := DoExecuteOnShard_spec _ _ _ _ _ _ h
  obtain ⟨e1, -⟩ := DoExecuteOnShard_spec _ _ _ _ _ _ h2
  refine ⟨tx2, ?_, by rw [e1, d1, hself]⟩
  rw [h2, hself, ← d3]

theorem DispatchLoop_congr (p : TTablePtr) (ctx : TActorContext) (m fuel : Nat)
    (tx txb tx1 : TTxRunConditionalErase) (hself : txb.Self = tx.Self)
    (h : DispatchLoop p ctx m fuel tx = some tx1) :
    ∃ tx2, DispatchLoop p ctx m fuel txb = some tx2 ∧ tx2.Self = tx1.Self := by
  induction fuel generalizing tx txb with
  | zero => simp [DispatchLoop] at h
  | succ fuel ih =>
    unfold DispatchLoop at h ⊢
    rw [hself]
    split at h
    · rename_i hcap
      simp at h
      subst h
      rw [if_pos hcap]
      exact ⟨txb, rfl, hself⟩
    · rename_i hcap
      rw [if_neg hcap]
      split at h
      · rename_i hnone
        simp at h
        subst h
        exact ⟨txb, rfl, hself⟩
      · rename_i e hsome
        split at h
        · simp at h
        · rename_i tx2 hd
          simp at h
          subst h
          obtain ⟨tx3, hd3, e3⟩ := DoExecuteOnShard_congr tx txb _ p e ctx false hself hd
          rw [hd3]
          exact ⟨tx3, rfl, e3⟩
        · rename_i tx2 hd
          obtain ⟨tx3, hd3, e3⟩ := DoExecuteOnShard_congr tx txb _ p e ctx true hself hd
          rw [hd3]
          simp only
          exact ih _ _ (by simp only [e3]) h

/-- The definedness of `DoExecuteOnTable` and the scheme shard it leaves do
    not depend on the batch or on `TableInfo`. -/
theorem DoExecuteOnTable_congr (tx txb tx3 : TTxRunConditionalErase) (p : TTablePtr)
    (ctx : TActorContext) (hself : txb.Self = tx.Self)
    (h : DoExecuteOnTable tx p ctx = some tx3) :
    ∃ tx4, DoExecuteOnTable txb p ctx = some tx4 ∧ tx4.Self = tx3.Self := by
  cases hst : (tx.Self.TableObjs p).TTLSettings with
  | none =>
    rw [DoExecuteOnTable_disabled tx p ctx hst] at h
    simp at h
    subst h
    exact ⟨txb, DoExecuteOnTable_disabled txb p ctx (by rw [hself]; exact hst), hself⟩
  | some st =>
    obtain ⟨txa, R, hl, hd⟩ := DoExecuteOnTable_enabled tx tx3 p ctx st hst h
    obtain ⟨l1, -⟩ := InFlightLoop_spec _ _ _ _ _ _ _ hl
    have hsafe := InFlightLoop_safe _ _ _ _ _ _ hl
    rw [← hself] at hsafe
    obtain ⟨res, hl2⟩ := InFlightLoop_of_safe p ctx (txb.Self.TableObjs p).InFlightCondErase
      txb [] hsafe
    obtain ⟨txc, R2⟩ := res
    obtain ⟨c1, -⟩ := InFlightLoop_spec _ _ _ _ _ _ _ hl2
    have hR : R2 = R := by
      rw [InFlightLoop_reschedule _ _ _ _ _ _ _ hl2, InFlightLoop_reschedule _ _ _ _ _ _ _ hl,
        hself]
    subst hR
    have hres : (RescheduleLoop p R2 txc).Self = (RescheduleLoop p R2 txa).Self := by
      rw [RescheduleLoop_eq, RescheduleLoop_eq]
      simp only [c1, l1, hself]
    obtain ⟨tx4, hd4, e4⟩ := DispatchLoop_congr p ctx _ _ _ _ tx3 hres hd
    refine ⟨tx4, ?_, e4⟩
    have hsetc : ((RescheduleLoop p R2 txc).Self.TableObjs p).GetEnabled = st := by
      rw [hres, RescheduleLoop_eq]
      simp [SetTable_TableObjs_same, TTableInfo.GetEnabled, WithSched_TTLSettings, l1, hst]
    have hstb : (txb.Self.TableObjs p).TTLSettings = some st := by rw [hself]; exact hst
    unfold DoExecuteOnTable
    simp only [TTableInfo.IsTTLEnabled, hstb, Option.isSome_some, Bool.not_true,
      Bool.false_eq_true, if_false, TTableInfo.GetInFlightCondErase, hl2, hsetc]
    rw [hres]
    exact hd4

theorem DoExecuteOnTable_map_Self (tx txb : TTxRunConditionalErase) (p : TTablePtr)
    (ctx : TActorContext) (hself : txb.Self = tx.Self) :
    (DoExecuteOnTable txb p ctx).map TTxRunConditionalErase.Self =
      (DoExecuteOnTable tx p ctx).map TTxRunConditionalErase.Self := by
  cases h : DoExecuteOnTable tx p ctx with
  | some tx3 =>
    obtain ⟨tx4, h4, e4⟩ := DoExecuteOnTable_congr tx txb tx3 p ctx hself h
    simp [h4, e4]
  | none =>
    cases hb : DoExecuteOnTable txb p ctx with
    | none => rfl
    | some tx4 =>
      obtain ⟨tx3, h3, -⟩ := DoExecuteOnTable_congr txb tx tx4 p ctx hself.symm hb
      rw [h] at h3
      simp at h3

theorem RunEach_disallowed (ctx : TActorContext) (l : List TTablePtr) (S : TSchemeShard)
    (hflag : S.AllowConditionalEraseOperations = false) : RunEach ctx l S = some S := by
  induction l with
  | nil => rfl
  | cons q rest ih =>
    simp only [RunEach, RunDue, DoExecute, hflag, Bool.not_false, if_true]
    exact ih

theorem DoExecuteAll_RunEach (ctx : TActorContext) (l : List (TPathId × TTablePtr))
    (tx : TTxRunConditionalErase) (hflag : tx.Self.AllowConditionalEraseOperations = true) :
    (DoExecuteAll ctx l tx).map TTxRunConditionalErase.Self =
      RunEach ctx (l.map Prod.snd) tx.Self := by
  induction l generalizing tx with
  | nil => rfl
  | cons x rest ih =>
    obtain ⟨x1, x2⟩ := x
    have hmap := DoExecuteOnTable_map_Self tx
      { Self := tx.Self, TableInfo := some x2, RunOnTablets := [] } x2 ctx rfl
    simp only [DoExecuteAll, List.map_cons, RunEach, RunDue_on_table tx.Self x2 ctx hflag]
    cases h : DoExecuteOnTable tx x2 ctx with
    | none =>
      rw [h] at hmap
      simp only [Option.map_none', Option.map_eq_none'] at hmap
      simp [hmap]
    | some tx1 =>
      rw [h] at hmap
      simp only [Option.map_some', Option.map_eq_some'] at hmap
      obtain ⟨tx2, h2, e2⟩ := hmap
      simp only [h2, e2]
      apply ih
      obtain ⟨a, c, f1, -⟩ := DoExecuteOnTable_frame tx tx1 x2 ctx h
      rw [f1]
      exact hflag

/-- The run over all the tables leaves the scheme shard that the per-table
    runs, applied in turn to every table of `TTLEnabledTables`, leave. -/
theorem RunDue_all (S : TSchemeShard) (ctx : TActorContext) :
    (RunDue S none ctx).map TTxRunConditionalErase.Self =
      RunEach ctx (S.TTLEnabledTables.map Prod.snd) S := by
  cases hflag : S.AllowConditionalEraseOperations with
  | false =>
    rw [RunEach_disallowed ctx _ S hflag]
    simp [RunDue, DoExecute, hflag]
  | true =>
    have := DoExecuteAll_RunEach ctx S.TTLEnabledTables
      { Self := S, TableInfo := none, RunOnTablets := [] } hflag
    simp only [RunDue, DoExecute, hflag, Bool.not_true, Bool.false_eq_true, if_false]
    exact this


/-- C25 (`RunDue` for one table touches only that table). First, `RunDue` on a
    table returns when the catalog is consistent. Second, whenever `RunDue` on
    the table `p` returns, every other table object is left as it was (its
    in-flight set and pending schedule included) and every request of the
    outgoing batch is addressed to the tablet of the shard of a partition of
    `p`. Third, `RunDue` on all the tables is defined exactly when the per-table
    runs, applied in turn to every table of `TTLEnabledTables`, are, and leaves
    the scheme shard that they leave. -/
theorem run_due_touches_one_table (S : TSchemeShard) (ctx : TActorContext) :
    (∀ p, IndexCatalogOk S → InFlightMapped (S.TableObjs p) →
      ∃ tx, RunDue S (some p) ctx = some tx) ∧
    (∀ p tx, RunDue S (some p) ctx = some tx →
      (∀ q, q ≠ p → tx.Self.TableObjs q = S.TableObjs q) ∧
      (∀ k, THashMap.contains tx.RunOnTablets k = true →
        ∃ (e : TTableShardInfo) (info : TShardInfo), e ∈ (S.TableObjs p).Partitions ∧
          THashMap.find S.ShardInfos e.ShardIdx = some info ∧ info.TabletID = k)) ∧
    ((RunDue S none ctx).map TTxRunConditionalErase.Self =
      RunEach ctx (S.TTLEnabledTables.map Prod.snd) S) := by
  refine ⟨?_, ?_, RunDue_all S ctx⟩
  · intro p hok hmap
    cases hflag : S.AllowConditionalEraseOperations with
    | false =>
      exact ⟨{ Self := S, TableInfo := some p, RunOnTablets := [] },
        by simp [RunDue, DoExecute, hflag]⟩
    | true =>
      rw [RunDue_on_table S p ctx hflag]
      exact DoExecuteOnTable_total _ p ctx hok hmap
  · intro p tx h
    cases hflag : S.AllowConditionalEraseOperations with
    | false =>
      simp [RunDue, DoExecute, hflag] at h
      subst h
      exact ⟨fun _ _ => rfl, fun k hk => by simp [THashMap.contains, THashMap.find] at hk⟩
    | true =>
      rw [RunDue_on_table S p ctx hflag] at h
      obtain ⟨a, c, f1, -⟩ := DoExecuteOnTable_frame _ tx p ctx h
      refine ⟨fun q hq => ?_, fun k hk => ?_⟩
      · rw [f1, SetTable_TableObjs]
        simp [hq]
      · rcases DoExecuteOnTable_origin _ _ _ _ h k hk with h1 | ⟨s, e, info, -, g2, -, g4, g5⟩
        · simp [THashMap.contains, THashMap.find] at h1
        · exact ⟨e, info, g2, g4, g5⟩

/-- Witness of C25 on `Example.Busy` at time 20: the run on table 0, and the
    run on all the tables. -/
theorem run_due_touches_one_table_witness :
    ((∀ q, q ≠ 0 → Example.BusyRun.Self.TableObjs q = Example.Busy.TableObjs q) ∧
      (∀ k, THashMap.contains Example.BusyRun.RunOnTablets k = true →
        ∃ (e : TTableShardInfo) (info : TShardInfo),
          e ∈ (Example.Busy.TableObjs 0).Partitions ∧
          THashMap.find Example.Busy.ShardInfos e.ShardIdx = some info ∧
          info.TabletID = k)) ∧
    ((RunDue Example.Busy none Example.At20).map TTxRunConditionalErase.Self =
      RunEach Example.At20 (Example.Busy.TTLEnabledTables.map Prod.snd) Example.Busy) :=
  ⟨(run_due_touches_one_table Example.Busy Example.At20).2.1 0 Example.BusyRun rfl,
    (run_due_touches_one_table Example.Busy Example.At20).2.2⟩


/-! ## The index selection -/

theorem THashMap.emplace_true {K V : Type} [DecidableEq K] (m m1 : THashMap K V) (k : K)
    (v : V) (h : THashMap.emplace m k v = (m1, true)) :
    m1 = m ++ [(k, v)] ∧ THashMap.contains m k = false := by
  unfold THashMap.emplace at h
  split at h
  · simp at h
  · rename_i hc
    simp only [Prod.mk.injEq, and_true] at h
    exact ⟨h.symm, by simpa using hc⟩

theorem GetIndexImplTable_some (S : TSchemeShard) (indexPath : TPathElement)
    (implId : TPathId) (implTable : TTablePtr)
    (h : GetIndexImplTable S indexPath = some (implId, implTable)) :
    (∃ name, indexPath.GetChildren = [(name, implId)]) ∧
    THashMap.find S.Tables implId = some implTable ∧
    ∃ childPath, THashMap.find S.PathsById implId = some childPath ∧
      childPath.Dropped = false := by
  unfold GetIndexImplTable at h
  split at h
  · rename_i hlen
    split at h
    · simp at h
    · rename_i name id rest hch
      have hrest : rest = [] := by
        rw [hch] at hlen
        simpa using hlen
      subst hrest
      split at h
      · simp at h
      · rename_i childPath hcp
        split at h
        · simp at h
        · rename_i hdrop
          split at h
          · simp at h
          · rename_i t ht
            simp only [Option.some.injEq, Prod.mk.injEq] at h
            obtain ⟨rfl, rfl⟩ := h
            exact ⟨⟨name, hch⟩, ht, childPath, hcp, by simpa using hdrop⟩
  · simp at h

theorem MakeIndexesLoop_spec (S : TSchemeShard) (mainTable : TTablePtr)
    (children : List (String × TPathId)) (result final : THashMap TTableId (List (Nat × Nat)))
    (h : MakeIndexesLoop S mainTable children result = some final) :
    final.map some =
      result.map some ++
        ((children.map Prod.snd).filter (IsLiveSyncIndex S)).map (IndexEntry S mainTable) ∧
    ((THashMap.keys result).Nodup → (THashMap.keys final).Nodup) := by
  induction children generalizing result with
  | nil =>
    simp [MakeIndexesLoop] at h
    subst h
    simp
  | cons c rest ih =>
    obtain ⟨name, childPathId⟩ := c
    unfold MakeIndexesLoop at h
    split at h
    · simp at h
    · rename_i childPath hcp
      split at h
      · rename_i hskip
        have hlive : IsLiveSyncIndex S childPathId = false := by
          simp only [IsLiveSyncIndex, hcp]
          simp only [Bool.or_eq_true, Bool.not_eq_true'] at hskip
          rcases hskip with hs | hs <;> simp [hs]
        obtain ⟨i1, i2⟩ := ih result h
        exact ⟨by simpa [List.filter_cons, hlive] using i1, i2⟩
      · rename_i hskip
        simp only [Bool.or_eq_true, Bool.not_eq_true', not_or, Bool.not_eq_false] at hskip
        split at h
        · simp at h
        · rename_i index hindex
          split at h
          · rename_i hasync
            have hlive : IsLiveSyncIndex S childPathId = false := by
              simp [IsLiveSyncIndex, hcp, hindex, hasync]
            obtain ⟨i1, i2⟩ := ih result h
            exact ⟨by simpa [List.filter_cons, hlive] using i1, i2⟩
          · rename_i hsync
            have hlive : IsLiveSyncIndex S childPathId = true := by
              simp [IsLiveSyncIndex, hcp, hindex, hsync, hskip.1, hskip.2]
            split at h
            · simp at h
            · rename_i implId implTable himpl
              obtain ⟨⟨cname, hch⟩, htab, -⟩ := GetIndexImplTable_some S childPath _ _ himpl
              split at h
              · simp at h
              · rename_i columnIds hcols
                have hentry : IndexEntry S mainTable childPathId =
                    some ({ PathId := implId,
                            SchemaVersion := (S.TableObjs implTable).AlterVersion },
                          columnIds) := by
                  simp [IndexEntry, hcp, hindex, hch, htab, hcols]
                split at h
                · rename_i result1 hemp
                  obtain ⟨e1, e2⟩ := THashMap.emplace_true _ _ _ _ hemp
                  obtain ⟨i1, i2⟩ := ih result1 h
                  subst e1
                  refine ⟨?_, fun hnd => i2 ?_⟩
                  · rw [i1]
                    simp [List.filter_cons, hlive, hentry]
                  · have := THashMap.keys_emplace_nodup result
                      { PathId := implId,
                        SchemaVersion := (S.TableObjs implTable).AlterVersion }
                      columnIds hnd
                    simpa [THashMap.emplace, e2] using this
                · simp at h


theorem DoExecuteOnShard_request (tx tx1 : TTxRunConditionalErase) (p : TTablePtr)
    (e : TTableShardInfo) (ctx : TActorContext)
    (h : DoExecuteOnShard tx p e ctx = some (true, tx1)) :
    ∃ (info : TShardInfo) (indexes : THashMap TTableId (List (Nat × Nat)))
      (req : TEvConditionalEraseRowsRequest),
      THashMap.find tx.Self.ShardInfos e.ShardIdx = some info ∧
      MakeIndexes tx.Self info.PathId = some indexes ∧
      req.TableId = info.PathId.LocalPathId ∧
      req.Indexes = indexes.map MakeIndexDescr ∧
      tx1.RunOnTablets = (THashMap.emplace tx.RunOnTablets info.TabletID req).1 := by
  unfold DoExecuteOnShard at h
  split at h
  · simp at h
  · split at h
    · simp at h
    · rename_i info hs
      split at h
      · simp at h
      · split at h
        · simp at h
        · split at h
          · simp at h
          · split at h
            · simp at h
            · rename_i indexes hi
              simp only [Option.some.injEq, Prod.mk.injEq, true_and] at h
              subst h
              exact ⟨info, indexes, _, hs, hi, rfl, rfl, rfl⟩

/-- C26 (index selection). When `MakeIndexes` returns for a main table, its
    result holds, in order, one descriptor for each child path that is a table
    index, is not dropped and whose index type is not global-async, and nothing
    else; the descriptor is keyed by the path id and `AlterVersion` of the
    single implementation table of the index, no key occurs twice, and the
    request built from it by a dispatch attempt has as many index entries as
    there are live synchronous indexes. -/
theorem index_selection (S : TSchemeShard) (mainPathId : TPathId) (mainPath : TPathElement)
    (mainTable : TTablePtr) (result : THashMap TTableId (List (Nat × Nat)))
    (hpath : THashMap.find S.PathsById mainPathId = some mainPath)
    (htab : THashMap.find S.Tables mainPathId = some mainTable)
    (h : MakeIndexes S mainPathId = some result) :
    result.map some = (LiveSyncIndexes S mainPath).map (IndexEntry S mainTable) ∧
    (THashMap.keys result).Nodup ∧
    result.length = (LiveSyncIndexes S mainPath).length ∧
    ∀ (tx tx1 : TTxRunConditionalErase) (p : TTablePtr) (e : TTableShardInfo)
      (ctx : TActorContext) (info : TShardInfo),
      tx.Self = S → THashMap.find S.ShardInfos e.ShardIdx = some info →
      info.PathId = mainPathId → DoExecuteOnShard tx p e ctx = some (true, tx1) →
      ∃ req, tx1.RunOnTablets = (THashMap.emplace tx.RunOnTablets info.TabletID req).1 ∧
        req.Indexes = result.map MakeIndexDescr ∧
        req.Indexes.length = (LiveSyncIndexes S mainPath).length := by
  unfold MakeIndexes at h
  simp only [hpath, htab] at h
  obtain ⟨i1, i2⟩ := MakeIndexesLoop_spec S mainTable _ _ _ h
  simp only [List.map_nil, List.nil_append] at i1
  have hlen : result.length = (LiveSyncIndexes S mainPath).length := by
    have := congrArg List.length i1
    simpa [LiveSyncIndexes] using this
  refine ⟨i1, i2 (by simp [THashMap.keys]), hlen, ?_⟩
  intro tx tx1 p e ctx info hself hinfo hpid hd
  obtain ⟨info2, indexes, req, g1, g2, -, g4, g5⟩ := DoExecuteOnShard_request _ _ _ _ _ hd
  rw [hself, hinfo] at g1
  simp only [Option.some.injEq] at g1
  subst g1
  have hidx : indexes = result := by
    rw [hself, hpid] at g2
    unfold MakeIndexes at g2
    simp only [hpath, htab] at g2
    rw [h] at g2
    simpa using g2.symm
  subst hidx
  exact ⟨req, g5, g4, by rw [g4, List.length_map, hlen]⟩

/-- Witness of C26 on `Example.Indexed`: of the three index children only the
    synchronous live one gets a descriptor, keyed by its implementation table. -/
theorem index_selection_witness :
    [({ PathId := Example.ImplPath, SchemaVersion := 1 }, [(11, 1), (12, 2), (13, 3)])].map
        some =
      (LiveSyncIndexes Example.Indexed
        { PathId := Example.TablePath, PathType := EPathType.EPathTypeTable,
          IsDropped := false,
          Children := [("idx", Example.IdxPath), ("async", Example.AsyncPath),
                       ("old", Example.OldPath)] }).map (IndexEntry Example.Indexed 0) ∧
    (THashMap.keys
      [(({ PathId := Example.ImplPath, SchemaVersion := 1 } : TTableId),
        [((11 : Nat), (1 : Nat)), (12, 2), (13, 3)])]).Nodup ∧
    [(({ PathId := Example.ImplPath, SchemaVersion := 1 } : TTableId),
        [((11 : Nat), (1 : Nat)), (12, 2), (13, 3)])].length =
      (LiveSyncIndexes Example.Indexed
        { PathId := Example.TablePath, PathType := EPathType.EPathTypeTable,
          IsDropped := false,
          Children := [("idx", Example.IdxPath), ("async", Example.AsyncPath),
                       ("old", Example.OldPath)] }).length ∧
    ∀ (tx tx1 : TTxRunConditionalErase) (p : TTablePtr) (e : TTableShardInfo)
      (ctx : TActorContext) (info : TShardInfo),
      tx.Self = Example.Indexed →
      THashMap.find Example.Indexed.ShardInfos e.ShardIdx = some info →
      info.PathId = Example.TablePath → DoExecuteOnShard tx p e ctx = some (true, tx1) →
      ∃ req, tx1.RunOnTablets = (THashMap.emplace tx.RunOnTablets info.TabletID req).1 ∧
        req.Indexes =
          [(({ PathId := Example.ImplPath, SchemaVersion := 1 } : TTableId),
            [((11 : Nat), (1 : Nat)), (12, 2), (13, 3)])].map MakeIndexDescr ∧
        req.Indexes.length =
          (LiveSyncIndexes Example.Indexed
            { PathId := Example.TablePath, PathType := EPathType.EPathTypeTable,
              IsDropped := false,
              Children := [("idx", Example.IdxPath), ("async", Example.AsyncPath),
                           ("old", Example.OldPath)] }).length :=
  index_selection Example.Indexed Example.TablePath _ 0 _ rfl rfl rfl


/-! ## The columns of a mapping -/

theorem THashMap.mem_of_find {K V : Type} [DecidableEq K] (m : THashMap K V) (k : K) (v : V)
    (h : THashMap.find m k = some v) : (k, v) ∈ m := by
  induction m with
  | nil => simp [THashMap.find] at h
  | cons x rest ih =>
    obtain ⟨a, b⟩ := x
    unfold THashMap.find at h
    split at h
    · rename_i hak
      simp only [Option.some.injEq] at h
      subst hak h
      exact List.mem_cons_self _ _
    · exact List.mem_cons_of_mem _ (ih h)

theorem THashMap.mem_unique {K V : Type} [DecidableEq K] (m : THashMap K V) (k : K) (v w : V)
    (hnd : (THashMap.keys m).Nodup) (h1 : (k, v) ∈ m) (h2 : (k, w) ∈ m) : v = w := by
  induction m with
  | nil => simp at h1
  | cons x rest ih =>
    obtain ⟨a, b⟩ := x
    simp only [THashMap.keys, List.map_cons, List.nodup_cons, List.mem_map, Prod.exists,
      exists_and_right, exists_eq_right, not_exists] at hnd
    rcases List.mem_cons.1 h1 with e1 | e1 <;> rcases List.mem_cons.1 h2 with e2 | e2
    · simp only [Prod.mk.injEq] at e1 e2
      rw [e1.2, e2.2]
    · simp only [Prod.mk.injEq] at e1
      exact absurd (e1.1 ▸ e2) (hnd.1 w)
    · simp only [Prod.mk.injEq] at e2
      exact absurd (e2.1 ▸ e1) (hnd.1 v)
    · exact ih hnd.2 e1 e2

/-- A name found among the live columns is the name of a non-dropped column
    with the id found. -/
theorem LiveColumnId_some (columns : THashMap Nat TColumn) (name : String) (id : Nat)
    (h : LiveColumnId columns name = some id) :
    ∃ column, (id, column) ∈ columns ∧ column.IsDropped = false ∧ column.Name = name := by
  have := THashMap.mem_of_find _ _ _ h
  simp only [LiveColumns, List.mem_map, List.mem_filter, Bool.not_eq_true', Prod.mk.injEq,
    Prod.exists] at this
  obtain ⟨a, b, ⟨hmem, hlive⟩, hname, hid⟩ := this
  subst hid
  exact ⟨b, hmem, hlive, hname⟩

theorem LiveColumnId_injective (columns : THashMap Nat TColumn) (n1 n2 : String) (id : Nat)
    (hnd : (THashMap.keys columns).Nodup) (h1 : LiveColumnId columns n1 = some id)
    (h2 : LiveColumnId columns n2 = some id) : n1 = n2 := by
  obtain ⟨c1, m1, -, e1⟩ := LiveColumnId_some _ _ _ h1
  obtain ⟨c2, m2, -, e2⟩ := LiveColumnId_some _ _ _ h2
  rw [← e1, ← e2, THashMap.mem_unique _ _ _ _ hnd m1 m2]

/-- Two live columns with the same name are the same column, when no two live
    columns share a name. -/
theorem LiveNamesDistinct_unique (columns : THashMap Nat TColumn)
    (hd : LiveNamesDistinct columns) (i j : Nat) (c d : TColumn) (hc : (i, c) ∈ columns)
    (hdm : (j, d) ∈ columns) (lc : c.IsDropped = false) (ld : d.IsDropped = false)
    (hname : c.Name = d.Name) : i = j := by
  have m1 : (c.Name, i) ∈ LiveColumns columns := by
    simp only [LiveColumns, List.mem_map, List.mem_filter, Bool.not_eq_true', Prod.mk.injEq,
      Prod.exists]
    exact ⟨i, c, ⟨hc, lc⟩, rfl, rfl⟩
  have m2 : (c.Name, j) ∈ LiveColumns columns := by
    simp only [LiveColumns, List.mem_map, List.mem_filter, Bool.not_eq_true', Prod.mk.injEq,
      Prod.exists]
    exact ⟨j, d, ⟨hdm, ld⟩, hname.symm, rfl⟩
  exact THashMap.mem_unique _ _ _ _ hd m1 m2

theorem mem_of_AllSome {α β : Type} (F : β → Option α) (l : List β) (a : List α)
    (h : AllSome (l.map F) = some a) (x : α) (hx : x ∈ a) : ∃ k ∈ l, F k = some x := by
  have he := AllSome_eq_some _ _ h
  have : some x ∈ l.map F := by
    rw [he]
    exact List.mem_map_of_mem _ hx
  obtain ⟨k, hk, hF⟩ := List.mem_map.1 this
  exact ⟨k, hk, hF⟩

theorem pairwise_of_AllSome {α β : Type} (F : β → Option α) (l : List β) (a : List α)
    (h : AllSome (l.map F) = some a) (P : β → β → Prop) (Q : α → α → Prop)
    (hl : l.Pairwise P)
    (hPQ : ∀ k k2 x y, k ∈ l → k2 ∈ l → F k = some x → F k2 = some y → P k k2 → Q x y) :
    a.Pairwise Q := by
  induction l generalizing a with
  | nil =>
    simp [AllSome] at h
    subst h
    exact List.Pairwise.nil
  | cons k rest ih =>
    simp only [List.map_cons] at h
    cases hk : F k with
    | none => simp [hk, AllSome] at h
    | some x =>
      cases hr : AllSome (rest.map F) with
      | none => simp [hk, hr, AllSome] at h
      | some r =>
        simp only [hk, hr, AllSome, Option.some.injEq] at h
        subst h
        obtain ⟨p1, p2⟩ := List.pairwise_cons.1 hl
        refine List.pairwise_cons.2 ⟨?_, ?_⟩
        · intro y hy
          obtain ⟨k2, hk2, hF⟩ := mem_of_AllSome F rest r hr y hy
          exact hPQ k k2 x y (List.mem_cons_self _ _) (List.mem_cons_of_mem _ hk2) hk hF
            (p1 k2 hk2)
        · exact ih r hr p2 (fun a b x y ha hb => hPQ a b x y (List.mem_cons_of_mem _ ha)
            (List.mem_cons_of_mem _ hb))

/-- A returned mapping, split into its two parts. -/
theorem MakeColumnIds_parts (mainTable : TTableInfo) (index : TTableIndexInfo)
    (indexImplTable : TTableInfo) (result : List (Nat × Nat))
    (h : MakeColumnIds mainTable index indexImplTable = some result) :
    ∃ a b, result = a ++ b ∧
      AllSome (index.IndexKeys.map (IndexKeyPair mainTable indexImplTable)) = some a ∧
      AllSome ((UncoveredKeyColumns mainTable index).map
        (MainKeyPair mainTable indexImplTable)) = some b := by
  obtain ⟨h1, h2⟩ := MakeColumnIds_distinct _ _ _ _ h
  rw [MakeColumnIds_eq_spec _ _ _ h1 h2] at h
  unfold IndexMappingSpec at h
  split at h
  · rename_i a b ha hb
    simp only [Option.some.injEq] at h
    exact ⟨a, b, h.symm, ha, hb⟩
  · simp at h

theorem IndexKeyPair_some (mainTable indexImplTable : TTableInfo) (k : String) (x : Nat × Nat)
    (h : IndexKeyPair mainTable indexImplTable k = some x) :
    LiveColumnId indexImplTable.Columns k = some x.1 ∧
    LiveColumnId mainTable.Columns k = some x.2 := by
  unfold IndexKeyPair at h
  split at h
  · rename_i i m hi hm
    simp only [Option.some.injEq] at h
    subst h
    exact ⟨hi, hm⟩
  · simp at h

theorem MainKeyPair_some (mainTable indexImplTable : TTableInfo) (c : Nat) (x : Nat × Nat)
    (h : MainKeyPair mainTable indexImplTable c = some x) :
    x.2 = c ∧ ∃ column, THashMap.find mainTable.Columns c = some column ∧
      LiveColumnId indexImplTable.Columns column.Name = some x.1 := by
  unfold MainKeyPair at h
  split at h
  · simp at h
  · rename_i column hcol
    simp only [Option.map_eq_some'] at h
    obtain ⟨i, hi, rfl⟩ := h
    exact ⟨rfl, column, hcol, hi⟩

theorem mem_UncoveredKeyColumns (mainTable : TTableInfo) (index : TTableIndexInfo) (c : Nat)
    (column : TColumn) (hc : c ∈ UncoveredKeyColumns mainTable index)
    (hcol : THashMap.find mainTable.Columns c = some column) :
    c ∈ mainTable.KeyColumnIds ∧ column.Name ∉ index.IndexKeys := by
  simp only [UncoveredKeyColumns, List.mem_filter, hcol, decide_eq_true_eq] at hc
  exact hc


/-- C27, amended (the main column of an uncovered key pair is not checked).
    Whenever `MakeColumnIds` returns a mapping, every pair of it names a
    non-dropped column of the index-implementation table and a column of the
    main table with the same name; the main column is non-dropped for the
    index-key pairs, while for a pair added for an uncovered primary-key column
    it is that key column as it stands in the main table, dropped or not. So
    when no key column of the main table is dropped, every pair names
    non-dropped columns of both tables. -/
theorem mapped_columns_live (mainTable : TTableInfo) (index : TTableIndexInfo)
    (indexImplTable : TTableInfo) (result : List (Nat × Nat))
    (h : MakeColumnIds mainTable index indexImplTable = some result) :
    (∀ x ∈ result, ∃ (ci cm : TColumn),
      (x.1, ci) ∈ indexImplTable.Columns ∧ ci.IsDropped = false ∧
      (x.2, cm) ∈ mainTable.Columns ∧ cm.Name = ci.Name ∧
      (cm.IsDropped = false ∨
        (x.2 ∈ mainTable.KeyColumnIds ∧ THashMap.find mainTable.Columns x.2 = some cm ∧
          cm.Name ∉ index.IndexKeys))) ∧
    ((∀ c ∈ mainTable.KeyColumnIds, ∀ column,
        THashMap.find mainTable.Columns c = some column → column.IsDropped = false) →
      ∀ x ∈ result, ∃ (ci cm : TColumn),
        (x.1, ci) ∈ indexImplTable.Columns ∧ ci.IsDropped = false ∧
        (x.2, cm) ∈ mainTable.Columns ∧ cm.IsDropped = false ∧ cm.Name = ci.Name) := by
  obtain ⟨a, b, hres, ha, hb⟩ := MakeColumnIds_parts _ _ _ _ h
  have key : ∀ x ∈ result, ∃ (ci cm : TColumn),
      (x.1, ci) ∈ indexImplTable.Columns ∧ ci.IsDropped = false ∧
      (x.2, cm) ∈ mainTable.Columns ∧ cm.Name = ci.Name ∧
      (cm.IsDropped = false ∨
        (x.2 ∈ mainTable.KeyColumnIds ∧ THashMap.find mainTable.Columns x.2 = some cm ∧
          cm.Name ∉ index.IndexKeys)) := by
    intro x hx
    rw [hres, List.mem_append] at hx
    rcases hx with hx | hx
    · obtain ⟨k, -, hF⟩ := mem_of_AllSome _ _ _ ha x hx
      obtain ⟨f1, f2⟩ := IndexKeyPair_some _ _ _ _ hF
      obtain ⟨ci, i1, i2, i3⟩ := LiveColumnId_some _ _ _ f1
      obtain ⟨cm, m1, m2, m3⟩ := LiveColumnId_some _ _ _ f2
      exact ⟨ci, cm, i1, i2, m1, by rw [m3, i3], Or.inl m2⟩
    · obtain ⟨c, hc, hF⟩ := mem_of_AllSome _ _ _ hb x hx
      obtain ⟨f1, cm, f2, f3⟩ := MainKeyPair_some _ _ _ _ hF
      obtain ⟨ci, i1, i2, i3⟩ := LiveColumnId_some _ _ _ f3
      obtain ⟨u1, u2⟩ := mem_UncoveredKeyColumns _ _ _ _ hc f2
      rw [← f1] at f2 u1
      exact ⟨ci, cm, i1, i2, THashMap.mem_of_find _ _ _ f2, i3.symm, Or.inr ⟨u1, f2, u2⟩⟩
  refine ⟨key, fun hlive x hx => ?_⟩
  obtain ⟨ci, cm, k1, k2, k3, k4, k5⟩ := key x hx
  refine ⟨ci, cm, k1, k2, k3, ?_, k4⟩
  rcases k5 with k5 | ⟨u1, u2, -⟩
  · exact k5
  · exact hlive _ u1 cm u2

/-- Witness of C27, amended, on the index example. -/
theorem mapped_columns_live_witness :
    (∀ x ∈ [((11 : Nat), (1 : Nat)), (12, 2), (13, 3)], ∃ (ci cm : TColumn),
      (x.1, ci) ∈ Example.ImplTable.Columns ∧ ci.IsDropped = false ∧
      (x.2, cm) ∈ Example.MainTable.Columns ∧ cm.Name = ci.Name ∧
      (cm.IsDropped = false ∨
        (x.2 ∈ Example.MainTable.KeyColumnIds ∧
          THashMap.find Example.MainTable.Columns x.2 = some cm ∧
          cm.Name ∉ Example.IndexAB.IndexKeys))) ∧
    ((∀ c ∈ Example.MainTable.KeyColumnIds, ∀ column,
        THashMap.find Example.MainTable.Columns c = some column →
          column.IsDropped = false) →
      ∀ x ∈ [((11 : Nat), (1 : Nat)), (12, 2), (13, 3)], ∃ (ci cm : TColumn),
        (x.1, ci) ∈ Example.ImplTable.Columns ∧ ci.IsDropped = false ∧
        (x.2, cm) ∈ Example.MainTable.Columns ∧ cm.IsDropped = false ∧
        cm.Name = ci.Name) :=
  mapped_columns_live Example.MainTable Example.IndexAB Example.ImplTable _ rfl

/-- Counterexample to C27: with the key column 1 of the main table dropped,
    `MakeColumnIds` returns a mapping whose first pair has the main column 1,
    and the main table has no non-dropped column with id 1. -/
theorem mapped_columns_live_counterexample :
    MakeColumnIds Example.MainDroppedKey Example.IndexNoKeys Example.ImplX =
      some [(11, 1), (11, 2)] ∧
    THashMap.find Example.MainDroppedKey.Columns 1 = some { Name := "x", Dropped := true } ∧
    Example.MainDroppedKey.Columns.filter (fun c => decide (c.1 = 1) && !c.2.IsDropped) = [] :=
  ⟨rfl, rfl, rfl⟩

/-- C30, amended (distinct index-column ids need live key columns). For a
    returned mapping, with pairwise distinct index keys, pairwise distinct
    `KeyColumnIds` and column maps keyed by distinct ids: the main-column ids of
    the mapping are pairwise distinct, and when no key column of the main table
    is dropped the index-column ids are pairwise distinct too. -/
theorem mapping_columns_distinct (mainTable : TTableInfo) (index : TTableIndexInfo)
    (indexImplTable : TTableInfo) (result : List (Nat × Nat))
    (h : MakeColumnIds mainTable index indexImplTable = some result)
    (hkeys : index.IndexKeys.Nodup) (hcols : mainTable.KeyColumnIds.Nodup)
    (hm : (THashMap.keys mainTable.Columns).Nodup)
    (hi : (THashMap.keys indexImplTable.Columns).Nodup) :
    (result.map Prod.snd).Nodup ∧
    ((∀ c ∈ mainTable.KeyColumnIds, ∀ column,
        THashMap.find mainTable.Columns c = some column → column.IsDropped = false) →
      (result.map Prod.fst).Nodup) := by
  obtain ⟨a, b, hres, ha, hb⟩ := MakeColumnIds_parts _ _ _ _ h
  obtain ⟨hdm, -⟩ := MakeColumnIds_distinct _ _ _ _ h
  have hunc : (UncoveredKeyColumns mainTable index).Nodup := List.Nodup.filter _ hcols
  subst hres
  constructor
  · rw [List.map_append, List.nodup_append]
    refine ⟨?_, ?_, ?_⟩
    · rw [List.Nodup, List.pairwise_map]
      refine pairwise_of_AllSome _ _ _ ha (fun k k2 => k ≠ k2) _ hkeys ?_
      intro k k2 x y _ _ hx hy hne heq
      obtain ⟨-, f2⟩ := IndexKeyPair_some _ _ _ _ hx
      obtain ⟨-, g2⟩ := IndexKeyPair_some _ _ _ _ hy
      rw [heq] at f2
      exact hne (LiveColumnId_injective _ _ _ _ hm f2 g2)
    · rw [List.Nodup, List.pairwise_map]
      refine pairwise_of_AllSome _ _ _ hb (fun c c2 => c ≠ c2) _ hunc ?_
      intro c c2 x y _ _ hx hy hne heq
      obtain ⟨f1, -⟩ := MainKeyPair_some _ _ _ _ hx
      obtain ⟨g1, -⟩ := MainKeyPair_some _ _ _ _ hy
      exact hne (by rw [← f1, ← g1, heq])
    · intro v hv1 hv2
      obtain ⟨x, hx, rfl⟩ := List.mem_map.1 hv1
      obtain ⟨y, hy, hxy⟩ := List.mem_map.1 hv2
      obtain ⟨k, hk, hF⟩ := mem_of_AllSome _ _ _ ha x hx
      obtain ⟨c, hc, hG⟩ := mem_of_AllSome _ _ _ hb y hy
      obtain ⟨-, f2⟩ := IndexKeyPair_some _ _ _ _ hF
      obtain ⟨g1, column, g2, -⟩ := MainKeyPair_some _ _ _ _ hG
      obtain ⟨cm, m1, -, m3⟩ := LiveColumnId_some _ _ _ f2
      obtain ⟨-, u2⟩ := mem_UncoveredKeyColumns _ _ _ _ hc g2
      have m2 := THashMap.mem_of_find _ _ _ g2
      rw [← g1, hxy] at m2
      rw [THashMap.mem_unique _ _ _ _ hm m2 m1, m3] at u2
      exact u2 hk
  · intro hlive
    rw [List.map_append, List.nodup_append]
    refine ⟨?_, ?_, ?_⟩
    · rw [List.Nodup, List.pairwise_map]
      refine pairwise_of_AllSome _ _ _ ha (fun k k2 => k ≠ k2) _ hkeys ?_
      intro k k2 x y _ _ hx hy hne heq
      obtain ⟨f1, -⟩ := IndexKeyPair_some _ _ _ _ hx
      obtain ⟨g1, -⟩ := IndexKeyPair_some _ _ _ _ hy
      rw [heq] at f1
      exact hne (LiveColumnId_injective _ _ _ _ hi f1 g1)
    · rw [List.Nodup, List.pairwise_map]
      refine pairwise_of_AllSome _ _ _ hb (fun c c2 => c ≠ c2) _ hunc ?_
      intro c c2 x y hc hc2 hx hy hne heq
      obtain ⟨-, col, f2, f3⟩ := MainKeyPair_some _ _ _ _ hx
      obtain ⟨-, col2, g2, g3⟩ := MainKeyPair_some _ _ _ _ hy
      rw [heq] at f3
      have hname := LiveColumnId_injective _ _ _ _ hi f3 g3
      obtain ⟨u1, -⟩ := mem_UncoveredKeyColumns _ _ _ _ hc f2
      obtain ⟨v1, -⟩ := mem_UncoveredKeyColumns _ _ _ _ hc2 g2
      exact hne (LiveNamesDistinct_unique _ hdm c c2 col col2 (THashMap.mem_of_find _ _ _ f2)
        (THashMap.mem_of_find _ _ _ g2) (hlive c u1 col f2) (hlive c2 v1 col2 g2) hname)
    · intro v hv1 hv2
      obtain ⟨x, hx, rfl⟩ := List.mem_map.1 hv1
      obtain ⟨y, hy, hxy⟩ := List.mem_map.1 hv2
      obtain ⟨k, hk, hF⟩ := mem_of_AllSome _ _ _ ha x hx
      obtain ⟨c, hc, hG⟩ := mem_of_AllSome _ _ _ hb y hy
      obtain ⟨f1, -⟩ := IndexKeyPair_some _ _ _ _ hF
      obtain ⟨-, column, g2, g3⟩ := MainKeyPair_some _ _ _ _ hG
      obtain ⟨-, u2⟩ := mem_UncoveredKeyColumns _ _ _ _ hc g2
      rw [hxy] at g3
      rw [LiveColumnId_injective _ _ _ _ hi g3 f1] at u2
      exact u2 hk

/-- Witness of C30, amended, on the index example. -/
theorem mapping_columns_distinct_witness :
    ([((11 : Nat), (1 : Nat)), (12, 2), (13, 3)].map Prod.snd).Nodup ∧
    ((∀ c ∈ Example.MainTable.KeyColumnIds, ∀ column,
        THashMap.find Example.MainTable.Columns c = some column →
          column.IsDropped = false) →
      ([((11 : Nat), (1 : Nat)), (12, 2), (13, 3)].map Prod.fst).Nodup) :=
  mapping_columns_distinct Example.MainTable Example.IndexAB Example.ImplTable _ rfl
    (by decide) (by decide) (by decide) (by decide)

/-- Counterexample to C30: no index key, the distinct key columns 1 (dropped)
    and 2 (live) of the main table share the name `x`; `MakeColumnIds` returns a
    mapping in which the index-column id 11 occurs twice. -/
theorem mapping_columns_distinct_counterexample :
    MakeColumnIds Example.MainDroppedKey Example.IndexNoKeys Example.ImplX =
      some [(11, 1), (11, 2)] ∧
    Example.IndexNoKeys.IndexKeys.Nodup ∧ Example.MainDroppedKey.KeyColumnIds.Nodup ∧
    ¬ ([((11 : Nat), (1 : Nat)), (11, 2)].map Prod.fst).Nodup :=
  ⟨rfl, by decide, by decide, by decide⟩


/-! ## The fields of a request -/

/-- The request of a successful dispatch attempt, field by field: every value
    is read from the table record, the shard record and the clock. -/
theorem DoExecuteOnShard_fields (tx tx1 : TTxRunConditionalErase) (p : TTablePtr)
    (e : TTableShardInfo) (ctx : TActorContext)
    (h : DoExecuteOnShard tx p e ctx = some (true, tx1)) :
    ∃ (info : TShardInfo) (req : TEvConditionalEraseRowsRequest),
      THashMap.find tx.Self.ShardInfos e.ShardIdx = some info ∧
      tx1.RunOnTablets = (THashMap.emplace tx.RunOnTablets info.TabletID req).1 ∧
      req.TableId = info.PathId.LocalPathId ∧
      req.SchemaVersion = (tx.Self.TableObjs p).AlterVersion ∧
      req.Expiration.ColumnId = (tx.Self.TableObjs p).GetTTLColumnId ∧
      req.Expiration.WallClockTimestamp =
        ctx.Now - (tx.Self.TableObjs p).GetEnabled.ExpireAfterSeconds * 1000000 ∧
      req.Expiration.ColumnUnit = (tx.Self.TableObjs p).GetEnabled.ColumnUnit ∧
      req.Limits.BatchMaxBytes = (tx.Self.TableObjs p).GetEnabled.SysSettings.BatchMaxBytes ∧
      req.Limits.BatchMinKeys = (tx.Self.TableObjs p).GetEnabled.SysSettings.BatchMinKeys ∧
      req.Limits.BatchMaxKeys = (tx.Self.TableObjs p).GetEnabled.SysSettings.BatchMaxKeys := by
  unfold DoExecuteOnShard at h
  split at h
  · simp at h
  · split at h
    · simp at h
    · rename_i info hs
      split at h
      · simp at h
      · split at h
        · simp at h
        · split at h
          · simp at h
          · split at h
            · simp at h
            · simp only [Option.some.injEq, Prod.mk.injEq, true_and] at h
              subst h
              exact ⟨info, _, hs, rfl, rfl, rfl, rfl, rfl, rfl, rfl, rfl, rfl⟩

/-- C31 (expiration cutoff). Every erase request built by `DoExecuteOnShard`
    at time `now` for a table whose enabled TTL settings have
    `ExpireAfterSeconds = E`, with `E` seconds not later than `now`, carries the
    wall-clock cutoff `now - E * 1000000` microseconds exactly (adding the `E`
    seconds back gives `now`), the TTL column id and the column unit of the
    table as expiration column, the `LocalPathId` of the shard path as table
    id, the `AlterVersion` of the table as schema version, and the three batch
    limits of the sys settings unchanged; the request is the one emplaced into
    the batch under the tablet of the shard. -/
theorem expiration_cutoff (tx tx1 : TTxRunConditionalErase) (p : TTablePtr)
    (e : TTableShardInfo) (ctx : TActorContext) (st : TTTLSettingsEnabled)
    (hst : (tx.Self.TableObjs p).TTLSettings = some st)
    (hE : st.ExpireAfterSeconds * 1000000 ≤ ctx.Now)
    (h : DoExecuteOnShard tx p e ctx = some (true, tx1)) :
    ∃ (info : TShardInfo) (req : TEvConditionalEraseRowsRequest),
      THashMap.find tx.Self.ShardInfos e.ShardIdx = some info ∧
      tx1.RunOnTablets = (THashMap.emplace tx.RunOnTablets info.TabletID req).1 ∧
      (THashMap.contains tx.RunOnTablets info.TabletID = false →
        tx1.RunOnTablets = tx.RunOnTablets ++ [(info.TabletID, req)]) ∧
      req.Expiration.WallClockTimestamp = ctx.Now - st.ExpireAfterSeconds * 1000000 ∧
      req.Expiration.WallClockTimestamp + st.ExpireAfterSeconds * 1000000 = ctx.Now ∧
      req.Expiration.ColumnId = (tx.Self.TableObjs p).TTLColumnId ∧
      req.Expiration.ColumnUnit = st.ColumnUnit ∧
      req.TableId = info.PathId.LocalPathId ∧
      req.SchemaVersion = (tx.Self.TableObjs p).AlterVersion ∧
      req.Limits.BatchMaxBytes = st.SysSettings.BatchMaxBytes ∧
      req.Limits.BatchMinKeys = st.SysSettings.BatchMinKeys ∧
      req.Limits.BatchMaxKeys = st.SysSettings.BatchMaxKeys := by
  obtain ⟨info, req, hs, hb, h1, h2, h3, h4, h5, h6, h7, h8⟩ :=
    DoExecuteOnShard_fields tx tx1 p e ctx h
  have hset : (tx.Self.TableObjs p).GetEnabled = st := by
    simp [TTableInfo.GetEnabled, hst]
  rw [hset] at h4 h5 h6 h7 h8
  refine ⟨info, req, hs, hb, ?_, h4, ?_, h3, h5, h1, h2, h6, h7, h8⟩
  · intro hc
    rw [hb, THashMap.emplace, hc]
    simp
  · rw [h4]
    delta TInstant at *
    omega

theorem expiration_cutoff_witness :
    ∃ (info : TShardInfo) (req : TEvConditionalEraseRowsRequest),
      THashMap.find Example.Idle.ShardInfos Example.Shard1 = some info ∧
      info.TabletID = 101 ∧
      (DoExecuteOnShard (CreateTxRunConditionalEraseOnTable Example.Idle 0) 0
          { ShardIdx := Example.Shard1, NextCondErase := 10, LastCondEraseLag := some 0 }
          Example.At60s).map (fun r => r.2.RunOnTablets) = some [(101, req)] ∧
      req.Expiration.WallClockTimestamp = 55000000 ∧
      req.Expiration.WallClockTimestamp + 5 * 1000000 = 60000000 ∧
      req.Expiration.ColumnId = 2 ∧
      req.Expiration.ColumnUnit = 0 ∧
      req.TableId = 5 ∧
      req.SchemaVersion = 1 ∧
      req.Limits.BatchMaxBytes = 1 ∧
      req.Limits.BatchMinKeys = 2 ∧
      req.Limits.BatchMaxKeys = 3 := by
  obtain ⟨info, req, hs, _, ha, h1, h2, h3, h4, h5, h6, h7, h8, h9⟩ :=
    expiration_cutoff (CreateTxRunConditionalEraseOnTable Example.Idle 0)
      ((DoExecuteOnShard (CreateTxRunConditionalEraseOnTable Example.Idle 0) 0
          { ShardIdx := Example.Shard1, NextCondErase := 10, LastCondEraseLag := some 0 }
          Example.At60s).getD (false, CreateTxRunConditionalEraseOnTable Example.Idle 0)).2
      0 { ShardIdx := Example.Shard1, NextCondErase := 10, LastCondEraseLag := some 0 }
      Example.At60s Example.Settings rfl (by decide) rfl
  have hinfo : info = { TabletID := 101, PathId := Example.TablePath } :=
    (Option.some.inj hs).symm
  subst hinfo
  have hb := ha rfl
  refine ⟨_, req, hs, rfl, ?_, h1, h2, h3, h4, h5, h6, h7, h8, h9⟩
  have hsome : DoExecuteOnShard (CreateTxRunConditionalEraseOnTable Example.Idle 0) 0
      { ShardIdx := Example.Shard1, NextCondErase := 10, LastCondEraseLag := some 0 }
      Example.At60s = some ((DoExecuteOnShard (CreateTxRunConditionalEraseOnTable Example.Idle 0) 0
          { ShardIdx := Example.Shard1, NextCondErase := 10, LastCondEraseLag := some 0 }
          Example.At60s).getD (false, CreateTxRunConditionalEraseOnTable Example.Idle 0)) := rfl
  rw [hsome, Option.map_some', hb]
  rfl

/-! ## In-flight requests are re-sent -/

/-- C2, amended (in-flight requests are re-sent, in-flight partitions are not
    popped). For a partition that is in flight, still resolves in the catalog
    and is due, on a table that satisfies the scheduler invariant (the mapping
    agrees with the partition list, each partition's shard is in exactly one of
    the in-flight set and the pending schedule), a `RunDue` on its table
    (catalog consistent, so no assertion fires) completes and puts a request
    addressed to the partition's tablet into the outgoing batch, with at most
    one request per tablet. The partition stays in the in-flight set, there
    once, and is in the pending schedule neither before nor after the call.
    The call is a reschedule of the set `R` of in-flight shards whose attempt
    fails followed by the dispatch of the entries `D` popped from the pending
    schedule: the shard of the partition is not in `R`, and no entry of `D` is
    an entry of its shard, so it is not dispatched from the pending schedule a
    second time. -/
theorem in_flight_request_resent (S : TSchemeShard) (p : TTablePtr) (ctx : TActorContext)
    (s : TShardIdx) (st : TTTLSettingsEnabled) (e : TTableShardInfo)
    (hflag : S.AllowConditionalEraseOperations = true)
    (hst : (S.TableObjs p).TTLSettings = some st)
    (hin : s ∈ (S.TableObjs p).InFlightCondErase)
    (hI : SchedulerInvariant (S.TableObjs p))
    (hmap : InFlightMapped (S.TableObjs p)) (hok : IndexCatalogOk S)
    (he : (S.TableObjs p).PartitionOf s = some e) (hes : e.ShardIdx = s)
    (hdue : e.NextCondErase ≤ ctx.Now) (hres : ShardResolves S s = true) :
    ∃ (tx : TTxRunConditionalErase) (R : THashSet TShardIdx) (D : List (Nat × TTableShardInfo)),
      RunDue S (some p) ctx = some tx ∧
      AddressedTo tx.Self tx.RunOnTablets s = true ∧
      (THashMap.keys tx.RunOnTablets).Nodup ∧
      s ∈ (tx.Self.TableObjs p).InFlightCondErase ∧
      (tx.Self.TableObjs p).InFlightCondErase.count s = 1 ∧
      s ∉ PendingShards (S.TableObjs p) ∧
      s ∉ PendingShards (tx.Self.TableObjs p) ∧
      s ∉ R ∧
      tx.Self.TableObjs p = (S.TableObjs p).WithSched
        ((D.map (fun d => d.2.ShardIdx)).foldl THashSet.insert
          ((S.TableObjs p).InFlightCondErase.filter (fun x => decide (x ∉ R))))
        ((D.map Prod.fst).foldl List.erase
          ((S.TableObjs p).CondEraseSchedule ++
            R.filterMap (THashMap.find (S.TableObjs p).Shard2PartitionIdx))) ∧
      ∀ d ∈ D, (S.TableObjs p).Partitions[d.1]? = some d.2 ∧ d.2.ShardIdx ≠ s := by
  rw [RunDue_on_table S p ctx hflag]
  obtain ⟨tx3, h3⟩ := DoExecuteOnTable_total
    { Self := S, TableInfo := some p, RunOnTablets := [] } p ctx hok hmap
  have hI3 : SchedulerInvariant (tx3.Self.TableObjs p) :=
    DoExecuteOnTable_invariant _ tx3 p p ctx h3 hI
  obtain ⟨tx1, R, hl, hd⟩ := DoExecuteOnTable_enabled _ tx3 p ctx st hst h3
  obtain ⟨l1, -, l3, -, -, l6, l7⟩ := InFlightLoop_spec _ _ _ _ _ _ _ hl
  obtain ⟨D, i1, -, i3, i4, -, -, -, i8, -, -⟩ := DispatchLoop_spec _ _ _ _ _ _ hd
  rw [RescheduleLoop_eq] at i1 i3 i4 i8
  simp only [l1, SetTable_TableObjs_same, SetTable_SetTable, WithSched_WithSched,
    WithSched_InFlightCondErase, WithSched_CondEraseSchedule, WithSched_Partitions,
    BatchGrows_SetTable] at i1 i3 i4 i8 l3 l7
  have hatt : DispatchAttempt S e ctx = true := by
    simp [DispatchAttempt, hdue, hes, hres]
  obtain ⟨info, hinfo, hc⟩ := l7 s hin e he hatt
  have hsR : s ∉ R := by
    intro hR
    rcases (l3 s).1 hR with h | ⟨-, e2, h1, h2⟩
    · simp at h
    · rw [he] at h1
      simp at h1
      subst h1
      rw [hatt] at h2
      simp at h2
  have htab : tx3.Self.TableObjs p = (S.TableObjs p).WithSched
      ((D.map (fun d => d.2.ShardIdx)).foldl THashSet.insert
        ((S.TableObjs p).InFlightCondErase.filter (fun x => decide (x ∉ R))))
      ((D.map Prod.fst).foldl List.erase
        ((S.TableObjs p).CondEraseSchedule ++
          R.filterMap (THashMap.find (S.TableObjs p).Shard2PartitionIdx))) := by
    rw [i1, SetTable_TableObjs_same]
  have hin3 : s ∈ (tx3.Self.TableObjs p).InFlightCondErase := by
    rw [htab, WithSched_InFlightCondErase, THashSet.mem_foldl_insert]
    left
    rw [List.mem_filter]
    exact ⟨hin, by simpa using hsR⟩
  obtain ⟨i, hi, hei⟩ : ∃ i, THashMap.find (S.TableObjs p).Shard2PartitionIdx s = some i ∧
      (S.TableObjs p).Partitions[i]? = some e := by
    unfold TTableInfo.PartitionOf at he
    exact Option.bind_eq_some.1 he
  have hmem : e ∈ (S.TableObjs p).Partitions := mem_of_getElem?_eq_some _ _ _ hei
  have hmem3 : e ∈ (tx3.Self.TableObjs p).Partitions := by
    rw [htab, WithSched_Partitions]
    exact hmem
  have hpend : s ∉ PendingShards (S.TableObjs p) := by
    rcases ExactlyOne_membership _ hI.2 e hmem with h | h
    · rw [hes] at h; exact h.2
    · rw [hes] at h; exact absurd hin h.1
  have hpend3 : s ∉ PendingShards (tx3.Self.TableObjs p) := by
    rcases ExactlyOne_membership _ hI3.2 e hmem3 with h | h
    · rw [hes] at h; exact h.2
    · rw [hes] at h; exact absurd hin3 h.1
  have hcount : (tx3.Self.TableObjs p).InFlightCondErase.count s = 1 := by
    have h1 := hI3.2 e hmem3
    rw [hes, List.count_eq_zero.2 hpend3] at h1
    exact h1
  refine ⟨tx3, R, D, h3, ?_, ?_, hin3, hcount, hpend, hpend3, hsR, htab, ?_⟩
  · rw [i1]
    simp only [AddressedTo, SetTable_ShardInfos]
    rw [← hes, hinfo]
    exact i8.1 _ hc
  · exact i8.2.2 (l6.2.2 (by simp [THashMap.keys]))
  · intro d hdD
    refine ⟨(i3 d hdD).1, fun hds => ?_⟩
    have hd1 : d.1 ∈ D.map Prod.fst ++ (tx3.Self.TableObjs p).CondEraseSchedule :=
      List.mem_append_left _ (List.mem_map.2 ⟨d, hdD, rfl⟩)
    have hd2 := i4.subset hd1
    rcases List.mem_append.1 hd2 with hsch | hresch
    · apply hpend
      unfold PendingShards
      rw [List.mem_filterMap]
      exact ⟨d.1, hsch, by rw [(i3 d hdD).1]; simp [hds]⟩
    · rw [List.mem_filterMap] at hresch
      obtain ⟨r, hr, hfind⟩ := hresch
      have := hI.1 r d.1 d.2 hfind (i3 d hdD).1
      rw [hds] at this
      exact hsR (this ▸ hr)

theorem Example.SchedulerInvariant_OneBusy :
    SchedulerInvariant (Example.OneBusy.TableObjs 0) := by
  refine ⟨fun s i e h1 h2 => Example.MappingConsistent_Table s i e h1 h2, ?_⟩
  unfold ExactlyOne
  decide

theorem Example.InFlightMapped_OneBusy : InFlightMapped (Example.OneBusy.TableObjs 0) := by
  intro s hs
  simp [Example.OneBusy, Example.Catalog, Example.Table, TTableInfo.WithSched] at hs
  subst hs
  exact ⟨0, _, rfl, rfl⟩

/-- Witness of the amended C2 on `Example.OneBusy`: shard 1 is in flight,
    resolves and is due at time 20, shards 2 and 3 are pending and the cap is
    two. The run re-sends the request of shard 1 to tablet 101 and pops an
    entry of shard 2; shard 1 stays in flight and is not among the entries
    popped. -/
theorem in_flight_request_resent_witness :
    RunDue Example.OneBusy (some 0) Example.At20 = some Example.OneBusyRun ∧
    ∃ (tx : TTxRunConditionalErase) (R : THashSet TShardIdx)
      (D : List (Nat × TTableShardInfo)),
      RunDue Example.OneBusy (some 0) Example.At20 = some tx ∧
      AddressedTo tx.Self tx.RunOnTablets Example.Shard1 = true ∧
      (THashMap.keys tx.RunOnTablets).Nodup ∧
      Example.Shard1 ∈ (tx.Self.TableObjs 0).InFlightCondErase ∧
      (tx.Self.TableObjs 0).InFlightCondErase.count Example.Shard1 = 1 ∧
      Example.Shard1 ∉ PendingShards (Example.OneBusy.TableObjs 0) ∧
      Example.Shard1 ∉ PendingShards (tx.Self.TableObjs 0) ∧
      Example.Shard1 ∉ R ∧
      tx.Self.TableObjs 0 = (Example.OneBusy.TableObjs 0).WithSched
        ((D.map (fun d => d.2.ShardIdx)).foldl THashSet.insert
          ((Example.OneBusy.TableObjs 0).InFlightCondErase.filter (fun x => decide (x ∉ R))))
        ((D.map Prod.fst).foldl List.erase
          ((Example.OneBusy.TableObjs 0).CondEraseSchedule ++
            R.filterMap (THashMap.find (Example.OneBusy.TableObjs 0).Shard2PartitionIdx))) ∧
      (∀ d ∈ D, (Example.OneBusy.TableObjs 0).Partitions[d.1]? = some d.2 ∧
        d.2.ShardIdx ≠ Example.Shard1) ∧
      Example.Shard2 ∈ D.map (fun d => d.2.ShardIdx) ∧
      (tx.Self.TableObjs 0).InFlightCondErase = [Example.Shard1, Example.Shard2] ∧
      PendingShards (tx.Self.TableObjs 0) = [Example.Shard3] := by
  refine ⟨rfl, ?_⟩
  obtain ⟨tx, R, D, h1, h2, h3, h4, h5, h6, h7, h8, h9, h10⟩ :=
    in_flight_request_resent Example.OneBusy 0 Example.At20 Example.Shard1 Example.Settings
      { ShardIdx := Example.Shard1, NextCondErase := 10, LastCondEraseLag := some 0 }
      rfl rfl (by decide) Example.SchedulerInvariant_OneBusy Example.InFlightMapped_OneBusy
      (Example.IndexCatalogOk_Catalog _ _ _) rfl rfl (by decide) (by decide)
  have hrun : RunDue Example.OneBusy (some 0) Example.At20 = some Example.OneBusyRun := rfl
  have htx : tx = Example.OneBusyRun := by
    rw [hrun] at h1
    exact (Option.some.inj h1).symm
  have hfl : (tx.Self.TableObjs 0).InFlightCondErase = [Example.Shard1, Example.Shard2] := by
    rw [htx]
    decide
  have hpe : PendingShards (tx.Self.TableObjs 0) = [Example.Shard3] := by
    rw [htx]
    decide
  refine ⟨tx, R, D, h1, h2, h3, h4, h5, h6, h7, h8, h9, h10, ?_, hfl, hpe⟩
  have hmem : Example.Shard2 ∈ (tx.Self.TableObjs 0).InFlightCondErase := by
    rw [hfl]
    decide
  rw [h9, WithSched_InFlightCondErase, THashSet.mem_foldl_insert] at hmem
  rcases hmem with h | h
  · have hh := (List.mem_filter.1 h).1
    exact absurd hh (by decide)
  · exact h

end NSchemeShard

/-! ## Change-record sending: the theory -/

namespace NDataShard

open NSchemeShard (THashMap THashSet TPathId)


/-! ### Removal of change records -/

/-- The records `RemoveChangeRecord` is called for, applied in order. -/
theorem TTxRemoveChangeRecords.RemoveLoop_spec (l : List Nat) :
    ∀ (tx : TTxRemoveChangeRecords) (db : TNiceDb),
      tx.RemovedCount ≤ TTxRemoveChangeRecords.BucketSize →
      (TTxRemoveChangeRecords.RemoveLoop l tx db).1 =
          l.drop (min l.length (TTxRemoveChangeRecords.BucketSize - tx.RemovedCount)) ∧
        (TTxRemoveChangeRecords.RemoveLoop l tx db).2.1.RemovedCount =
          tx.RemovedCount + min l.length (TTxRemoveChangeRecords.BucketSize - tx.RemovedCount) ∧
        ((TTxRemoveChangeRecords.RemoveLoop l tx db).2.1.Self,
            (TTxRemoveChangeRecords.RemoveLoop l tx db).2.2) =
          (l.take (min l.length (TTxRemoveChangeRecords.BucketSize - tx.RemovedCount))).foldl
            (fun s order => s.1.RemoveChangeRecord s.2 order) (tx.Self, db) ∧
        (TTxRemoveChangeRecords.RemoveLoop l tx db).2.1.ActivationList = tx.ActivationList ∧
        (TTxRemoveChangeRecords.RemoveLoop l tx db).2.1.ChangeExchangeSplit =
          tx.ChangeExchangeSplit := by
  induction l with
  | nil => intro tx db _; simp [TTxRemoveChangeRecords.RemoveLoop]
  | cons order rest ih =>
    intro tx db hle
    unfold TTxRemoveChangeRecords.RemoveLoop
    by_cases hlt : tx.RemovedCount < TTxRemoveChangeRecords.BucketSize
    · rw [if_pos hlt]
      obtain ⟨h1, h2, h3, h4, h5⟩ := ih
        { tx with
          Self := (tx.Self.RemoveChangeRecord db order).1
          RemovedCount := tx.RemovedCount + 1 }
        (tx.Self.RemoveChangeRecord db order).2 hlt
      have hk : min (order :: rest).length (TTxRemoveChangeRecords.BucketSize - tx.RemovedCount) =
          min rest.length (TTxRemoveChangeRecords.BucketSize - (tx.RemovedCount + 1)) + 1 := by
        simp only [List.length_cons]
        omega
      rw [hk]
      refine ⟨?_, ?_, ?_, h4, h5⟩
      · rw [h1]; rfl
      · rw [h2]; simp only []; omega
      · rw [h3]; rfl
    · rw [if_neg hlt]
      have hz : TTxRemoveChangeRecords.BucketSize - tx.RemovedCount = 0 := by omega
      simp [hz]

theorem TTxRemoveChangeRecords.FillActivationList_frame (tx : TTxRemoveChangeRecords) :
    (TTxRemoveChangeRecords.FillActivationList tx).Self = tx.Self ∧
      (TTxRemoveChangeRecords.FillActivationList tx).RemovedCount = tx.RemovedCount := by
  unfold TTxRemoveChangeRecords.FillActivationList
  split
  · split <;> exact ⟨rfl, rfl⟩
  · exact ⟨rfl, rfl⟩

/-- C34 (batched removal). One `Execute` of a fresh `TTxRemoveChangeRecords`
    on a set `ChangeRecordsToRemove` of `n` records returns true, calls
    `RemoveChangeRecord` for exactly the first `min n 1000` records of the set
    (`RemovedCount` is `min n 1000`, `BucketSize` being 1000) and leaves the
    other `n - min n 1000` records in the set; `Complete` then submits a new
    transaction if and only if the set is still non-empty, leaving the shard as
    it is, and otherwise clears `RemoveChangeRecordsInFly` and submits
    nothing. -/
theorem removal_batched (self : TDataShard) (db : TNiceDb) :
    TTxRemoveChangeRecords.BucketSize = 1000 ∧
    (TTxRemoveChangeRecords.Execute (TTxRemoveChangeRecords.New self) db).1 = true ∧
    (TTxRemoveChangeRecords.Execute (TTxRemoveChangeRecords.New self) db).2.1.RemovedCount =
      min self.ChangeRecordsToRemove.length 1000 ∧
    (TTxRemoveChangeRecords.Execute
        (TTxRemoveChangeRecords.New self) db).2.1.Self.ChangeRecordsToRemove =
      self.ChangeRecordsToRemove.drop (min self.ChangeRecordsToRemove.length 1000) ∧
    (TTxRemoveChangeRecords.Execute
        (TTxRemoveChangeRecords.New self) db).2.1.Self.ChangeRecordsToRemove.length =
      self.ChangeRecordsToRemove.length - min self.ChangeRecordsToRemove.length 1000 ∧
    ((TTxRemoveChangeRecords.Execute (TTxRemoveChangeRecords.New self) db).2.1.Self,
        (TTxRemoveChangeRecords.Execute (TTxRemoveChangeRecords.New self) db).2.2) =
      ({ ((self.ChangeRecordsToRemove.take (min self.ChangeRecordsToRemove.length 1000)).foldl
            (fun s order => s.1.RemoveChangeRecord s.2 order) (self, db)).1 with
          ChangeRecordsToRemove :=
            self.ChangeRecordsToRemove.drop (min self.ChangeRecordsToRemove.length 1000) },
        ((self.ChangeRecordsToRemove.take (min self.ChangeRecordsToRemove.length 1000)).foldl
            (fun s order => s.1.RemoveChangeRecord s.2 order) (self, db)).2) ∧
    ((TTxRemoveChangeRecords.Complete
          (TTxRemoveChangeRecords.Execute (TTxRemoveChangeRecords.New self) db).2.1).2.Resubmit
        = true ↔
      (TTxRemoveChangeRecords.Execute
        (TTxRemoveChangeRecords.New self) db).2.1.Self.ChangeRecordsToRemove ≠ []) ∧
    ((TTxRemoveChangeRecords.Complete
          (TTxRemoveChangeRecords.Execute (TTxRemoveChangeRecords.New self) db).2.1).2.Resubmit
        = true ↔ 1000 < self.ChangeRecordsToRemove.length) ∧
    ((TTxRemoveChangeRecords.Complete
          (TTxRemoveChangeRecords.Execute (TTxRemoveChangeRecords.New self) db).2.1).2.Resubmit
        = true →
      (TTxRemoveChangeRecords.Complete
          (TTxRemoveChangeRecords.Execute (TTxRemoveChangeRecords.New self) db).2.1).1 =
        (TTxRemoveChangeRecords.Execute (TTxRemoveChangeRecords.New self) db).2.1.Self) ∧
    ((TTxRemoveChangeRecords.Complete
          (TTxRemoveChangeRecords.Execute (TTxRemoveChangeRecords.New self) db).2.1).2.Resubmit
        = false →
      (TTxRemoveChangeRecords.Complete
          (TTxRemoveChangeRecords.Execute (TTxRemoveChangeRecords.New self) db).2.1).1 =
        { (TTxRemoveChangeRecords.Execute (TTxRemoveChangeRecords.New self) db).2.1.Self with
          RemoveChangeRecordsInFly := false }) := by
  have hloop := TTxRemoveChangeRecords.RemoveLoop_spec self.ChangeRecordsToRemove
    (TTxRemoveChangeRecords.New self) db (Nat.zero_le _)
  simp only [TTxRemoveChangeRecords.New, TTxRemoveChangeRecords.BucketSize, Nat.sub_zero]
    at hloop
  obtain ⟨h1, h2, h3, _, _⟩ := hloop
  have hexec : (TTxRemoveChangeRecords.Execute (TTxRemoveChangeRecords.New self) db).1 = true ∧
      (TTxRemoveChangeRecords.Execute (TTxRemoveChangeRecords.New self) db).2.1.RemovedCount =
        min self.ChangeRecordsToRemove.length 1000 ∧
      ((TTxRemoveChangeRecords.Execute (TTxRemoveChangeRecords.New self) db).2.1.Self,
          (TTxRemoveChangeRecords.Execute (TTxRemoveChangeRecords.New self) db).2.2) =
        ({ ((self.ChangeRecordsToRemove.take (min self.ChangeRecordsToRemove.length 1000)).foldl
              (fun s order => s.1.RemoveChangeRecord s.2 order) (self, db)).1 with
            ChangeRecordsToRemove :=
              self.ChangeRecordsToRemove.drop (min self.ChangeRecordsToRemove.length 1000) },
          ((self.ChangeRecordsToRemove.take (min self.ChangeRecordsToRemove.length 1000)).foldl
              (fun s order => s.1.RemoveChangeRecord s.2 order) (self, db)).2) := by
    unfold TTxRemoveChangeRecords.Execute
    by_cases hempty : self.ChangeRecordsToRemove = []
    · simp [TTxRemoveChangeRecords.New, hempty,
        (TTxRemoveChangeRecords.FillActivationList_frame _).1,
        (TTxRemoveChangeRecords.FillActivationList_frame _).2]
      cases self
      simp only at hempty
      subst hempty
      rfl
    · have hne : (TTxRemoveChangeRecords.New self).Self.ChangeRecordsToRemove.isEmpty = false := by
        cases hl : self.ChangeRecordsToRemove with
        | nil => exact absurd hl hempty
        | cons a l => simp [TTxRemoveChangeRecords.New, hl]
      rw [hne]
      simp only [Bool.false_eq_true, if_false,
        (TTxRemoveChangeRecords.FillActivationList_frame _).1,
        (TTxRemoveChangeRecords.FillActivationList_frame _).2]
      simp only [TTxRemoveChangeRecords.New]
      refine ⟨trivial, h2.trans (Nat.zero_add _), ?_⟩
      rw [h1]
      have h3a := congrArg Prod.fst h3
      have h3b := congrArg Prod.snd h3
      simp only at h3a h3b
      rw [h3a, h3b]
  obtain ⟨e1, e2, e3⟩ := hexec
  have e4 := congrArg Prod.fst e3
  simp only at e4
  have hdrop : (TTxRemoveChangeRecords.Execute
        (TTxRemoveChangeRecords.New self) db).2.1.Self.ChangeRecordsToRemove =
      self.ChangeRecordsToRemove.drop (min self.ChangeRecordsToRemove.length 1000) := by
    rw [e4]
  have hres : ∀ tx : TTxRemoveChangeRecords,
      ((TTxRemoveChangeRecords.Complete tx).2.Resubmit = true ↔
          tx.Self.ChangeRecordsToRemove ≠ []) ∧
        ((TTxRemoveChangeRecords.Complete tx).2.Resubmit = true →
          (TTxRemoveChangeRecords.Complete tx).1 = tx.Self) ∧
        ((TTxRemoveChangeRecords.Complete tx).2.Resubmit = false →
          (TTxRemoveChangeRecords.Complete tx).1 =
            { tx.Self with RemoveChangeRecordsInFly := false }) := by
    intro tx
    unfold TTxRemoveChangeRecords.Complete
    cases hl : tx.Self.ChangeRecordsToRemove with
    | nil => simp
    | cons a l => simp
  obtain ⟨r1, r2, r3⟩ := hres (TTxRemoveChangeRecords.Execute (TTxRemoveChangeRecords.New self) db).2.1
  refine ⟨rfl, e1, e2, hdrop, ?_, e3, r1, ?_, r2, r3⟩
  · rw [hdrop, List.length_drop]
  · rw [r1, hdrop]
    rw [Ne, List.drop_eq_nil_iff]
    omega

theorem removal_batched_witness :
    (TTxRemoveChangeRecords.Execute
        (TTxRemoveChangeRecords.New Example.Shard) Example.Db).2.1.RemovedCount = 3 ∧
      (TTxRemoveChangeRecords.Execute
        (TTxRemoveChangeRecords.New Example.Shard) Example.Db).2.1.Self.ChangeRecordsToRemove
          = [] ∧
      (TTxRemoveChangeRecords.Complete
        (TTxRemoveChangeRecords.Execute
          (TTxRemoveChangeRecords.New Example.Shard) Example.Db).2.1).1.RemoveChangeRecordsInFly
          = false :=
  ⟨(removal_batched Example.Shard Example.Db).2.2.1,
    (removal_batched Example.Shard Example.Db).2.2.2.1,
    congrArg TDataShard.RemoveChangeRecordsInFly
      ((removal_batched Example.Shard Example.Db).2.2.2.2.2.2.2.2.2 rfl)⟩


/-! ### Maps of vectors -/

theorem Flat_nil {K V : Type} : Flat ([] : THashMap K (List V)) = [] := rfl

theorem Flat_cons {K V : Type} (k : K) (l : List V) (m : THashMap K (List V)) :
    Flat ((k, l) :: m) = l ++ Flat m := by
  simp [Flat]

theorem Flat_PushBack {K V : Type} [DecidableEq K] (m : THashMap K (List V)) (k : K) (v : V) :
    (Flat (PushBack m k v)).Perm (Flat m ++ [v]) := by
  induction m with
  | nil => simp [PushBack, Flat]
  | cons hd rest ih =>
    obtain ⟨a, l⟩ := hd
    unfold PushBack
    by_cases hk : a = k
    · rw [if_pos hk, Flat_cons, Flat_cons, List.append_assoc, List.append_assoc]
      exact List.Perm.append_left l List.perm_append_comm
    · rw [if_neg hk, Flat_cons, Flat_cons, List.append_assoc]
      exact List.Perm.append_left l ih

/-- Three-way splits of two lists combine into a split of their
    concatenation. -/
theorem perm_split_append {α : Type} (a1 b1 c1 x a2 b2 c2 y : List α)
    (h1 : (a1 ++ (b1 ++ c1)).Perm x) (h2 : (a2 ++ (b2 ++ c2)).Perm y) :
    ((a1 ++ a2) ++ ((b1 ++ b2) ++ (c1 ++ c2))).Perm (x ++ y) := by
  have e1 := Multiset.coe_eq_coe.2 h1
  have e2 := Multiset.coe_eq_coe.2 h2
  apply Multiset.coe_eq_coe.1
  simp only [← Multiset.coe_add] at e1 e2 ⊢
  rw [← e1, ← e2]
  abel

/-- A split of what the first split left refines the first split. -/
theorem perm_split_trans {α : Type} (a1 b1 c1 x a2 b2 c2 : List α)
    (h1 : (a1 ++ (b1 ++ c1)).Perm x) (h2 : (a2 ++ (b2 ++ c2)).Perm c1) :
    ((a1 ++ a2) ++ ((b1 ++ b2) ++ c2)).Perm x := by
  have e1 := Multiset.coe_eq_coe.2 h1
  have e2 := Multiset.coe_eq_coe.2 h2
  apply Multiset.coe_eq_coe.1
  simp only [← Multiset.coe_add] at e1 e2 ⊢
  rw [← e1, ← e2]
  abel

theorem TTxRequestChangeRecords.Left_foldl (m : THashMap TActorId (List TRecordInfo)) :
    ∀ a : Nat, m.foldl (fun left kv => left + kv.2.length) a = a + (Flat m).length := by
  induction m with
  | nil => intro a; simp [Flat]
  | cons hd rest ih =>
    intro a
    obtain ⟨k, l⟩ := hd
    rw [List.foldl_cons, ih, Flat_cons, List.length_append]
    simp only []
    omega

/-- The count `left` of `Complete` is the number of requested records. -/
theorem TTxRequestChangeRecords.Left_eq (self : TDataShard) :
    TTxRequestChangeRecords.Left self = (Flat self.ChangeRecordsRequested).length := by
  unfold TTxRequestChangeRecords.Left
  rw [TTxRequestChangeRecords.Left_foldl]
  omega


/-! ### Selection of change records -/

theorem sum_eq_zero_all (l : List TRecordInfo)
    (h : (l.map TRecordInfo.BodySize).sum = 0) : ∀ z ∈ l, z.BodySize = 0 := by
  induction l with
  | nil => intro z hz; cases hz
  | cons a rest ih =>
    simp only [List.map_cons, List.sum_cons] at h
    intro z hz
    rcases List.mem_cons.1 hz with hz | hz
    · subst hz; omega
    · exact ih (by omega) z hz

/-- Admitting a record keeps the sent records within the limit: the test of
    the loop failed, so either nothing of positive size was sent before or the
    new total fits. -/
theorem WithinMemLimit_admit (prev : List TRecordInfo) (it : TRecordInfo)
    (h : ¬ ((prev.map TRecordInfo.BodySize).sum ≠ 0 ∧
      (prev.map TRecordInfo.BodySize).sum + it.BodySize > TTxRequestChangeRecords.MemLimit)) :
    WithinMemLimit (prev ++ [it]) := by
  by_cases hz : (prev.map TRecordInfo.BodySize).sum = 0
  · exact Or.inr ⟨prev, it, rfl, sum_eq_zero_all prev hz⟩
  · left
    simp only [List.map_append, List.sum_append, List.map_cons, List.map_nil, List.sum_cons,
      List.sum_nil]
    have : ¬ (prev.map TRecordInfo.BodySize).sum + it.BodySize >
        TTxRequestChangeRecords.MemLimit := fun hgt => h ⟨hz, hgt⟩
    omega

/-- The inner loop of `Select`, record by record: the records of the recipient
    are split into those sent, those forgotten and those left; the two maps of
    the transaction grow by the sent and the forgotten orders; without
    wrap-around `MemUsage` grows by the body sizes of the sent records, stays
    within the limit, and a transaction above the limit is left as it is. -/
theorem TTxRequestChangeRecords.SelectRecords_spec (db : TNiceDb) (recipient : TActorId)
    (records : List TRecordInfo) :
    ∀ (tx : TTxRequestChangeRecords) (b : Bool) (left : List TRecordInfo)
      (tx1 : TTxRequestChangeRecords),
      TTxRequestChangeRecords.SelectRecords db recipient records tx = some (b, left, tx1) →
      ∃ (sent forgot : List TRecordInfo),
        (sent ++ (forgot ++ left)).Perm records ∧
        tx1.Self = tx.Self ∧
        ((Flat tx1.RecordsToSend).map TChangeRecord.Order).Perm
          ((Flat tx.RecordsToSend).map TChangeRecord.Order ++ sent.map TRecordInfo.Order) ∧
        (Flat tx1.RecordsToForget).Perm
          (Flat tx.RecordsToForget ++ forgot.map TRecordInfo.Order) ∧
        (tx.MemUsage + (records.map TRecordInfo.BodySize).sum < SizeMax →
          tx1.MemUsage = tx.MemUsage + (sent.map TRecordInfo.BodySize).sum ∧
          (∀ prev : List TRecordInfo, tx.MemUsage = (prev.map TRecordInfo.BodySize).sum →
            WithinMemLimit prev → WithinMemLimit (prev ++ sent)) ∧
          (TTxRequestChangeRecords.MemLimit < tx.MemUsage →
            b = true ∧ left = records ∧ tx1 = tx ∧ sent = [] ∧ forgot = [])) := by
  induction records with
  | nil =>
    intro tx b left tx1 h
    simp only [TTxRequestChangeRecords.SelectRecords, Option.some.injEq, Prod.mk.injEq] at h
    obtain ⟨hb, hl, ht⟩ := h
    subst hb; subst hl; subst ht
    refine ⟨[], [], List.Perm.refl _, rfl, by simp, by simp, fun _ => ⟨by simp, ?_, ?_⟩⟩
    · intro prev _ hw; simpa using hw
    · intro _; exact ⟨rfl, rfl, rfl, rfl, rfl⟩
  | cons it rest ih =>
    intro tx b left tx1 h
    unfold TTxRequestChangeRecords.SelectRecords at h
    by_cases hbreak : tx.MemUsage ≠ 0 ∧
        (tx.MemUsage + it.BodySize) % SizeMax > TTxRequestChangeRecords.MemLimit
    · rw [if_pos hbreak] at h
      simp only [Option.some.injEq, Prod.mk.injEq] at h
      obtain ⟨hb, hl, ht⟩ := h
      subst hb; subst hl; subst ht
      refine ⟨[], [], List.Perm.refl _, rfl, by simp, by simp, fun _ => ⟨by simp, ?_, ?_⟩⟩
      · intro prev _ hw; simpa using hw
      · intro _; exact ⟨rfl, rfl, rfl, rfl, rfl⟩
    · rw [if_neg hbreak] at h
      have hover : ∀ (_ : tx.MemUsage + ((it :: rest).map TRecordInfo.BodySize).sum < SizeMax),
          ¬ TTxRequestChangeRecords.MemLimit < tx.MemUsage := by
        intro hfit hgt
        apply hbreak
        simp only [List.map_cons, List.sum_cons] at hfit
        have hmod : (tx.MemUsage + it.BodySize) % SizeMax = tx.MemUsage + it.BodySize :=
          Nat.mod_eq_of_lt (by omega)
        rw [hmod]
        constructor <;> omega
      cases hbasic : db.ChangeRecords it.Order with
      | NotReady =>
        simp only [hbasic, TRowset.IsReady, Bool.not_false, Bool.true_or, if_true,
          Option.some.injEq, Prod.mk.injEq] at h
        obtain ⟨hb, hl, ht⟩ := h
        subst hb; subst hl; subst ht
        refine ⟨[], [], List.Perm.refl _, rfl, by simp, by simp, fun hfit => ⟨by simp, ?_, ?_⟩⟩
        · intro prev _ hw; simpa using hw
        · intro hgt; exact absurd hgt (hover hfit)
      | Absent =>
        cases hdetails : db.ChangeRecordDetails it.Order with
        | NotReady =>
          simp only [hbasic, hdetails, TRowset.IsReady, Bool.not_false, Bool.or_true, if_true,
            Option.some.injEq, Prod.mk.injEq] at h
          obtain ⟨hb, hl, ht⟩ := h
          subst hb; subst hl; subst ht
          refine ⟨[], [], List.Perm.refl _, rfl, by simp, by simp,
            fun hfit => ⟨by simp, ?_, ?_⟩⟩
          · intro prev _ hw; simpa using hw
          · intro hgt; exact absurd hgt (hover hfit)
        | Absent =>
          simp only [hbasic, hdetails, TRowset.IsReady, TRowset.IsValid, Bool.not_true,
            Bool.or_self, Bool.false_eq_true, if_false, Bool.not_false, Bool.and_self,
            if_true] at h
          obtain ⟨sent, forgot, hperm, hself, hsend, hforget, harith⟩ := ih _ b left tx1 h
          refine ⟨sent, it :: forgot, ?_, hself, hsend, ?_, fun hfit => ?_⟩
          · exact (List.perm_middle).trans (List.Perm.cons it hperm)
          · refine hforget.trans ?_
            refine ((Flat_PushBack _ _ _).append_right _).trans ?_
            simp
          · simp only [List.map_cons, List.sum_cons] at hfit
            obtain ⟨hmem, hwithin, _⟩ := harith (by simp only []; omega)
            refine ⟨hmem, hwithin, ?_⟩
            intro hgt
            exact absurd hgt (hover (by simpa using hfit))
        | Row d =>
          simp [hbasic, hdetails, TRowset.IsReady, TRowset.IsValid] at h
      | Row bs =>
        cases hdetails : db.ChangeRecordDetails it.Order with
        | NotReady =>
          simp only [hbasic, hdetails, TRowset.IsReady, Bool.not_false, Bool.or_true, if_true,
            Option.some.injEq, Prod.mk.injEq] at h
          obtain ⟨hb, hl, ht⟩ := h
          subst hb; subst hl; subst ht
          refine ⟨[], [], List.Perm.refl _, rfl, by simp, by simp,
            fun hfit => ⟨by simp, ?_, ?_⟩⟩
          · intro prev _ hw; simpa using hw
          · intro hgt; exact absurd hgt (hover hfit)
        | Absent =>
          simp [hbasic, hdetails, TRowset.IsReady, TRowset.IsValid] at h
        | Row d =>
          simp only [hbasic, hdetails, TRowset.IsReady, TRowset.IsValid, Bool.not_true,
            Bool.or_self, Bool.false_eq_true, if_false, Bool.and_self] at h
          obtain ⟨sent, forgot, hperm, hself, hsend, hforget, harith⟩ := ih _ b left tx1 h
          refine ⟨it :: sent, forgot, ?_, hself, ?_, hforget, fun hfit => ?_⟩
          · exact List.Perm.cons it hperm
          · refine hsend.trans ?_
            refine (((Flat_PushBack _ _ _).map _).append_right _).trans ?_
            simp [TTxRequestChangeRecords.BuildRecord]
          · simp only [List.map_cons, List.sum_cons] at hfit
            have hmod : (tx.MemUsage + it.BodySize) % SizeMax = tx.MemUsage + it.BodySize :=
              Nat.mod_eq_of_lt (by omega)
            obtain ⟨hmem, hwithin, _⟩ := harith (by simp only [hmod]; omega)
            simp only [hmod] at hmem hwithin
            refine ⟨?_, ?_, ?_⟩
            · rw [hmem]; simp only [List.map_cons, List.sum_cons]; omega
            · intro prev hprev _
              have hadm : WithinMemLimit (prev ++ [it]) := by
                apply WithinMemLimit_admit
                rw [← hprev]
                rw [hmod] at hbreak
                exact hbreak
              have := hwithin (prev ++ [it]) (by simp [hprev]) hadm
              simpa using this
            · intro hgt
              exact absurd hgt (hover (by simpa using hfit))


theorem sum_le_of_split (sent forgot left records : List TRecordInfo)
    (h : (sent ++ (forgot ++ left)).Perm records) :
    (sent.map TRecordInfo.BodySize).sum + (left.map TRecordInfo.BodySize).sum ≤
      (records.map TRecordInfo.BodySize).sum := by
  have := (h.map TRecordInfo.BodySize).sum_eq
  simp only [List.map_append, List.sum_append] at this
  omega

/-- The outer loop of `Select`, recipient by recipient; the statement is that
    of `SelectRecords_spec` for all requested records. -/
theorem TTxRequestChangeRecords.SelectLoop_spec (db : TNiceDb)
    (m : List (TActorId × List TRecordInfo)) :
    ∀ (tx : TTxRequestChangeRecords) (b : Bool) (m1 : List (TActorId × List TRecordInfo))
      (tx1 : TTxRequestChangeRecords),
      TTxRequestChangeRecords.SelectLoop db m tx = some (b, m1, tx1) →
      ∃ (sent forgot : List TRecordInfo),
        (sent ++ (forgot ++ Flat m1)).Perm (Flat m) ∧
        tx1.Self = tx.Self ∧
        ((Flat tx1.RecordsToSend).map TChangeRecord.Order).Perm
          ((Flat tx.RecordsToSend).map TChangeRecord.Order ++ sent.map TRecordInfo.Order) ∧
        (Flat tx1.RecordsToForget).Perm
          (Flat tx.RecordsToForget ++ forgot.map TRecordInfo.Order) ∧
        (tx.MemUsage + ((Flat m).map TRecordInfo.BodySize).sum < SizeMax →
          tx1.MemUsage = tx.MemUsage + (sent.map TRecordInfo.BodySize).sum ∧
          (∀ prev : List TRecordInfo, tx.MemUsage = (prev.map TRecordInfo.BodySize).sum →
            WithinMemLimit prev → WithinMemLimit (prev ++ sent)) ∧
          (TTxRequestChangeRecords.MemLimit < tx.MemUsage →
            b = true ∧ m1 = m ∧ tx1 = tx ∧ sent = [] ∧ forgot = [])) := by
  induction m with
  | nil =>
    intro tx b m1 tx1 h
    simp only [TTxRequestChangeRecords.SelectLoop, Option.some.injEq, Prod.mk.injEq] at h
    obtain ⟨hb, hl, ht⟩ := h
    subst hb; subst hl; subst ht
    refine ⟨[], [], List.Perm.refl _, rfl, by simp, by simp, fun _ => ⟨by simp, ?_, ?_⟩⟩
    · intro prev _ hw; simpa using hw
    · intro _; exact ⟨rfl, rfl, rfl, rfl, rfl⟩
  | cons hd rest ih =>
    obtain ⟨recipient, records⟩ := hd
    intro tx b m1 tx1 h
    unfold TTxRequestChangeRecords.SelectLoop at h
    by_cases hempty : records.isEmpty = true
    · rw [if_pos hempty] at h
      have hnil : records = [] := List.isEmpty_iff.1 hempty
      subst hnil
      obtain ⟨r, hr, hf⟩ := Option.map_eq_some'.1 h
      obtain ⟨b', m', tx'⟩ := r
      simp only [Prod.mk.injEq] at hf
      obtain ⟨hb, hm, ht⟩ := hf
      subst hb; subst hm; subst ht
      obtain ⟨sent, forgot, hperm, hself, hsend, hforget, harith⟩ := ih tx _ _ _ hr
      refine ⟨sent, forgot, ?_, hself, hsend, hforget, fun hfit => ?_⟩
      · simpa [Flat_cons] using hperm
      · obtain ⟨hmem, hwithin, hover⟩ := harith (by simpa [Flat_cons] using hfit)
        refine ⟨hmem, hwithin, fun hgt => ?_⟩
        obtain ⟨o1, o2, o3, o4, o5⟩ := hover hgt
        exact ⟨o1, by rw [o2], o3, o4, o5⟩
    · rw [if_neg hempty] at h
      cases hsel : TTxRequestChangeRecords.SelectRecords db recipient records tx with
      | none => simp [hsel] at h
      | some r =>
        obtain ⟨b', left, tx'⟩ := r
        obtain ⟨sent1, forgot1, hperm1, hself1, hsend1, hforget1, harith1⟩ :=
          TTxRequestChangeRecords.SelectRecords_spec db recipient records tx b' left tx' hsel
        have hfit1 : tx.MemUsage +
            ((Flat ((recipient, records) :: rest)).map TRecordInfo.BodySize).sum < SizeMax →
            tx.MemUsage + (records.map TRecordInfo.BodySize).sum < SizeMax := by
          intro hfit
          simp only [Flat_cons, List.map_append, List.sum_append] at hfit
          omega
        cases b' with
        | false =>
          simp only [hsel, Option.some.injEq, Prod.mk.injEq] at h
          obtain ⟨hb, hm, ht⟩ := h
          subst hb; subst hm; subst ht
          refine ⟨sent1, forgot1, ?_, hself1, hsend1, hforget1, fun hfit => ?_⟩
          · rw [Flat_cons, Flat_cons]
            have := hperm1.append_right (Flat rest)
            simpa [List.append_assoc] using this
          · obtain ⟨hmem, hwithin, hover⟩ := harith1 (hfit1 hfit)
            refine ⟨hmem, hwithin, fun hgt => ?_⟩
            obtain ⟨o1, _, _, _, _⟩ := hover hgt
            cases o1
        | true =>
          simp only [hsel] at h
          obtain ⟨r, hr, hf⟩ := Option.map_eq_some'.1 h
          obtain ⟨b2, m2, tx2⟩ := r
          simp only [Prod.mk.injEq] at hf
          obtain ⟨hb, hm, ht⟩ := hf
          subst hb; subst hm; subst ht
          obtain ⟨sent2, forgot2, hperm2, hself2, hsend2, hforget2, harith2⟩ :=
            ih tx' _ _ _ hr
          refine ⟨sent1 ++ sent2, forgot1 ++ forgot2, ?_, hself2.trans hself1, ?_, ?_,
            fun hfit => ?_⟩
          · rw [Flat_cons, Flat_cons]
            exact perm_split_append _ _ _ _ _ _ _ _ hperm1 hperm2
          · refine hsend2.trans ?_
            refine (hsend1.append_right _).trans ?_
            simp [List.append_assoc]
          · refine hforget2.trans ?_
            refine (hforget1.append_right _).trans ?_
            simp [List.append_assoc]
          · obtain ⟨hmem1, hwithin1, hover1⟩ := harith1 (hfit1 hfit)
            have hle := sum_le_of_split _ _ _ _ hperm1
            have hfit2 : tx'.MemUsage + ((Flat rest).map TRecordInfo.BodySize).sum < SizeMax := by
              simp only [Flat_cons, List.map_append, List.sum_append] at hfit
              omega
            obtain ⟨hmem2, hwithin2, hover2⟩ := harith2 hfit2
            refine ⟨?_, ?_, ?_⟩
            · rw [hmem2, hmem1]
              simp only [List.map_append, List.sum_append]
              omega
            · intro prev hprev hw
              have h1 := hwithin1 prev hprev hw
              have h2 := hwithin2 (prev ++ sent1)
                (by rw [hmem1, hprev]; simp only [List.map_append, List.sum_append]) h1
              simpa [List.append_assoc] using h2
            · intro hgt
              obtain ⟨_, o2, o3, o4, o5⟩ := hover1 hgt
              subst o3
              obtain ⟨p1, p2, p3, p4, p5⟩ := hover2 hgt
              subst o2; subst o4; subst o5; subst p2; subst p4; subst p5
              exact ⟨p1, rfl, p3, rfl, rfl⟩


/-- One call of `Execute` on a transaction in any state: what `SelectLoop_spec`
    says, on the shard the call leaves. -/
theorem TTxRequestChangeRecords.Execute_spec (db : TNiceDb) (tx : TTxRequestChangeRecords)
    (b : Bool) (tx1 : TTxRequestChangeRecords)
    (h : TTxRequestChangeRecords.Execute tx db = some (b, tx1)) :
    ∃ (sent forgot : List TRecordInfo),
      (sent ++ (forgot ++ Flat tx1.Self.ChangeRecordsRequested)).Perm
        (Flat tx.Self.ChangeRecordsRequested) ∧
      tx1.Self = { tx.Self with ChangeRecordsRequested := tx1.Self.ChangeRecordsRequested } ∧
      ((Flat tx1.RecordsToSend).map TChangeRecord.Order).Perm
        ((Flat tx.RecordsToSend).map TChangeRecord.Order ++ sent.map TRecordInfo.Order) ∧
      (Flat tx1.RecordsToForget).Perm
        (Flat tx.RecordsToForget ++ forgot.map TRecordInfo.Order) ∧
      (tx.MemUsage + ((Flat tx.Self.ChangeRecordsRequested).map TRecordInfo.BodySize).sum
          < SizeMax →
        tx1.MemUsage = tx.MemUsage + (sent.map TRecordInfo.BodySize).sum ∧
        (∀ prev : List TRecordInfo, tx.MemUsage = (prev.map TRecordInfo.BodySize).sum →
          WithinMemLimit prev → WithinMemLimit (prev ++ sent)) ∧
        (TTxRequestChangeRecords.MemLimit < tx.MemUsage →
          tx1 = tx ∧ sent = [] ∧ forgot = [])) := by
  unfold TTxRequestChangeRecords.Execute at h
  by_cases hpre : TTxRequestChangeRecords.Precharge tx db = true
  · simp only [hpre, Bool.not_true, Bool.false_eq_true, if_false] at h
    unfold TTxRequestChangeRecords.Select at h
    obtain ⟨r, hr, hf⟩ := Option.map_eq_some'.1 h
    obtain ⟨b', m1, tx'⟩ := r
    simp only [Prod.mk.injEq] at hf
    obtain ⟨hb, ht⟩ := hf
    subst hb; subst ht
    obtain ⟨sent, forgot, hperm, hself, hsend, hforget, harith⟩ :=
      TTxRequestChangeRecords.SelectLoop_spec db _ tx _ _ _ hr
    refine ⟨sent, forgot, hperm, ?_, hsend, hforget, fun hfit => ?_⟩
    · simp only [hself]
    · obtain ⟨hmem, hwithin, hover⟩ := harith hfit
      refine ⟨hmem, hwithin, fun hgt => ?_⟩
      obtain ⟨_, o2, o3, o4, o5⟩ := hover hgt
      subst o2; subst o3
      exact ⟨rfl, o4, o5⟩
  · simp only [hpre, Bool.not_false, if_true, Option.some.injEq, Prod.mk.injEq] at h
    obtain ⟨hb, ht⟩ := h
    subst hb; subst ht
    refine ⟨[], [], by simp, rfl, by simp, by simp, fun _ => ⟨by simp, ?_, ?_⟩⟩
    · intro prev _ hw; simpa using hw
    · intro _; exact ⟨rfl, rfl, rfl⟩

/-- The attempts at one transaction compose: the sent records of the attempts,
    one after the other, are the sent records of the transaction. -/
theorem TTxRequestChangeRecords.ExecuteAttempts_spec (dbs : List TNiceDb) :
    ∀ (tx : TTxRequestChangeRecords) (b : Bool) (tx1 : TTxRequestChangeRecords),
      TTxRequestChangeRecords.ExecuteAttempts dbs tx = some (b, tx1) →
      ∃ (sent forgot : List TRecordInfo),
        (sent ++ (forgot ++ Flat tx1.Self.ChangeRecordsRequested)).Perm
          (Flat tx.Self.ChangeRecordsRequested) ∧
        ((Flat tx1.RecordsToSend).map TChangeRecord.Order).Perm
          ((Flat tx.RecordsToSend).map TChangeRecord.Order ++ sent.map TRecordInfo.Order) ∧
        (Flat tx1.RecordsToForget).Perm
          (Flat tx.RecordsToForget ++ forgot.map TRecordInfo.Order) ∧
        (tx.MemUsage + ((Flat tx.Self.ChangeRecordsRequested).map TRecordInfo.BodySize).sum
            < SizeMax →
          tx1.MemUsage = tx.MemUsage + (sent.map TRecordInfo.BodySize).sum ∧
          (∀ prev : List TRecordInfo, tx.MemUsage = (prev.map TRecordInfo.BodySize).sum →
            WithinMemLimit prev → WithinMemLimit (prev ++ sent))) := by
  induction dbs with
  | nil =>
    intro tx b tx1 h
    simp only [TTxRequestChangeRecords.ExecuteAttempts, Option.some.injEq, Prod.mk.injEq] at h
    obtain ⟨hb, ht⟩ := h
    subst hb; subst ht
    refine ⟨[], [], by simp, by simp, by simp, fun _ => ⟨by simp, ?_⟩⟩
    intro prev _ hw; simpa using hw
  | cons db rest ih =>
    intro tx b tx1 h
    unfold TTxRequestChangeRecords.ExecuteAttempts at h
    cases hexec : TTxRequestChangeRecords.Execute tx db with
    | none => simp [hexec] at h
    | some r =>
      obtain ⟨b', tx'⟩ := r
      obtain ⟨sent1, forgot1, hperm1, _, hsend1, hforget1, harith1⟩ :=
        TTxRequestChangeRecords.Execute_spec db tx b' tx' hexec
      cases b' with
      | true =>
        simp only [hexec, Option.some.injEq, Prod.mk.injEq] at h
        obtain ⟨hb, ht⟩ := h
        subst hb; subst ht
        exact ⟨sent1, forgot1, hperm1, hsend1, hforget1,
          fun hfit => ⟨(harith1 hfit).1, (harith1 hfit).2.1⟩⟩
      | false =>
        simp only [hexec] at h
        obtain ⟨sent2, forgot2, hperm2, hsend2, hforget2, harith2⟩ := ih tx' b tx1 h
        refine ⟨sent1 ++ sent2, forgot1 ++ forgot2, ?_, ?_, ?_, fun hfit => ?_⟩
        · exact perm_split_trans _ _ _ _ _ _ _ hperm1 hperm2
        · refine hsend2.trans ?_
          refine (hsend1.append_right _).trans ?_
          simp [List.append_assoc]
        · refine hforget2.trans ?_
          refine (hforget1.append_right _).trans ?_
          simp [List.append_assoc]
        · obtain ⟨hmem1, hwithin1, _⟩ := harith1 hfit
          have hle := sum_le_of_split _ _ _ _ hperm1
          obtain ⟨hmem2, hwithin2⟩ := harith2 (by omega)
          refine ⟨?_, ?_⟩
          · rw [hmem2, hmem1]
            simp only [List.map_append, List.sum_append]
            omega
          · intro prev hprev hw
            have h1 := hwithin1 prev hprev hw
            have h2 := hwithin2 (prev ++ sent1)
              (by rw [hmem1, hprev]; simp only [List.map_append, List.sum_append]) h1
            simpa [List.append_assoc] using h2

theorem le_sum_of_mem (l : List TRecordInfo) (r : TRecordInfo) (h : r ∈ l) :
    r.BodySize ≤ (l.map TRecordInfo.BodySize).sum := by
  induction l with
  | nil => cases h
  | cons a rest ih =>
    simp only [List.map_cons, List.sum_cons]
    rcases List.mem_cons.1 h with h | h
    · subst h; omega
    · have := ih h; omega

/-- Above the limit the inner loop is left at its first test. -/
theorem TTxRequestChangeRecords.SelectRecords_over (db : TNiceDb) (recipient : TActorId)
    (records : List TRecordInfo) (tx : TTxRequestChangeRecords)
    (hgt : TTxRequestChangeRecords.MemLimit < tx.MemUsage)
    (hfit : ∀ r ∈ records, tx.MemUsage + r.BodySize < SizeMax) :
    TTxRequestChangeRecords.SelectRecords db recipient records tx = some (true, records, tx) := by
  cases records with
  | nil => rfl
  | cons it rest =>
    unfold TTxRequestChangeRecords.SelectRecords
    have hmod : (tx.MemUsage + it.BodySize) % SizeMax = tx.MemUsage + it.BodySize :=
      Nat.mod_eq_of_lt (hfit it (List.mem_cons_self _ _))
    rw [if_pos]
    rw [hmod]
    constructor <;> omega

/-- Above the limit the outer loop passes over every recipient. -/
theorem TTxRequestChangeRecords.SelectLoop_over (db : TNiceDb)
    (m : List (TActorId × List TRecordInfo)) (tx : TTxRequestChangeRecords)
    (hgt : TTxRequestChangeRecords.MemLimit < tx.MemUsage)
    (hfit : ∀ r ∈ Flat m, tx.MemUsage + r.BodySize < SizeMax) :
    TTxRequestChangeRecords.SelectLoop db m tx = some (true, m, tx) := by
  induction m with
  | nil => rfl
  | cons hd rest ih =>
    obtain ⟨recipient, records⟩ := hd
    have hrest : ∀ r ∈ Flat rest, tx.MemUsage + r.BodySize < SizeMax := by
      intro r hr
      exact hfit r (by rw [Flat_cons]; exact List.mem_append_right _ hr)
    have hrec : ∀ r ∈ records, tx.MemUsage + r.BodySize < SizeMax := by
      intro r hr
      exact hfit r (by rw [Flat_cons]; exact List.mem_append_left _ hr)
    unfold TTxRequestChangeRecords.SelectLoop
    by_cases hempty : records.isEmpty = true
    · rw [if_pos hempty, ih hrest]
      rfl
    · rw [if_neg hempty,
        TTxRequestChangeRecords.SelectRecords_over db recipient records tx hgt hrec]
      simp only []
      rw [ih hrest]
      rfl

/-- Above the limit `Execute` returns and leaves the transaction as it is. -/
theorem TTxRequestChangeRecords.Execute_over (db : TNiceDb) (tx : TTxRequestChangeRecords)
    (hgt : TTxRequestChangeRecords.MemLimit < tx.MemUsage)
    (hfit : ∀ r ∈ Flat tx.Self.ChangeRecordsRequested, tx.MemUsage + r.BodySize < SizeMax) :
    ∃ b : Bool, TTxRequestChangeRecords.Execute tx db = some (b, tx) := by
  unfold TTxRequestChangeRecords.Execute
  by_cases hpre : TTxRequestChangeRecords.Precharge tx db = true
  · refine ⟨true, ?_⟩
    simp only [hpre, Bool.not_true, Bool.false_eq_true, if_false]
    unfold TTxRequestChangeRecords.Select
    rw [TTxRequestChangeRecords.SelectLoop_over db _ tx hgt hfit]
    rfl
  · refine ⟨false, ?_⟩
    simp only [hpre, Bool.not_false, if_true]

/-- C32 (memory bound of a batch of change records). Take one
    `TTxRequestChangeRecords` transaction: a fresh transaction and the attempts
    of the executor at it, each on the database as it finds it. Provided the
    body sizes of the requested records do not add up to a `size_t`
    wrap-around, there is a list `sent` of requested records, in the order of
    their selection, whose orders are those of the records in `RecordsToSend`
    and whose body sizes add up to `MemUsage`; `MemUsage` is at most
    `MemLimit` = 512 KB, unless the last of them was admitted while `MemUsage`
    was 0 (only records of body size 0 were sent before it) and `MemUsage` is
    its body size; and once `MemUsage` is above the limit, a further attempt
    returns and changes nothing: no record is sent, forgotten or taken from
    the requested ones. -/
theorem change_record_memory_bound (self : TDataShard) (dbs : List TNiceDb) (b : Bool)
    (tx1 : TTxRequestChangeRecords)
    (hfit : ((Flat self.ChangeRecordsRequested).map TRecordInfo.BodySize).sum < SizeMax)
    (h : TTxRequestChangeRecords.ExecuteAttempts dbs (TTxRequestChangeRecords.New self) =
      some (b, tx1)) :
    TTxRequestChangeRecords.MemLimit = 512 * 1024 ∧
    ∃ sent : List TRecordInfo,
      sent.Subperm (Flat self.ChangeRecordsRequested) ∧
      ((Flat tx1.RecordsToSend).map TChangeRecord.Order).Perm (sent.map TRecordInfo.Order) ∧
      tx1.MemUsage = (sent.map TRecordInfo.BodySize).sum ∧
      (tx1.MemUsage ≤ TTxRequestChangeRecords.MemLimit ∨
        ∃ (zeros : List TRecordInfo) (r : TRecordInfo),
          sent = zeros ++ [r] ∧ (∀ z ∈ zeros, z.BodySize = 0) ∧ tx1.MemUsage = r.BodySize) ∧
      (TTxRequestChangeRecords.MemLimit < tx1.MemUsage →
        ∀ db : TNiceDb, ∃ b2 : Bool,
          TTxRequestChangeRecords.Execute tx1 db = some (b2, tx1)) := by
  obtain ⟨sent, forgot, hperm, hsend, _, harith⟩ :=
    TTxRequestChangeRecords.ExecuteAttempts_spec dbs _ b tx1 h
  have hfit0 : (TTxRequestChangeRecords.New self).MemUsage +
      ((Flat (TTxRequestChangeRecords.New self).Self.ChangeRecordsRequested).map
        TRecordInfo.BodySize).sum < SizeMax := by
    simpa [TTxRequestChangeRecords.New] using hfit
  obtain ⟨hmem, hwithin⟩ := harith hfit0
  simp only [TTxRequestChangeRecords.New, Nat.zero_add] at hmem hperm hsend
  have hw := hwithin [] rfl (Or.inl (Nat.zero_le _))
  simp only [List.nil_append] at hw
  refine ⟨rfl, sent, ?_, by simpa [Flat] using hsend, hmem, ?_, ?_⟩
  · exact (List.sublist_append_left sent _).subperm.trans hperm.subperm
  · rcases hw with hw | ⟨zeros, r, hz, hall⟩
    · left; rw [hmem]; exact hw
    · right
      refine ⟨zeros, r, hz, hall, ?_⟩
      rw [hmem, hz]
      simp only [List.map_append, List.sum_append, List.map_cons, List.map_nil, List.sum_cons,
        List.sum_nil]
      have hzero : (zeros.map TRecordInfo.BodySize).sum = 0 := by
        apply List.sum_eq_zero
        intro x hx
        obtain ⟨z, hzm, rfl⟩ := List.mem_map.1 hx
        exact hall z hzm
      omega
  · intro hgt db
    have hle := sum_le_of_split _ _ _ _ hperm
    apply TTxRequestChangeRecords.Execute_over db tx1 hgt
    intro r hr
    have := le_sum_of_mem _ r hr
    omega

theorem change_record_memory_bound_witness :
    TTxRequestChangeRecords.ExecuteAttempts [Example.Db]
        (TTxRequestChangeRecords.New Example.Shard) = some (true, Example.FirstRun) ∧
      Example.FirstRun.MemUsage = 600000 ∧
      TTxRequestChangeRecords.MemLimit = 512 * 1024 ∧
      ∃ sent : List TRecordInfo,
        sent.Subperm (Flat Example.Shard.ChangeRecordsRequested) ∧
        ((Flat Example.FirstRun.RecordsToSend).map TChangeRecord.Order).Perm
          (sent.map TRecordInfo.Order) ∧
        Example.FirstRun.MemUsage = (sent.map TRecordInfo.BodySize).sum ∧
        (Example.FirstRun.MemUsage ≤ TTxRequestChangeRecords.MemLimit ∨
          ∃ (zeros : List TRecordInfo) (r : TRecordInfo),
            sent = zeros ++ [r] ∧ (∀ z ∈ zeros, z.BodySize = 0) ∧
              Example.FirstRun.MemUsage = r.BodySize) ∧
        (TTxRequestChangeRecords.MemLimit < Example.FirstRun.MemUsage →
          ∀ db : TNiceDb, ∃ b2 : Bool,
            TTxRequestChangeRecords.Execute Example.FirstRun db =
              some (b2, Example.FirstRun)) :=
  ⟨rfl, rfl,
    change_record_memory_bound Example.Shard [Example.Db] true Example.FirstRun
      (by decide) rfl⟩


/-! ### Progress of the sending chain -/

theorem TTxRequestChangeRecords.PrechargeRecords_ready (db : TNiceDb) (hready : ReadsReady db)
    (l : List TRecordInfo) :
    ∀ s : Nat, (TTxRequestChangeRecords.PrechargeRecords db l (s, true)).2 = true := by
  induction l with
  | nil => intro s; rfl
  | cons record rest ih =>
    intro s
    unfold TTxRequestChangeRecords.PrechargeRecords
    split
    · rfl
    · rw [(hready record.Order).1, (hready record.Order).2]
      exact ih _

theorem TTxRequestChangeRecords.Precharge_ready (db : TNiceDb) (hready : ReadsReady db)
    (tx : TTxRequestChangeRecords) : TTxRequestChangeRecords.Precharge tx db = true := by
  unfold TTxRequestChangeRecords.Precharge
  have key : ∀ (m : List (TActorId × List TRecordInfo)) (s : Nat),
      (m.foldl (fun s kv => TTxRequestChangeRecords.PrechargeRecords db kv.2 s) (s, true)).2
        = true := by
    intro m
    induction m with
    | nil => intro s; rfl
    | cons hd rest ih =>
      intro s
      rw [List.foldl_cons]
      have h2 := TTxRequestChangeRecords.PrechargeRecords_ready db hready hd.2 s
      generalize TTxRequestChangeRecords.PrechargeRecords db hd.2 (s, true) = p at h2
      obtain ⟨a, c⟩ := p
      simp only at h2
      subst h2
      exact ih a
  exact key _ 0

/-- With every read ready and the rows consistent the inner loop neither fails
    nor returns false. -/
theorem TTxRequestChangeRecords.SelectRecords_total (db : TNiceDb) (hready : ReadsReady db)
    (hcons : RowsConsistent db) (recipient : TActorId) (records : List TRecordInfo) :
    ∀ tx : TTxRequestChangeRecords,
      ∃ (left : List TRecordInfo) (tx1 : TTxRequestChangeRecords),
        TTxRequestChangeRecords.SelectRecords db recipient records tx =
          some (true, left, tx1) := by
  induction records with
  | nil => intro tx; exact ⟨[], tx, rfl⟩
  | cons it rest ih =>
    intro tx
    unfold TTxRequestChangeRecords.SelectRecords
    have hr := hready it.Order
    have hc := hcons it.Order
    by_cases hbreak : tx.MemUsage ≠ 0 ∧
        (tx.MemUsage + it.BodySize) % SizeMax > TTxRequestChangeRecords.MemLimit
    · rw [if_pos hbreak]
      exact ⟨_, _, rfl⟩
    · rw [if_neg hbreak]
      cases hbasic : db.ChangeRecords it.Order with
      | NotReady => simp [hbasic, TRowset.IsReady] at hr
      | Absent =>
        cases hdetails : db.ChangeRecordDetails it.Order with
        | NotReady => simp [hdetails, TRowset.IsReady] at hr
        | Absent =>
          simp only [TRowset.IsReady, TRowset.IsValid, Bool.not_true,
            Bool.or_self, Bool.false_eq_true, if_false, Bool.not_false, Bool.and_self,
            if_true]
          exact ih _
        | Row d => simp [hbasic, hdetails, TRowset.IsValid] at hc
      | Row bs =>
        cases hdetails : db.ChangeRecordDetails it.Order with
        | NotReady => simp [hdetails, TRowset.IsReady] at hr
        | Absent => simp [hbasic, hdetails, TRowset.IsValid] at hc
        | Row d =>
          simp only [TRowset.IsReady, TRowset.IsValid, Bool.not_true,
            Bool.or_self, Bool.false_eq_true, if_false, Bool.and_self]
          exact ih _

theorem TTxRequestChangeRecords.SelectRecords_length (db : TNiceDb) (recipient : TActorId)
    (records : List TRecordInfo) (tx : TTxRequestChangeRecords) (b : Bool)
    (left : List TRecordInfo) (tx1 : TTxRequestChangeRecords)
    (h : TTxRequestChangeRecords.SelectRecords db recipient records tx = some (b, left, tx1)) :
    left.length ≤ records.length := by
  obtain ⟨sent, forgot, hperm, _⟩ :=
    TTxRequestChangeRecords.SelectRecords_spec db recipient records tx b left tx1 h
  have := hperm.length_eq
  simp only [List.length_append] at this
  omega

/-- A transaction that has sent nothing of positive size takes the first
    record of a recipient: the record is sent or forgotten. -/
theorem TTxRequestChangeRecords.SelectRecords_progress (db : TNiceDb) (hready : ReadsReady db)
    (hcons : RowsConsistent db) (recipient : TActorId) (it : TRecordInfo)
    (rest : List TRecordInfo) (tx : TTxRequestChangeRecords) (hzero : tx.MemUsage = 0) :
    ∃ (left : List TRecordInfo) (tx1 : TTxRequestChangeRecords),
      TTxRequestChangeRecords.SelectRecords db recipient (it :: rest) tx =
        some (true, left, tx1) ∧ left.length ≤ rest.length := by
  unfold TTxRequestChangeRecords.SelectRecords
  have hr := hready it.Order
  have hc := hcons it.Order
  have hbreak : ¬ (tx.MemUsage ≠ 0 ∧
      (tx.MemUsage + it.BodySize) % SizeMax > TTxRequestChangeRecords.MemLimit) :=
    fun hb => hb.1 hzero
  rw [if_neg hbreak]
  cases hbasic : db.ChangeRecords it.Order with
  | NotReady => simp [hbasic, TRowset.IsReady] at hr
  | Absent =>
    cases hdetails : db.ChangeRecordDetails it.Order with
    | NotReady => simp [hdetails, TRowset.IsReady] at hr
    | Absent =>
      simp only [TRowset.IsReady, TRowset.IsValid, Bool.not_true,
        Bool.or_self, Bool.false_eq_true, if_false, Bool.not_false, Bool.and_self,
        if_true]
      obtain ⟨left, tx1, h⟩ := TTxRequestChangeRecords.SelectRecords_total db hready hcons
        recipient rest
        { tx with RecordsToForget := PushBack tx.RecordsToForget recipient it.Order }
      exact ⟨left, tx1, h, TTxRequestChangeRecords.SelectRecords_length _ _ _ _ _ _ _ h⟩
    | Row d => simp [hbasic, hdetails, TRowset.IsValid] at hc
  | Row bs =>
    cases hdetails : db.ChangeRecordDetails it.Order with
    | NotReady => simp [hdetails, TRowset.IsReady] at hr
    | Absent => simp [hbasic, hdetails, TRowset.IsValid] at hc
    | Row d =>
      simp only [TRowset.IsReady, TRowset.IsValid, Bool.not_true,
        Bool.or_self, Bool.false_eq_true, if_false, Bool.and_self]
      obtain ⟨left, tx1, h⟩ := TTxRequestChangeRecords.SelectRecords_total db hready hcons
        recipient rest
        { tx with
          RecordsToSend :=
            PushBack tx.RecordsToSend recipient
              (TTxRequestChangeRecords.BuildRecord tx.Self it bs d)
          MemUsage := (tx.MemUsage + it.BodySize) % SizeMax }
      exact ⟨left, tx1, h, TTxRequestChangeRecords.SelectRecords_length _ _ _ _ _ _ _ h⟩

theorem TTxRequestChangeRecords.SelectLoop_total (db : TNiceDb) (hready : ReadsReady db)
    (hcons : RowsConsistent db) (m : List (TActorId × List TRecordInfo)) :
    ∀ tx : TTxRequestChangeRecords,
      ∃ (m1 : List (TActorId × List TRecordInfo)) (tx1 : TTxRequestChangeRecords),
        TTxRequestChangeRecords.SelectLoop db m tx = some (true, m1, tx1) := by
  induction m with
  | nil => intro tx; exact ⟨[], tx, rfl⟩
  | cons hd rest ih =>
    obtain ⟨recipient, records⟩ := hd
    intro tx
    unfold TTxRequestChangeRecords.SelectLoop
    by_cases hempty : records.isEmpty = true
    · rw [if_pos hempty]
      obtain ⟨m1, tx1, h⟩ := ih tx
      rw [h]
      exact ⟨_, _, rfl⟩
    · rw [if_neg hempty]
      obtain ⟨left, tx', hsel⟩ := TTxRequestChangeRecords.SelectRecords_total db hready hcons
        recipient records tx
      rw [hsel]
      simp only []
      obtain ⟨m1, tx1, h⟩ := ih tx'
      rw [h]
      exact ⟨_, _, rfl⟩

theorem TTxRequestChangeRecords.SelectLoop_length (db : TNiceDb)
    (m : List (TActorId × List TRecordInfo)) (tx : TTxRequestChangeRecords) (b : Bool)
    (m1 : List (TActorId × List TRecordInfo)) (tx1 : TTxRequestChangeRecords)
    (h : TTxRequestChangeRecords.SelectLoop db m tx = some (b, m1, tx1)) :
    (Flat m1).length ≤ (Flat m).length := by
  obtain ⟨sent, forgot, hperm, _⟩ :=
    TTxRequestChangeRecords.SelectLoop_spec db m tx b m1 tx1 h
  have := hperm.length_eq
  simp only [List.length_append] at this
  omega

/-- A fresh pass over the recipients takes at least the first record of the
    first recipient that has one. -/
theorem TTxRequestChangeRecords.SelectLoop_progress (db : TNiceDb) (hready : ReadsReady db)
    (hcons : RowsConsistent db) (m : List (TActorId × List TRecordInfo)) :
    ∀ tx : TTxRequestChangeRecords, tx.MemUsage = 0 → 0 < (Flat m).length →
      ∃ (m1 : List (TActorId × List TRecordInfo)) (tx1 : TTxRequestChangeRecords),
        TTxRequestChangeRecords.SelectLoop db m tx = some (true, m1, tx1) ∧
          (Flat m1).length < (Flat m).length := by
  induction m with
  | nil => intro tx _ hpos; simp [Flat] at hpos
  | cons hd rest ih =>
    obtain ⟨recipient, records⟩ := hd
    intro tx hzero hpos
    unfold TTxRequestChangeRecords.SelectLoop
    cases records with
    | nil =>
      rw [if_pos (show ([] : List TRecordInfo).isEmpty = true from rfl)]
      obtain ⟨m1, tx1, h, hlt⟩ := ih tx hzero (by simpa [Flat_cons] using hpos)
      rw [h]
      refine ⟨_, _, rfl, ?_⟩
      simpa [Flat_cons] using hlt
    | cons it rest' =>
      rw [if_neg (by simp)]
      obtain ⟨left, tx', hsel, hle⟩ := TTxRequestChangeRecords.SelectRecords_progress db hready
        hcons recipient it rest' tx hzero
      rw [hsel]
      simp only []
      obtain ⟨m1, tx1, h⟩ := TTxRequestChangeRecords.SelectLoop_total db hready hcons rest tx'
      have hlen := TTxRequestChangeRecords.SelectLoop_length db rest tx' true m1 tx1 h
      rw [h]
      refine ⟨_, _, rfl, ?_⟩
      simp only [Option.map_some', Flat_cons, List.length_append, List.length_cons]
      omega

/-- One `Execute` of a fresh transaction, every read ready and the rows
    consistent: it returns true, at least one requested record is gone, and
    each record gone is in `RecordsToSend` or in `RecordsToForget`. -/
theorem TTxRequestChangeRecords.Execute_progress (db : TNiceDb) (hready : ReadsReady db)
    (hcons : RowsConsistent db) (self : TDataShard)
    (hne : 0 < TTxRequestChangeRecords.Left self) :
    ∃ tx : TTxRequestChangeRecords,
      TTxRequestChangeRecords.Execute (TTxRequestChangeRecords.New self) db = some (true, tx) ∧
      TTxRequestChangeRecords.Left tx.Self < TTxRequestChangeRecords.Left self ∧
      TTxRequestChangeRecords.Left tx.Self + (Flat tx.RecordsToSend).length +
        (Flat tx.RecordsToForget).length = TTxRequestChangeRecords.Left self ∧
      tx.Self = { self with ChangeRecordsRequested := tx.Self.ChangeRecordsRequested } := by
  rw [TTxRequestChangeRecords.Left_eq] at hne
  obtain ⟨m1, tx1, hloop, hlt⟩ := TTxRequestChangeRecords.SelectLoop_progress db hready hcons
    self.ChangeRecordsRequested (TTxRequestChangeRecords.New self) rfl hne
  have hexec : TTxRequestChangeRecords.Execute (TTxRequestChangeRecords.New self) db =
      some (true, { tx1 with Self := { tx1.Self with ChangeRecordsRequested := m1 } }) := by
    unfold TTxRequestChangeRecords.Execute
    rw [TTxRequestChangeRecords.Precharge_ready db hready]
    simp only [Bool.not_true, Bool.false_eq_true, if_false]
    unfold TTxRequestChangeRecords.Select
    have hself : (TTxRequestChangeRecords.New self).Self.ChangeRecordsRequested =
        self.ChangeRecordsRequested := rfl
    rw [hself, hloop]
    rfl
  obtain ⟨sent, forgot, hperm, hself, hsend, hforget, _⟩ :=
    TTxRequestChangeRecords.Execute_spec db _ _ _ hexec
  refine ⟨_, hexec, ?_, ?_, hself⟩
  · rw [TTxRequestChangeRecords.Left_eq, TTxRequestChangeRecords.Left_eq]
    exact hlt
  · rw [TTxRequestChangeRecords.Left_eq, TTxRequestChangeRecords.Left_eq]
    have h1 := hperm.length_eq
    have h2 := hsend.length_eq
    have h3 := hforget.length_eq
    simp only [TTxRequestChangeRecords.New, Flat_nil, List.map_nil, List.nil_append,
      List.length_append, List.length_map] at h1 h2 h3
    simp only [] at h1 h2 h3 ⊢
    omega

/-- The chain ends: with fuel for one transaction per requested record it
    returns a shard with nothing requested and the flag cleared. -/
theorem TTxRequestChangeRecords.RunChain_terminates (db : TNiceDb) (hready : ReadsReady db)
    (hcons : RowsConsistent db) (fuel : Nat) :
    ∀ self : TDataShard, 0 < TTxRequestChangeRecords.Left self →
      TTxRequestChangeRecords.Left self ≤ fuel →
      ∃ (k : Nat) (final : TDataShard),
        TTxRequestChangeRecords.RunChain db fuel self = some (k, final) ∧
        1 ≤ k ∧ k ≤ TTxRequestChangeRecords.Left self ∧
        TTxRequestChangeRecords.Left final = 0 ∧
        final.RequestChangeRecordsInFly = false := by
  induction fuel with
  | zero => intro self hpos hle; omega
  | succ n ih =>
    intro self hpos hle
    obtain ⟨tx, hexec, hlt, _, _⟩ :=
      TTxRequestChangeRecords.Execute_progress db hready hcons self hpos
    unfold TTxRequestChangeRecords.RunChain
    rw [hexec]
    simp only []
    by_cases hleft : TTxRequestChangeRecords.Left tx.Self = 0
    · have hc : TTxRequestChangeRecords.Complete tx =
          ({ tx.Self with RequestChangeRecordsInFly := false },
            { Records := tx.RecordsToSend, ForgetRecords := tx.RecordsToForget,
              Resubmit := false }) := by
        unfold TTxRequestChangeRecords.Complete
        simp [hleft]
      rw [hc]
      simp only [Bool.false_eq_true, if_false]
      refine ⟨1, _, rfl, le_refl _, hpos, ?_, rfl⟩
      simpa [TTxRequestChangeRecords.Left] using hleft
    · have hc : TTxRequestChangeRecords.Complete tx =
          (tx.Self, { Records := tx.RecordsToSend, ForgetRecords := tx.RecordsToForget,
                      Resubmit := true }) := by
        unfold TTxRequestChangeRecords.Complete
        simp [hleft]
      rw [hc]
      simp only [if_true]
      obtain ⟨k, final, hrun, hk1, hk2, hz, hfly⟩ := ih tx.Self (by omega) (by omega)
      rw [hrun]
      exact ⟨k + 1, final, rfl, by omega, by omega, hz, hfly⟩

/-- C33 (progress of change-record sending). If `ChangeRecordsRequested` holds
    at least one record, every database read is ready and the basic and
    details rows are consistent, then one `Execute` of a fresh
    `TTxRequestChangeRecords` returns true and takes at least one record out
    of `ChangeRecordsRequested`, every record taken out being in the send or
    in the forget list; and the chain of transactions `Complete` submits ends:
    with fuel for one transaction per requested record it runs at least one
    and at most that many transactions and stops with `left = 0` and
    `RequestChangeRecordsInFly` cleared. -/
theorem change_record_sending_progress (db : TNiceDb) (self : TDataShard)
    (hready : ReadsReady db) (hcons : RowsConsistent db)
    (hne : 0 < TTxRequestChangeRecords.Left self) :
    (∃ tx : TTxRequestChangeRecords,
      TTxRequestChangeRecords.Execute (TTxRequestChangeRecords.New self) db = some (true, tx) ∧
      TTxRequestChangeRecords.Left tx.Self < TTxRequestChangeRecords.Left self ∧
      TTxRequestChangeRecords.Left tx.Self + (Flat tx.RecordsToSend).length +
        (Flat tx.RecordsToForget).length = TTxRequestChangeRecords.Left self) ∧
    (∀ fuel : Nat, TTxRequestChangeRecords.Left self ≤ fuel →
      ∃ (k : Nat) (final : TDataShard),
        TTxRequestChangeRecords.RunChain db fuel self = some (k, final) ∧
        1 ≤ k ∧ k ≤ TTxRequestChangeRecords.Left self ∧
        TTxRequestChangeRecords.Left final = 0 ∧
        final.RequestChangeRecordsInFly = false) := by
  obtain ⟨tx, h1, h2, h3, _⟩ :=
    TTxRequestChangeRecords.Execute_progress db hready hcons self hne
  exact ⟨⟨tx, h1, h2, h3⟩, fun fuel hle =>
    TTxRequestChangeRecords.RunChain_terminates db hready hcons fuel self hne hle⟩

theorem Example.Db_ready : ReadsReady Example.Db := by
  intro order
  unfold Example.Db
  simp only []
  split <;> exact ⟨rfl, rfl⟩

theorem Example.Db_consistent : RowsConsistent Example.Db := by
  intro order
  unfold Example.Db
  simp only []
  split <;> rfl

theorem change_record_sending_progress_witness :
    TTxRequestChangeRecords.Left Example.Shard = 4 ∧
    (∃ tx : TTxRequestChangeRecords,
      TTxRequestChangeRecords.Execute (TTxRequestChangeRecords.New Example.Shard) Example.Db =
        some (true, tx) ∧
      TTxRequestChangeRecords.Left tx.Self < TTxRequestChangeRecords.Left Example.Shard ∧
      TTxRequestChangeRecords.Left tx.Self + (Flat tx.RecordsToSend).length +
        (Flat tx.RecordsToForget).length = TTxRequestChangeRecords.Left Example.Shard) ∧
    (∀ fuel : Nat, TTxRequestChangeRecords.Left Example.Shard ≤ fuel →
      ∃ (k : Nat) (final : TDataShard),
        TTxRequestChangeRecords.RunChain Example.Db fuel Example.Shard = some (k, final) ∧
        1 ≤ k ∧ k ≤ TTxRequestChangeRecords.Left Example.Shard ∧
        TTxRequestChangeRecords.Left final = 0 ∧
        final.RequestChangeRecordsInFly = false) :=
  ⟨rfl, change_record_sending_progress Example.Db Example.Shard Example.Db_ready
    Example.Db_consistent (by decide)⟩

end NDataShard
end NKikimr
